import Mathlib

/-! # HPDDM: coarse operator transfers and iterative-method kernels

A shallow embedding of `include/coarse_operator.hpp` and `include/iterative.hpp`.

Conventions of the embedding.

* A raw pointer `K*` / `int*` is a total map from offsets to values (`Nat → α`); pointer
  arithmetic `p + off` becomes an explicit offset argument.
* `int`, `unsigned short` values that only serve as sizes and offsets are natural numbers;
  where a 16-bit conversion can change a value (`short` marks in `checkConvergence`) the
  wrap-around is written out.
* Scalars live in an arbitrary field (exact arithmetic); the definitions evaluate over `ℚ`.
* A floating-point quotient by zero is `inf` or `NaN`, not a number of the field: where the
  code compares such a quotient (the relative tolerance tests against `norm`), the outcome
  of the comparison for a zero divisor is written out.
* The square root of the scalar type is an argument of the Cholesky kernels (`potrf`, `QR`);
  statements that need an exact square root are instantiated with `Real.sqrt`.
* A communicator is the list of the memories of its processes, which run in lock-step; an
  all-reduce is a sum over the list.
-/

set_option autoImplicit false

namespace HPDDM

/-! ## Definitions -/

section Buffers

variable {α : Type}

/-- Semantics of `std::copy_n(src + s, len, dst + d)` for two distinct buffers: the `len`
cells of `dst` starting at `d` receive the `len` cells of `src` starting at `s`. -/
def copy_n (src : Nat → α) (s len : Nat) (dst : Nat → α) (d : Nat) : Nat → α :=
  fun p => if d ≤ p ∧ p < d + len then src (s + (p - d)) else dst p

/-- The rescaling `std::for_each(counts, counts + 2 * n, [&](int& i) { i *= m; })` that
`transfer<false>` applies to the counts/displacements array before gathering. -/
def scaleCounts (counts : Nat → Nat) (n m : Nat) : Nat → Nat :=
  fun p => if p < 2 * n then counts p * m else counts p

/-- The rescaling `std::for_each(counts, counts + 2 * m, [&](int& i) { i /= n; })` that
`transfer<true>` applies after scattering. -/
def unscaleCounts (counts : Nat → Nat) (n m : Nat) : Nat → Nat :=
  fun p => if p < 2 * m then counts p / n else counts p

/-- Body of `CoarseOperator::permute<false>` between the allocation of `ba` and the final
copy: the double loop `for i < size, for j < m` of block copies from `ab` into `ba`. -/
def permuteLoopF (counts : Nat → Nat) (size m : Nat) (ab ba0 : Nat → α) : Nat → α :=
  (List.range size).foldl (fun ba i =>
    (List.range m).foldl (fun ba j =>
      copy_n ab (counts (size + i) + j * (counts i / m)) (counts i / m) ba
        (counts (size + i) / m + j * ((counts (size - 1) + counts (2 * size - 1)) / m)))
      ba) ba0

/-- Body of `CoarseOperator::permute<true>`: the double loop `for j < n, for i < size`. -/
def permuteLoopT (counts : Nat → Nat) (size n : Nat) (ab ba0 : Nat → α) : Nat → α :=
  (List.range n).foldl (fun ba j =>
    (List.range size).foldl (fun ba i =>
      copy_n ab (counts (size + i) / n + j * ((counts (size - 1) + counts (2 * size - 1)) / n))
        (counts i / n) ba (counts (size + i) + j * (counts i / n)))
      ba) ba0

/-- `CoarseOperator::permute<T>(counts, n, m, ab)`.  The result is the content of `ab` on
return.  `ba0` is the (uninitialised) content of the freshly allocated auxiliary buffer
`ba`.  `counts[0 .. size)` are the per-rank counts and `counts[size .. 2 size)` the
displacements, with `size = T ? m : n`. -/
def permute (T : Bool) (counts : Nat → Nat) (n m : Nat) (ab ba0 : Nat → α) : Nat → α :=
  if n ≠ 1 ∧ m ≠ 1 then
    let size := if T then m else n
    let ba := if !T then permuteLoopF counts size m ab ba0 else permuteLoopT counts size n ab ba0
    copy_n ba 0 (counts (size - 1) + counts (2 * size - 1)) ab 0
  else ab

/-- Displacement of rank `i` for the per-rank counts `c`: `c_0 + ... + c_{i-1}`. -/
def displ (c : List Nat) (i : Nat) : Nat := (c.take i).sum

/-- The `2 P`-entry array handed to `transfer`: the `P` counts followed by the `P`
prefix-sum displacements. -/
def countsArray (c : List Nat) : Nat → Nat :=
  fun p => if p < c.length then c.getD p 0 else displ c (p - c.length)

end Buffers

section Convergence

variable {R : Type} [LinearOrderedField R]

/-- Conversion of an integer value to `short` (16-bit two's complement), as performed by
the assignment `conv[nu] = i` with `i` an `unsigned short`. -/
def toShort (z : Int) : Int := (z + 32768) % 65536 - 32768

/-- The tolerance test of `checkConvergence` for one right-hand side:
`(tol > 0.0 && std::abs(res) / norm <= tol) || (tol < 0.0 && std::abs(res) <= -tol)`.
Nothing guards a zero `norm`: the floating-point quotient `std::abs(res) / 0` is `inf`
(or `NaN` when `res` is zero too) and the comparison `<= tol` is then false, so the
relative branch passes only for a non-zero `norm`. -/
def tolTest (tol norm res : R) : Bool :=
  decide ((0 < tol ∧ norm ≠ 0 ∧ |res| / norm ≤ tol) ∨ (tol < 0 ∧ |res| ≤ -tol))

/-- `IterativeMethod::checkConvergence<T, K>(verbosity, j, i, tol, mu, norm, res, conv,
sentinel)` for a real scalar type: the content of `conv` on return.  The marks are `short`
values, `i` is an `unsigned short` (`i < 65536`), `sentinel` a `short`; the comparison
`conv[nu] == -sentinel` is done on `int`.  The loop counter `nu` runs over `0 .. mu - 1`
(`mu ≤ 65535`).  The diagnostic line printed when `verbosity > 2` (the only use of
`verbosity` and `j`) does not touch `conv` and is left out. -/
def checkConvergence (i : Nat) (tol : R) (mu : Nat) (norm res : Nat → R) (conv : Nat → Int)
    (sentinel : Int) : Nat → Int :=
  (List.range mu).foldl (fun conv nu =>
    if conv nu = -sentinel ∧ tolTest tol (norm nu) (res nu) = true then
      Function.update conv nu (toShort i)
    else conv) conv

/-- Arguments of one call of `checkConvergence` during a solve (everything but the marks
and the sentinel). -/
structure ConvCall (R : Type) where
  /-- Iteration number. -/
  i : Nat
  /-- Tolerance. -/
  tol : R
  /-- Number of right-hand sides. -/
  mu : Nat
  /-- Reference norms. -/
  norm : Nat → R
  /-- Residual estimates. -/
  res : Nat → R

/-- A sequence of `checkConvergence` calls on the same array of marks with one sentinel. -/
def runCalls (sentinel : Int) (calls : List (ConvCall R)) (conv : Nat → Int) : Nat → Int :=
  calls.foldl (fun conv c => checkConvergence c.i c.tol c.mu c.norm c.res conv sentinel) conv

/-- Whether the test of right-hand side `nu` passes at a call. -/
def ConvCall.passes (c : ConvCall R) (nu : Nat) : Bool :=
  decide (nu < c.mu) && tolTest c.tol (c.norm nu) (c.res nu)

/-- Iteration number of the first call of the sequence at which the test of `nu` passes. -/
def firstPass (calls : List (ConvCall R)) (nu : Nat) : Option Nat :=
  (calls.find? (fun c => c.passes nu)).map (fun c => c.i)

/-- Number of right-hand sides among the first `N` that are still marked `-sentinel`. -/
def activeCount (sentinel : Int) (N : Nat) (conv : Nat → Int) : Nat :=
  ((List.range N).filter (fun nu => decide (conv nu = -sentinel))).length

end Convergence

section Communicators

/-- Calls to the message-passing library issued by the communicator code, in program
order.  Communicator handles are natural numbers. -/
inductive MpiCall where
  /-- `MPI_Group_incl(oldComm, n, ranks, &newComm)`. -/
  | groupIncl (n : Nat) (ranks : List Int)
  /-- `MPI_Comm_create(in, newComm, out)`. -/
  | commCreateOut
  /-- `MPI_Comm_create(in, newComm, &tmp)`. -/
  | commCreateTmp
  /-- `MPI_Comm_free(&in)`. -/
  | commFreeIn
  /-- `MPI_Comm_dup(tmp, &in)`. -/
  | commDupTmp
  /-- `MPI_Comm_free(&tmp)`. -/
  | commFreeTmp
  /-- `MPI_Comm_dup(in, out)`. -/
  | commDupOut
  /-- `MPI_Comm_free(&c)` in the destructor, on the handle `c`. -/
  | commFree (c : Nat)
  deriving DecidableEq, Repr

/-- The loop `for(unsigned short i = 1, j = 1, k = 0; j < sizeComm; ++i)` of
`constructionCommunicatorCollective`, which fills `array[1 .. sizeComm)`.  `pt` is the
count vector (its length is `size`); reading `pt[i]` past its end, or running out of
`fuel` iterations, yields `none`.  `ldistribution` stands for `super::_ldistribution`. -/
def rankLoop (countMasters : Bool) (ldistribution : Nat → Nat) (pt : List Nat)
    (sizeComm : Nat) : Nat → Nat → Nat → Nat → List Int → Option (List Int)
  | 0, _, j, _, array => if j < sizeComm then none else some array
  | fuel + 1, i, j, k, array =>
    if j < sizeComm then
      match pt.get? i with
      | none => none
      | some v =>
        if v ≠ 0 then
          rankLoop countMasters ldistribution pt sizeComm fuel (i + 1) (j + 1) k
            (array.set j ((i : Int) - (k : Int)))
        else if countMasters = true ∧ ldistribution (k + 1) = i then
          rankLoop countMasters ldistribution pt sizeComm fuel (i + 1) j (k + 1) array
        else
          rankLoop countMasters ldistribution pt sizeComm fuel (i + 1) j k array
    else some array

/-- `CoarseOperator::constructionCommunicatorCollective<countMasters>(pt, size, in, out)`
with `size = pt.length`: the library calls it issues.  `inNull` says whether `in` is
`MPI_COMM_NULL`, `hasOut` whether `out` is non-null, `tmpNull` whether the communicator
created for this rank is `MPI_COMM_NULL`; `junk` is the content of the freshly allocated
`array`. -/
def constructionCommunicatorCollective (countMasters : Bool) (ldistribution : Nat → Nat)
    (pt : List Nat) (inNull hasOut tmpNull : Bool) (junk : Int) : Option (List MpiCall) :=
  let sizeComm := pt.countP (fun nu => decide (nu ≠ 0))
  if sizeComm ≠ pt.length ∧ inNull = false then
    let sizeComm := if pt.head? = some 0 then sizeComm + 1 else sizeComm
    let array := (List.replicate sizeComm junk).set 0 0
    match rankLoop countMasters ldistribution pt sizeComm pt.length 1 1 0 array with
    | none => none
    | some array =>
      some (MpiCall.groupIncl sizeComm array ::
        (if hasOut then [MpiCall.commCreateOut]
         else [MpiCall.commCreateTmp, MpiCall.commFreeIn] ++
           (if tmpNull then [] else [MpiCall.commDupTmp, MpiCall.commFreeTmp])))
  else if hasOut then some [MpiCall.commDupOut]
  else some []

/-- The two communicator fields of a `CoarseOperator`. -/
structure Comms where
  /-- `_gatherComm`. -/
  gatherComm : Nat
  /-- `_scatterComm`. -/
  scatterComm : Nat
  deriving DecidableEq, Repr

/-- `CoarseOperator::~CoarseOperator()`.  `commNull` is `MPI_COMM_NULL`, `isFinalized` the
flag returned by `MPI_Finalized`.  Returns the fields on exit, the library calls issued
and whether the diagnostic line was written to `std::cerr`. -/
def destructor (commNull : Nat) (isFinalized : Int) (s : Comms) :
    Comms × List MpiCall × Bool :=
  if isFinalized ≠ 0 then (s, [], true)
  else
    let calls1 :=
      if s.gatherComm ≠ s.scatterComm ∧ s.gatherComm ≠ commNull then
        [MpiCall.commFree s.gatherComm] else []
    let calls2 :=
      if s.scatterComm ≠ commNull then [MpiCall.commFree s.scatterComm] else []
    (⟨commNull, commNull⟩, calls1 ++ calls2, false)

end Communicators

section Options

variable {R : Type} [LinearOrderedField R]

/-- Conversion of an integer value to `unsigned short`. -/
def toUShort (z : Int) : Int := z % 65536

/-- Conversion of an integer value to a (signed, 8-bit) `char`. -/
def toChar (z : Int) : Int := (z + 128) % 256 - 128

/-- The values that `Option::val` returns for the keys read by `options` (the configured
value, or the default given at the call when the key is absent), already in the type
requested at the call. -/
structure OptionValues (R : Type) where
  /-- `opt.val(prefix + "tol", 1.0e-6)`. -/
  tol : R
  /-- `opt.val<short>(prefix + "max_it", 100)`. -/
  max_it : Int
  /-- `opt.val<char>(prefix + "verbosity", 0)`. -/
  verbosity : Int
  /-- `opt.val(prefix + "initial_deflation_tol", -1.0)`. -/
  initial_deflation_tol : R
  /-- `opt.val<unsigned short>(prefix + "enlarge_krylov_subspace", 1)`. -/
  enlarge_krylov_subspace : Int
  /-- `opt.val<unsigned short>(prefix + "gmres_restart", 40)`. -/
  gmres_restart : Int
  /-- `opt.val<char>(prefix + "variant", 1)`. -/
  variant : Int
  /-- `opt.val<char>(prefix + "orthogonalization", 0)`. -/
  orthogonalization : Int
  /-- `opt.val<char>(prefix + "qr", 0)`. -/
  qr : Int
  /-- `opt.val<int>(prefix + "recycle", 0)`. -/
  recycle : Int
  /-- `opt.val<char>(prefix + "recycle_target", 0)`. -/
  recycle_target : Int
  /-- `opt.val<char>(prefix + "recycle_strategy", 0)`. -/
  recycle_strategy : Int
  /-- `opt.val<unsigned short>(prefix + "recycle_same_system")`. -/
  recycle_same_system : Int

/-- The output arrays of `options` and what it printed. -/
structure OptionsOut (R : Type) where
  /-- The array `d` (`d[0]` tolerance, `d[1]` initial deflation tolerance). -/
  d : Nat → R
  /-- The integer `*i` (number of recycled vectors). -/
  i : Int
  /-- The array `m` of `unsigned short` (`m[0]` iteration cap, `m[1]` restart, `m[2]`
  enlargement). -/
  m : Nat → Int
  /-- The array `id` of `char`. -/
  id : Nat → Int
  /-- Whether the `WARNING` line about the tolerance was printed. -/
  warned : Bool

/-- The writes of `options` to the array `d` before the tolerance check: `d[0]` for every
method, `d[1]` for `T == 1 || T == 5`. -/
def optionsD (T : Nat) (o : OptionValues R) (d0 : Nat → R) : Nat → R :=
  let d := Function.update d0 0 o.tol
  if T = 1 ∨ T = 5 then Function.update d 1 o.initial_deflation_tol else d

/-- The writes of `options` to the array `m`: `m[0]`, then `m[2]` for `T == 1 || T == 5`,
then `m[1]` for `T == 0 || T == 1 || T == 4 || T == 5`. -/
def optionsM (T : Nat) (o : OptionValues R) (m0 : Nat → Int) : Nat → Int :=
  let m := Function.update m0 0 (toUShort (min o.max_it 32767))
  let m := if T = 1 ∨ T = 5 then Function.update m 2 o.enlarge_krylov_subspace else m
  if T = 0 ∨ T = 1 ∨ T = 4 ∨ T = 5 then
    Function.update m 1 (min 32767 (min o.gmres_restart (m 0))) else m

/-- The writes of `options` to the array `id`, in program order. -/
def optionsId (T : Nat) (o : OptionValues R) (id0 : Nat → Int) : Nat → Int :=
  let id := Function.update id0 0 o.verbosity
  let id := if T = 0 ∨ T = 1 ∨ T = 2 ∨ T = 4 ∨ T = 5 then Function.update id 1 o.variant else id
  let id := if T = 0 ∨ T = 3 then
      Function.update id (1 + (if T = 0 then 1 else 0))
        (if T = 0 then o.orthogonalization else o.qr) else id
  let id := if T = 1 ∨ T = 4 ∨ T = 5 then
      Function.update id 2 (toChar (o.orthogonalization + 4 * o.qr)) else id
  let id := if T = 4 ∨ T = 5 then Function.update id 3 o.recycle_target else id
  if T = 4 ∨ T = 5 then
    Function.update id 4 (toChar (o.recycle_strategy + 4 * min o.recycle_same_system 2))
  else id

/-- `IterativeMethod::options<T, K>(prefix, d, i, m, id)`.  `eps` is
`std::numeric_limits<underlying_type<K>>::epsilon()`, `o` holds the values returned by the
option store and `init` the content of the output arrays on entry. -/
def options (T : Nat) (eps : R) (o : OptionValues R) (init : OptionsOut R) : OptionsOut R :=
  let d := optionsD T o init.d
  let m := optionsM T o init.m
  let id := optionsId T o init.id
  let i := if T = 4 ∨ T = 5 then min (m 1 - 1) o.recycle else init.i
  if |d 0| < eps then
    { d := Function.update d 0 (4 * eps), i := i, m := m, id := id,
      warned := decide (id 0 ≠ 0) }
  else
    { d := d, i := i, m := m, id := id, warned := false }

end Options

section Kernels

variable {R : Type} [Field R]

/-- Modelled from the spec: the constant `Wrapper<K>::d__0` (declared outside the given
sources), the scalar zero passed as `beta` to overwrite the output of a product. -/
def d__0 : R := 0

/-- Modelled from the spec: the constant `Wrapper<K>::d__1` (declared outside the given
sources), the scalar one. -/
def d__1 : R := 1

/-- Modelled from the spec: the constant `Wrapper<K>::d__2` (declared outside the given
sources), the scalar minus one with which the projection onto the basis is subtracted. -/
def d__2 : R := -1

/-- `std::fill_n(buf, cnt, K())`. -/
def fill_n (buf : Nat → R) (cnt : Nat) : Nat → R :=
  fun p => if p < cnt then 0 else buf p

/-- Reference semantics of `Blas<K>::dot(&n, x + xo, &i__1, y + yo, &i__1)` for a real
scalar type. -/
def dot (n : Nat) (x : Nat → R) (xo : Nat) (y : Nat → R) (yo : Nat) : R :=
  ∑ j in Finset.range n, x (xo + j) * y (yo + j)

/-- Reference semantics of `Blas<K>::axpy(&n, &alpha, x + xo, &i__1, y + yo, &i__1)`:
the content of `y` on return. -/
def axpy (n : Nat) (alpha : R) (x : Nat → R) (xo : Nat) (y : Nat → R) (yo : Nat) : Nat → R :=
  fun p => if yo ≤ p ∧ p < yo + n then alpha * x (xo + (p - yo)) + y p else y p

/-- Reference semantics of `Blas<K>::gemv(&transc, &m, &n, &alpha, A + ao, &lda, x + xo,
&i__1, &beta, y + yo, &incy)` for a real scalar type: `y := alpha * Aᵀ x + beta * y`
with `A` an `m`-by-`n` column-major matrix; the content of `y` on return. -/
def gemvT (m n : Nat) (alpha : R) (A : Nat → R) (ao lda : Nat) (x : Nat → R) (xo : Nat)
    (beta : R) (y : Nat → R) (yo incy : Nat) : Nat → R :=
  (List.range n).foldl (fun y' i =>
    Function.update y' (yo + i * incy)
      (alpha * (∑ j in Finset.range m, A (ao + i * lda + j) * x (xo + j))
        + beta * y (yo + i * incy))) y

/-- Reference semantics of `Blas<K>::gemv("N", &m, &n, &alpha, A + ao, &lda, x + xo, &incx,
&beta, y + yo, &i__1)`: `y := alpha * A x + beta * y`; the content of `y` on return. -/
def gemvN (m n : Nat) (alpha : R) (A : Nat → R) (ao lda : Nat) (x : Nat → R) (xo incx : Nat)
    (beta : R) (y : Nat → R) (yo : Nat) : Nat → R :=
  fun p => if yo ≤ p ∧ p < yo + m then
      alpha * (∑ i in Finset.range n, A (ao + i * lda + (p - yo)) * x (xo + i * incx))
        + beta * y p
    else y p

/-- Modelled from the spec: `Wrapper<K>::diag(n, d, in, out, mu)` (declared outside the
given sources) applies the diagonal weight `d` of the non-Euclidean inner product to `mu`
vectors of length `n`: `out[nu * n + j] = d[j] * in[nu * n + j]`. -/
def diag (n : Nat) (d : Nat → R) (inp out : Nat → R) (mu : Nat) : Nat → R :=
  fun p => if p < mu * n then d (p % n) * inp p else out p

/-- The memory of one process taking part in `orthogonalization`. -/
structure OrthRank (R : Type) where
  /-- Template parameter `excluded` of the instantiation run by this process. -/
  excluded : Bool
  /-- Local size `n` of the vectors. -/
  n : Nat
  /-- The basis `B`. -/
  B : Nat → R
  /-- The block of vectors `v`. -/
  v : Nat → R
  /-- The array `H` of inner products. -/
  H : Nat → R
  /-- The diagonal weight `d`, `none` for `nullptr`. -/
  d : Option (Nat → R)
  /-- The scratch array `scal`. -/
  scal : Nat → R

/-- `MPI_Allreduce(MPI_IN_PLACE, H + off, cnt, ..., MPI_SUM, comm)` issued by every process
of the communicator: the cells `[off, off + cnt)` of every `H` receive the sum over the
processes. -/
def allreduceH (off cnt : Nat) (ws : List (OrthRank R)) : List (OrthRank R) :=
  ws.map (fun r => { r with
    H := fun p => if off ≤ p ∧ p < off + cnt then (ws.map (fun r' => r'.H p)).sum else r.H p })

/-- The pointer `pt = d ? scal : v` after the optional call
`Wrapper<K>::diag(n, d, v, scal, mu)`, together with the content of `scal`. -/
def scaled (mu : Nat) (r : OrthRank R) : (Nat → R) × (Nat → R) :=
  match r.d with
  | some d => (diag r.n d r.v r.scal mu, diag r.n d r.v r.scal mu)
  | none => (r.v, r.scal)

/-- Step `i` of the loop of `orthogonalization` with `id == 1`, up to the all-reduce. -/
def mgsLocal (i mu : Nat) (r : OrthRank R) : OrthRank R :=
  if r.excluded = true ∨ r.n = 0 then r
  else
    { r with
      scal := (scaled mu r).2
      H := (List.range mu).foldl (fun H nu =>
        Function.update H (i * mu + nu)
          (dot r.n r.B ((i * mu + nu) * r.n) (scaled mu r).1 (nu * r.n))) r.H }

/-- Step `i` of the loop of `orthogonalization` with `id == 1`, after the all-reduce. -/
def mgsUpdate (i mu : Nat) (r : OrthRank R) : OrthRank R :=
  if r.excluded = true ∨ r.n = 0 then r
  else
    { r with
      v := (List.range mu).foldl (fun v nu =>
        axpy r.n (-(r.H (i * mu + nu))) r.B ((i * mu + nu) * r.n) v (nu * r.n)) r.v }

/-- The branch `id != 1` of `orthogonalization`, up to the all-reduce. -/
def cgsLocal (k mu : Nat) (r : OrthRank R) : OrthRank R :=
  if r.excluded = true ∨ r.n = 0 then r
  else
    { r with
      scal := (scaled mu r).2
      H := (List.range mu).foldl (fun H nu =>
        gemvT r.n k d__1 r.B (nu * r.n) (mu * r.n) (scaled mu r).1 (nu * r.n) d__0 H nu mu)
        r.H }

/-- The branch `id != 1` of `orthogonalization`, after the all-reduce. -/
def cgsUpdate (k mu : Nat) (r : OrthRank R) : OrthRank R :=
  if r.excluded = true ∨ r.n = 0 then r
  else
    { r with
      v := (List.range mu).foldl (fun v nu =>
        gemvN r.n k d__2 r.B (nu * r.n) (mu * r.n) r.H nu mu d__1 v (nu * r.n)) r.v }

/-- One iteration of the loop of `orthogonalization` with `id == 1`, run by all the
processes: local inner products, all-reduce of `H + i * mu`, projection. -/
def mgsStep (i mu : Nat) (ws : List (OrthRank R)) : List (OrthRank R) :=
  (allreduceH (i * mu) mu (ws.map (mgsLocal i mu))).map (mgsUpdate i mu)

/-- `IterativeMethod::orthogonalization<excluded, K>(id, n, k, mu, B, v, H, comm, d, scal)`
run in lock-step by the processes `ws` of the communicator (`id`, `k` and `mu` are the
same on all of them; `n`, the buffers and the `excluded` flag are per process).  On a
process with `excluded || !n` the array `H` is first zero-filled and only the
all-reduces are issued. -/
def orthogonalization (id : Int) (k mu : Nat) (ws : List (OrthRank R)) : List (OrthRank R) :=
  let ws0 := ws.map (fun r =>
    if r.excluded = true ∨ r.n = 0 then { r with H := fill_n r.H (k * mu) } else r)
  if id = 1 then
    (List.range k).foldl (fun ws i => mgsStep i mu ws) ws0
  else
    (allreduceH 0 (k * mu) (ws0.map (cgsLocal k mu))).map (cgsUpdate k mu)

/-- Weight of the local index `j` in the configured inner product: `d[j]`, or one when
`d` is null. -/
def OrthRank.weight (r : OrthRank R) (j : Nat) : R :=
  match r.d with
  | some d => d j
  | none => 1

/-- Contribution of one process to the configured inner product of the basis column `l`
of right-hand side `nu` with the vector stored at `x + nu * n`; an excluded process holds
no part of the vectors. -/
def OrthRank.inner (r : OrthRank R) (mu l nu : Nat) (x : Nat → R) : R :=
  if r.excluded = true then 0
  else ∑ j in Finset.range r.n, r.B ((l * mu + nu) * r.n + j) * (r.weight j * x (nu * r.n + j))

/-- The configured inner product, summed over the processes, of basis column `l` with
basis column `l'` (right-hand side `nu`). -/
def gramB (ws : List (OrthRank R)) (mu l l' nu : Nat) : R :=
  (ws.map (fun r => r.inner mu l nu (fun p => r.B (l' * mu * r.n + p)))).sum

/-- The configured inner product, summed over the processes, of basis column `l` with the
vector `v` of right-hand side `nu`. -/
def innerBv (ws : List (OrthRank R)) (mu l nu : Nat) : R :=
  (ws.map (fun r => r.inner mu l nu r.v)).sum

/-- Two process memories with the same `excluded` flag, local size, basis and weight. -/
def SameFrame (r1 r2 : OrthRank R) : Prop :=
  r1.excluded = r2.excluded ∧ r1.n = r2.n ∧ r1.B = r2.B ∧ r1.d = r2.d

/-- On a process that does no local work, the cells of `H` from `i * mu` on are zero. -/
def IdleZero (i k mu : Nat) (ws : List (OrthRank R)) : Prop :=
  ∀ r ∈ ws, (r.excluded = true ∨ r.n = 0) → ∀ p, i * mu ≤ p → p < k * mu → r.H p = 0

end Kernels

section CholeskyQR

variable {R : Type} [LinearOrderedField R]

/-- Semantics of `std::copy_backward(src + first, src + last, dst + d_last)`: the cells
`[first, last)` of `src` are copied to the range of `dst` that ends at `d_last`.  When
`src` and `dst` are the same buffer the ranges may overlap as long as the destination does
not start before the source. -/
def copy_backward {α : Type} (src : Nat → α) (first last : Nat) (dst : Nat → α)
    (d_last : Nat) : Nat → α :=
  copy_n src first (last - first) dst (d_last - (last - first))

/-- Reference semantics of `Blas<K>::gemmt("U", &transc, "N", &k, &n, &d__1, A + ao, &lda,
B + bo, &ldb, &d__0, C + co, &ldc)` for a real scalar type: the upper triangle of the
`k`-by-`k` matrix `C` receives that of `Aᵀ B`, with `A` and `B` of size `n`-by-`k`; the
content of `C` on return. -/
def gemmt (k n : Nat) (A : Nat → R) (ao lda : Nat) (B : Nat → R) (bo ldb : Nat)
    (C : Nat → R) (co ldc : Nat) : Nat → R :=
  fun p =>
    if co ≤ p ∧ (p - co) % ldc ≤ (p - co) / ldc ∧ (p - co) / ldc < k then
      ∑ j in Finset.range n,
        A (ao + ((p - co) % ldc) * lda + j) * B (bo + ((p - co) / ldc) * ldb + j)
    else C p

/-- Reference semantics of `Blas<K>::herk("U", "C", &k, &n, &d__1, A + ao, &lda, &d__0,
C + co, &ldc)` for a real scalar type: the upper triangle of `C` receives that of `Aᵀ A`. -/
def herk (k n : Nat) (A : Nat → R) (ao lda : Nat) (C : Nat → R) (co ldc : Nat) : Nat → R :=
  gemmt k n A ao lda A ao lda C co ldc

/-- Modelled from the spec: `Wrapper<K>::diag(n, d, in + io, out + oo)` (declared outside
the given sources), the diagonal weight applied to one vector:
`out[oo + j] = d[j] * in[io + j]`. -/
def diag1 (n : Nat) (d : Nat → R) (inp : Nat → R) (io : Nat) (out : Nat → R) (oo : Nat) :
    Nat → R :=
  fun p => if oo ≤ p ∧ p < oo + n then d (p - oo) * inp (io + (p - oo)) else out p

/-- Rows `0 .. j - 1` of the Cholesky factor of the symmetric matrix whose upper triangle
is `G`, computed row by row as in the reference implementation of `potrf("U")`: row `j`
has diagonal `sqrt(G[j,j] - Σ_{l<j} U[l,j]²)` and entries
`(G[j,b] - Σ_{l<j} U[l,j] U[l,b]) / U[j,j]` for `b > j`.  Rows not yet computed and the
entries below the diagonal read as zero. -/
def cholTable (sqrt : R → R) (G : Nat → Nat → R) : Nat → Nat → Nat → R
  | 0 => fun _ _ => 0
  | j + 1 => fun a b =>
    if a = j then
      if b < j then 0
      else if b = j then
        sqrt (G j j - ∑ l in Finset.range j, cholTable sqrt G j l j * cholTable sqrt G j l j)
      else
        (G j b - ∑ l in Finset.range j, cholTable sqrt G j l j * cholTable sqrt G j l b)
          / sqrt (G j j - ∑ l in Finset.range j, cholTable sqrt G j l j * cholTable sqrt G j l j)
    else cholTable sqrt G j a b

/-- The pivot `G[j,j] - Σ_{l<j} U[l,j]²` tested by `potrf` at step `j`. -/
def cholPivot (sqrt : R → R) (G : Nat → Nat → R) (j : Nat) : R :=
  G j j - ∑ l in Finset.range j, cholTable sqrt G j l j * cholTable sqrt G j l j

/-- The `info` code of `potrf` on a matrix of order `k`: `j + 1` for the first step
`j < k` whose pivot is not positive, and `0` when all `k` pivots are positive. -/
def cholInfo (sqrt : R → R) (G : Nat → Nat → R) : Nat → Nat
  | 0 => 0
  | k + 1 =>
    if cholInfo sqrt G k ≠ 0 then cholInfo sqrt G k
    else if cholPivot sqrt G k ≤ 0 then k + 1 else 0

/-- Reference semantics, in exact arithmetic, of `Lapack<K>::potrf("U", &k, A + off, &lda,
&info)` (unblocked algorithm): the content of `A` on return and `info`.  Only the upper
triangle of the block is read and written.  With `info = 0` it holds the factor; with
`info = j + 1` it holds the rows before `j` of the factor and the failing pivot on the
diagonal of row `j`.  `sqrt` is the square root of the scalar type. -/
def potrf (sqrt : R → R) (k : Nat) (A : Nat → R) (off lda : Nat) : (Nat → R) × Int :=
  let G : Nat → Nat → R := fun a b => A (off + a + b * lda)
  let info := cholInfo sqrt G k
  let rows := if info = 0 then k else info - 1
  (fun p =>
    if off ≤ p ∧ (p - off) % lda ≤ (p - off) / lda ∧ (p - off) / lda < k then
      if (p - off) % lda < rows then cholTable sqrt G rows ((p - off) % lda) ((p - off) / lda)
      else if info ≠ 0 ∧ (p - off) % lda = rows ∧ (p - off) / lda = rows then
        cholPivot sqrt G rows
      else A p
    else A p,
   (info : Int))

/-- Columns `0 .. b - 1` of the solution `X` of `X U = alpha B` for an upper triangular
`U`, computed column by column as in the reference implementation of
`trsm("R", "U", "N", "N")`. -/
def trsmTable (alpha : R) (U : Nat → Nat → R) (B : Nat → Nat → R) : Nat → Nat → Nat → R
  | 0 => fun _ _ => 0
  | b + 1 => fun j c =>
    if c = b then
      (alpha * B j b - ∑ a in Finset.range b, trsmTable alpha U B b j a * U a b) / U b b
    else trsmTable alpha U B b j c

/-- Reference semantics, in exact arithmetic, of `Blas<K>::trsm("R", "U", "N", "N", &n, &k,
&alpha, U + uo, &ldu, B + bo, &ldb)`: the `n`-by-`k` matrix `B` is overwritten by the
solution `X` of `X U = alpha B`; the content of `B` on return. -/
def trsm (n k : Nat) (alpha : R) (U : Nat → R) (uo ldu : Nat) (B : Nat → R) (bo ldb : Nat) :
    Nat → R :=
  fun p =>
    if bo ≤ p ∧ (p - bo) % ldb < n ∧ (p - bo) / ldb < k then
      trsmTable alpha (fun a b => U (uo + a + b * ldu)) (fun j b => B (bo + j + b * ldb)) k
        ((p - bo) % ldb) ((p - bo) / ldb)
    else B p

/-- The memory of one process taking part in `VR` and `QR`. -/
structure QRRank (R : Type) where
  /-- Template parameter `excluded` of the instantiation run by this process. -/
  excluded : Bool
  /-- Local size `n` of the vectors. -/
  n : Nat
  /-- The basis `V` of `VR`, `Q` of `QR`. -/
  Q : Nat → R
  /-- The array `R`. -/
  Rm : Nat → R
  /-- The array `work`, `none` for `nullptr` (then `work = R`). -/
  work : Option (Nat → R)
  /-- The diagonal weight `d`, `none` for `nullptr`. -/
  d : Option (Nat → R)
  /-- The scratch array `scal`. -/
  scal : Nat → R

/-- The content reached through the pointer `work` after `if(!work) work = R;`. -/
def QRRank.wbuf (r : QRRank R) : Nat → R :=
  match r.work with
  | some w => w
  | none => r.Rm

/-- A write through the pointer `work`: it lands in `R` when `work` was null. -/
def QRRank.setWbuf (r : QRRank R) (w : Nat → R) : QRRank R :=
  match r.work with
  | some _ => { r with work := some w }
  | none => { r with Rm := w }

/-- The loop `for(xi = 1; xi < k; ++xi) std::copy_n(work + off + xi * k, xi + 1,
work + off + (xi * (xi + 1)) / 2)` of `VR`, which packs the upper triangle in place. -/
def packUpper (k off : Nat) (w : Nat → R) : Nat → R :=
  (List.range' 1 (k - 1)).foldl (fun w xi =>
    copy_n w (off + xi * k) (xi + 1) w (off + (xi * (xi + 1)) / 2)) w

/-- One iteration `nu` of the first loop of `VR` on a process with `!excluded && n`: the
local Gram matrix of right-hand side `nu` (by `herk`, or by `diag` and `gemmt` when a
weight is given) followed by the packing of its upper triangle. -/
def vrGram (k mu nu : Nat) (r : QRRank R) : QRRank R :=
  match r.d with
  | none =>
    r.setWbuf (packUpper k (nu * (k * (k + 1)) / 2)
      (herk k r.n r.Q (nu * r.n) (mu * r.n) r.wbuf (nu * (k * (k + 1)) / 2) k))
  | some d =>
    let scal :=
      if mu = 1 then diag r.n d r.Q r.scal k
      else (List.range k).foldl (fun s xi =>
        diag1 r.n d r.Q (nu * r.n + xi * (mu * r.n)) s (xi * r.n)) r.scal
    { r with scal := scal }.setWbuf (packUpper k (nu * (k * (k + 1)) / 2)
      (gemmt k r.n r.Q (nu * r.n) (mu * r.n) scal 0 r.n r.wbuf (nu * (k * (k + 1)) / 2) k))

/-- `VR` up to the all-reduce: the packed local Gram matrices, or zeros on a process with
`excluded || !n`. -/
def vrLocal (k mu : Nat) (r : QRRank R) : QRRank R :=
  if r.excluded = false ∧ r.n ≠ 0 then
    (List.range mu).foldl (fun r nu => vrGram k mu nu r) r
  else r.setWbuf (fill_n r.wbuf (mu * (k * (k + 1)) / 2))

/-- `MPI_Allreduce(MPI_IN_PLACE, work, cnt, ..., MPI_SUM, comm)` issued by every process. -/
def allreduceW (cnt : Nat) (ws : List (QRRank R)) : List (QRRank R) :=
  ws.map (fun r => r.setWbuf (fun p =>
    if p < cnt then (ws.map (fun r' => r'.wbuf p)).sum else r.wbuf p))

/-- The last loop of `VR`: for `nu` from `mu - 1` down to `0` and `xi` from `k` down to
`1`, `std::copy_backward(work + off + (xi * (xi - 1)) / 2, work + off + (xi * (xi + 1)) / 2,
R + nu * k * k + xi * ldr - (ldr - xi))` unpacks column `xi - 1` into `R`. -/
def vrUnpack (k mu ldr : Nat) (r : QRRank R) : QRRank R :=
  (List.range mu).reverse.foldl (fun r nu =>
    (List.range' 1 k).reverse.foldl (fun r xi =>
      { r with Rm := (copy_backward r.wbuf
          (nu * (k * (k + 1)) / 2 + (xi * (xi - 1)) / 2)
          (nu * (k * (k + 1)) / 2 + (xi * (xi + 1)) / 2)
          r.Rm (nu * k * k + xi * ldr - (ldr - xi))) }) r) r

/-- `IterativeMethod::VR<excluded, K>(n, k, mu, V, R, ldr, comm, work, d, scal)` run in
lock-step by the processes `ws` of the communicator. -/
def VR (k mu ldr : Nat) (ws : List (QRRank R)) : List (QRRank R) :=
  (allreduceW (mu * (k * (k + 1)) / 2) (ws.map (vrLocal k mu))).map (vrUnpack k mu ldr)

/-- The loop `for(nu = 0; nu < mu; ++nu) { potrf("U", &k, R + nu * k * k, &ldr, &info);
if(info > 0) return info; }` of `QR`: the content of `R` and the code returned (`0` when
the loop runs to its end). -/
def potrfLoop (sqrt : R → R) (k ldr : Nat) : List Nat → (Nat → R) → (Nat → R) × Int
  | [], Rm => (Rm, 0)
  | nu :: rest, Rm =>
    if 0 < (potrf sqrt k Rm (nu * k * k) ldr).2 then potrf sqrt k Rm (nu * k * k) ldr
    else potrfLoop sqrt k ldr rest (potrf sqrt k Rm (nu * k * k) ldr).1

/-- The part of the branch `id == 0` of `QR` that follows the call to `VR`, on one
process: the loop over `potrf` with its early return, then, when `!excluded && n && update`,
the loop over `trsm`.  The result is the memory of the process on return and the value
returned. -/
def qrPost (sqrt : R → R) (k mu ldr : Nat) (update : Bool) (r : QRRank R) : QRRank R × Int :=
  if 0 < (potrfLoop sqrt k ldr (List.range mu) r.Rm).2 then
    ({ r with Rm := (potrfLoop sqrt k ldr (List.range mu) r.Rm).1 },
      (potrfLoop sqrt k ldr (List.range mu) r.Rm).2)
  else if r.excluded = false ∧ r.n ≠ 0 ∧ update = true then
    ({ r with
        Rm := (potrfLoop sqrt k ldr (List.range mu) r.Rm).1,
        Q := ((List.range mu).foldl (fun Q nu =>
          trsm r.n k d__1 (potrfLoop sqrt k ldr (List.range mu) r.Rm).1 (k * k * nu) ldr
            Q (nu * r.n) (mu * r.n)) r.Q) }, 0)
  else ({ r with Rm := (potrfLoop sqrt k ldr (List.range mu) r.Rm).1 }, 0)

/-- The branch `id == 0` (Cholesky QR) of `IterativeMethod::QR<excluded, K>(id, n, k, mu,
Q, R, ldr, comm, work, update, d, scal)` run in lock-step by the processes `ws`: the
memory of each process on return and the value it returns. -/
def QR (sqrt : R → R) (k mu ldr : Nat) (update : Bool) (ws : List (QRRank R)) :
    List (QRRank R × Int) :=
  (VR k mu ldr ws).map (qrPost sqrt k mu ldr update)

/-- The square root of the scalar type is exact on positive arguments (exact arithmetic). -/
def SqrtSpec (sqrt : R → R) : Prop := ∀ x, 0 < x → 0 < sqrt x ∧ sqrt x * sqrt x = x

/-- The symmetric matrix whose upper triangle is `G`. -/
def symm (G : Nat → Nat → R) (a b : Nat) : R := if a ≤ b then G a b else G b a

/-- The quadratic form of the leading block of order `m` of the symmetric matrix with
upper triangle `G`. -/
def quadForm (G : Nat → Nat → R) (m : Nat) (c : Nat → R) : R :=
  ∑ a in Finset.range m, ∑ b in Finset.range m, c a * symm G a b * c b

/-- The leading minor of order `m` of the symmetric matrix with upper triangle `G` is
positive definite. -/
def LeadingPD (G : Nat → Nat → R) (m : Nat) : Prop :=
  ∀ c : Nat → R, (∃ a, a < m ∧ c a ≠ 0) → 0 < quadForm G m c

/-- Triangular number `n (n + 1) / 2`: the length of the packed upper triangle. -/
def tri (n : Nat) : Nat := n * (n + 1) / 2

/-- Weight of the local index `j` in the configured inner product. -/
def QRRank.weight {R : Type} [LinearOrderedField R] (r : QRRank R) (j : Nat) : R :=
  match r.d with
  | some d => d j
  | none => 1

/-- Contribution of one process to entry `(a, b)` of the Gram matrix of right-hand side
`nu`; an excluded process holds no part of the vectors. -/
def QRRank.gram {R : Type} [LinearOrderedField R] (r : QRRank R) (mu nu a b : Nat) : R :=
  if r.excluded = true then 0
  else ∑ j in Finset.range r.n,
    r.Q (nu * r.n + a * (mu * r.n) + j) * (r.weight j * r.Q (nu * r.n + b * (mu * r.n) + j))

/-- Entry `(a, b)` of the globally reduced Gram matrix of right-hand side `nu`. -/
def gramQ {R : Type} [LinearOrderedField R] (ws : List (QRRank R)) (mu nu a b : Nat) : R :=
  (ws.map (fun r => r.gram mu nu a b)).sum

/-- Two process memories with the same `excluded` flag, local size, basis and weight, and
the same choice between a separate `work` array and `work = R`. -/
def QRFrame {R : Type} (r1 r2 : QRRank R) : Prop :=
  r1.excluded = r2.excluded ∧ r1.n = r2.n ∧ r1.Q = r2.Q ∧ r1.d = r2.d
    ∧ r1.work.isSome = r2.work.isSome

/-- The steps of the unpacking loop, in program order. -/
def unpackSteps (k mu : Nat) : List (Nat × Nat) :=
  (List.range mu).reverse.flatMap (fun nu => (List.range' 1 k).reverse.map (fun xi => (nu, xi)))

/-- The code returned by the loop over `potrf` for the Gram matrices `Gq nu`: that of the
first right-hand side of the list whose factorization fails, `0` when none fails. -/
def firstInfo {R : Type} [LinearOrderedField R] (sqrt : R → R) (Gq : Nat → Nat → Nat → R)
    (k : Nat) : List Nat → Nat
  | [] => 0
  | nu :: rest =>
    if cholInfo sqrt (Gq nu) k ≠ 0 then cholInfo sqrt (Gq nu) k else firstInfo sqrt Gq k rest

/-- The cell `p` belongs to the upper triangle of block `nu` of `R`. -/
def InUpper (k ldr nu p : Nat) : Prop :=
  nu * k * k ≤ p ∧ (p - nu * k * k) % ldr ≤ (p - nu * k * k) / ldr
    ∧ (p - nu * k * k) / ldr < k

/-- The memory of process `r` after `VR` has been run by the processes `ws`. -/
def vrRank {R : Type} [LinearOrderedField R] (k mu ldr : Nat) (ws : List (QRRank R))
    (r : QRRank R) : QRRank R :=
  vrUnpack k mu ldr ((vrLocal k mu r).setWbuf (fun p =>
    if p < mu * (k * (k + 1)) / 2 then (ws.map (fun r' => (vrLocal k mu r').wbuf p)).sum
    else (vrLocal k mu r).wbuf p))

/-- The configured inner product, summed over the processes, of two families of local
vectors; an excluded process holds no part of the vectors. -/
def ipW {R : Type} [LinearOrderedField R] (ws : List (QRRank R)) (x y : QRRank R → Nat → R) :
    R :=
  (ws.map (fun r =>
    if r.excluded = true then 0
    else ∑ j in Finset.range r.n, x r j * (r.weight j * y r j))).sum

/-- The memory of process `r` and the value it returns after the branch `id == 0` of `QR`
has been run by the processes `ws`. -/
def qrRank {R : Type} [LinearOrderedField R] (sqrt : R → R) (k mu ldr : Nat) (update : Bool)
    (ws : List (QRRank R)) (r : QRRank R) : QRRank R × Int :=
  qrPost sqrt k mu ldr update (vrRank k mu ldr ws r)

/-- The columns of right-hand side `nu` of the distributed basis are linearly independent:
no non-trivial combination of the `k` columns vanishes on every process that holds a part
of the vectors. -/
def ColumnsIndependent {R : Type} [LinearOrderedField R] (ws : List (QRRank R))
    (k mu nu : Nat) : Prop :=
  ∀ c : Nat → R, (∃ a, a < k ∧ c a ≠ 0) →
    ∃ r ∈ ws, r.excluded = false ∧ ∃ j, j < r.n
      ∧ ∑ a in Finset.range k, c a * r.Q (nu * r.n + j + a * (mu * r.n)) ≠ 0

/-- Basis of two right-hand sides (`mu = 2`) of local size `2` with `k = 2` columns each:
right-hand side `0` has the columns `(1, 0)`, `(0, 1)`, right-hand side `1` the columns
`(2, 0)`, `(1, 1)`; column `a` of right-hand side `nu` starts at `nu * n + a * mu * n`. -/
def overlapBasis {R : Type} [LinearOrderedField R] : Nat → R :=
  fun p => if p = 0 then 1 else if p = 2 then 2 else if p = 5 ∨ p = 6 ∨ p = 7 then 1 else 0

/-- A single process holding `overlapBasis`, with `work = nullptr`, no weight, and `R`
zero on entry. -/
def overlapRank {R : Type} [LinearOrderedField R] : QRRank R :=
  ⟨false, 2, overlapBasis, fun _ => 0, none, none, fun _ => 0⟩

/-- Basis of one right-hand side of local size `3` with the two columns `(3, 4, 0)` and
`(3, -1, 4)`; column `a` starts at `a * n`. -/
def reflectBasis {R : Type} [LinearOrderedField R] : Nat → R :=
  fun p => if p = 0 then 3 else if p = 1 then 4 else if p = 3 then 3
    else if p = 4 then -1 else if p = 5 then 4 else 0

/-- A single process holding `reflectBasis`, with `work = nullptr`, no weight, and `R`
zero on entry. -/
def reflectRank {R : Type} [LinearOrderedField R] : QRRank R :=
  ⟨false, 3, reflectBasis, fun _ => 0, none, none, fun _ => 0⟩

/-- The vector `v` of the elementary reflector `H = I - 2 v vᵀ / (vᵀ v)` that annihilates
column `j` of the `n`-row matrix `A` below the diagonal:
`v = x + sign(x_j) ‖x‖ e_j`, with `x` the part of the column from row `j` on. -/
def householderVector {R : Type} [LinearOrderedField R] (sqrt : R → R) (n j : Nat)
    (A : Nat → Nat → R) : Nat → R :=
  fun l =>
    if l < j then 0
    else if l = j then
      A j j + (if 0 ≤ A j j then 1 else -1)
        * sqrt (∑ i in Finset.range n, if j ≤ i then A i j * A i j else 0)
    else A l j

/-- Step `j` of the Householder QR the specification compares with (the textbook
algorithm, which is also that of LAPACK `geqrf`): the reflector of column `j` is applied
to the matrix; a column that is already zero below the diagonal is left alone. -/
def householderStep {R : Type} [LinearOrderedField R] (sqrt : R → R) (n j : Nat)
    (A : Nat → Nat → R) : Nat → Nat → R :=
  fun i c =>
    if (∑ l in Finset.range n, if j < l then A l j * A l j else 0) = 0 then A i c
    else
      A i c - 2 * (∑ l in Finset.range n, householderVector sqrt n j A l * A l c)
        / (∑ l in Finset.range n, householderVector sqrt n j A l * householderVector sqrt n j A l)
        * householderVector sqrt n j A i

/-- The triangular factor of the Householder QR of the `n`-by-`k` matrix `A`: the matrix
after the `k` reflections. -/
def householderQR {R : Type} [LinearOrderedField R] (sqrt : R → R) (n k : Nat)
    (A : Nat → Nat → R) : Nat → Nat → R :=
  (List.range k).foldl (fun A j => householderStep sqrt n j A) A

end CholeskyQR

section Solve

variable {R : Type} [Field R]

/-- The drivers declared by `IterativeMethod`. -/
inductive Method where
  | GMRES
  | BGMRES
  | CG
  | BCG
  | GCRODR
  | BGCRODR
  | PCG
  deriving DecidableEq

/-- The entries of the option store (class `Option`, declared outside the given sources)
that `solve` and `preprocess` read or write. -/
structure SolveStore where
  /-- The value that `opt.val<char>(prefix + "krylov_method")` returns. -/
  krylov_method : Int
  /-- The entry `enlarge_krylov_subspace`, `none` when the key is absent. -/
  enlarge_krylov_subspace : Option Nat
  /-- Whether the key `initial_deflation_tol` is present. -/
  initial_deflation_tol : Bool
  deriving DecidableEq

/-- The drivers, which are declared but not defined in the given sources: `run m sb sx mu st`
is the call `m<excluded>(A, sb, sx, mu, comm)` of one of the six Krylov drivers with the
option store `st`, and `pcg b x` the call `PCG<excluded>(A, b, x, comm)`; each gives the
content of the solution array on return and the value returned. -/
structure Drivers (R : Type) where
  /-- The drivers `GMRES`, `BGMRES`, `CG`, `BCG`, `GCRODR`, `BGCRODR`. -/
  run : Method → (Nat → R) → (Nat → R) → Nat → SolveStore → (Nat → R) × Int
  /-- The driver `PCG`. -/
  pcg : (Nat → R) → (Nat → R) → (Nat → R) × Int

/-- What `preprocess` hands to `solve`: the arrays behind `sb` and `sx`, whether they are
fresh allocations (`sb != b`) or the arrays `b` and `x` themselves, the value of `k` on
return and the option store. -/
structure Enlarged (R : Type) where
  /-- The right-hand sides `sb`. -/
  sb : Nat → R
  /-- The initial guesses `sx`. -/
  sx : Nat → R
  /-- The test `sb != b`. -/
  fresh : Bool
  /-- The reference parameter `k` on return. -/
  k : Nat
  /-- The option store on return. -/
  store : SolveStore

/-- `IterativeMethod::preprocess(A, b, sb, x, sx, mu, k, comm)` for an operator that is not
itself a Krylov method, on the process of rank `rank` of a communicator of `size`
processes; `n` is `A.getDof()`.  `k` is an `unsigned short`; the conversion of `size` to
`unsigned short` in `std::min(k, static_cast<unsigned short>(size))` is written out.  When
that minimum is `0` the quotient `size / k` divides by zero and there is no result. -/
def preprocess (size rank n : Nat) (b x : Nat → R) (mu k : Nat) (st : SolveStore) :
    Option (Enlarged R) :=
  if k < 2 ∨ size = 1 then
    some { sb := b, sx := x, fresh := false, k := k,
           store := { st with enlarge_krylov_subspace := none } }
  else if min k (size % 65536) = 0 then none
  else
    some {
      sb := (List.range mu).foldl (fun sb nu =>
        copy_n b (nu * n) n sb
          ((min (min k (size % 65536) - 1) (rank / (size / min k (size % 65536)))
            + min k (size % 65536) * nu) * n)) (fun _ => 0),
      sx := (List.range mu).foldl (fun sx nu =>
        copy_n x (nu * n) n sx
          ((min (min k (size % 65536) - 1) (rank / (size / min k (size % 65536)))
            + min k (size % 65536) * nu) * n)) (fun _ => 0),
      fresh := true,
      k := min k (size % 65536),
      store := {
        krylov_method :=
          if st.krylov_method = 1 ∨ st.krylov_method = 3 ∨ st.krylov_method = 5
          then st.krylov_method else 1,
        enlarge_krylov_subspace := some (min k (size % 65536)),
        initial_deflation_tol := if 1 < mu then false else st.initial_deflation_tol } }

/-- `IterativeMethod::postprocess(A, b, sb, x, sx, mu, k)` for an operator that is not
itself a Krylov method: the content of `x` on return.  `fresh` is the test `sb != b`. -/
def postprocess (n mu k : Nat) (fresh : Bool) (x sx : Nat → R) : Nat → R :=
  if fresh then
    (List.range mu).foldl (fun x nu =>
      (List.range k).foldl (fun x j => axpy n d__1 sx ((j + k * nu) * n) x (nu * n)) x)
      (fill_n x (mu * n))
  else x

/-- The driver selected by the `switch` of `solve`. -/
def dispatch (krylov_method : Int) : Method :=
  if krylov_method = 5 then Method.BGCRODR
  else if krylov_method = 4 then Method.GCRODR
  else if krylov_method = 3 then Method.BCG
  else if krylov_method = 2 then Method.CG
  else if krylov_method = 1 then Method.BGMRES
  else Method.GMRES

/-- What `solve` leaves behind: the content of `x`, the value returned, and the drivers
invoked, in order. -/
structure SolveResult (R : Type) where
  /-- The array `x` on return. -/
  x : Nat → R
  /-- The value returned. -/
  it : Int
  /-- The drivers invoked. -/
  calls : List Method

/-- `IterativeMethod::solve<excluded>(A, b, x, mu, comm)`; `substructuring` selects the
overload for `is_substructuring_method<Operator>`.  There is no result when `preprocess`
has none. -/
def solve (substructuring : Bool) (drv : Drivers R) (size rank n : Nat) (b x : Nat → R)
    (mu : Nat) (st : SolveStore) : Option (SolveResult R) :=
  if substructuring then
    some { x := (drv.pcg b x).1, it := (drv.pcg b x).2, calls := [Method.PCG] }
  else
    (preprocess size rank n b x mu (st.enlarge_krylov_subspace.getD 1) st).map (fun pre =>
      { x := postprocess n mu pre.k pre.fresh
          (if pre.fresh then x
            else (drv.run (dispatch pre.store.krylov_method) pre.sb pre.sx (pre.k * mu)
              pre.store).1)
          (drv.run (dispatch pre.store.krylov_method) pre.sb pre.sx (pre.k * mu)
            pre.store).1,
        it := (drv.run (dispatch pre.store.krylov_method) pre.sb pre.sx (pre.k * mu)
          pre.store).2,
        calls := [dispatch pre.store.krylov_method] })

end Solve

section Collectives

variable {R : Type} [Field R]

/-- One call `MPI_Allreduce(MPI_IN_PLACE, buf + off, cnt, type, MPI_SUM, comm)`: the offset
into the array it reduces and the element count. -/
structure Allreduce where
  /-- Offset of the reduced range in its array. -/
  off : Nat
  /-- Number of elements. -/
  cnt : Nat
  deriving DecidableEq

/-- The all-reduce calls that `orthogonalization<excluded>(id, n, k, mu, B, v, H, comm, d,
scal)` issues on the process with memory `r`, in order (offsets into `H`). -/
def orthogonalizationCalls (id : Int) (k mu : Nat) (r : OrthRank R) : List Allreduce :=
  if r.excluded = true ∨ r.n = 0 then
    if id = 1 then (List.range k).map (fun i => ⟨i * mu, mu⟩)
    else [⟨0, k * mu⟩]
  else
    if id = 1 then (List.range k).map (fun i => ⟨i * mu, mu⟩)
    else [⟨0, k * mu⟩]

/-- Reference semantics of `Blas<K>::gemm(&transc, "N", &m, &n, &k, &alpha, A + ao, &lda,
B + bo, &ldb, &beta, C + co, &ldc)` for a real scalar type: `C := alpha * Aᵀ B + beta * C`
with `C` of size `m`-by-`n` (`m ≤ ldc`); the content of `C` on return. -/
def gemmTN (m n k : Nat) (alpha : R) (A : Nat → R) (ao lda : Nat) (B : Nat → R)
    (bo ldb : Nat) (beta : R) (C : Nat → R) (co ldc : Nat) : Nat → R :=
  fun p =>
    if co ≤ p ∧ (p - co) % ldc < m ∧ (p - co) / ldc < n then
      alpha * (∑ l in Finset.range k,
          A (ao + ((p - co) % ldc) * lda + l) * B (bo + ((p - co) / ldc) * ldb + l))
        + beta * C p
    else C p

/-- Reference semantics of `Blas<K>::gemm("N", "N", &m, &n, &k, &alpha, A + ao, &lda,
B + bo, &ldb, &beta, C + co, &ldc)`: `C := alpha * A B + beta * C` with `C` of size
`m`-by-`n` (`m ≤ ldc`); the content of `C` on return. -/
def gemmNN (m n k : Nat) (alpha : R) (A : Nat → R) (ao lda : Nat) (B : Nat → R)
    (bo ldb : Nat) (beta : R) (C : Nat → R) (co ldc : Nat) : Nat → R :=
  fun p =>
    if co ≤ p ∧ (p - co) % ldc < m ∧ (p - co) / ldc < n then
      alpha * (∑ l in Finset.range k,
          A (ao + (p - co) % ldc + l * lda) * B (bo + l + ((p - co) / ldc) * ldb))
        + beta * C p
    else C p

/-- Modelled from the spec: `Wrapper<K>::omatcopy<'N'>(n, m, a + ao, lda, b + bo, ldb)`
(declared outside the given sources) copies `n` runs of `m` consecutive entries, run `i`
from `a + i * lda` to `b + i * ldb`; the content of `b` on return. -/
def omatcopy {α : Type} (n m : Nat) (a : Nat → α) (ao lda : Nat) (b : Nat → α)
    (bo ldb : Nat) : Nat → α :=
  (List.range n).foldl (fun b i => copy_n a (ao + i * lda) m b (bo + i * ldb)) b

/-- The memory of one process taking part in `blockOrthogonalization`. -/
structure BlockRank (R : Type) where
  /-- Template parameter `excluded` of the instantiation run by this process. -/
  excluded : Bool
  /-- Local size `n` of the vectors. -/
  n : Nat
  /-- The basis `B`. -/
  B : Nat → R
  /-- The block of vectors `v`. -/
  v : Nat → R
  /-- The array `H`. -/
  H : Nat → R
  /-- The array `work`. -/
  work : Nat → R

/-- The all-reduce calls that `blockOrthogonalization<excluded>(id, n, k, mu, B, v, H, ldh,
work, comm)` issues on the process with memory `r`, in order (offsets into `work`). -/
def blockOrthogonalizationCalls (id : Int) (k mu : Nat) (r : BlockRank R) : List Allreduce :=
  if r.excluded = true ∨ r.n = 0 then
    if id = 1 then (List.range k).map (fun _ => ⟨0, mu * mu⟩)
    else [⟨0, mu * mu * k⟩]
  else
    if id = 1 then (List.range k).map (fun _ => ⟨0, mu * mu⟩)
    else [⟨0, mu * (mu * k)⟩]

/-- The all-reduce calls that `VR<excluded>(n, k, mu, V, R, ldr, comm, work, d, scal)`
issues on the process with memory `r` (offsets into `work`): the single call that follows
the `if`/`else` on `!excluded && n`. -/
def VRCalls (k mu : Nat) (_r : QRRank R) : List Allreduce :=
  [⟨0, mu * (k * (k + 1)) / 2⟩]

/-- `MPI_Allreduce(MPI_IN_PLACE, work, cnt, ..., MPI_SUM, comm)` issued by every process of
the communicator: the first `cnt` cells of every `work` receive the sum over the processes
of what they held. -/
def allreduceWork (cnt : Nat) (ws : List (BlockRank R)) : List (BlockRank R) :=
  ws.map (fun r => { r with
    work := fun p => if p < cnt then (ws.map (fun r' => r'.work p)).sum else r.work p })

/-- Step `i` of the loop of `blockOrthogonalization` with `id == 1`, up to the all-reduce:
a process with `!excluded && n` overwrites the first `mu * mu` cells of `work` by the
product of block `i` of the basis with `v`; the other processes leave `work` as it is. -/
def blockLocal (i mu : Nat) (r : BlockRank R) : BlockRank R :=
  if r.excluded = true ∨ r.n = 0 then r
  else { r with
    work := gemmTN mu mu r.n d__1 r.B (i * mu * r.n) r.n r.v 0 r.n d__0 r.work 0 mu }

/-- Step `i` of the loop of `blockOrthogonalization` with `id == 1`, after the all-reduce:
the projection (on a process with `!excluded && n`) and the copy of `work` to
`H + mu * i`. -/
def blockUpdate (i mu ldh : Nat) (r : BlockRank R) : BlockRank R :=
  if r.excluded = true ∨ r.n = 0 then
    { r with H := omatcopy mu mu r.work 0 mu r.H (mu * i) ldh }
  else
    { r with
      v := gemmNN r.n mu mu d__2 r.B (i * mu * r.n) r.n r.work 0 mu d__1 r.v 0 r.n,
      H := omatcopy mu mu r.work 0 mu r.H (mu * i) ldh }

/-- One iteration of the loop of `blockOrthogonalization` with `id == 1`, run by all the
processes. -/
def blockStep (i mu ldh : Nat) (ws : List (BlockRank R)) : List (BlockRank R) :=
  (allreduceWork (mu * mu) (ws.map (blockLocal i mu))).map (blockUpdate i mu ldh)

/-- The branch `id != 1` of `blockOrthogonalization`, up to the all-reduce. -/
def blockLocalAll (k mu : Nat) (r : BlockRank R) : BlockRank R :=
  if r.excluded = true ∨ r.n = 0 then r
  else { r with
    work := gemmTN (mu * k) mu r.n d__1 r.B 0 r.n r.v 0 r.n d__0 r.work 0 (mu * k) }

/-- The branch `id != 1` of `blockOrthogonalization`, after the all-reduce. -/
def blockUpdateAll (k mu ldh : Nat) (r : BlockRank R) : BlockRank R :=
  if r.excluded = true ∨ r.n = 0 then
    { r with H := omatcopy mu (mu * k) r.work 0 (mu * k) r.H 0 ldh }
  else
    { r with
      v := gemmNN r.n mu (mu * k) d__2 r.B 0 r.n r.work 0 (mu * k) d__1 r.v 0 r.n,
      H := omatcopy mu (mu * k) r.work 0 (mu * k) r.H 0 ldh }

/-- `IterativeMethod::blockOrthogonalization<excluded, K>(id, n, k, mu, B, v, H, ldh, work,
comm)` run in lock-step by the processes `ws` of the communicator.  A process with
`excluded || !n` zero-fills `mu * mu * k` cells of `work` once, before its loop. -/
def blockOrthogonalization (id : Int) (k mu ldh : Nat) (ws : List (BlockRank R)) :
    List (BlockRank R) :=
  if id = 1 then
    (List.range k).foldl (fun ws i => blockStep i mu ldh ws)
      (ws.map (fun r =>
        if r.excluded = true ∨ r.n = 0 then { r with work := fill_n r.work (mu * mu * k) }
        else r))
  else
    (allreduceWork (mu * (mu * k))
      ((ws.map (fun r =>
        if r.excluded = true ∨ r.n = 0 then { r with work := fill_n r.work (mu * mu * k) }
        else r)).map (blockLocalAll k mu))).map (blockUpdateAll k mu ldh)

/-- Two processes for `blockOrthogonalization` with `k = 2`, `mu = 1`: one holds the basis
vectors `(2)`, `(1)` and the vector `(3)`, the other is excluded. -/
def staleRanks : List (BlockRank ℚ) :=
  [⟨false, 1, fun p => if p = 0 then 2 else 1, fun _ => 3, fun _ => 0, fun _ => 0⟩,
   ⟨true, 0, fun _ => 0, fun _ => 0, fun _ => 0, fun _ => 0⟩]

end Collectives

section QRGramSchmidt

variable {R : Type} [LinearOrderedField R]

/-- Reference semantics of `Blas<K>::scal(&n, &alpha, x + xo, &i__1)`: the content of `x`
on return. -/
def scal (n : Nat) (alpha : R) (x : Nat → R) (xo : Nat) : Nat → R :=
  fun p => if xo ≤ p ∧ p < xo + n then alpha * x p else x p

/-- The arguments `(B, v, H, d, scal) = (Q, Q + xi * ldv, work + xi * k * mu, d, scal)` of
the call of `orthogonalization` for column `xi` of `QR`, as the process memory of that
call. -/
def QRRank.orthView (k mu xi : Nat) (r : QRRank R) : OrthRank R :=
  { excluded := r.excluded, n := r.n, B := r.Q,
    v := fun p => r.Q (xi * (mu * r.n) + p),
    H := fun p => r.wbuf (xi * k * mu + p),
    d := r.d, scal := r.scal }

/-- The memory of `QR` after the call of `orthogonalization` for column `xi` has left the
memory `o`: what was written through `Q + xi * ldv`, `work + xi * k * mu` and `scal`. -/
def QRRank.orthBack (k mu xi : Nat) (r : QRRank R) (o : OrthRank R) : QRRank R :=
  ({ r with
      Q := (fun p => if xi * (mu * r.n) ≤ p then o.v (p - xi * (mu * r.n)) else r.Q p),
      scal := o.scal }).setWbuf
    (fun p => if xi * k * mu ≤ p then o.H (p - xi * k * mu) else r.wbuf p)

/-- The statement `if(xi > 0) orthogonalization<excluded>(id - 1, n, xi, mu, Q,
Q + xi * ldv, work + xi * k * mu, comm, d, scal)` of `QR`, run by all the processes; the
argument `id - 1` is converted to `char`. -/
def qrOrth (id : Int) (k mu xi : Nat) (ws : List (QRRank R)) : List (QRRank R) :=
  if 0 < xi then
    List.zipWith (QRRank.orthBack k mu xi) ws
      (orthogonalization (toChar (id - 1)) xi mu (ws.map (QRRank.orthView k mu xi)))
  else ws

/-- The content of `scal` after `if(d) Wrapper<K>::diag(n, d, Q + xi * ldv, scal, mu)`. -/
def qrScal (mu xi : Nat) (r : QRRank R) : Nat → R :=
  match r.d with
  | some d => diag r.n d (fun p => r.Q (xi * (mu * r.n) + p)) r.scal mu
  | none => r.scal

/-- The vectors behind the pointer `pt` in iteration `xi`: `scal` when a weight is given,
`Q + xi * ldv` otherwise. -/
def qrPt (mu xi : Nat) (r : QRRank R) : Nat → R :=
  match r.d with
  | some _ => qrScal mu xi r
  | none => fun p => r.Q (xi * (mu * r.n) + p)

/-- Iteration `xi` of the loop of `QR` with `id != 0`, from the optional `diag` to the
all-reduce: the local squared norms go to `work[xi * (k + 1) * mu + nu]`. -/
def qrNormLocal (k mu xi : Nat) (r : QRRank R) : QRRank R :=
  ({ r with scal := qrScal mu xi r }).setWbuf
    ((List.range mu).foldl (fun w nu =>
      Function.update w (xi * (k + 1) * mu + nu)
        (dot r.n r.Q (xi * (mu * r.n) + nu * r.n) (qrPt mu xi r) (nu * r.n))) r.wbuf)

/-- `MPI_Allreduce(MPI_IN_PLACE, work + off, cnt, ..., MPI_SUM, comm)` issued by every
process. -/
def allreduceWAt (off cnt : Nat) (ws : List (QRRank R)) : List (QRRank R) :=
  ws.map (fun r => r.setWbuf (fun p =>
    if off ≤ p ∧ p < off + cnt then (ws.map (fun r' => r'.wbuf p)).sum else r.wbuf p))

/-- The last loop of iteration `xi` of `QR` with `id != 0`, over the right-hand sides of
the list: square root of the reduced squared norm, `return 1` when it is below `eps`
(`HPDDM_EPS`, a macro defined outside the given sources), scaling of the column otherwise.
The flag tells whether the process has returned. -/
def qrNormalise (sqrt : R → R) (eps : R) (k mu xi : Nat) :
    List Nat → QRRank R → QRRank R × Bool
  | [], r => (r, false)
  | nu :: rest, r =>
    if sqrt (r.wbuf (xi * (k + 1) * mu + nu)) < eps then
      (r.setWbuf (Function.update r.wbuf (xi * (k + 1) * mu + nu)
        (sqrt (r.wbuf (xi * (k + 1) * mu + nu)))), true)
    else
      qrNormalise sqrt eps k mu xi rest
        { r.setWbuf (Function.update r.wbuf (xi * (k + 1) * mu + nu)
            (sqrt (r.wbuf (xi * (k + 1) * mu + nu)))) with
          Q := scal r.n (1 / sqrt (r.wbuf (xi * (k + 1) * mu + nu))) r.Q
            (xi * (mu * r.n) + nu * r.n) }

/-- Iteration `xi` of the loop of `QR` with `id != 0`, run by all the processes. -/
def qrColumn (sqrt : R → R) (eps : R) (id : Int) (k mu xi : Nat) (ws : List (QRRank R)) :
    List (QRRank R × Bool) :=
  (allreduceWAt (xi * (k + 1) * mu) mu
    ((qrOrth id k mu xi ws).map (qrNormLocal k mu xi))).map
    (qrNormalise sqrt eps k mu xi (List.range mu))

/-- The statement `if(work != R) omatcopy<'N'>(k, k * mu, work, k * mu, R, ldr)` that ends
the branch `id != 0` of `QR`. -/
def qrFinish (k mu ldr : Nat) (r : QRRank R) : QRRank R :=
  match r.work with
  | some w => { r with Rm := omatcopy k (k * mu) w 0 (k * mu) r.Rm 0 ldr }
  | none => r

/-- The loop of the branch `id != 0` of `QR` over the columns of the list, run in lock-step
by the processes, with the memory of each process on return and the value it returns.
The processes test the same reduced values and so return from the same iteration. -/
def qrColumns (sqrt : R → R) (eps : R) (id : Int) (k mu ldr : Nat) :
    List Nat → List (QRRank R) → List (QRRank R × Int)
  | [], ws => ws.map (fun r => (qrFinish k mu ldr r, 0))
  | xi :: rest, ws =>
    if ((qrColumn sqrt eps id k mu xi ws).any (fun x => x.2)) = true then
      (qrColumn sqrt eps id k mu xi ws).map (fun x => (x.1, if x.2 = true then 1 else 0))
    else
      qrColumns sqrt eps id k mu ldr rest ((qrColumn sqrt eps id k mu xi ws).map Prod.fst)

/-- `IterativeMethod::QR<excluded, K>(id, n, k, mu, Q, R, ldr, comm, work, update, d, scal)`
run in lock-step by the processes `ws`: Cholesky QR for `id == 0`, and the column-by-column
Gram-Schmidt loop otherwise. -/
def QRmode (sqrt : R → R) (eps : R) (id : Int) (k mu ldr : Nat) (update : Bool)
    (ws : List (QRRank R)) : List (QRRank R × Int) :=
  if id = 0 then QR sqrt k mu ldr update ws
  else qrColumns sqrt eps id k mu ldr (List.range k) ws

/-- The all-reduce calls that a process issues in iteration `xi` of the loop of `QR` with
`id != 0`, in order (offsets into `work`): those of `orthogonalization`, whose array `H` is
`work + xi * k * mu`, then the one of the squared norms. -/
def QRColumnCalls (id : Int) (k mu xi : Nat) (r : QRRank R) : List Allreduce :=
  (if 0 < xi then
      (orthogonalizationCalls (toChar (id - 1)) xi mu (r.orthView k mu xi)).map
        (fun c => (⟨xi * k * mu + c.off, c.cnt⟩ : Allreduce))
    else [])
  ++ [⟨xi * (k + 1) * mu, mu⟩]

end QRGramSchmidt

section BlockArnoldiDefs

variable {R : Type} [LinearOrderedField R]

/-- The two LAPACK routines that `BlockArnoldi` calls for the Householder elimination.
They are outside the given sources and are parameters; the workspace size `lwork` and the
output `info`, which `BlockArnoldi` does not test, are left out. -/
structure Householder (R : Type) where
  /-- `Lapack<K>::geqrf(&N, &mu, A + ao, &lda, tau + to, work, &lwork, &info)` as
  `geqrf N mu A ao lda tau to work`: the contents of `A`, `tau` and `work` on return. -/
  geqrf : Nat → Nat → (Nat → R) → Nat → Nat → (Nat → R) → Nat → (Nat → R) →
    (Nat → R) × (Nat → R) × (Nat → R)
  /-- `Lapack<K>::mqr("L", &transc, &N, &mu, &N, A + ao, &lda, tau + to, C + co, &ldc, work,
  &lwork, &info)` as `mqr N mu A ao lda tau to C co ldc work`: the contents of `C` and
  `work` on return. -/
  mqr : Nat → Nat → (Nat → R) → Nat → Nat → (Nat → R) → Nat → (Nat → R) → Nat → Nat →
    (Nat → R) → (Nat → R) × (Nat → R)

/-- The memory of one process taking part in `BlockArnoldi`.  The arrays are pairwise
disjoint. -/
structure ArnoldiRank (R : Type) where
  /-- Template parameter `excluded` of the instantiation run by this process. -/
  excluded : Bool
  /-- Local size `n` of the vectors. -/
  n : Nat
  /-- The basis blocks `v[shift], ..., v[i]`, stored one after the other from `v[shift]`. -/
  basis : Nat → R
  /-- The new basis block `v[i + 1]`. -/
  vnext : Nat → R
  /-- The array `H[i]`. -/
  Hi : Nat → R
  /-- The arrays `H[leading]` of the previous iterations. -/
  Hprev : Nat → Nat → R
  /-- The array `tau`. -/
  tau : Nat → R
  /-- The array `s`. -/
  s : Nat → R
  /-- The array `work`. -/
  work : Nat → R
  /-- The array `save[i - shift]`, `none` when `save` is null. -/
  save : Option (Nat → R)

/-- The arguments `(B, v, H, work) = (v[shift], v[i + 1], H[i] + shift * mu, work)` of the
call of `blockOrthogonalization`, as the process memory of that call. -/
def ArnoldiRank.blockView (mu shift : Nat) (r : ArnoldiRank R) : BlockRank R :=
  { excluded := r.excluded, n := r.n, B := r.basis, v := r.vnext,
    H := fun p => r.Hi (shift * mu + p), work := r.work }

/-- The memory of `BlockArnoldi` after `blockOrthogonalization` has left the memory `b`. -/
def ArnoldiRank.blockBack (mu shift : Nat) (r : ArnoldiRank R) (b : BlockRank R) :
    ArnoldiRank R :=
  { r with
    vnext := b.v,
    Hi := (fun p => if shift * mu ≤ p then b.H (p - shift * mu) else r.Hi p),
    work := b.work }

/-- The arguments `(Q, R, work) = (v[i + 1], H[i] + (i + 1) * mu, work)` of the call of
`QR`, as the process memory of that call; no weight is passed. -/
def ArnoldiRank.qrView (i mu : Nat) (r : ArnoldiRank R) : QRRank R :=
  { excluded := r.excluded, n := r.n, Q := r.vnext,
    Rm := fun p => r.Hi ((i + 1) * mu + p),
    work := some r.work, d := none, scal := fun _ => 0 }

/-- The memory of `BlockArnoldi` after `QR` has left the memory `q`. -/
def ArnoldiRank.qrBack (i mu : Nat) (r : ArnoldiRank R) (q : QRRank R) : ArnoldiRank R :=
  { r with
    vnext := q.Q,
    Hi := (fun p => if (i + 1) * mu ≤ p then q.Rm (p - (i + 1) * mu) else r.Hi p),
    work := q.wbuf }

/-- The first statement of `BlockArnoldi`, `blockOrthogonalization<excluded>(id % 4, n,
i + 1 - shift, mu, v[shift], v[i + 1], H[i] + shift * mu, ldh, work, comm)` with
`ldh = (m + 1) * mu`, run by all the processes. -/
def arnoldiOrth (id : Int) (m i mu shift : Nat) (ws : List (ArnoldiRank R)) :
    List (ArnoldiRank R) :=
  List.zipWith (ArnoldiRank.blockBack mu shift) ws
    (blockOrthogonalization (Int.tmod id 4) (i + 1 - shift) mu ((m + 1) * mu)
      (ws.map (ArnoldiRank.blockView mu shift)))

/-- The call `QR<excluded>(id / 4, n, mu, 1, v[i + 1], H[i] + (i + 1) * mu, ldh, comm, work,
i < m - 1)` of `BlockArnoldi`, run by all the processes on the memories `ws`: the memory
that the call leaves and the value it returns, per process. -/
def arnoldiQR (sqrt : R → R) (eps : R) (id : Int) (m i mu : Nat) (ws : List (ArnoldiRank R)) :
    List (QRRank R × Int) :=
  QRmode sqrt eps (Int.tdiv id 4) mu 1 ((m + 1) * mu) (decide (i + 1 < m))
    (ws.map (ArnoldiRank.qrView i mu))

/-- The statements of `BlockArnoldi` after the test `if(info > 0) return true;`: the
zero-fill below the diagonal of the new block of `H[i]`, the copy to `save`, and the
Householder elimination, which writes `H[i]`, `tau`, `s` and `work`. -/
def arnoldiTail (hh : Householder R) (m i mu shift : Nat) (r : ArnoldiRank R) :
    ArnoldiRank R :=
  let H1 : Nat → R := (List.range mu).foldl (fun H nu => fun p =>
    if (i + 1) * mu + nu * ((m + 1) * mu) + nu + 1 ≤ p ∧ p < (nu + 1) * ((m + 1) * mu)
    then 0 else H p) r.Hi
  let el := (List.range' shift (i - shift)).foldl (fun (x : (Nat → R) × (Nat → R)) leading =>
    hh.mqr (2 * mu) mu (r.Hprev leading) (leading * mu) ((m + 1) * mu) r.tau
      (leading * (2 * mu)) x.1 (leading * mu) ((m + 1) * mu) x.2) (H1, r.work)
  let qr := hh.geqrf (2 * mu) mu el.1 (i * mu) ((m + 1) * mu) r.tau (i * (2 * mu)) el.2
  let ap := hh.mqr (2 * mu) mu qr.1 (i * mu) ((m + 1) * mu) qr.2.1 (i * (2 * mu)) r.s
    (i * mu) ((m + 1) * mu) qr.2.2
  { r with
    Hi := qr.1, tau := qr.2.1, s := ap.1, work := ap.2,
    save := r.save.map (fun sv => (List.range mu).foldl (fun sv nu =>
      copy_n H1 (shift * mu + nu * ((m + 1) * mu)) ((i + 1 - shift) * mu + nu + 1) sv
        (nu * ((m + 1) * mu))) sv) }

/-- `IterativeMethod::BlockArnoldi<excluded, K>(id, m, H, v, tau, s, lwork, n, i, mu, work,
comm, save, shift)` run in lock-step by the processes `ws` (`shift ≤ i`): the memory of
each process on return and the value it returns. -/
def BlockArnoldi (hh : Householder R) (sqrt : R → R) (eps : R) (id : Int)
    (m i mu shift : Nat) (ws : List (ArnoldiRank R)) : List (ArnoldiRank R × Bool) :=
  List.zipWith (fun r (x : QRRank R × Int) =>
      if 0 < x.2 then (ArnoldiRank.qrBack i mu r x.1, true)
      else (arnoldiTail hh m i mu shift (ArnoldiRank.qrBack i mu r x.1), false))
    (arnoldiOrth id m i mu shift ws)
    (arnoldiQR sqrt eps id m i mu (arnoldiOrth id m i mu shift ws))

end BlockArnoldiDefs

section TransferAccess

/-- A range `[start, start + len)` of the array `ab` that a statement reads (`write = false`)
or writes (`write = true`). -/
structure Access where
  /-- First position of the range. -/
  start : Nat
  /-- Length of the range. -/
  len : Nat
  /-- Whether the range is written. -/
  write : Bool
  deriving DecidableEq

/-- The accesses of `CoarseOperator::permute<T>(counts, n, m, ab)` to the array `ab`, in
program order: the source range of every `std::copy_n` of the double loop, then the
destination range of the final `std::copy_n(ba, counts[size - 1] + counts[2 * size - 1],
ab)`. -/
def permuteAccess (T : Bool) (counts : Nat → Nat) (n m : Nat) : List Access :=
  if n ≠ 1 ∧ m ≠ 1 then
    (if T = false then
      (List.range n).flatMap (fun i => (List.range m).map (fun j =>
        (⟨counts (n + i) + j * (counts i / m), counts i / m, false⟩ : Access)))
    else
      (List.range n).flatMap (fun j => (List.range m).map (fun i =>
        (⟨counts (m + i) / n + j * ((counts (m - 1) + counts (2 * m - 1)) / n),
          counts i / n, false⟩ : Access))))
    ++ [⟨0, counts ((if T = true then m else n) - 1)
          + counts (2 * (if T = true then m else n) - 1), true⟩]
  else []

/-- The ranges of the receive array that the request of `MPI_Igatherv(MPI_IN_PLACE, 0,
type, ab, counts, counts + n, type, 0, comm, rq)`, issued at the root, still has to fill
until it completes: `[counts[n + i], counts[n + i] + counts[i])` for the ranks
`i = 1, ..., n - 1` (the part of the root is in place). -/
def gatherPending (counts : Nat → Nat) (n : Nat) : List (Nat × Nat) :=
  (List.range' 1 (n - 1)).map (fun i => (counts (n + i), counts i))

/-- What `Itransfer` leaves behind when it returns. -/
structure TransferTrace where
  /-- The array `counts` on return. -/
  counts : Nat → Nat
  /-- The accesses to `ab` made after the request has been issued and before the return. -/
  eager : List Access
  /-- The ranges of `ab` that the request returned in `rq` still has to fill. -/
  pending : List (Nat × Nat)

/-- `CoarseOperator::Itransfer<T>(counts, n, m, ab, rq)` at the root of the gather
communicator.  For `T = false` the counts are scaled, the non-blocking gather is issued and
`permute<false>` runs before the return, while the request is pending.  For `T = true`
`permute<true>` runs before the non-blocking scatter is issued, which fills no range of
`ab`, and the counts are scaled back. -/
def Itransfer (T : Bool) (counts : Nat → Nat) (n m : Nat) : TransferTrace :=
  if T = false then
    { counts := scaleCounts counts n m,
      eager := permuteAccess false (scaleCounts counts n m) n m,
      pending := gatherPending (scaleCounts counts n m) n }
  else
    { counts := unscaleCounts counts n m, eager := [], pending := [] }

/-- Position `p` lies in one of the accessed ranges. -/
def Access.covers (acc : List Access) (p : Nat) : Prop :=
  ∃ a ∈ acc, a.start ≤ p ∧ p < a.start + a.len

/-- Position `p` lies in one of the ranges still to be filled. -/
def pendingAt (ranges : List (Nat × Nat)) (p : Nat) : Prop :=
  ∃ x ∈ ranges, x.1 ≤ p ∧ p < x.1 + x.2

end TransferAccess

section BlockConvergence

variable {R : Type} [LinearOrderedField R]

/-- Reference semantics of `Blas<K>::nrm2(&n, x + xo, &i__1)` for a real scalar type, with
the square root of the scalar type as a parameter. -/
def nrm2 (sqrt : R → R) (n : Nat) (x : Nat → R) (xo : Nat) : R :=
  sqrt (∑ j in Finset.range n, x (xo + j) * x (xo + j))

/-- The tolerance test of `checkBlockConvergence` for a norm `p` and a reference norm
`nrm`: `(tol > 0.0 && p / nrm <= tol) || (tol < 0.0 && p <= -tol)`.  Nothing guards a zero
`nrm`: the floating-point quotient `p / 0` is `inf` for `p > 0`, `NaN` for `p = 0` and
`-inf` for `p < 0`, so that with a zero `nrm` the comparison `<= tol` holds only for a
negative `p` (which no norm is). -/
def blockTest (tol nrm p : R) : Bool :=
  decide ((0 < tol ∧ ((nrm ≠ 0 ∧ p / nrm ≤ tol) ∨ (nrm = 0 ∧ p < 0))) ∨ (tol < 0 ∧ p ≤ -tol))

/-- `IterativeMethod::checkBlockConvergence<T, K>(verbosity, i, tol, mu, d, norm, res, ldh,
work, t)` for a real scalar type, for which `pt` and `work` are the same array: the value
returned and the content of `work` on return.  The diagnostic line printed when
`verbosity > 2` (the only use of `verbosity` and `i`) is left out.  The counters are
`unsigned short` values that stay below `65536` (`d ≤ 65535`, `t ≥ 1`). -/
def checkBlockConvergence (sqrt : R → R) (T : Nat) (tol : R) (mu d : Nat) (norm res : Nat → R)
    (ldh : Nat) (work : Nat → R) (t : Nat) : Nat × (Nat → R) :=
  if T = 3 then
    (List.range (mu / t)).foldl (fun (x : Nat × (Nat → R)) nu =>
      (if blockTest tol (norm nu) (sqrt (res nu)) = true then x.1 + t else x.1,
        Function.update x.2 nu (sqrt (res nu)))) (0, work)
  else if t ≤ 1 then
    (List.range d).foldl (fun (x : Nat × (Nat → R)) nu =>
      (if blockTest tol (norm nu) (nrm2 sqrt (nu + 1) res (nu * ldh)) = true then x.1 + 1
        else x.1,
        Function.update x.2 nu (nrm2 sqrt (nu + 1) res (nu * ldh)))) (0, work)
  else
    (if blockTest tol (norm 0)
        (nrm2 sqrt d ((List.range t).foldl (fun w nu =>
          axpy (nu + 1) d__1 res (nu * ldh) w 0) (fill_n work d)) 0) = true
      then t else 0,
      Function.update ((List.range t).foldl (fun w nu =>
          axpy (nu + 1) d__1 res (nu * ldh) w 0) (fill_n work d)) 0
        (nrm2 sqrt d ((List.range t).foldl (fun w nu =>
          axpy (nu + 1) d__1 res (nu * ldh) w 0) (fill_n work d)) 0))

end BlockConvergence

section Recycling

variable {R : Type} [LinearOrderedField R]

/-- Back substitution for an upper triangular system `U x = b` of order `n`: after `t`
steps the entries `j` with `n - t ≤ j` of the solution are set. -/
def trsvTable (U : Nat → Nat → R) (b : Nat → R) (n : Nat) : Nat → Nat → R
  | 0 => fun _ => 0
  | t + 1 => fun j =>
    if j = n - (t + 1) then
      (b j - ∑ l in Finset.Ico (j + 1) n, U j l * trsvTable U b n t l) / U j j
    else trsvTable U b n t j

/-- Reference semantics, in exact arithmetic, of `Blas<K>::trsv("U", "N", "N", &n, A + ao,
&lda, x + xo, &incx)`: the vector `x` of stride `incx` is overwritten by the solution of
`A x = b`; the content of `x` on return. -/
def trsv (n : Nat) (A : Nat → R) (ao lda : Nat) (x : Nat → R) (xo incx : Nat) : Nat → R :=
  (List.range n).foldl (fun y j =>
    Function.update y (xo + j * incx)
      (trsvTable (fun a c => A (ao + a + c * lda)) (fun i => x (xo + i * incx)) n n j)) x

/-- Reference semantics, in exact arithmetic, of `Lapack<K>::trtrs("U", "N", "N", &n, &nrhs,
A + ao, &lda, B + bo, &ldb, &info)`: when a diagonal entry of `A` is zero the routine
returns without solving, otherwise each of the `nrhs` columns of `B` is overwritten by the
solution of the triangular system; the content of `B` on return. -/
def trtrs (n nrhs : Nat) (A : Nat → R) (ao lda : Nat) (B : Nat → R) (bo ldb : Nat) :
    Nat → R :=
  if (List.range n).any (fun j => decide (A (ao + j + j * lda) = 0)) = true then B
  else fun p =>
    if bo ≤ p ∧ (p - bo) % ldb < n ∧ (p - bo) / ldb < nrhs then
      trsvTable (fun a c => A (ao + a + c * lda))
        (fun i => B (bo + i + ((p - bo) / ldb) * ldb)) n n ((p - bo) % ldb)
    else B p

/-- Reference semantics of `Blas<K>::trmm("R", "U", "N", "N", &m, &n, &alpha, A + ao, &lda,
B + bo, &ldb)`: `B := alpha * B * A` with `A` upper triangular of order `n` and `B` of size
`m`-by-`n`; the content of `B` on return. -/
def trmm (m n : Nat) (alpha : R) (A : Nat → R) (ao lda : Nat) (B : Nat → R) (bo ldb : Nat) :
    Nat → R :=
  fun p =>
    if bo ≤ p ∧ (p - bo) % ldb < m ∧ (p - bo) / ldb < n then
      alpha * ∑ a in Finset.range ((p - bo) / ldb + 1),
        B (bo + (p - bo) % ldb + a * ldb) * A (ao + a + ((p - bo) / ldb) * lda)
    else B p

/-- Reference semantics of `Blas<K>::gemv("N", &m, &n, &alpha, A + ao, &lda, x + xo, &incx,
&beta, y + yo, &incy)` with a stride on `y`: `y := alpha * A x + beta * y`; the content of
`y` on return, for `x` and `y` in the arrays `xs` and `ys` (which may be one array when
the two vectors do not meet). -/
def gemvNS (m n : Nat) (alpha : R) (A : Nat → R) (ao lda : Nat) (xs : Nat → R)
    (xo incx : Nat) (beta : R) (ys : Nat → R) (yo incy : Nat) : Nat → R :=
  (List.range m).foldl (fun y a =>
    Function.update y (yo + a * incy)
      (alpha * (∑ c in Finset.range n, A (ao + a + c * lda) * xs (xo + c * incx))
        + beta * ys (yo + a * incy))) ys

/-- `IterativeMethod::computeMin(h, s + so, hasConverged, mu, deflated, shift)`: the content
of `s` on return.  The arrays `h[j]` are consecutive slices of one allocation, so that `h`
is the memory from `h[0]` on and `ld` is `std::distance(h[0], h[1])`.  The dimensions
handed to the solvers are taken non-negative, and `deflated` is `-1` or positive. -/
def computeMin (h : Nat → R) (ld : Nat) (s : Nat → R) (so : Nat) (hasConverged : Nat → Int)
    (mu : Nat) (deflated : Int) (shift : Nat) : Nat → R :=
  if deflated ≠ -1 then
    trtrs ((hasConverged 0).natAbs - deflated.toNat * shift) deflated.toNat h
      (deflated.toNat * shift * (1 + ld / deflated.natAbs)) (ld / deflated.natAbs) s so
      (ld / deflated.natAbs)
  else
    (List.range mu).foldl (fun s nu =>
      if (hasConverged nu).natAbs ≠ 0 then
        trsv ((hasConverged nu).natAbs - shift) h
          (shift * (1 + ld / deflated.natAbs) + (ld / deflated.natAbs / mu) * nu)
          (ld / deflated.natAbs) s (so + nu) mu
      else s) s

/-- The memory of one process taking part in `updateSolRecycling`. -/
structure RecycleRank (R : Type) where
  /-- Template parameter `excluded` of the instantiation run by this process. -/
  excluded : Bool
  /-- Local size `n` of the vectors. -/
  n : Nat
  /-- The Hessenberg arrays, as the memory from `h[0]` on. -/
  h : Nat → R
  /-- The coefficients `s`. -/
  s : Nat → R
  /-- The vectors `v[shift]`. -/
  v : Nat → R
  /-- The array `norm`. -/
  norm : Nat → R
  /-- The recycled basis image `C`. -/
  C : Nat → R
  /-- The scratch array `work`. -/
  work : Nat → R

/-- The call `computeMin(h, s + shift * (deflated == -1 ? mu : deflated), hasConverged, mu,
deflated, shift)` that opens the branch `C && U` of `updateSolRecycling`. -/
def recycleMin (hasConverged : Nat → Int) (shift mu : Nat) (deflated : Int) (ld : Nat)
    (r : RecycleRank R) : RecycleRank R :=
  { r with
    s := computeMin r.h ld r.s (shift * (if deflated = -1 then mu else deflated.toNat))
      hasConverged mu deflated shift }

/-- The all-reduce `MPI_Allreduce(MPI_IN_PLACE, s, cnt, ..., MPI_SUM, comm)` of the
non-block path, reached by every process. -/
def allreduceS (cnt : Nat) (ws : List (RecycleRank R)) : List (RecycleRank R) :=
  ws.map (fun r => { r with
    s := fun p => if p < cnt then (ws.map (fun r' => r'.s p)).sum else r.s p })

/-- The all-reduce `MPI_Allreduce(MPI_IN_PLACE, work, cnt, ..., MPI_SUM, comm)` of the block
path, reached by every process. -/
def allreduceRecycle (cnt : Nat) (ws : List (RecycleRank R)) : List (RecycleRank R) :=
  ws.map (fun r => { r with
    work := fun p => if p < cnt then (ws.map (fun r' => r'.work p)).sum else r.work p })

/-- Non-block path with the option `recycle_same_system` zero, up to the all-reduce: a
process with `!excluded && n` runs, for every right-hand side `nu` with
`std::abs(hasConverged[nu])` non-zero, `gemv(&transc, &n, &shift, &alpha, C + nu * n, &ldv,
v[shift] + nu * n, &i__1, &d__0, s + nu, &mu)` with `alpha = norm[nu]`; the other
processes run `std::fill_n(s, shift * mu, K())`. -/
def recycleProject (hasConverged : Nat → Int) (shift mu : Nat) (r : RecycleRank R) :
    RecycleRank R :=
  if r.excluded = true ∨ r.n = 0 then { r with s := fill_n r.s (shift * mu) }
  else { r with
    s := (List.range mu).foldl (fun s nu =>
      if (hasConverged nu).natAbs ≠ 0 then
        gemvT r.n shift (r.norm nu) r.C (nu * r.n) (mu * r.n) r.v (nu * r.n) d__0 s nu mu
      else s) r.s }

/-- Non-block path, the loop after the projection: a process with `!excluded && n` runs,
for every right-hand side `nu` with `std::abs(hasConverged[nu])` non-zero,
`gemv("N", &shift, &diff, &d__2, h[shift] + nu * dim, &ldh, s + shift * mu + nu, &mu,
&d__1, s + nu, &mu)` with `diff = std::abs(hasConverged[nu]) - shift`. -/
def recycleCorrect (hasConverged : Nat → Int) (shift mu ld : Nat) (r : RecycleRank R) :
    RecycleRank R :=
  if r.excluded = true ∨ r.n = 0 then r
  else { r with
    s := (List.range mu).foldl (fun s nu =>
      if (hasConverged nu).natAbs ≠ 0 then
        gemvNS shift ((hasConverged nu).natAbs - shift) d__2 r.h
          (shift * ld + nu * (ld / mu)) ld s (shift * mu + nu) mu d__1 s nu mu
      else s) r.s }

/-- Block path with the option zero, the array `work` after
`std::copy_n(v[shift], deflated * n, work)` and `trmm("R", "U", "N", "N", &n, &deflated,
&d__1, norm, &ldh, work, &n)`. -/
def recycleScaled (D ldh : Nat) (r : RecycleRank R) : Nat → R :=
  trmm r.n D d__1 r.norm 0 ldh (copy_n r.v 0 (D * r.n) r.work 0) 0 r.n

/-- Block path with the option zero, the array `s` after `gemm(&transc, "N", &bK, &deflated,
&n, &d__1, C, &n, work, &n, &d__0, s, &ldh)`. -/
def recycleGram (D shift ldh : Nat) (r : RecycleRank R) : Nat → R :=
  gemmTN (D * shift) D r.n d__1 r.C 0 r.n (recycleScaled D ldh r) 0 r.n d__0 r.s 0 ldh

/-- Block path with the option zero, up to the all-reduce: a process with `!excluded && n`
scales `v[shift]`, multiplies by the transpose of `C` and packs the `deflated` columns of
the product into `work`; the other processes run `std::fill_n(work, bK * deflated, K())`. -/
def recycleProjectBlock (D shift ldh : Nat) (r : RecycleRank R) : RecycleRank R :=
  if r.excluded = true ∨ r.n = 0 then { r with work := fill_n r.work (D * shift * D) }
  else { r with
    s := recycleGram D shift ldh r
    work := (List.range D).foldl (fun w i =>
      copy_n (recycleGram D shift ldh r) (i * ldh) (D * shift) w (i * (D * shift)))
      (recycleScaled D ldh r) }

/-- Block path with the option zero, after the all-reduce: the loop
`std::copy_n(work + i * bK, bK, s + i * ldh)` over `i < deflated`. -/
def recycleUnpack (D shift ldh : Nat) (r : RecycleRank R) : RecycleRank R :=
  { r with
    s := (List.range D).foldl (fun s i =>
      copy_n r.work (i * (D * shift)) (D * shift) s (i * ldh)) r.s }

/-- Block path, the last product: `gemm("N", "N", &bK, &deflated, &diff, &d__2, h[shift],
&ldh, s + shift * deflated, &ldh, &beta, s, &ldh)` with
`diff = *hasConverged - deflated * shift`, run by every process. -/
def recycleCorrectBlock (hasConverged : Nat → Int) (D shift ld : Nat) (beta : R)
    (r : RecycleRank R) : RecycleRank R :=
  { r with
    s := gemmNN (D * shift) D (hasConverged 0 - (D : Int) * (shift : Int)).toNat d__2 r.h
      (shift * ld) (ld / D) r.s (shift * D) (ld / D) beta r.s 0 (ld / D) }

/-- The branch `C && U` of `IterativeMethod::updateSolRecycling<excluded>(A, variant, n, x,
h, s, v, norm, C, U, hasConverged, shift, mu, work, comm, deflated)` up to the copy of `U`,
run in lock-step by the processes of `comm`: the memories when `addSol` is called, which
reads `s` and does not write it.  `same` is the value of the option `recycle_same_system`,
and `ld` is `std::distance(h[0], h[1])`; `deflated` is `-1` or positive. -/
def updateSolRecycling (same : Nat) (hasConverged : Nat → Int) (shift mu : Nat)
    (deflated : Int) (ld : Nat) (ws : List (RecycleRank R)) : List (RecycleRank R) :=
  if deflated = -1 then
    (if same ≠ 0 then
      (ws.map (recycleMin hasConverged shift mu deflated ld)).map
        (fun r => { r with s := fill_n r.s (shift * mu) })
    else
      allreduceS (shift * mu)
        ((ws.map (recycleMin hasConverged shift mu deflated ld)).map
          (recycleProject hasConverged shift mu))).map
      (recycleCorrect hasConverged shift mu (ld / deflated.natAbs))
  else
    if same ≠ 0 then
      (ws.map (recycleMin hasConverged shift mu deflated ld)).map
        (recycleCorrectBlock hasConverged deflated.toNat shift ld 0)
    else
      ((allreduceRecycle (deflated.toNat * shift * deflated.toNat)
        ((ws.map (recycleMin hasConverged shift mu deflated ld)).map
          (recycleProjectBlock deflated.toNat shift (ld / deflated.natAbs)))).map
        (recycleUnpack deflated.toNat shift (ld / deflated.natAbs))).map
        (recycleCorrectBlock hasConverged deflated.toNat shift ld d__1)

/-- The local term of the projection onto `C` for right-hand side `nu` and recycled vector
`l` in the non-block path: the inner product of column `l` of `C` with `v[shift]`, scaled
by `norm[nu]`; zero on a process that does no local work. -/
def RecycleRank.projection (mu : Nat) (r : RecycleRank R) (nu l : Nat) : R :=
  if r.excluded = true ∨ r.n = 0 then 0
  else r.norm nu * ∑ j in Finset.range r.n,
    r.C (nu * r.n + l * (mu * r.n) + j) * r.v (nu * r.n + j)

/-- The local term of the projection onto `C` for recycled vector `a` and column `c` in
the block path: the inner product of column `a` of `C` with column `c` of `v[shift]`
multiplied by the upper triangular factor kept in `norm`; zero on a process that does no
local work. -/
def RecycleRank.blockProjection (ldh : Nat) (r : RecycleRank R) (a c : Nat) : R :=
  if r.excluded = true ∨ r.n = 0 then 0
  else ∑ j in Finset.range r.n,
    r.C (a * r.n + j) * ∑ b in Finset.range (c + 1), r.v (j + b * r.n) * r.norm (b + c * ldh)

/-- A process with one unknown whose right-hand side carries the marker
`hasConverged[0] = 0`: `C = (1)`, `v[shift] = (1)`, `norm[0] = 1`, and `s[0] = 5` left by
earlier work. -/
def skippedRank : RecycleRank ℚ :=
  { excluded := false, n := 1, h := fun _ => 0, s := fun p => if p = 0 then 5 else 0,
    v := fun _ => 1, norm := fun _ => 1, C := fun _ => 1, work := fun _ => 0 }

/-- Two processes for `updateSolRecycling`: one with two unknowns that does local work and
an excluded one. -/
def recycleWorld : List (RecycleRank ℚ) :=
  [{ excluded := false, n := 2, h := fun p => (p : ℚ) + 1, s := fun p => (p : ℚ) + 2,
     v := fun p => (p : ℚ) + 1, norm := fun p => (p : ℚ) + 2, C := fun p => (p : ℚ) + 3,
     work := fun _ => 0 },
   { excluded := true, n := 0, h := fun p => (p : ℚ) + 1, s := fun p => (p : ℚ) + 7,
     v := fun _ => 0, norm := fun _ => 0, C := fun _ => 0, work := fun _ => 9 }]

end Recycling

section TransferSteps

/-- `CoarseOperator::transfer<T>(counts, n, m, ab)`: the content of the array `counts` on
return.  For `T = false` every one of the `2 * n` entries is multiplied by `m` before the
gather; for `T = true` every one of the `2 * m` entries is divided by `n` after the
scatter.  `permute` and the collectives read `counts` and do not write it. -/
def transfer (T : Bool) (counts : Nat → Nat) (n m : Nat) : Nat → Nat :=
  if T = false then scaleCounts counts n m else unscaleCounts counts n m

/-- The two communicators of a `CoarseOperator`. -/
inductive TransferComm where
  /-- The field `_gatherComm`. -/
  | gatherComm
  /-- The field `_scatterComm`. -/
  | scatterComm
  deriving DecidableEq

/-- The statements of `transfer` and `Itransfer`, as they follow one another. -/
inductive TransferStep where
  /-- `std::for_each(counts, counts + entries, [&](int& i) { i *= factor; })`. -/
  | scale (entries factor : Nat)
  /-- `MPI_Gatherv` (`blocking`) or `MPI_Igatherv` on the communicator `comm`. -/
  | gatherv (comm : TransferComm) (blocking : Bool)
  /-- The call `permute<T>(counts, n, m, ab)`. -/
  | permute (T : Bool) (n m : Nat)
  /-- `MPI_Scatterv` (`blocking`) or `MPI_Iscatterv` on the communicator `comm`. -/
  | scatterv (comm : TransferComm) (blocking : Bool)
  /-- `std::for_each(counts, counts + entries, [&](int& i) { i /= divisor; })`. -/
  | unscale (entries divisor : Nat)
  deriving DecidableEq

/-- The statements that `CoarseOperator::transfer<T>(counts, n, m, ab)` runs. -/
def transferSteps (T : Bool) (n m : Nat) : List TransferStep :=
  (if T = false then
    [TransferStep.scale (2 * n) m, TransferStep.gatherv TransferComm.gatherComm true]
   else [])
  ++ [TransferStep.permute T n m]
  ++ (if T = true then
    [TransferStep.scatterv TransferComm.scatterComm true, TransferStep.unscale (2 * m) n]
   else [])

/-- The statements that `CoarseOperator::Itransfer<T>(counts, n, m, ab, rq)` runs. -/
def ItransferSteps (T : Bool) (n m : Nat) : List TransferStep :=
  (if T = false then
    [TransferStep.scale (2 * n) m, TransferStep.gatherv TransferComm.gatherComm false]
   else [])
  ++ [TransferStep.permute T n m]
  ++ (if T = true then
    [TransferStep.scatterv TransferComm.gatherComm false, TransferStep.unscale (2 * m) n]
   else [])

/-- The blocking counterpart of a statement: the same statement with the collective made
blocking. -/
def TransferStep.blockingForm : TransferStep → TransferStep
  | TransferStep.gatherv comm _ => TransferStep.gatherv comm true
  | TransferStep.scatterv comm _ => TransferStep.scatterv comm true
  | st => st

end TransferSteps

section SplitAssignment

/-- The factor `k = std::min(k, static_cast<unsigned short>(size))` used by the enlarging
branch of `preprocess`. -/
def splitFactor (k size : Nat) : Nat := min k (size % 65536)

/-- The split index `const unsigned short j = std::min(k - 1, rank / (size / k))` of the
enlarging branch of `preprocess`, for the factor `k` already clamped; there is no value
when `k` or `size / k` is zero (division by zero). -/
def splitIndex (k size rank : Nat) : Option Nat :=
  if k = 0 ∨ size / k = 0 then none
  else some (min (k - 1) (rank / (size / k)) % 65536)

/-- A driver set that returns the number of right-hand sides it was handed and leaves the
solution at zero. -/
def countingDrivers : Drivers ℚ :=
  { run := fun _ _ _ cnt _ => (fun _ => 0, (cnt : Int)),
    pcg := fun _ _ => (fun _ => 0, 0) }

end SplitAssignment

section ArnoldiGivens

variable {R : Type} [LinearOrderedField R]

/-- Reference semantics of `Blas<K>::nrm2(&n, x + xo, &incx)` for a real scalar type, with
the square root of the scalar type as a parameter. -/
def nrm2S (sqrt : R → R) (n : Nat) (x : Nat → R) (xo incx : Nat) : R :=
  sqrt (∑ j in Finset.range n, x (xo + j * incx) * x (xo + j * incx))

/-- Modelled from the spec: `Wrapper<K>::imatcopy<'T'>(n, m, ab, lda, ldb)` (declared
outside the given sources) transposes in place the `n`-by-`m` matrix stored with stride
`lda` (`ab[r * lda + c]`) into the `m`-by-`n` matrix stored with stride `ldb`
(`ab[c * ldb + r]`); the content of `ab` on return. -/
def imatcopy (n m : Nat) (ab : Nat → R) (lda ldb : Nat) : Nat → R :=
  fun p => if p / ldb < m ∧ p % ldb < n then ab ((p % ldb) * lda + p / ldb) else ab p

/-- The arrays written by `Arnoldi` after its all-reduce, on one process. -/
structure GivensState (R : Type) where
  /-- The new Hessenberg column `H[i]`. -/
  Hi : Nat → R
  /-- The array `sn` of sines. -/
  sn : Nat → R
  /-- The array `s` of the residual recursion. -/
  s : Nat → R

/-- The stores `H[i][(i + 1) * mu + nu] = std::sqrt(sn[i * mu + nu])` of the loop that
follows the all-reduce of `Arnoldi`. -/
def arnoldiNorm (sqrt : R → R) (i mu : Nat) (st : GivensState R) : GivensState R :=
  { st with
    Hi := (List.range mu).foldl (fun H nu =>
      Function.update H ((i + 1) * mu + nu) (sqrt (st.sn (i * mu + nu)))) st.Hi }

/-- The loop `for(k = shift; k < i; ++k) for(nu = 0; nu < mu; ++nu)` of `Arnoldi` that
applies the earlier rotations to the new column `H[i]`, for a real scalar type.  `Hprev k`
is the array `H[k]`, which holds the cosine of rotation `k` at `(m + 1) * nu + k + 1`. -/
def arnoldiRotate (m mu : Nat) (Hprev : Nat → Nat → R) (sn : Nat → R) (ks : List Nat)
    (Hi : Nat → R) : Nat → R :=
  ks.foldl (fun H k =>
    (List.range mu).foldl (fun H nu =>
      Function.update
        (Function.update H ((k + 1) * mu + nu)
          (-(sn (k * mu + nu)) * H (k * mu + nu)
            + Hprev k ((m + 1) * nu + k + 1) * H ((k + 1) * mu + nu)))
        (k * mu + nu)
        (Hprev k ((m + 1) * nu + k + 1) * H (k * mu + nu)
          + sn (k * mu + nu) * H ((k + 1) * mu + nu))) H) Hi

/-- One iteration of the last loop over `nu` of `Arnoldi`, for a real scalar type: the new
rotation from the two last entries of column `H[i]` and the update of `s`. -/
def givensStep (sqrt : R → R) (i mu nu : Nat) (st : GivensState R) : GivensState R :=
  { Hi := Function.update
      (Function.update st.Hi ((i + 1) * mu + nu)
        (st.Hi (i * mu + nu) / nrm2S sqrt 2 st.Hi (i * mu + nu) mu))
      (i * mu + nu) (nrm2S sqrt 2 st.Hi (i * mu + nu) mu),
    sn := Function.update st.sn (i * mu + nu)
      (st.Hi ((i + 1) * mu + nu) / nrm2S sqrt 2 st.Hi (i * mu + nu) mu),
    s := Function.update
      (Function.update st.s ((i + 1) * mu + nu)
        (-(st.Hi ((i + 1) * mu + nu) / nrm2S sqrt 2 st.Hi (i * mu + nu) mu)
          * st.s (i * mu + nu)))
      (i * mu + nu)
      (Function.update st.s ((i + 1) * mu + nu)
          (-(st.Hi ((i + 1) * mu + nu) / nrm2S sqrt 2 st.Hi (i * mu + nu) mu)
            * st.s (i * mu + nu)) (i * mu + nu)
        * (st.Hi (i * mu + nu) / nrm2S sqrt 2 st.Hi (i * mu + nu) mu)) }

/-- The column `H[i]` when the last loop of `Arnoldi` starts: the norms are stored and the
rotations `shift, ..., i - 1` are applied. -/
def arnoldiColumn (sqrt : R → R) (m i mu shift : Nat) (Hprev : Nat → Nat → R)
    (st : GivensState R) : Nat → R :=
  arnoldiRotate m mu Hprev st.sn (List.range' shift (i - shift)) (arnoldiNorm sqrt i mu st).Hi

/-- The statements of `IterativeMethod::Arnoldi<excluded, K>(id, m, H, v, s, sn, n, i, mu,
comm, save, shift)` that follow the all-reduce of `sn`, on one process and for a real
scalar type, as far as they write `H[i]`, `sn` and `s`: the norms, the earlier rotations,
the new rotation with the update of `s`, and the transposition of `H[i]` when `mu > 1`.
The scaling of `v[i + 1]` and the copy into `save` touch other arrays. -/
def Arnoldi (sqrt : R → R) (m i mu shift : Nat) (Hprev : Nat → Nat → R)
    (st : GivensState R) : GivensState R :=
  if 1 < mu then
    { (List.range mu).foldl (fun st nu => givensStep sqrt i mu nu st)
        { st with Hi := arnoldiColumn sqrt m i mu shift Hprev st } with
      Hi := imatcopy (i + 2) mu
        ((List.range mu).foldl (fun st nu => givensStep sqrt i mu nu st)
          { st with Hi := arnoldiColumn sqrt m i mu shift Hprev st }).Hi mu (m + 1) }
  else
    (List.range mu).foldl (fun st nu => givensStep sqrt i mu nu st)
      { st with Hi := arnoldiColumn sqrt m i mu shift Hprev st }

end ArnoldiGivens

section UpdateSol

variable {R : Type} [LinearOrderedField R]

/-- `IterativeMethod::addSol<excluded>(A, variant, n, x, ldh, s, v, hasConverged, mu, work,
deflated)` with `variant == 0` (left preconditioning, for which `correction` is `work` and
the operator is not applied): the content of `x` and of `work` on return.  The arrays
`v[j]` are consecutive slices of one allocation and `v` is the memory from `v[0]` on;
`deflated` is `-1` or positive, and `*hasConverged` is non-negative in the block
branches. -/
def addSol (excluded : Bool) (n : Nat) (x : Nat → R) (ldh : Nat) (s v : Nat → R)
    (hasConverged : Nat → Int) (mu : Nat) (work : Nat → R) (deflated : Int) :
    (Nat → R) × (Nat → R) :=
  if excluded = true ∨ n = 0 then (x, work)
  else if deflated = -1 then
    ((List.range mu).foldl (fun x nu =>
      if hasConverged nu ≠ 0 then
        gemvN n (hasConverged nu).natAbs d__1 v (nu * n) (mu * n) s nu mu d__1 x (nu * n)
      else x) x, work)
  else if deflated = mu then
    (gemmNN n mu (hasConverged 0).toNat d__1 v 0 n s 0 ldh d__1 x 0 n, work)
  else
    (axpy (deflated.toNat * n) d__1
        (gemmNN n deflated.toNat (hasConverged 0).toNat d__1 v 0 n s 0 ldh d__0 work 0 n) 0
        (gemmNN n (mu - deflated.toNat) deflated.toNat d__1
          (gemmNN n deflated.toNat (hasConverged 0).toNat d__1 v 0 n s 0 ldh d__0 work 0 n)
          0 n s (deflated.toNat * ldh) ldh d__1 x (deflated.toNat * n) n) 0,
      gemmNN n deflated.toNat (hasConverged 0).toNat d__1 v 0 n s 0 ldh d__0 work 0 n)

/-- The arrays that `updateSol` writes. -/
structure SolState (R : Type) where
  /-- The solution `x`. -/
  x : Nat → R
  /-- The coefficients `s`. -/
  s : Nat → R
  /-- The scratch array `work`. -/
  work : Nat → R

/-- `IterativeMethod::updateSol<excluded>(A, variant, n, x, h, s, v, hasConverged, mu, work,
deflated)` with `variant == 0`: `computeMin` on a process that is not excluded, then
`addSol` with `ldh = std::distance(h[0], h[1]) / std::abs(deflated)`.  `h` is the memory
from `h[0]` on and `ld` is `std::distance(h[0], h[1])`. -/
def updateSol (excluded : Bool) (n : Nat) (x h : Nat → R) (ld : Nat) (s v : Nat → R)
    (hasConverged : Nat → Int) (mu : Nat) (work : Nat → R) (deflated : Int) : SolState R :=
  { x := (addSol excluded n x (ld / deflated.natAbs)
        (if excluded = true then s else computeMin h ld s 0 hasConverged mu deflated 0)
        v hasConverged mu work deflated).1,
    s := if excluded = true then s else computeMin h ld s 0 hasConverged mu deflated 0,
    work := (addSol excluded n x (ld / deflated.natAbs)
        (if excluded = true then s else computeMin h ld s 0 hasConverged mu deflated 0)
        v hasConverged mu work deflated).2 }

end UpdateSol

/-! ## Theorems -/

section BufferLemmas

variable {α : Type}

theorem copy_n_apply (src : Nat → α) (s len : Nat) (dst : Nat → α) (d p : Nat) :
    copy_n src s len dst d p = if d ≤ p ∧ p < d + len then src (s + (p - d)) else dst p := rfl

/-- A left fold of block copies from a fixed source: a cell that is hit by at least one
copy (or already holds `v`), and for which every copy that hits it writes `v`, ends up
holding `v`. -/
theorem foldl_copy_val {ι : Type} (ab : Nat → α) (s len d : ι → Nat) (L : List ι) (p : Nat)
    (v : α) (ba0 : Nat → α)
    (hsame : ∀ x ∈ L, d x ≤ p → p < d x + len x → ab (s x + (p - d x)) = v)
    (hhit : (∃ x ∈ L, d x ≤ p ∧ p < d x + len x) ∨ ba0 p = v) :
    L.foldl (fun ba x => copy_n ab (s x) (len x) ba (d x)) ba0 p = v := by
  induction L generalizing ba0 with
  | nil =>
    rcases hhit with ⟨x, hx, _⟩ | h
    · simp at hx
    · simpa using h
  | cons x L ih =>
    rw [List.foldl_cons]
    apply ih
    · intro y hy; exact hsame y (List.mem_cons_of_mem _ hy)
    · rcases hhit with ⟨y, hy, hy1, hy2⟩ | h
      · rcases List.mem_cons.1 hy with rfl | hy
        · by_cases hex : ∃ z ∈ L, d z ≤ p ∧ p < d z + len z
          · exact Or.inl hex
          · right
            rw [copy_n_apply, if_pos ⟨hy1, hy2⟩]
            exact hsame _ (List.mem_cons_self _ _) hy1 hy2
        · exact Or.inl ⟨y, hy, hy1, hy2⟩
      · by_cases hx : d x ≤ p ∧ p < d x + len x
        · right
          rw [copy_n_apply, if_pos hx]
          exact hsame _ (List.mem_cons_self _ _) hx.1 hx.2
        · right
          rw [copy_n_apply, if_neg hx]; exact h

/-- The nested version of `foldl_copy_val`, for a double loop of block copies. -/
theorem foldl2_copy_val {ι κ : Type} (ab : Nat → α) (s len d : ι → κ → Nat)
    (L1 : List ι) (L2 : List κ) (p : Nat) (v : α) (ba0 : Nat → α)
    (hsame : ∀ x ∈ L1, ∀ y ∈ L2, d x y ≤ p → p < d x y + len x y →
      ab (s x y + (p - d x y)) = v)
    (hhit : (∃ x ∈ L1, ∃ y ∈ L2, d x y ≤ p ∧ p < d x y + len x y) ∨ ba0 p = v) :
    L1.foldl (fun ba x => L2.foldl (fun ba y => copy_n ab (s x y) (len x y) ba (d x y)) ba)
      ba0 p = v := by
  induction L1 generalizing ba0 with
  | nil =>
    rcases hhit with ⟨x, hx, _⟩ | h
    · simp at hx
    · simpa using h
  | cons x L1 ih =>
    rw [List.foldl_cons]
    apply ih
    · intro x' hx'; exact hsame x' (List.mem_cons_of_mem _ hx')
    · by_cases hex : ∃ x' ∈ L1, ∃ y ∈ L2, d x' y ≤ p ∧ p < d x' y + len x' y
      · exact Or.inl hex
      · right
        apply foldl_copy_val ab (s x) (len x) (d x) L2 p v ba0
        · intro y hy; exact hsame x (List.mem_cons_self _ _) y hy
        · rcases hhit with ⟨x', hx', y, hy, hh⟩ | h
          · rcases List.mem_cons.1 hx' with rfl | hx'
            · exact Or.inl ⟨y, hy, hh⟩
            · exact absurd ⟨x', hx', y, hy, hh⟩ hex
          · exact Or.inr h

end BufferLemmas

section PermuteLemmas

variable {α : Type}

theorem displ_succ (c : List Nat) (i : Nat) (h : i < c.length) :
    displ c (i + 1) = displ c i + c.getD i 0 := by
  unfold displ
  rw [List.take_succ, List.sum_append]
  simp [List.getD, List.getElem?_eq_getElem h]

theorem displ_mono (c : List Nat) {i j : Nat} (h : i ≤ j) : displ c i ≤ displ c j := by
  induction j with
  | zero => simp [Nat.le_zero.1 h]
  | succ j ih =>
    rcases Nat.lt_or_ge i (j + 1) with hlt | hge
    · have h1 := ih (Nat.lt_succ_iff.1 hlt)
      by_cases hj : j < c.length
      · rw [displ_succ c j hj]; omega
      · have e1 : displ c (j + 1) = c.sum := by
          unfold displ; rw [List.take_of_length_le (by omega)]
        have e2 : displ c j = c.sum := by
          unfold displ; rw [List.take_of_length_le (by omega)]
        omega
    · have : i = j + 1 := by omega
      rw [this]

theorem displ_length (c : List Nat) : displ c c.length = c.sum := by
  unfold displ; rw [List.take_length]

theorem displ_add_le (c : List Nat) {i j : Nat} (hi : i < j) (hj : i < c.length) :
    displ c i + c.getD i 0 ≤ displ c j := by
  rw [← displ_succ c i hj]
  exact displ_mono c hi

theorem displ_add_le_sum (c : List Nat) {i : Nat} (hi : i < c.length) :
    displ c i + c.getD i 0 ≤ c.sum := by
  rw [← displ_length c, ← displ_succ c i hi]
  exact displ_mono c hi

/-- Two ranks whose blocks `[δ_i, δ_i + c_i)` share a cell are the same rank. -/
theorem displ_block_unique (c : List Nat) {i k q : Nat} (hi : i < c.length)
    (hk : k < c.length) (h1 : displ c i ≤ q) (h2 : q < displ c i + c.getD i 0)
    (h3 : displ c k ≤ q) (h4 : q < displ c k + c.getD k 0) : i = k := by
  rcases Nat.lt_trichotomy i k with h | h | h
  · have := displ_add_le c h hi; omega
  · exact h
  · have := displ_add_le c h hk; omega

/-- Every cell below the total count lies in the block of some rank. -/
theorem displ_block_exists (c : List Nat) {q : Nat} (hq : q < c.sum) :
    ∃ i, i < c.length ∧ displ c i ≤ q ∧ q < displ c i + c.getD i 0 := by
  have key : ∀ n, n ≤ c.length → q < displ c n →
      ∃ i, i < c.length ∧ displ c i ≤ q ∧ q < displ c i + c.getD i 0 := by
    intro n
    induction n with
    | zero => intro _ h; simp [displ] at h
    | succ n ih =>
      intro hn h
      by_cases hlt : q < displ c n
      · exact ih (by omega) hlt
      · refine ⟨n, by omega, by omega, ?_⟩
        rw [← displ_succ c n (by omega)]; exact h
  exact key c.length le_rfl (by rw [displ_length]; exact hq)

theorem scaled_count (c : List Nat) (r i : Nat) (hi : i < c.length) :
    scaleCounts (countsArray c) c.length r i = c.getD i 0 * r := by
  unfold scaleCounts countsArray
  rw [if_pos (by omega), if_pos hi]

theorem scaled_displ (c : List Nat) (r i : Nat) (hi : i < c.length) :
    scaleCounts (countsArray c) c.length r (c.length + i) = displ c i * r := by
  unfold scaleCounts countsArray
  rw [if_pos (by omega), if_neg (by omega)]
  congr 2; omega

theorem scaled_total (c : List Nat) (r : Nat) (hP : 1 ≤ c.length) :
    scaleCounts (countsArray c) c.length r (c.length - 1)
      + scaleCounts (countsArray c) c.length r (2 * c.length - 1) = c.sum * r := by
  have e : 2 * c.length - 1 = c.length + (c.length - 1) := by omega
  rw [e, scaled_count c r _ (by omega), scaled_displ c r _ (by omega), ← Nat.add_mul]
  congr 1
  rw [Nat.add_comm, ← displ_length c]
  have := displ_succ c (c.length - 1) (by omega)
  rw [← this]; congr 1; omega

theorem mul_block_unique {C j k q : Nat} (h1 : j * C ≤ q) (h2 : q < j * C + C)
    (h3 : k * C ≤ q) (h4 : q < k * C + C) : j = k := by
  rcases Nat.lt_trichotomy j k with h | h | h
  · have := Nat.mul_le_mul_right C (Nat.succ_le_of_lt h)
    rw [Nat.succ_mul] at this; omega
  · exact h
  · have := Nat.mul_le_mul_right C (Nat.succ_le_of_lt h)
    rw [Nat.succ_mul] at this; omega

end PermuteLemmas

section PermuteLayout

variable {α : Type}

/-- The fine-to-coarse double loop puts the cell of rank `i`, right-hand side `j`, local
index `l` at position `j * C + δ_i + l` of the auxiliary buffer. -/
theorem permuteLoopF_val (c : List Nat) (r : Nat) (ab ba0 : Nat → α) {i j l : Nat}
    (hi : i < c.length) (hj : j < r) (hl : l < c.getD i 0) :
    permuteLoopF (scaleCounts (countsArray c) c.length r) c.length r ab ba0
        (j * c.sum + displ c i + l) = ab (r * displ c i + j * c.getD i 0 + l) := by
  have hr : 0 < r := by omega
  have hP : 1 ≤ c.length := by omega
  unfold permuteLoopF
  rw [scaled_total c r hP, Nat.mul_div_cancel _ hr]
  apply foldl2_copy_val ab
    (fun i j => scaleCounts (countsArray c) c.length r (c.length + i)
      + j * (scaleCounts (countsArray c) c.length r i / r))
    (fun i _ => scaleCounts (countsArray c) c.length r i / r)
    (fun i j => scaleCounts (countsArray c) c.length r (c.length + i) / r + j * c.sum)
  · intro i' hi' j' hj' h1 h2
    have hi' : i' < c.length := List.mem_range.1 hi'
    simp only [scaled_count c r _ hi', scaled_displ c r _ hi', Nat.mul_div_cancel _ hr]
      at h1 h2 ⊢
    have b1 := displ_add_le_sum c hi
    have b2 := displ_add_le_sum c hi'
    have ej : j' = j := mul_block_unique (C := c.sum) (q := j * c.sum + displ c i + l)
      (by omega) (by omega) (by omega) (by omega)
    subst ej
    have ei : i' = i := displ_block_unique c (q := displ c i + l) hi' hi
      (by omega) (by omega) (by omega) (by omega)
    subst ei
    congr 1
    rw [Nat.mul_comm (displ c i') r]
    omega
  · left
    refine ⟨i, List.mem_range.2 hi, j, List.mem_range.2 hj, ?_⟩
    simp only [scaled_count c r _ hi, scaled_displ c r _ hi, Nat.mul_div_cancel _ hr]
    omega

/-- The coarse-to-fine double loop puts the cell at position `j * C + δ_i + l` back at
position `r * δ_i + j * c_i + l` of the auxiliary buffer. -/
theorem permuteLoopT_val (c : List Nat) (r : Nat) (ab ba0 : Nat → α) {i j l : Nat}
    (hi : i < c.length) (hj : j < r) (hl : l < c.getD i 0) :
    permuteLoopT (scaleCounts (countsArray c) c.length r) c.length r ab ba0
        (r * displ c i + j * c.getD i 0 + l) = ab (j * c.sum + displ c i + l) := by
  have hr : 0 < r := by omega
  have hP : 1 ≤ c.length := by omega
  unfold permuteLoopT
  rw [scaled_total c r hP, Nat.mul_div_cancel _ hr]
  apply foldl2_copy_val ab
    (fun j i => scaleCounts (countsArray c) c.length r (c.length + i) / r + j * c.sum)
    (fun _ i => scaleCounts (countsArray c) c.length r i / r)
    (fun j i => scaleCounts (countsArray c) c.length r (c.length + i)
      + j * (scaleCounts (countsArray c) c.length r i / r))
  · intro j' hj' i' hi' h1 h2
    have hi' : i' < c.length := List.mem_range.1 hi'
    have hj' : j' < r := List.mem_range.1 hj'
    simp only [scaled_count c r _ hi', scaled_displ c r _ hi', Nat.mul_div_cancel _ hr]
      at h1 h2 ⊢
    have m1 : j' * c.getD i' 0 + c.getD i' 0 ≤ r * c.getD i' 0 := by
      have := Nat.mul_le_mul_right (c.getD i' 0) (Nat.succ_le_of_lt hj')
      rw [Nat.succ_mul] at this; exact this
    have m2 : j * c.getD i 0 + c.getD i 0 ≤ r * c.getD i 0 := by
      have := Nat.mul_le_mul_right (c.getD i 0) (Nat.succ_le_of_lt hj)
      rw [Nat.succ_mul] at this; exact this
    have d1 : r * (displ c i' + c.getD i' 0) = displ c i' * r + r * c.getD i' 0 := by ring
    have d2 : r * (displ c i + c.getD i 0) = r * displ c i + r * c.getD i 0 := by ring
    have ei : i' = i := by
      rcases Nat.lt_trichotomy i' i with h | h | h
      · have := Nat.mul_le_mul_left r (displ_add_le c h hi')
        omega
      · exact h
      · have := Nat.mul_le_mul_left r (displ_add_le c h hi)
        have e3 : r * displ c i' = displ c i' * r := Nat.mul_comm _ _
        omega
    subst ei
    have e3 : r * displ c i' = displ c i' * r := Nat.mul_comm _ _
    have ej : j' = j := mul_block_unique (C := c.getD i' 0) (q := j * c.getD i' 0 + l)
      (by omega) (by omega) (by omega) (by omega)
    subst ej
    congr 1
    omega
  · left
    refine ⟨j, List.mem_range.2 hj, i, List.mem_range.2 hi, ?_⟩
    simp only [scaled_count c r _ hi, scaled_displ c r _ hi, Nat.mul_div_cancel _ hr]
    have e3 : r * displ c i = displ c i * r := Nat.mul_comm _ _
    omega

theorem block_lt_total (c : List Nat) (r : Nat) {i j l : Nat}
    (hi : i < c.length) (hj : j < r) (hl : l < c.getD i 0) :
    j * c.sum + displ c i + l < c.sum * r ∧ r * displ c i + j * c.getD i 0 + l < c.sum * r := by
  have b1 := displ_add_le_sum c hi
  have m1 : j * c.sum + c.sum ≤ c.sum * r := by
    have := Nat.mul_le_mul_right c.sum (Nat.succ_le_of_lt hj)
    rw [Nat.succ_mul, Nat.mul_comm r] at this; exact this
  have m2 : j * c.getD i 0 + c.getD i 0 ≤ r * c.getD i 0 := by
    have := Nat.mul_le_mul_right (c.getD i 0) (Nat.succ_le_of_lt hj)
    rw [Nat.succ_mul] at this; exact this
  have m3 : r * (displ c i + c.getD i 0) ≤ r * c.sum := Nat.mul_le_mul_left r b1
  have d2 : r * (displ c i + c.getD i 0) = r * displ c i + r * c.getD i 0 := by ring
  have e4 : r * c.sum = c.sum * r := Nat.mul_comm _ _
  constructor <;> omega

end PermuteLayout

section PermuteClaims

variable {α : Type}

theorem permute_false_val (c : List Nat) (r : Nat) (ab ba0 : Nat → α) {i j l : Nat}
    (hP : c.length ≠ 1) (hr : r ≠ 1) (hi : i < c.length) (hj : j < r)
    (hl : l < c.getD i 0) :
    permute false (scaleCounts (countsArray c) c.length r) c.length r ab ba0
        (j * c.sum + displ c i + l) = ab (r * displ c i + j * c.getD i 0 + l) := by
  unfold permute
  rw [if_pos ⟨hP, hr⟩]
  simp only [Bool.false_eq_true, if_false, Bool.not_false, if_true]
  rw [scaled_total c r (by omega), copy_n_apply,
    if_pos ⟨Nat.zero_le _, by have := (block_lt_total c r hi hj hl).1; omega⟩]
  simp only [Nat.zero_add, Nat.sub_zero]
  exact permuteLoopF_val c r ab ba0 hi hj hl

theorem permute_true_val (c : List Nat) (r : Nat) (ab ba0 : Nat → α) {i j l : Nat}
    (hP : c.length ≠ 1) (hr : r ≠ 1) (hi : i < c.length) (hj : j < r)
    (hl : l < c.getD i 0) :
    permute true (scaleCounts (countsArray c) c.length r) r c.length ab ba0
        (r * displ c i + j * c.getD i 0 + l) = ab (j * c.sum + displ c i + l) := by
  unfold permute
  rw [if_pos ⟨hr, hP⟩]
  simp only [if_true, Bool.not_true, Bool.false_eq_true, if_false]
  rw [scaled_total c r (by omega), copy_n_apply,
    if_pos ⟨Nat.zero_le _, by have := (block_lt_total c r hi hj hl).2; omega⟩]
  simp only [Nat.zero_add, Nat.sub_zero]
  exact permuteLoopT_val c r ab ba0 hi hj hl

theorem permute_false_outside (c : List Nat) (r : Nat) (ab ba0 : Nat → α) {p : Nat}
    (hP : 1 ≤ c.length) (hp : c.sum * r ≤ p) :
    permute false (scaleCounts (countsArray c) c.length r) c.length r ab ba0 p = ab p := by
  unfold permute
  by_cases h : c.length ≠ 1 ∧ r ≠ 1
  · rw [if_pos h]
    simp only [Bool.false_eq_true, if_false]
    rw [scaled_total c r hP, copy_n_apply, if_neg (by omega)]
  · rw [if_neg h]

theorem permute_true_outside (c : List Nat) (r : Nat) (ab ba0 : Nat → α) {p : Nat}
    (hP : 1 ≤ c.length) (hp : c.sum * r ≤ p) :
    permute true (scaleCounts (countsArray c) c.length r) r c.length ab ba0 p = ab p := by
  unfold permute
  by_cases h : r ≠ 1 ∧ c.length ≠ 1
  · rw [if_pos h]
    simp only [if_true]
    rw [scaled_total c r hP, copy_n_apply, if_neg (by omega)]
  · rw [if_neg h]

/-- Every cell below `r * C` is the cell of a unique rank, right-hand side and local index
in the rank-major layout. -/
theorem rank_major_decomp (c : List Nat) (r : Nat) {p : Nat} (hp : p < c.sum * r) :
    ∃ i j l, i < c.length ∧ j < r ∧ l < c.getD i 0 ∧
      p = r * displ c i + j * c.getD i 0 + l := by
  have hr : 0 < r := by
    rcases Nat.eq_zero_or_pos r with h | h
    · subst h; simp at hp
    · exact h
  have hq : p / r < c.sum := (Nat.div_lt_iff_lt_mul hr).2 hp
  obtain ⟨i, hi, h1, h2⟩ := displ_block_exists c hq
  have h3 : r * displ c i ≤ p := by
    have := (Nat.le_div_iff_mul_le hr).1 h1
    rw [Nat.mul_comm]; exact this
  have h4 : p < r * displ c i + r * c.getD i 0 := by
    have := (Nat.div_lt_iff_lt_mul hr).1 h2
    rw [Nat.mul_comm, Nat.mul_add] at this; exact this
  have hc : 0 < c.getD i 0 := by
    rcases Nat.eq_zero_or_pos (c.getD i 0) with h | h
    · rw [h] at h4; omega
    · exact h
  refine ⟨i, (p - r * displ c i) / c.getD i 0, (p - r * displ c i) % c.getD i 0, hi, ?_,
    Nat.mod_lt _ hc, ?_⟩
  · exact (Nat.div_lt_iff_lt_mul hc).2 (by omega)
  · have := Nat.div_add_mod (p - r * displ c i) (c.getD i 0)
    rw [Nat.mul_comm] at this
    omega

/-- C8 (layout produced by permute).  With `P = c.length` ranks, counts `c_i`,
displacements `δ_i = displ c i`, `C = c.sum` and `r` right-hand sides, both `P` and `r`
different from 1, `permute<false>` moves the cell of rank `i`, right-hand side `j`, local
index `l` from position `r * δ_i + j * c_i + l` to position `j * C + δ_i + l`, and
`permute<true>` moves it back from `j * C + δ_i + l` to `r * δ_i + j * c_i + l`. -/
theorem permute_layout (c : List Nat) (r : Nat) (ab ba0 : Nat → α) (i j l : Nat)
    (hP : c.length ≠ 1) (hr : r ≠ 1) (hi : i < c.length) (hj : j < r)
    (hl : l < c.getD i 0) :
    permute false (scaleCounts (countsArray c) c.length r) c.length r ab ba0
        (j * c.sum + displ c i + l) = ab (r * displ c i + j * c.getD i 0 + l)
    ∧ permute true (scaleCounts (countsArray c) c.length r) r c.length ab ba0
        (r * displ c i + j * c.getD i 0 + l) = ab (j * c.sum + displ c i + l) :=
  ⟨permute_false_val c r ab ba0 hP hr hi hj hl, permute_true_val c r ab ba0 hP hr hi hj hl⟩

/-- Witness of C8: three ranks with counts 2, 1, 3 and two right-hand sides; the cell of
rank 2, right-hand side 1, local index 1 sits at offset 10 in the rank-major layout and at
offset 10 = 1 * 6 + 3 + 1 in the other one, rank 1 / right-hand side 1 / index 0 moves
between offsets 5 and 8. -/
theorem permute_layout_witness :
    ([2, 1, 3] : List Nat).length ≠ 1 ∧ (2 : Nat) ≠ 1 ∧
    (permute false (scaleCounts (countsArray [2, 1, 3]) 3 2) 3 2 (fun p => 100 + p)
        (fun _ => 0) (1 * 6 + 2 + 0) = 100 + (2 * 2 + 1 * 1 + 0)
     ∧ permute true (scaleCounts (countsArray [2, 1, 3]) 3 2) 2 3 (fun p => 100 + p)
        (fun _ => 0) (2 * 2 + 1 * 1 + 0) = 100 + (1 * 6 + 2 + 0)) :=
  ⟨by decide, by decide,
    permute_layout [2, 1, 3] 2 (fun p => 100 + p) (fun _ => 0) 1 1 0
      (by decide) (by decide) (by decide) (by decide) (by decide)⟩

/-- C1 (transfer round trip on the buffer).  For `P ≥ 1` ranks with counts `c`, prefix-sum
displacements and `r ≥ 1` right-hand sides, `permute<false>(counts, P, r, ab)` followed by
`permute<true>(counts, r, P, ab)` on the counts array already scaled by `r` restores every
cell of `ab`, whatever the initial contents of the two auxiliary buffers. -/
theorem permute_round_trip (c : List Nat) (r : Nat) (hP : 1 ≤ c.length) (_hr : 1 ≤ r)
    (ab ba0 ba1 : Nat → α) :
    permute true (scaleCounts (countsArray c) c.length r) r c.length
      (permute false (scaleCounts (countsArray c) c.length r) c.length r ab ba0) ba1 = ab := by
  funext p
  by_cases h1 : c.length ≠ 1 ∧ r ≠ 1
  · by_cases hp : p < c.sum * r
    · obtain ⟨i, j, l, hi, hj, hl, rfl⟩ := rank_major_decomp c r hp
      rw [permute_true_val c r _ ba1 h1.1 h1.2 hi hj hl,
        permute_false_val c r ab ba0 h1.1 h1.2 hi hj hl]
    · rw [permute_true_outside c r _ ba1 hP (Nat.le_of_not_lt hp),
        permute_false_outside c r ab ba0 hP (Nat.le_of_not_lt hp)]
  · have h2 : ¬ (r ≠ 1 ∧ c.length ≠ 1) := fun h => h1 ⟨h.2, h.1⟩
    unfold permute
    rw [if_neg h2, if_neg h1]

/-- Witness of C1: 4 ranks, 2 right-hand sides, 3 coarse degrees of freedom per rank. -/
theorem permute_round_trip_witness :
    permute true (scaleCounts (countsArray [3, 3, 3, 3]) 4 2) 2 4
      (permute false (scaleCounts (countsArray [3, 3, 3, 3]) 4 2) 4 2 (fun p => 7 * p + 1)
        (fun _ => 0)) (fun _ => 0) = (fun p => 7 * p + 1) :=
  permute_round_trip [3, 3, 3, 3] 2 (by decide) (by decide) (fun p => 7 * p + 1)
    (fun _ => 0) (fun _ => 0)

end PermuteClaims

section ConvergenceClaims

variable {R : Type} [LinearOrderedField R]

theorem foldl_mark_apply (f : Nat → Bool) (w : Int) (s : Int) (L : List Nat) (hL : L.Nodup)
    (conv : Nat → Int) (nu : Nat) :
    L.foldl (fun conv x => if conv x = s ∧ f x = true then Function.update conv x w else conv)
      conv nu = if nu ∈ L ∧ conv nu = s ∧ f nu = true then w else conv nu := by
  induction L generalizing conv with
  | nil => simp
  | cons x L ih =>
    rw [List.foldl_cons, ih (List.nodup_cons.1 hL).2]
    have hx : x ∉ L := (List.nodup_cons.1 hL).1
    by_cases hc : conv x = s ∧ f x = true
    · rw [if_pos hc]
      by_cases hnu : nu = x
      · subst hnu
        simp [hx, hc]
      · simp [Function.update_noteq hnu, hnu]
    · rw [if_neg hc]
      by_cases hnu : nu = x
      · subst hnu
        simp [hx, hc]
      · simp [hnu]

/-- Closed form of one call: a mark is rewritten exactly when it is `-sentinel` and the
test passes, and then receives `i` converted to `short`. -/
theorem checkConvergence_apply (i : Nat) (tol : R) (mu : Nat) (norm res : Nat → R)
    (conv : Nat → Int) (sentinel : Int) (nu : Nat) :
    checkConvergence i tol mu norm res conv sentinel nu
      = if nu < mu ∧ conv nu = -sentinel ∧ tolTest tol (norm nu) (res nu) = true
        then toShort i else conv nu := by
  unfold checkConvergence
  rw [foldl_mark_apply (fun nu => tolTest tol (norm nu) (res nu)) (toShort i) (-sentinel)
    (List.range mu) (List.nodup_range mu) conv nu]
  simp only [List.mem_range]

theorem toShort_of_le {i : Nat} (h : i ≤ 32767) : toShort (i : Int) = i := by
  unfold toShort; omega

/-- The tolerance test as a proposition: the relative branch needs a non-zero norm. -/
theorem tolTest_iff (tol norm res : R) :
    tolTest tol norm res = true ↔
      ((0 < tol ∧ norm ≠ 0 ∧ |res| / norm ≤ tol) ∨ (tol < 0 ∧ |res| ≤ -tol)) := by
  unfold tolTest; exact decide_eq_true_iff

/-- With a zero reference norm the test passes only through the absolute branch. -/
theorem tolTest_zero_norm (tol res : R) (h : 0 ≤ tol) : tolTest tol 0 res = false := by
  rw [Bool.eq_false_iff]
  intro ht
  rcases (tolTest_iff tol 0 res).1 ht with ⟨_, h0, _⟩ | ⟨h1, _⟩
  · exact h0 rfl
  · exact absurd h1 (not_lt.2 h)

/-- C2, as amended (single-call marking rule).  The tolerance test for `nu` is `tol > 0`
and `|res[nu]| / norm[nu] <= tol`, the quotient being the floating-point one (no number
for `norm[nu] = 0`, where the comparison is false), or `tol < 0` and `|res[nu]| <= -tol`.
For an iteration number `i` (at most `32767`), a right-hand side `nu < mu` and a mark
`conv[nu]` that is not already `i`: after the call `conv[nu]` equals `i` if and only if
`conv[nu]` was `-sentinel` before the call and the test holds for `nu`.  For every `nu`
and every `i`: unless `nu < mu`, `conv[nu]` was `-sentinel` and the test holds, `conv[nu]`
keeps its previous value; in particular it does for `tol = 0`. -/
theorem checkConvergence_mark (i : Nat) (tol : R) (mu : Nat) (norm res : Nat → R)
    (conv : Nat → Int) (sentinel : Int) (nu : Nat) :
    (i ≤ 32767 → nu < mu → conv nu ≠ i →
      (checkConvergence i tol mu norm res conv sentinel nu = i ↔
        (conv nu = -sentinel ∧
          ((0 < tol ∧ norm nu ≠ 0 ∧ |res nu| / norm nu ≤ tol) ∨
            (tol < 0 ∧ |res nu| ≤ -tol)))))
    ∧ (¬ (nu < mu ∧ conv nu = -sentinel ∧
        ((0 < tol ∧ norm nu ≠ 0 ∧ |res nu| / norm nu ≤ tol) ∨
          (tol < 0 ∧ |res nu| ≤ -tol))) →
      checkConvergence i tol mu norm res conv sentinel nu = conv nu)
    ∧ (tol = 0 → checkConvergence i tol mu norm res conv sentinel nu = conv nu) := by
  rw [checkConvergence_apply]
  have ht := tolTest_iff tol (norm nu) (res nu)
  refine ⟨?_, ?_, ?_⟩
  · intro hi hnu hne
    constructor
    · intro h
      by_cases hc : nu < mu ∧ conv nu = -sentinel ∧ tolTest tol (norm nu) (res nu) = true
      · exact ⟨hc.2.1, ht.1 hc.2.2⟩
      · rw [if_neg hc] at h; exact absurd h hne
    · intro h
      rw [if_pos ⟨hnu, h.1, ht.2 h.2⟩]
      exact toShort_of_le hi
  · intro h
    rw [if_neg]
    intro hc
    exact h ⟨hc.1, hc.2.1, ht.1 hc.2.2⟩
  · intro h0
    rw [if_neg]
    intro hc
    have := ht.1 hc.2.2
    subst h0
    rcases this with ⟨h1, _⟩ | ⟨h1, _⟩ <;> exact lt_irrefl _ h1

/-- Witness of C2 as amended: iteration 7, tolerance 1/2, residual 1/4 against norm 1, a
mark equal to `-sentinel = -40`. -/
theorem checkConvergence_mark_witness :
    (checkConvergence 7 (1 / 2 : ℚ) 2 (fun _ => 1) (fun _ => 1 / 4) (fun _ => -40) 40 1 = 7 ↔
      ((-40 : Int) = -40 ∧
        ((0 < (1 / 2 : ℚ) ∧ (1 : ℚ) ≠ 0 ∧ |(1 / 4 : ℚ)| / 1 ≤ 1 / 2) ∨
          ((1 / 2 : ℚ) < 0 ∧ |(1 / 4 : ℚ)| ≤ -(1 / 2))))) :=
  (checkConvergence_mark 7 (1 / 2 : ℚ) 2 (fun _ => 1) (fun _ => 1 / 4) (fun _ => -40) 40 1).1
    (by decide) (by decide) (by decide)

/-- Counterexample to C2 as stated: iteration `i = 3`, sentinel `1`, one right-hand side
whose mark is already `3` (not `-sentinel`).  After the call the mark equals `i` although
it was not `-sentinel` before the call. -/
theorem checkConvergence_mark_counterexample :
    checkConvergence 3 (1 : ℚ) 1 (fun _ => 1) (fun _ => 0) (fun _ => 3) 1 0 = 3
    ∧ ¬ (checkConvergence 3 (1 : ℚ) 1 (fun _ => 1) (fun _ => 0) (fun _ => 3) 1 0 = 3 ↔
        ((3 : Int) = -1 ∧
          ((0 < (1 : ℚ) ∧ (1 : ℚ) ≠ 0 ∧ |(0 : ℚ)| / 1 ≤ 1) ∨
            ((1 : ℚ) < 0 ∧ |(0 : ℚ)| ≤ -1)))) := by
  constructor
  · rw [checkConvergence_apply]
    norm_num [tolTest, toShort]
  · rw [checkConvergence_apply]
    norm_num [tolTest, toShort]

theorem checkConvergence_frozen (i : Nat) (tol : R) (mu : Nat) (norm res : Nat → R)
    (conv : Nat → Int) (sentinel : Int) (nu : Nat) (h : conv nu ≠ -sentinel) :
    checkConvergence i tol mu norm res conv sentinel nu = conv nu := by
  rw [checkConvergence_apply, if_neg]
  intro hc; exact h hc.2.1

theorem checkConvergence_passes (c : ConvCall R) (conv : Nat → Int) (sentinel : Int)
    (nu : Nat) (h : conv nu = -sentinel) :
    checkConvergence c.i c.tol c.mu c.norm c.res conv sentinel nu
      = if c.passes nu = true then toShort c.i else -sentinel := by
  rw [checkConvergence_apply]
  unfold ConvCall.passes
  by_cases h1 : nu < c.mu <;> by_cases h2 : tolTest c.tol (c.norm nu) (c.res nu) = true <;>
    simp [h, h1, h2]

theorem runCalls_cons (sentinel : Int) (c : ConvCall R) (calls : List (ConvCall R))
    (conv : Nat → Int) :
    runCalls sentinel (c :: calls) conv
      = runCalls sentinel calls (checkConvergence c.i c.tol c.mu c.norm c.res conv sentinel) :=
  rfl

theorem runCalls_append (sentinel : Int) (pre post : List (ConvCall R)) (conv : Nat → Int) :
    runCalls sentinel (pre ++ post) conv = runCalls sentinel post (runCalls sentinel pre conv) := by
  unfold runCalls; rw [List.foldl_append]

theorem runCalls_frozen (sentinel : Int) (calls : List (ConvCall R)) (conv : Nat → Int)
    (nu : Nat) (h : conv nu ≠ -sentinel) : runCalls sentinel calls conv nu = conv nu := by
  induction calls generalizing conv with
  | nil => rfl
  | cons c calls ih =>
    rw [runCalls_cons, ih _ (by rw [checkConvergence_frozen _ _ _ _ _ _ _ _ h]; exact h),
      checkConvergence_frozen _ _ _ _ _ _ _ _ h]

theorem runCalls_active (sentinel : Int) (calls : List (ConvCall R)) (hs : 0 < sentinel)
    (hi : ∀ c ∈ calls, c.i ≤ 32767) (conv : Nat → Int) (nu : Nat)
    (h : conv nu = -sentinel) :
    runCalls sentinel calls conv nu
      = ((firstPass calls nu).map (fun i => (i : Int))).getD (-sentinel) := by
  induction calls generalizing conv with
  | nil => simpa [runCalls, firstPass] using h
  | cons c calls ih =>
    rw [runCalls_cons]
    have hc := checkConvergence_passes c conv sentinel nu h
    by_cases hp : c.passes nu = true
    · rw [if_pos hp, toShort_of_le (hi c (List.mem_cons_self _ _))] at hc
      rw [runCalls_frozen sentinel calls _ nu (by rw [hc]; omega), hc]
      simp [firstPass, List.find?_cons, hp]
    · rw [if_neg hp] at hc
      rw [ih (fun c' hc' => hi c' (List.mem_cons_of_mem _ hc')) _ hc]
      simp [firstPass, List.find?_cons, hp]

theorem activeCount_step (sentinel : Int) (c : ConvCall R) (conv : Nat → Int) (N : Nat) :
    activeCount sentinel N (checkConvergence c.i c.tol c.mu c.norm c.res conv sentinel)
      ≤ activeCount sentinel N conv := by
  unfold activeCount
  apply List.Sublist.length_le
  apply List.monotone_filter_right
  intro nu hnu
  have hnu := of_decide_eq_true hnu
  apply decide_eq_true
  by_contra hne
  rw [checkConvergence_frozen _ _ _ _ _ _ _ _ hne] at hnu
  exact hne hnu

/-- C3 (frozen marks across a solve).  For a sequence of `checkConvergence` calls with one
sentinel `> 0` and iteration numbers in `[0, 32767]`, starting from `conv[nu] = -sentinel`
for all `nu`: each mark ends equal to the iteration number of the first call at which its
test passed, or stays `-sentinel` if none passed; a mark different from `-sentinel` after
a prefix of the calls is never rewritten by the later calls; and the number of right-hand
sides still equal to `-sentinel` does not increase from one call to the next. -/
theorem convergence_marks_frozen (sentinel : Int) (calls : List (ConvCall R))
    (hs : 0 < sentinel) (hi : ∀ c ∈ calls, c.i ≤ 32767) :
    (∀ nu, runCalls sentinel calls (fun _ => -sentinel) nu
      = ((firstPass calls nu).map (fun i => (i : Int))).getD (-sentinel))
    ∧ (∀ pre post nu, calls = pre ++ post →
        runCalls sentinel pre (fun _ => -sentinel) nu ≠ -sentinel →
        runCalls sentinel calls (fun _ => -sentinel) nu
          = runCalls sentinel pre (fun _ => -sentinel) nu)
    ∧ (∀ pre c post N, calls = pre ++ c :: post →
        activeCount sentinel N (runCalls sentinel (pre ++ [c]) (fun _ => -sentinel))
          ≤ activeCount sentinel N (runCalls sentinel pre (fun _ => -sentinel))) := by
  refine ⟨?_, ?_, ?_⟩
  · intro nu
    exact runCalls_active sentinel calls hs hi _ nu rfl
  · intro pre post nu he h
    subst he
    rw [runCalls_append]
    exact runCalls_frozen sentinel post _ nu h
  · intro pre c post N he
    subst he
    rw [runCalls_append]
    exact activeCount_step sentinel c _ N

/-- Witness of C3: three calls at iterations 1, 2, 3 with tolerance 1/2 on two right-hand
sides; the second right-hand side passes at iterations 2 and 3. -/
theorem convergence_marks_frozen_witness :
    runCalls 40
      [⟨1, (1 / 2 : ℚ), 2, fun _ => 1, fun _ => 1⟩,
       ⟨2, (1 / 2 : ℚ), 2, fun _ => 1, fun nu => if nu = 1 then 1 / 4 else 1⟩,
       ⟨3, (1 / 2 : ℚ), 2, fun _ => 1, fun nu => if nu = 1 then 1 / 8 else 1⟩]
      (fun _ => -40) 1
    = ((firstPass
      [⟨1, (1 / 2 : ℚ), 2, fun _ => 1, fun _ => 1⟩,
       ⟨2, (1 / 2 : ℚ), 2, fun _ => 1, fun nu => if nu = 1 then 1 / 4 else 1⟩,
       ⟨3, (1 / 2 : ℚ), 2, fun _ => 1, fun nu => if nu = 1 then 1 / 8 else 1⟩] 1).map
        (fun i => (i : Int))).getD (-40) :=
  (convergence_marks_frozen 40 _ (by decide)
    (by
      intro c hc
      simp only [List.mem_cons, List.mem_singleton, List.not_mem_nil, or_false] at hc
      rcases hc with rfl | rfl | rfl <;> decide)).1 1

end ConvergenceClaims

section CommunicatorClaims

/-- Number of non-zero entries of a count vector. -/
theorem countP_ne_zero_add_count (pt : List Nat) :
    pt.countP (fun nu => decide (nu ≠ 0)) + pt.count 0 = pt.length := by
  induction pt with
  | nil => rfl
  | cons x pt ih =>
    rw [List.countP_cons, List.count_cons, List.length_cons]
    by_cases hx : x = 0
    · have h1 : decide (x ≠ 0) = false := by simp [hx]
      have h2 : (x == 0) = true := by simp [hx]
      rw [h1, h2]; simp only [Bool.false_eq_true, if_false, if_true]; omega
    · have h1 : decide (x ≠ 0) = true := by simp [hx]
      have h2 : (x == 0) = false := by simp [hx]
      rw [h1, h2]; simp only [Bool.false_eq_true, if_false, if_true]; omega

/-- The rank loop terminates within `size - i` iterations without reading past the end of
`pt`, as long as the non-zero entries still to come are exactly the free slots of `array`. -/
theorem rankLoop_some (countMasters : Bool) (ldistribution : Nat → Nat) (pt : List Nat)
    (sizeComm : Nat) (fuel i j k : Nat) (array : List Int)
    (hfuel : pt.length - i ≤ fuel)
    (hinv : (pt.drop i).countP (fun nu => decide (nu ≠ 0)) + j = sizeComm)
    (hlen : array.length = sizeComm) :
    ∃ ranks, rankLoop countMasters ldistribution pt sizeComm fuel i j k array = some ranks
      ∧ ranks.length = sizeComm := by
  induction fuel generalizing i j k array with
  | zero =>
    have hi : pt.length ≤ i := by omega
    rw [List.drop_eq_nil_of_le hi] at hinv
    simp only [List.countP_nil, Nat.zero_add] at hinv
    refine ⟨array, ?_, hlen⟩
    unfold rankLoop
    rw [if_neg (by omega)]
  | succ fuel ih =>
    unfold rankLoop
    by_cases hj : j < sizeComm
    · rw [if_pos hj]
      have hi : i < pt.length := by
        by_contra hcon
        rw [List.drop_eq_nil_of_le (by omega)] at hinv
        simp only [List.countP_nil, Nat.zero_add] at hinv
        omega
      have hd : pt.drop i = pt[i] :: pt.drop (i + 1) := List.drop_eq_getElem_cons hi
      rw [List.get?_eq_get hi]
      simp only [List.get_eq_getElem]
      rw [hd, List.countP_cons] at hinv
      by_cases hv : pt[i] ≠ 0
      · rw [if_pos hv]
        rw [if_pos (decide_eq_true hv)] at hinv
        apply ih
        · omega
        · omega
        · rw [List.length_set]; exact hlen
      · rw [if_neg hv]
        rw [if_neg (by simpa using hv), Nat.add_zero] at hinv
        split
        · apply ih _ _ _ _ (by omega) hinv hlen
        · apply ih _ _ _ _ (by omega) hinv hlen
    · rw [if_neg hj]
      exact ⟨array, rfl, hlen⟩

/-- C7, as amended (communicator restructuring size).  For a count vector `pt` over
`N = pt.length` ranks in which the set `S` of zero-count ranks is non-empty, and a non-null
input communicator, the group-inclusion call is issued, and its rank list has exactly
`N - |S|` entries when rank 0 has a non-zero count and `N - |S| + 1` entries when rank 0 has
count zero (rank 0 is always kept). -/
theorem group_incl_size (countMasters : Bool) (ldistribution : Nat → Nat) (pt : List Nat)
    (hasOut tmpNull : Bool) (junk : Int) (hS : 0 < pt.count 0) :
    ∃ ranks rest,
      constructionCommunicatorCollective countMasters ldistribution pt false hasOut tmpNull junk
        = some (MpiCall.groupIncl
            (pt.length - pt.count 0 + (if pt.head? = some 0 then 1 else 0)) ranks :: rest)
      ∧ ranks.length = pt.length - pt.count 0 + (if pt.head? = some 0 then 1 else 0) := by
  have hcnt := countP_ne_zero_add_count pt
  have hne : pt.countP (fun nu => decide (nu ≠ 0)) ≠ pt.length := by omega
  have hnz : pt.countP (fun nu => decide (nu ≠ 0)) = pt.length - pt.count 0 := by omega
  unfold constructionCommunicatorCollective
  simp only [hne, ne_eq, not_false_eq_true, and_self, if_true]
  rw [hnz]
  have hsize : (if pt.head? = some 0 then pt.length - pt.count 0 + 1
      else pt.length - pt.count 0)
      = pt.length - pt.count 0 + (if pt.head? = some 0 then 1 else 0) := by
    split <;> rfl
  rw [hsize]
  obtain ⟨ranks, hr, hl⟩ := rankLoop_some countMasters ldistribution pt
    (pt.length - pt.count 0 + (if pt.head? = some 0 then 1 else 0)) pt.length 1 1 0
    ((List.replicate (pt.length - pt.count 0 + (if pt.head? = some 0 then 1 else 0)) junk).set
      0 0)
    (by omega)
    (by
      cases pt with
      | nil => simp at hS
      | cons x tl =>
        rw [← hnz]
        simp only [List.drop_succ_cons, List.drop_zero, List.head?_cons, List.countP_cons,
          Option.some.injEq]
        by_cases hx : x = 0 <;> simp [hx])
    (by rw [List.length_set, List.length_replicate])
  rw [hr]
  exact ⟨ranks, _, rfl, hl⟩

/-- Witness of C7 as amended: four ranks, ranks 1 and 3 with count zero. -/
theorem group_incl_size_witness :
    ∃ ranks rest,
      constructionCommunicatorCollective false (fun _ => 0) [2, 0, 5, 0] false false false 0
        = some (MpiCall.groupIncl
            ([2, 0, 5, 0].length - [2, 0, 5, 0].count 0
              + (if [2, 0, 5, 0].head? = some 0 then 1 else 0)) ranks :: rest)
      ∧ ranks.length = [2, 0, 5, 0].length - [2, 0, 5, 0].count 0
          + (if [2, 0, 5, 0].head? = some 0 then 1 else 0) :=
  group_incl_size false (fun _ => 0) [2, 0, 5, 0] false false 0 (by decide)

/-- Counterexample to C7 as stated: with counts `[0, 5]` (`N = 2`, `S = {0}`) the rank
list passed to the group-inclusion call is `[0, 1]`, two entries and not `N - |S| = 1`. -/
theorem group_incl_size_counterexample :
    constructionCommunicatorCollective false (fun _ => 0) [0, 5] false false false 0
      = some [MpiCall.groupIncl 2 [0, 1], MpiCall.commCreateTmp, MpiCall.commFreeIn,
          MpiCall.commDupTmp, MpiCall.commFreeTmp]
    ∧ ([0, 5] : List Nat).length - ([0, 5] : List Nat).count 0 = 1 := by
  constructor
  · rfl
  · decide

/-- C9 (matched teardown in the destructor).  When the runtime is not finalized, each
distinct non-null communicator among the gather and scatter communicators is freed exactly
once, nothing else is freed (so a single free when the two are identical, none when both
are null), and both fields end null; when the runtime is already finalized no library call
is issued, the fields are left alone and the diagnostic is written. -/
theorem destructor_matched (commNull : Nat) (isFinalized : Int) (s : Comms) :
    (isFinalized = 0 →
      (∀ c, c ≠ commNull → (c = s.gatherComm ∨ c = s.scatterComm) →
        (destructor commNull isFinalized s).2.1.count (MpiCall.commFree c) = 1)
      ∧ (∀ call ∈ (destructor commNull isFinalized s).2.1, ∃ c, call = MpiCall.commFree c
          ∧ c ≠ commNull ∧ (c = s.gatherComm ∨ c = s.scatterComm))
      ∧ (s.gatherComm = s.scatterComm → s.gatherComm ≠ commNull →
          (destructor commNull isFinalized s).2.1 = [MpiCall.commFree s.gatherComm])
      ∧ (s.gatherComm = commNull → s.scatterComm = commNull →
          (destructor commNull isFinalized s).2.1 = [])
      ∧ (destructor commNull isFinalized s).1 = ⟨commNull, commNull⟩
      ∧ (destructor commNull isFinalized s).2.2 = false)
    ∧ (isFinalized ≠ 0 →
      (destructor commNull isFinalized s).2.1 = []
      ∧ (destructor commNull isFinalized s).1 = s
      ∧ (destructor commNull isFinalized s).2.2 = true) := by
  obtain ⟨g, sc⟩ := s
  constructor
  · intro h0
    subst h0
    simp only [destructor, ne_eq, not_true_eq_false, if_false]
    by_cases h1 : g = sc <;> by_cases h2 : g = commNull <;> by_cases h3 : sc = commNull
    all_goals simp_all [List.count_cons, List.count_nil]
  · intro h
    simp [destructor, h]

/-- Witness of C9: distinct non-null communicators 3 and 4 (null handle 0), runtime not
finalized; both are freed, gather first. -/
theorem destructor_matched_witness :
    (destructor 0 0 ⟨3, 4⟩).2.1 = [MpiCall.commFree 3, MpiCall.commFree 4]
    ∧ (destructor 0 0 ⟨3, 4⟩).1 = ⟨0, 0⟩ ∧ (destructor 0 0 ⟨3, 3⟩).2.1 = [MpiCall.commFree 3]
    ∧ (destructor 0 1 ⟨3, 4⟩).2.1 = [] := by
  have h := destructor_matched 0 0 ⟨3, 3⟩
  exact ⟨rfl, rfl, (h.1 rfl).2.2.1 rfl (by decide), rfl⟩

end CommunicatorClaims


section OptionsClaims

variable {R : Type} [LinearOrderedField R]

theorem ite_update_ne {α : Type} (c : Prop) [Decidable c] (f : Nat → α) (k j : Nat) (x : α)
    (h : j ≠ k) : (if c then Function.update f k x else f) j = f j := by
  split
  · exact Function.update_noteq h _ _
  · rfl

omit [LinearOrderedField R] in
theorem optionsD_zero (T : Nat) (o : OptionValues R) (d0 : Nat → R) :
    optionsD T o d0 0 = o.tol := by
  unfold optionsD
  rw [ite_update_ne _ _ 1 0 _ (by decide), Function.update_same]

omit [LinearOrderedField R] in
theorem optionsId_zero (T : Nat) (o : OptionValues R) (id0 : Nat → Int) :
    optionsId T o id0 0 = o.verbosity := by
  unfold optionsId
  have hk : (0 : Nat) ≠ 1 + (if T = 0 then 1 else 0) := by split <;> decide
  rw [ite_update_ne _ _ 4 0 _ (by decide), ite_update_ne _ _ 3 0 _ (by decide),
    ite_update_ne _ _ 2 0 _ (by decide), ite_update_ne _ _ _ 0 _ hk,
    ite_update_ne _ _ 1 0 _ (by decide), Function.update_same]

/-- C10 (tolerance floor in `options`).  For every method `T`, when the magnitude of the
configured tolerance is below the machine epsilon, `options` stores exactly `4 * eps` in
`d[0]` and prints the warning exactly when the verbosity is non-zero; otherwise it stores
the configured tolerance unchanged and prints no warning.  The function is total. -/
theorem options_tolerance_floor (T : Nat) (eps : R) (o : OptionValues R)
    (init : OptionsOut R) :
    (|o.tol| < eps →
      (options T eps o init).d 0 = 4 * eps
      ∧ ((options T eps o init).warned = true ↔ o.verbosity ≠ 0))
    ∧ (¬ |o.tol| < eps →
      (options T eps o init).d 0 = o.tol ∧ (options T eps o init).warned = false) := by
  constructor
  · intro h
    unfold options
    simp only [optionsD_zero, optionsId_zero, if_pos h, Function.update_same,
      decide_eq_true_eq, and_self]
  · intro h
    unfold options
    simp only [optionsD_zero, if_neg h, and_self]

/-- Witness of C10: machine epsilon 1/1000, configured tolerance 1/10000, verbosity 1 for
CG (`T = 2`); the stored tolerance is 4/1000 and the warning is printed. -/
theorem options_tolerance_floor_witness :
    (options 2 (1 / 1000 : ℚ) ⟨1 / 10000, 100, 1, -1, 1, 40, 1, 0, 0, 0, 0, 0, 0⟩
        ⟨fun _ => 0, 0, fun _ => 0, fun _ => 0, false⟩).d 0 = 4 * (1 / 1000)
    ∧ ((options 2 (1 / 1000 : ℚ) ⟨1 / 10000, 100, 1, -1, 1, 40, 1, 0, 0, 0, 0, 0, 0⟩
        ⟨fun _ => 0, 0, fun _ => 0, fun _ => 0, false⟩).warned = true ↔ (1 : Int) ≠ 0) :=
  (options_tolerance_floor 2 (1 / 1000 : ℚ) ⟨1 / 10000, 100, 1, -1, 1, 40, 1, 0, 0, 0, 0, 0, 0⟩
    ⟨fun _ => 0, 0, fun _ => 0, fun _ => 0, false⟩).1 (by norm_num [abs_of_pos])

end OptionsClaims

open Finset

section KernelLemmas
variable {R : Type} [Field R]

/-- A left fold of point updates: a cell that some update hits, and to which every update
that hits it writes `w`, ends up holding `w`. -/
theorem foldl_update_val {α : Type} (pos : Nat → Nat) (val : Nat → α) (L : List Nat)
    (p : Nat) (w : α) (y : Nat → α)
    (hsame : ∀ a ∈ L, pos a = p → val a = w)
    (hhit : (∃ a ∈ L, pos a = p) ∨ y p = w) :
    L.foldl (fun y' a => Function.update y' (pos a) (val a)) y p = w := by
  induction L generalizing y with
  | nil =>
    rcases hhit with ⟨a, ha, _⟩ | h
    · simp at ha
    · simpa using h
  | cons a L ih =>
    rw [List.foldl_cons]
    apply ih
    · intro b hb; exact hsame b (List.mem_cons_of_mem _ hb)
    · by_cases hex : ∃ b ∈ L, pos b = p
      · exact Or.inl hex
      · right
        by_cases hp : pos a = p
        · rw [← hp, Function.update_same]; exact hsame a (List.mem_cons_self _ _) hp
        · rw [Function.update_noteq (Ne.symm hp)]
          rcases hhit with ⟨b, hb, hb'⟩ | h
          · rcases List.mem_cons.1 hb with rfl | hb
            · exact absurd hb' hp
            · exact absurd ⟨b, hb, hb'⟩ hex
          · exact h

/-- A loop in which iteration `nu` rewrites, cell by cell, exactly the cells `p` with
`key p = nu` that satisfy `cond`. -/
theorem foldl_keyed {α : Type} (F : Nat → (Nat → α) → (Nat → α)) (g : Nat → Nat → α → α)
    (key : Nat → Nat) (cond : Nat → Prop) [DecidablePred cond] (m : Nat) (v0 : Nat → α)
    (hF : ∀ nu, nu < m → ∀ v p,
      F nu v p = if key p = nu ∧ cond p then g nu p (v p) else v p)
    (p : Nat) :
    (List.range m).foldl (fun v nu => F nu v) v0 p
      = if key p < m ∧ cond p then g (key p) p (v0 p) else v0 p := by
  induction m with
  | zero => simp
  | succ m ih =>
    rw [List.range_succ, List.foldl_append, List.foldl_cons, List.foldl_nil,
      hF m (Nat.lt_succ_self m), ih (fun nu hnu => hF nu (Nat.lt_succ_of_lt hnu))]
    by_cases h1 : key p = m ∧ cond p
    · rw [if_pos h1, if_neg (by omega), if_pos ⟨by omega, h1.2⟩, h1.1]
    · rw [if_neg h1]
      by_cases h2 : key p < m ∧ cond p
      · rw [if_pos h2, if_pos ⟨by omega, h2.2⟩]
      · rw [if_neg h2, if_neg]
        rintro ⟨h3, h4⟩
        rcases Nat.lt_succ_iff_lt_or_eq.1 h3 with h5 | h5
        · exact h2 ⟨h5, h4⟩
        · exact h1 ⟨h5, h4⟩

theorem block_key {n nu p : Nat} : (nu * n ≤ p ∧ p < nu * n + n) ↔ (p / n = nu ∧ 0 < n) := by
  constructor
  · rintro ⟨h1, h2⟩
    have hn : 0 < n := by omega
    exact ⟨Nat.div_eq_of_lt_le h1 (by rw [Nat.succ_mul]; exact h2), hn⟩
  · rintro ⟨h1, h2⟩
    subst h1
    constructor
    · exact Nat.div_mul_le_self p n
    · have := Nat.lt_div_mul_add (a := p) h2
      exact this

theorem gemvT_apply (m n : Nat) (alpha : R) (A : Nat → R) (ao lda : Nat) (x : Nat → R)
    (xo : Nat) (beta : R) (y : Nat → R) (yo incy : Nat) (hyo : yo < incy) (p : Nat) :
    gemvT m n alpha A ao lda x xo beta y yo incy p
      = if p % incy = yo ∧ p / incy < n then
          alpha * (∑ j in range m, A (ao + (p / incy) * lda + j) * x (xo + j)) + beta * y p
        else y p := by
  unfold gemvT
  have hdiv : ∀ a, (yo + a * incy) / incy = a := by
    intro a
    rw [Nat.add_mul_div_right _ _ (by omega), Nat.div_eq_of_lt hyo, Nat.zero_add]
  have hmod : ∀ a, (yo + a * incy) % incy = yo := by
    intro a
    rw [Nat.add_mul_mod_self_right, Nat.mod_eq_of_lt hyo]
  by_cases h : p % incy = yo ∧ p / incy < n
  · rw [if_pos h]
    have hp : yo + (p / incy) * incy = p := by
      rw [← h.1, Nat.mul_comm]; exact Nat.mod_add_div p incy
    apply foldl_update_val (fun i => yo + i * incy)
    · intro a _ ha
      have : a = p / incy := by rw [← ha, hdiv]
      subst this
      simp only [hp]
    · left
      exact ⟨p / incy, List.mem_range.2 h.2, hp⟩
  · rw [if_neg h]
    apply foldl_update_val (fun i => yo + i * incy)
    · intro a ha hpa
      exfalso
      apply h
      rw [← hpa, hmod, hdiv]
      exact ⟨rfl, List.mem_range.1 ha⟩
    · right; rfl

end KernelLemmas
section OrthRankLemmas
variable {R : Type} [Field R]

theorem list_sum_map_finset_sum {ι : Type} (ws : List ι) (s : Finset Nat) (f : ι → Nat → R) :
    (ws.map (fun r => ∑ i in s, f r i)).sum = ∑ i in s, (ws.map (fun r => f r i)).sum := by
  induction ws with
  | nil => simp
  | cons r ws ih => simp [ih, Finset.sum_add_distrib]

theorem list_sum_map_sub {ι : Type} (ws : List ι) (f g : ι → R) :
    (ws.map (fun r => f r - g r)).sum = (ws.map f).sum - (ws.map g).sum := by
  induction ws with
  | nil => simp
  | cons r ws ih => simp [ih]; ring

theorem list_sum_map_mul_left {ι : Type} (ws : List ι) (c : R) (f : ι → R) :
    (ws.map (fun r => c * f r)).sum = c * (ws.map f).sum := by
  induction ws with
  | nil => simp
  | cons r ws ih => simp [ih, mul_add]

theorem scaled_fst_apply (mu : Nat) (r : OrthRank R) {nu j : Nat} (hnu : nu < mu)
    (hj : j < r.n) :
    (scaled mu r).1 (nu * r.n + j) = r.weight j * r.v (nu * r.n + j) := by
  unfold scaled OrthRank.weight
  cases hd : r.d with
  | none => simp
  | some d =>
    simp only [diag]
    have h1 : nu * r.n + j < mu * r.n := by
      have := Nat.mul_le_mul_right r.n (Nat.succ_le_of_lt hnu)
      rw [Nat.succ_mul] at this; omega
    have h2 : (nu * r.n + j) % r.n = j := by
      rw [Nat.add_comm, Nat.add_mul_mod_self_right, Nat.mod_eq_of_lt hj]
    rw [if_pos h1, h2]

/-- What a process contributes to the all-reduce of the classical variant: its part of
the inner product of basis column `i` with `v`, zero on a process that does no local
work. -/
theorem cgsLocal_H (k mu : Nat) (r : OrthRank R) {i nu : Nat} (hi : i < k) (hnu : nu < mu) :
    (cgsLocal k mu (if r.excluded = true ∨ r.n = 0 then
        { r with H := fill_n r.H (k * mu) } else r)).H (nu + i * mu)
      = r.inner mu i nu r.v := by
  have hpos : nu + i * mu < k * mu := by
    have := Nat.mul_le_mul_right mu (Nat.succ_le_of_lt hi)
    rw [Nat.succ_mul] at this; omega
  by_cases hr : r.excluded = true ∨ r.n = 0
  · rw [if_pos hr]
    unfold cgsLocal
    rw [if_pos hr]
    simp only [fill_n, if_pos hpos]
    unfold OrthRank.inner
    rcases hr with h | h
    · rw [if_pos h]
    · split
      · rfl
      · rw [h]; simp
  · rw [if_neg hr]
    unfold cgsLocal
    rw [if_neg hr]
    simp only []
    rw [foldl_keyed (fun nu H => gemvT r.n k d__1 r.B (nu * r.n) (mu * r.n) (scaled mu r).1
        (nu * r.n) d__0 H nu mu)
      (fun nu p h => d__1 * (∑ j in range r.n,
        r.B (nu * r.n + (p / mu) * (mu * r.n) + j) * (scaled mu r).1 (nu * r.n + j)) + d__0 * h)
      (fun p => p % mu) (fun p => p / mu < k) mu r.H
      (fun nu' hnu' v p => by
        show gemvT r.n k d__1 r.B (nu' * r.n) (mu * r.n) (scaled mu r).1 (nu' * r.n) d__0 v
          nu' mu p = _
        rw [gemvT_apply _ _ _ _ _ _ _ _ _ _ _ _ hnu'])]
    have hmod : (nu + i * mu) % mu = nu := by
      rw [Nat.add_mul_mod_self_right, Nat.mod_eq_of_lt hnu]
    have hdiv : (nu + i * mu) / mu = i := by
      rw [Nat.add_mul_div_right _ _ (by omega), Nat.div_eq_of_lt hnu, Nat.zero_add]
    rw [if_pos ⟨by rw [hmod]; exact hnu, by rw [hdiv]; exact hi⟩, hmod, hdiv]
    unfold OrthRank.inner d__0 d__1
    rw [if_neg (by intro h; exact hr (Or.inl h))]
    simp only [one_mul, zero_mul, add_zero]
    apply Finset.sum_congr rfl
    intro j hj
    rw [scaled_fst_apply mu r hnu (Finset.mem_range.1 hj)]
    congr 2
    ring

end OrthRankLemmas

section OrthUpdate
variable {R : Type} [Field R]

theorem SameFrame.inner_eq {r1 r2 : OrthRank R} (h : SameFrame r1 r2) (mu l nu : Nat)
    (x : Nat → R) : r1.inner mu l nu x = r2.inner mu l nu x := by
  obtain ⟨h1, h2, h3, h4⟩ := h
  unfold OrthRank.inner OrthRank.weight
  rw [h1, h2, h3, h4]

theorem sameFrame_init (k mu : Nat) (r : OrthRank R) :
    SameFrame (if r.excluded = true ∨ r.n = 0 then { r with H := fill_n r.H (k * mu) } else r)
      r := by
  split <;> exact ⟨rfl, rfl, rfl, rfl⟩

theorem init_v (k mu : Nat) (r : OrthRank R) :
    (if r.excluded = true ∨ r.n = 0 then { r with H := fill_n r.H (k * mu) } else r).v
      = r.v := by
  split <;> rfl

theorem sameFrame_cgsLocal (k mu : Nat) (r : OrthRank R) : SameFrame (cgsLocal k mu r) r := by
  unfold cgsLocal; split <;> exact ⟨rfl, rfl, rfl, rfl⟩

theorem cgsLocal_v (k mu : Nat) (r : OrthRank R) : (cgsLocal k mu r).v = r.v := by
  unfold cgsLocal; split <;> rfl

end OrthUpdate

section OrthWorld
variable {R : Type} [Field R]

theorem innerBv_map (ws : List (OrthRank R)) (Ψ : OrthRank R → OrthRank R) (mu l nu : Nat) :
    innerBv (ws.map Ψ) mu l nu = (ws.map (fun r => (Ψ r).inner mu l nu (Ψ r).v)).sum := by
  unfold innerBv
  rw [List.map_map]
  rfl

theorem gramB_map (ws : List (OrthRank R)) (Ψ : OrthRank R → OrthRank R)
    (hΨ : ∀ r, SameFrame (Ψ r) r) (mu l l' nu : Nat) :
    gramB (ws.map Ψ) mu l l' nu = gramB ws mu l l' nu := by
  unfold gramB
  rw [List.map_map]
  congr 1
  apply List.map_congr_left
  intro r _
  show (Ψ r).inner mu l nu (fun p => (Ψ r).B (l' * mu * (Ψ r).n + p)) = _
  rw [(hΨ r).inner_eq, (hΨ r).2.1, (hΨ r).2.2.1]

theorem allreduceH_eq_map (off cnt : Nat) (ws : List (OrthRank R))
    (Ψ : OrthRank R → OrthRank R) :
    allreduceH off cnt (ws.map Ψ)
      = ws.map (fun r => { Ψ r with
          H := fun p => if off ≤ p ∧ p < off + cnt then (ws.map (fun r' => (Ψ r').H p)).sum
            else (Ψ r).H p }) := by
  unfold allreduceH
  rw [List.map_map]
  apply List.map_congr_left
  intro r _
  simp only [Function.comp_apply, List.map_map]
  rfl

end OrthWorld

section OrthModified
variable {R : Type} [Field R]

theorem sameFrame_mgsLocal (i mu : Nat) (r : OrthRank R) : SameFrame (mgsLocal i mu r) r := by
  unfold mgsLocal; split <;> exact ⟨rfl, rfl, rfl, rfl⟩

theorem mgsLocal_v (i mu : Nat) (r : OrthRank R) : (mgsLocal i mu r).v = r.v := by
  unfold mgsLocal; split <;> rfl

theorem sameFrame_mgsUpdate (i mu : Nat) (r : OrthRank R) :
    SameFrame (mgsUpdate i mu r) r := by
  unfold mgsUpdate; split <;> exact ⟨rfl, rfl, rfl, rfl⟩

theorem mgsLocal_idle (i mu : Nat) (r : OrthRank R) (hr : r.excluded = true ∨ r.n = 0) :
    mgsLocal i mu r = r := by
  unfold mgsLocal; rw [if_pos hr]

theorem mgsUpdate_idle (i mu : Nat) (r : OrthRank R) (hr : r.excluded = true ∨ r.n = 0) :
    mgsUpdate i mu r = r := by
  unfold mgsUpdate; rw [if_pos hr]

theorem mgsUpdate_H (i mu : Nat) (r : OrthRank R) : (mgsUpdate i mu r).H = r.H := by
  unfold mgsUpdate; split <;> rfl

/-- What a process contributes to the all-reduce of step `i` of the modified variant. -/
theorem mgsLocal_H (i mu : Nat) (r : OrthRank R) {nu : Nat} (hnu : nu < mu)
    (hz : (r.excluded = true ∨ r.n = 0) → r.H (i * mu + nu) = 0) :
    (mgsLocal i mu r).H (i * mu + nu) = r.inner mu i nu r.v := by
  by_cases hr : r.excluded = true ∨ r.n = 0
  · rw [mgsLocal_idle i mu r hr, hz hr]
    unfold OrthRank.inner
    rcases hr with h | h
    · rw [if_pos h]
    · split
      · rfl
      · rw [h]; simp
  · unfold mgsLocal
    rw [if_neg hr]
    simp only []
    rw [foldl_update_val (fun nu => i * mu + nu)
      (fun nu => dot r.n r.B ((i * mu + nu) * r.n) (scaled mu r).1 (nu * r.n))
      (List.range mu) (i * mu + nu)
      (dot r.n r.B ((i * mu + nu) * r.n) (scaled mu r).1 (nu * r.n)) r.H
      (fun a _ ha => by
        have ha' : i * mu + a = i * mu + nu := ha
        have : a = nu := by omega
        rw [this])
      (Or.inl ⟨nu, List.mem_range.2 hnu, rfl⟩)]
    unfold dot OrthRank.inner
    rw [if_neg (fun h => hr (Or.inl h))]
    apply Finset.sum_congr rfl
    intro j hj
    rw [scaled_fst_apply mu r hnu (Finset.mem_range.1 hj)]

/-- Effect of the projection of step `i` of the modified variant on the local part of the
inner products with the basis. -/
theorem mgsUpdate_inner (i mu : Nat) (r : OrthRank R) (l : Nat) {nu : Nat} (hnu : nu < mu) :
    (mgsUpdate i mu r).inner mu l nu (mgsUpdate i mu r).v
      = r.inner mu l nu r.v
        - r.H (i * mu + nu) * r.inner mu l nu (fun p => r.B (i * mu * r.n + p)) := by
  rw [(sameFrame_mgsUpdate i mu r).inner_eq]
  by_cases hr : r.excluded = true ∨ r.n = 0
  · have hz : ∀ x, r.inner mu l nu x = 0 := by
      intro x
      unfold OrthRank.inner
      rcases hr with h | h
      · rw [if_pos h]
      · split
        · rfl
        · rw [h]; simp
    simp [hz]
  · have hv : ∀ j, j < r.n → (mgsUpdate i mu r).v (nu * r.n + j)
        = r.v (nu * r.n + j) - r.H (i * mu + nu) * r.B (i * mu * r.n + (nu * r.n + j)) := by
      intro j hj
      unfold mgsUpdate
      rw [if_neg hr]
      simp only []
      rw [foldl_keyed (fun nu v => axpy r.n (-(r.H (i * mu + nu))) r.B ((i * mu + nu) * r.n) v
          (nu * r.n))
        (fun nu p h => -(r.H (i * mu + nu)) * r.B ((i * mu + nu) * r.n + (p - nu * r.n)) + h)
        (fun p => p / r.n) (fun _ => 0 < r.n) mu r.v
        (fun nu' _ v p => by
          show axpy r.n (-(r.H (i * mu + nu'))) r.B ((i * mu + nu') * r.n) v (nu' * r.n) p = _
          unfold axpy
          by_cases hb : nu' * r.n ≤ p ∧ p < nu' * r.n + r.n
          · rw [if_pos hb, if_pos (block_key.1 hb)]
          · rw [if_neg hb, if_neg (fun h => hb (block_key.2 h))])]
      have hdiv : (nu * r.n + j) / r.n = nu := (block_key.1 ⟨by omega, by omega⟩).1
      rw [hdiv, if_pos ⟨hnu, by omega⟩]
      have e : (i * mu + nu) * r.n + (nu * r.n + j - nu * r.n)
          = i * mu * r.n + (nu * r.n + j) := by
        rw [Nat.add_sub_cancel_left]; ring
      rw [e]
      ring
    unfold OrthRank.inner
    rw [if_neg (fun h => hr (Or.inl h))]
    simp only [if_neg (fun h => hr (Or.inl h))]
    rw [Finset.sum_congr rfl (fun j hj => by rw [hv j (Finset.mem_range.1 hj)])]
    simp only [mul_sub, Finset.sum_sub_distrib, Finset.mul_sum]
    congr 1
    apply Finset.sum_congr rfl
    intro j _
    ring

theorem mgsStep_eq_map (i mu : Nat) (ws : List (OrthRank R)) :
    mgsStep i mu ws = ws.map (fun r => mgsUpdate i mu { mgsLocal i mu r with
      H := fun p => if i * mu ≤ p ∧ p < i * mu + mu then
          (ws.map (fun r' => (mgsLocal i mu r').H p)).sum
        else (mgsLocal i mu r).H p }) := by
  unfold mgsStep
  rw [allreduceH_eq_map, List.map_map]
  rfl

theorem mgsStep_gramB (i mu : Nat) (ws : List (OrthRank R)) (l l' nu : Nat) :
    gramB (mgsStep i mu ws) mu l l' nu = gramB ws mu l l' nu := by
  rw [mgsStep_eq_map]
  apply gramB_map
  intro r
  have h1 := sameFrame_mgsUpdate i mu { mgsLocal i mu r with
      H := fun p => if i * mu ≤ p ∧ p < i * mu + mu then
          (ws.map (fun r' => (mgsLocal i mu r').H p)).sum
        else (mgsLocal i mu r).H p }
  have h2 := sameFrame_mgsLocal i mu r
  exact ⟨h1.1.trans h2.1, h1.2.1.trans h2.2.1, h1.2.2.1.trans h2.2.2.1,
    h1.2.2.2.trans h2.2.2.2⟩

theorem mgsStep_idleZero (i k mu : Nat) (ws : List (OrthRank R)) (h : IdleZero i k mu ws) :
    IdleZero (i + 1) k mu (mgsStep i mu ws) := by
  rw [mgsStep_eq_map]
  intro r' hr' hidle p hp1 hp2
  obtain ⟨r, hr, rfl⟩ := List.mem_map.1 hr'
  have hf := sameFrame_mgsUpdate i mu { mgsLocal i mu r with
      H := fun p => if i * mu ≤ p ∧ p < i * mu + mu then
          (ws.map (fun r' => (mgsLocal i mu r').H p)).sum
        else (mgsLocal i mu r).H p }
  have hf2 := sameFrame_mgsLocal i mu r
  have hidle' : r.excluded = true ∨ r.n = 0 := by
    rcases hidle with h1 | h1
    · left; rw [← hf2.1, ← hf.1]; exact h1
    · right; rw [← hf2.2.1, ← hf.2.1]; exact h1
  rw [mgsUpdate_H]
  show (if i * mu ≤ p ∧ p < i * mu + mu then _ else (mgsLocal i mu r).H p) = 0
  rw [Nat.succ_mul] at hp1
  rw [if_neg (by omega), mgsLocal_idle i mu r hidle']
  exact h r hr hidle' p (by omega) hp2

/-- Step `i` of the modified variant subtracts from `v` its projection on basis column `i`. -/
theorem mgsStep_innerBv (i k mu : Nat) (ws : List (OrthRank R)) (hi : i < k)
    (h : IdleZero i k mu ws) (l : Nat) {nu : Nat} (hnu : nu < mu) :
    innerBv (mgsStep i mu ws) mu l nu
      = innerBv ws mu l nu - innerBv ws mu i nu * gramB ws mu l i nu := by
  rw [mgsStep_eq_map, innerBv_map]
  have hpos : i * mu + nu < k * mu := by
    have := Nat.mul_le_mul_right mu (Nat.succ_le_of_lt hi)
    rw [Nat.succ_mul] at this; omega
  have key : ∀ r : OrthRank R,
      (mgsUpdate i mu { mgsLocal i mu r with
          H := fun p => if i * mu ≤ p ∧ p < i * mu + mu then
              (ws.map (fun r' => (mgsLocal i mu r').H p)).sum
            else (mgsLocal i mu r).H p }).inner mu l nu
        (mgsUpdate i mu { mgsLocal i mu r with
          H := fun p => if i * mu ≤ p ∧ p < i * mu + mu then
              (ws.map (fun r' => (mgsLocal i mu r').H p)).sum
            else (mgsLocal i mu r).H p }).v
      = r.inner mu l nu r.v
        - (ws.map (fun r' => (mgsLocal i mu r').H (i * mu + nu))).sum
          * r.inner mu l nu (fun p => r.B (i * mu * r.n + p)) := by
    intro r
    rw [mgsUpdate_inner i mu _ l hnu]
    have hf := sameFrame_mgsLocal i mu r
    have hf' : ∀ H', SameFrame { mgsLocal i mu r with H := H' } r := fun _ => hf
    simp only [(hf' _).inner_eq]
    congr 1
    · show r.inner mu l nu (mgsLocal i mu r).v = _
      rw [mgsLocal_v]
    · congr 1
      · show (if i * mu ≤ i * mu + nu ∧ i * mu + nu < i * mu + mu then _ else _) = _
        rw [if_pos ⟨by omega, by omega⟩]
      · show r.inner mu l nu (fun p => (mgsLocal i mu r).B (i * mu * (mgsLocal i mu r).n + p)) = _
        rw [hf.2.1, hf.2.2.1]
  rw [List.map_congr_left (fun r _ => key r), list_sum_map_sub, list_sum_map_mul_left]
  have hsum : (ws.map (fun r' => (mgsLocal i mu r').H (i * mu + nu))).sum
      = innerBv ws mu i nu := by
    unfold innerBv
    congr 1
    apply List.map_congr_left
    intro r' hr'
    exact mgsLocal_H i mu r' hnu (fun hidle => h r' hr' hidle _ (by omega) hpos)
  rw [hsum]
  rfl

end OrthModified

section OrthClaim
variable {R : Type} [Field R]

theorem mgs_fold (k mu : Nat) (ws0 : List (OrthRank R)) (h0 : IdleZero 0 k mu ws0)
    (horth : ∀ nu, nu < mu → ∀ a, a < k → ∀ b, b < k →
      gramB ws0 mu a b nu = if a = b then 1 else 0)
    (i : Nat) (hi : i ≤ k) :
    IdleZero i k mu ((List.range i).foldl (fun ws i => mgsStep i mu ws) ws0)
    ∧ (∀ l l' nu, gramB ((List.range i).foldl (fun ws i => mgsStep i mu ws) ws0) mu l l' nu
        = gramB ws0 mu l l' nu)
    ∧ (∀ nu, nu < mu → ∀ l, l < i →
        innerBv ((List.range i).foldl (fun ws i => mgsStep i mu ws) ws0) mu l nu = 0) := by
  induction i with
  | zero =>
    refine ⟨h0, fun _ _ _ => rfl, ?_⟩
    intro nu _ l hl
    omega
  | succ i ih =>
    obtain ⟨h1, h2, h3⟩ := ih (by omega)
    rw [List.range_succ, List.foldl_append, List.foldl_cons, List.foldl_nil]
    refine ⟨mgsStep_idleZero i k mu _ h1, ?_, ?_⟩
    · intro l l' nu
      rw [mgsStep_gramB, h2]
    · intro nu hnu l hl
      rw [mgsStep_innerBv i k mu _ (by omega) h1 l hnu, h2,
        horth nu hnu l (by omega) i (by omega)]
      rcases Nat.lt_succ_iff_lt_or_eq.1 hl with hlt | heq
      · rw [h3 nu hnu l hlt, if_neg (by omega)]
        ring
      · subst heq
        rw [if_pos rfl]
        ring

end OrthClaim



section CholeskyMath
variable {R : Type} [LinearOrderedField R]

theorem cholTable_succ_of_ne (sqrt : R → R) (G : Nat → Nat → R) (j a b : Nat) (h : a ≠ j) :
    cholTable sqrt G (j + 1) a b = cholTable sqrt G j a b := by
  simp only [cholTable, if_neg h]

theorem cholTable_stable (sqrt : R → R) (G : Nat → Nat → R) {a j : Nat} (h : a < j) (b : Nat) :
    cholTable sqrt G j a b = cholTable sqrt G (a + 1) a b := by
  induction j with
  | zero => omega
  | succ j ih =>
    rcases Nat.lt_succ_iff_lt_or_eq.1 h with hlt | heq
    · rw [cholTable_succ_of_ne sqrt G j a b (by omega), ih hlt]
    · rw [heq]

theorem cholTable_zero_of_le (sqrt : R → R) (G : Nat → Nat → R) {a j : Nat} (h : j ≤ a)
    (b : Nat) : cholTable sqrt G j a b = 0 := by
  induction j with
  | zero => rfl
  | succ j ih =>
    rw [cholTable_succ_of_ne sqrt G j a b (by omega), ih (by omega)]

theorem cholTable_lower (sqrt : R → R) (G : Nat → Nat → R) (j : Nat) {a b : Nat} (h : b < a) :
    cholTable sqrt G j a b = 0 := by
  rcases Nat.lt_or_ge a j with hlt | hge
  · rw [cholTable_stable sqrt G hlt]
    simp only [cholTable, if_pos h, if_true]
  · exact cholTable_zero_of_le sqrt G hge b

theorem cholTable_diag (sqrt : R → R) (G : Nat → Nat → R) {a j : Nat} (h : a < j) :
    cholTable sqrt G j a a = sqrt (cholPivot sqrt G a) := by
  rw [cholTable_stable sqrt G h]
  simp only [cholTable, if_true, lt_irrefl, if_false, cholPivot]

theorem cholTable_upper (sqrt : R → R) (G : Nat → Nat → R) {a b j : Nat} (h : a < j)
    (hab : a < b) :
    cholTable sqrt G j a b
      = (G a b - ∑ l in range a, cholTable sqrt G j l a * cholTable sqrt G j l b)
        / cholTable sqrt G j a a := by
  rw [cholTable_diag sqrt G h, cholTable_stable sqrt G h]
  simp only [cholTable, if_true, if_neg (by omega : ¬ b < a), if_neg (by omega : ¬ b = a),
    cholPivot]
  congr 2
  apply Finset.sum_congr rfl
  intro l hl
  have hl := Finset.mem_range.1 hl
  rw [cholTable_stable sqrt G (by omega : l < j) a, cholTable_stable sqrt G (by omega : l < j) b,
    cholTable_stable sqrt G hl a, cholTable_stable sqrt G hl b]

theorem cholPivot_eq (sqrt : R → R) (G : Nat → Nat → R) {a j : Nat} (h : a ≤ j) :
    cholPivot sqrt G a
      = G a a - ∑ l in range a, cholTable sqrt G j l a * cholTable sqrt G j l a := by
  unfold cholPivot
  congr 1
  apply Finset.sum_congr rfl
  intro l hl
  have hl := Finset.mem_range.1 hl
  rw [cholTable_stable sqrt G (by omega : l < j) a, cholTable_stable sqrt G hl a]

/-- With positive pivots, the rows of the factor computed so far reproduce the upper
triangle of the matrix: `Σ_{l ≤ a} U[l,a] U[l,b] = G[a,b]` for `a < j`, `a ≤ b`. -/
theorem cholTable_gram (sqrt : R → R) (hs : SqrtSpec sqrt) (G : Nat → Nat → R) {a b j : Nat}
    (h : a < j) (hab : a ≤ b) (hp : 0 < cholPivot sqrt G a) :
    ∑ l in range (a + 1), cholTable sqrt G j l a * cholTable sqrt G j l b = G a b := by
  rw [Finset.sum_range_succ]
  have hd := cholTable_diag sqrt G h
  have hpos := (hs _ hp).1
  have hsq := (hs _ hp).2
  rcases Nat.eq_or_lt_of_le hab with heq | hlt
  · subst heq
    rw [hd, hsq, cholPivot_eq sqrt G (Nat.le_of_lt h)]
    ring
  · rw [cholTable_upper sqrt G h hlt, hd]
    field_simp

end CholeskyMath
section LeadingMinors
variable {R : Type} [LinearOrderedField R]

theorem sum_range_of_zero_above {f : Nat → R} {a j : Nat} (h : a ≤ j)
    (hz : ∀ l, a ≤ l → l < j → f l = 0) :
    ∑ l in range j, f l = ∑ l in range a, f l := by
  symm
  apply Finset.sum_subset (Finset.range_subset.2 h)
  intro l hl1 hl2
  exact hz l (by simpa using hl2) (Finset.mem_range.1 hl1)

/-- With positive pivots before step `j`, the leading block of order `j + 1` is
`Uᵀ U + p_j e_j e_jᵀ`, `U` being the `j` rows of the factor computed so far. -/
theorem symm_eq_rows (sqrt : R → R) (hs : SqrtSpec sqrt) (G : Nat → Nat → R) (j : Nat)
    (hp : ∀ l, l < j → 0 < cholPivot sqrt G l) {a b : Nat} (ha : a ≤ j) (hb : b ≤ j) :
    symm G a b = ∑ l in range j, cholTable sqrt G j l a * cholTable sqrt G j l b
      + (if a = j ∧ b = j then cholPivot sqrt G j else 0) := by
  have key : ∀ a b, a ≤ b → b ≤ j →
      G a b = ∑ l in range j, cholTable sqrt G j l a * cholTable sqrt G j l b
        + (if a = j ∧ b = j then cholPivot sqrt G j else 0) := by
    intro a b hab hb
    rcases Nat.lt_or_ge a j with hlt | hge
    · rw [if_neg (by omega), add_zero,
        sum_range_of_zero_above (Nat.succ_le_of_lt hlt)
          (fun l hl _ => by rw [cholTable_lower sqrt G j (by omega : a < l), zero_mul]),
        cholTable_gram sqrt hs G hlt hab (hp a hlt)]
    · have ha : a = j := by omega
      have hb' : b = j := by omega
      rw [ha, hb', if_pos ⟨rfl, rfl⟩, cholPivot_eq sqrt G (le_refl j)]
      ring
  unfold symm
  by_cases hab : a ≤ b
  · rw [if_pos hab]; exact key a b hab hb
  · rw [if_neg hab, key b a (by omega) ha]
    congr 1
    · apply Finset.sum_congr rfl; intro l _; ring
    · by_cases h : a = j ∧ b = j
      · rw [if_pos h, if_pos ⟨h.2, h.1⟩]
      · rw [if_neg h, if_neg (fun h' => h ⟨h'.2, h'.1⟩)]

/-- The quadratic form of the leading block of order `j + 1` in terms of the rows of the
factor and of the pivot of step `j`. -/
theorem quadForm_succ (sqrt : R → R) (hs : SqrtSpec sqrt) (G : Nat → Nat → R) (j : Nat)
    (hp : ∀ l, l < j → 0 < cholPivot sqrt G l) (c : Nat → R) :
    quadForm G (j + 1) c
      = ∑ l in range j, (∑ a in range (j + 1), cholTable sqrt G j l a * c a)
          * (∑ a in range (j + 1), cholTable sqrt G j l a * c a)
        + c j * c j * cholPivot sqrt G j := by
  unfold quadForm
  have h1 : ∀ a ∈ range (j + 1), ∀ b ∈ range (j + 1),
      c a * symm G a b * c b
        = ∑ l in range j, (cholTable sqrt G j l a * c a) * (cholTable sqrt G j l b * c b)
          + (if a = j ∧ b = j then c j * c j * cholPivot sqrt G j else 0) := by
    intro a ha b hb
    have ha := Nat.lt_succ_iff.1 (Finset.mem_range.1 ha)
    have hb := Nat.lt_succ_iff.1 (Finset.mem_range.1 hb)
    rw [symm_eq_rows sqrt hs G j hp ha hb, mul_add, add_mul, Finset.mul_sum, Finset.sum_mul]
    congr 1
    · apply Finset.sum_congr rfl; intro l _; ring
    · by_cases h : a = j ∧ b = j
      · rw [if_pos h, if_pos h, h.1, h.2]; ring
      · rw [if_neg h, if_neg h]; ring
  rw [Finset.sum_congr rfl (fun a ha => Finset.sum_congr rfl (fun b hb => h1 a ha b hb))]
  simp only [Finset.sum_add_distrib]
  congr 1
  · rw [Finset.sum_congr rfl (fun a _ => Finset.sum_comm)]
    rw [Finset.sum_comm]
    apply Finset.sum_congr rfl
    intro l _
    rw [Finset.sum_mul_sum]
  · rw [Finset.sum_eq_single j]
    · rw [Finset.sum_eq_single j]
      · rw [if_pos ⟨rfl, rfl⟩]
      · intro b _ hb; rw [if_neg (fun h => hb h.2)]
      · intro h; exact absurd (Finset.mem_range.2 (Nat.lt_succ_self j)) h
    · intro a _ ha
      apply Finset.sum_eq_zero
      intro b _
      rw [if_neg (fun h => ha h.1)]
    · intro h; exact absurd (Finset.mem_range.2 (Nat.lt_succ_self j)) h

theorem quadForm_restrict (G : Nat → Nat → R) (j : Nat) (c : Nat → R) (hc : c j = 0) :
    quadForm G (j + 1) c = quadForm G j c := by
  unfold quadForm
  rw [Finset.sum_range_succ]
  simp only [Finset.sum_range_succ, hc, mul_zero, zero_mul, add_zero, Finset.sum_const_zero]

/-- Back substitution: an upper triangular system with non-zero diagonal has a solution. -/
theorem triangular_solve (m : Nat) (U : Nat → Nat → R) (hd : ∀ l, l < m → U l l ≠ 0)
    (hl : ∀ l a, a < l → U l a = 0) (rhs : Nat → R) :
    ∃ y : Nat → R, ∀ l, l < m → ∑ a in range m, U l a * y a = rhs l := by
  induction m generalizing rhs with
  | zero => exact ⟨fun _ => 0, fun l hl => absurd hl (Nat.not_lt_zero l)⟩
  | succ m ih =>
    obtain ⟨y', hy'⟩ := ih (fun l hl => hd l (Nat.lt_succ_of_lt hl))
      (fun l => rhs l - U l m * (rhs m / U m m))
    refine ⟨fun a => if a = m then rhs m / U m m else y' a, ?_⟩
    intro l hlm
    rw [Finset.sum_range_succ]
    have hsum : ∑ a in range m, U l a * (if a = m then rhs m / U m m else y' a)
        = ∑ a in range m, U l a * y' a := by
      apply Finset.sum_congr rfl
      intro a ha
      rw [if_neg (by have := Finset.mem_range.1 ha; omega)]
    rw [hsum]
    show _ + U l m * (if m = m then rhs m / U m m else y' m) = _
    rw [if_pos rfl]
    rcases Nat.lt_succ_iff_lt_or_eq.1 hlm with hlt | heq
    · rw [hy' l hlt]; ring
    · subst heq
      have hz : ∑ a in range l, U l a * y' a = 0 := by
        apply Finset.sum_eq_zero
        intro a ha
        rw [hl l a (Finset.mem_range.1 ha), zero_mul]
      rw [hz, zero_add]
      field_simp [hd l (Nat.lt_succ_self l)]

/-- Positive pivots make every leading block positive definite. -/
theorem leadingPD_of_pivots (sqrt : R → R) (hs : SqrtSpec sqrt) (G : Nat → Nat → R) (m : Nat)
    (hp : ∀ l, l < m → 0 < cholPivot sqrt G l) : LeadingPD G m := by
  induction m with
  | zero => intro c ⟨a, ha, _⟩; omega
  | succ j ih =>
    intro c ⟨a, ha, hca⟩
    by_cases hcj : c j = 0
    · rw [quadForm_restrict G j c hcj]
      apply ih (fun l hl => hp l (Nat.lt_succ_of_lt hl))
      refine ⟨a, ?_, hca⟩
      rcases Nat.lt_succ_iff_lt_or_eq.1 ha with h | h
      · exact h
      · subst h; exact absurd hcj hca
    · rw [quadForm_succ sqrt hs G j (fun l hl => hp l (Nat.lt_succ_of_lt hl))]
      have h1 : 0 ≤ ∑ l in range j, (∑ a in range (j + 1), cholTable sqrt G j l a * c a)
          * (∑ a in range (j + 1), cholTable sqrt G j l a * c a) :=
        Finset.sum_nonneg (fun l _ => mul_self_nonneg _)
      have h2 : 0 < c j * c j * cholPivot sqrt G j :=
        mul_pos (mul_self_pos.2 hcj) (hp j (Nat.lt_succ_self j))
      linarith

/-- A positive definite leading block of order `j + 1` makes the pivot of step `j`
positive, when the earlier pivots are. -/
theorem pivot_pos_of_leadingPD (sqrt : R → R) (hs : SqrtSpec sqrt) (G : Nat → Nat → R)
    (j : Nat) (hp : ∀ l, l < j → 0 < cholPivot sqrt G l) (hpd : LeadingPD G (j + 1)) :
    0 < cholPivot sqrt G j := by
  obtain ⟨y, hy⟩ := triangular_solve j (cholTable sqrt G j)
    (fun l hl => by
      rw [cholTable_diag sqrt G hl]
      exact ne_of_gt (hs _ (hp l hl)).1)
    (fun l a hal => cholTable_lower sqrt G j hal)
    (fun l => -cholTable sqrt G j l j)
  have hq := hpd (fun a => if a < j then y a else if a = j then 1 else 0)
    ⟨j, Nat.lt_succ_self j, by simp⟩
  rw [quadForm_succ sqrt hs G j hp] at hq
  have hz : ∀ l ∈ range j, (∑ a in range (j + 1), cholTable sqrt G j l a
      * (if a < j then y a else if a = j then 1 else 0)) = 0 := by
    intro l hl
    rw [Finset.sum_range_succ]
    have : ∑ a in range j, cholTable sqrt G j l a * (if a < j then y a else if a = j then 1 else 0)
        = ∑ a in range j, cholTable sqrt G j l a * y a := by
      apply Finset.sum_congr rfl
      intro a ha
      rw [if_pos (Finset.mem_range.1 ha)]
    rw [this, hy l (Finset.mem_range.1 hl)]
    simp
  rw [Finset.sum_congr rfl (fun l hl => by rw [hz l hl])] at hq
  simpa using hq

theorem cholInfo_zero_iff (sqrt : R → R) (G : Nat → Nat → R) (k : Nat) :
    cholInfo sqrt G k = 0 ↔ ∀ j, j < k → 0 < cholPivot sqrt G j := by
  induction k with
  | zero => simp [cholInfo]
  | succ k ih =>
    simp only [cholInfo]
    constructor
    · intro h j hj
      by_cases h0 : cholInfo sqrt G k ≠ 0
      · rw [if_pos h0] at h; exact absurd h h0
      · rw [if_neg h0] at h
        by_cases hpiv : cholPivot sqrt G k ≤ 0
        · rw [if_pos hpiv] at h; omega
        · rcases Nat.lt_succ_iff_lt_or_eq.1 hj with hlt | heq
          · exact ih.1 (not_not.1 h0) j hlt
          · subst heq; exact lt_of_not_ge hpiv
    · intro h
      have h0 : cholInfo sqrt G k = 0 := ih.2 (fun j hj => h j (Nat.lt_succ_of_lt hj))
      rw [if_neg (not_not.2 h0), if_neg (not_le.2 (h k (Nat.lt_succ_self k)))]

theorem cholInfo_le (sqrt : R → R) (G : Nat → Nat → R) (k : Nat) : cholInfo sqrt G k ≤ k := by
  induction k with
  | zero => simp [cholInfo]
  | succ k ih =>
    simp only [cholInfo]
    split
    · omega
    · split <;> omega

theorem cholInfo_succ (sqrt : R → R) (G : Nat → Nat → R) (k i : Nat)
    (h : cholInfo sqrt G k = i + 1) :
    i < k ∧ (∀ l, l < i → 0 < cholPivot sqrt G l) ∧ cholPivot sqrt G i ≤ 0 := by
  induction k with
  | zero => simp [cholInfo] at h
  | succ k ih =>
    simp only [cholInfo] at h
    by_cases h0 : cholInfo sqrt G k ≠ 0
    · rw [if_pos h0] at h
      obtain ⟨h1, h2, h3⟩ := ih h
      exact ⟨by omega, h2, h3⟩
    · rw [if_neg h0] at h
      by_cases hpiv : cholPivot sqrt G k ≤ 0
      · rw [if_pos hpiv] at h
        have hik : i = k := by omega
        subst hik
        exact ⟨Nat.lt_succ_self i, (cholInfo_zero_iff sqrt G i).1 (not_not.1 h0), hpiv⟩
      · rw [if_neg hpiv] at h; omega

/-- The `info` code of `potrf` is the order of the first leading minor that is not
positive definite, `0` when there is none. -/
theorem cholInfo_spec (sqrt : R → R) (hs : SqrtSpec sqrt) (G : Nat → Nat → R) (k : Nat) :
    (cholInfo sqrt G k = 0 ↔ ∀ m, m ≤ k → LeadingPD G m)
    ∧ (∀ i, cholInfo sqrt G k = i + 1 →
        i < k ∧ (∀ m, m ≤ i → LeadingPD G m) ∧ ¬ LeadingPD G (i + 1)) := by
  have hpiv : (∀ m, m ≤ k → LeadingPD G m) → ∀ j, j < k → 0 < cholPivot sqrt G j := by
    intro h j
    induction j using Nat.strong_induction_on with
    | _ j ihj =>
      intro hj
      exact pivot_pos_of_leadingPD sqrt hs G j (fun l hl => ihj l hl (by omega))
        (h (j + 1) hj)
  constructor
  · constructor
    · intro h m hm
      exact leadingPD_of_pivots sqrt hs G m
        (fun l hl => (cholInfo_zero_iff sqrt G k).1 h l (by omega))
    · intro h
      exact (cholInfo_zero_iff sqrt G k).2 (hpiv h)
  · intro i hi
    obtain ⟨h1, h2, h3⟩ := cholInfo_succ sqrt G k i hi
    refine ⟨h1, fun m hm => leadingPD_of_pivots sqrt hs G m (fun l hl => h2 l (by omega)), ?_⟩
    intro hpd
    exact absurd (pivot_pos_of_leadingPD sqrt hs G i h2 hpd) (not_lt.2 h3)

end LeadingMinors


section InPlace

theorem tri_succ (n : Nat) : tri (n + 1) = tri n + (n + 1) := by
  unfold tri
  have h : (n + 1) * (n + 1 + 1) = n * (n + 1) + (n + 1) * 2 := by ring
  rw [h, Nat.add_mul_div_right _ _ (by decide : 0 < 2)]

theorem two_mul_tri (n : Nat) : n * (n + 1) = 2 * tri n := by
  induction n with
  | zero => rfl
  | succ n ih =>
    rw [tri_succ]
    have h : (n + 1) * (n + 1 + 1) = n * (n + 1) + 2 * (n + 1) := by ring
    rw [h, ih]; ring

theorem mul_tri_off (nu k : Nat) : nu * (k * (k + 1)) / 2 = nu * tri k := by
  rw [two_mul_tri, ← Nat.mul_assoc, Nat.mul_comm nu 2, Nat.mul_assoc,
    Nat.mul_div_cancel_left _ (by decide : 0 < 2)]

theorem tri_pred {xi : Nat} (h : 1 ≤ xi) : xi * (xi - 1) / 2 = tri (xi - 1) := by
  unfold tri
  have : xi - 1 + 1 = xi := by omega
  rw [this, Nat.mul_comm]

theorem tri_mono {a b : Nat} (h : a ≤ b) : tri a ≤ tri b := by
  induction b with
  | zero => rw [Nat.le_zero.1 h]
  | succ b ih =>
    rcases Nat.lt_succ_iff_lt_or_eq.1 (Nat.lt_succ_of_le h) with hlt | heq
    · have := ih (Nat.lt_succ_iff.1 hlt)
      rw [tri_succ]; omega
    · rw [heq]

theorem tri_add_lt {a b : Nat} (h : a < b) : tri a + a < tri b := by
  have h1 := tri_mono (Nat.succ_le_of_lt h)
  rw [tri_succ] at h1
  omega

theorem tri_add_le_mul {b k : Nat} (h : b < k) : tri b + b ≤ b * k := by
  have h1 := two_mul_tri b
  have h2 : b * (b + 1) ≤ b * k := Nat.mul_le_mul_left b h
  have h3 : b ≤ b * b := Nat.le_mul_self b
  have h4 : b * (b + 1) = b * b + b := by ring
  omega

theorem tri_le_sq (k : Nat) : tri k ≤ k * k := by
  have h1 := two_mul_tri k
  have h3 : k ≤ k * k := Nat.le_mul_self k
  have h4 : k * (k + 1) = k * k + k := by ring
  omega

/-- A sequence of block copies in which source and destination may be the same buffer.
If the steps before `x0` leave the source cell `q` of `x0` alone and the steps after `x0`
leave its destination cell `p` alone, the destination ends with the initial content of
the source cell. -/
theorem foldl_inplace_copy {S ι α : Type} (src dst : S → Nat → α) (step : ι → S → S)
    (sr ln ds : ι → Nat) (rel : ι → ι → Prop)
    (h1 : ∀ x s p, dst (step x s) p
      = if ds x ≤ p ∧ p < ds x + ln x then src s (sr x + (p - ds x)) else dst s p)
    (h2 : ∀ x s q, ¬ (ds x ≤ q ∧ q < ds x + ln x) → src (step x s) q = src s q)
    (L : List ι) (hL : L.Pairwise rel) (x0 : ι) (hx0 : x0 ∈ L) (p : Nat)
    (hp : ds x0 ≤ p ∧ p < ds x0 + ln x0)
    (c1 : ∀ x ∈ L, rel x x0 → ¬ (ds x ≤ sr x0 + (p - ds x0) ∧ sr x0 + (p - ds x0) < ds x + ln x))
    (c2 : ∀ x ∈ L, rel x0 x → ¬ (ds x ≤ p ∧ p < ds x + ln x))
    (s0 : S) :
    dst (L.foldl (fun s x => step x s) s0) p = src s0 (sr x0 + (p - ds x0)) := by
  have untouched : ∀ (L' : List ι) (s : S), (∀ x ∈ L', ¬ (ds x ≤ p ∧ p < ds x + ln x)) →
      dst (L'.foldl (fun s x => step x s) s) p = dst s p := by
    intro L'
    induction L' with
    | nil => intro s _; rfl
    | cons x L' ih =>
      intro s h
      rw [List.foldl_cons, ih _ (fun y hy => h y (List.mem_cons_of_mem _ hy)), h1,
        if_neg (h x (List.mem_cons_self _ _))]
  induction L generalizing s0 with
  | nil => simp at hx0
  | cons x L ih =>
    rw [List.foldl_cons]
    obtain ⟨hxL, hLL⟩ := List.pairwise_cons.1 hL
    by_cases hmem : x0 ∈ L
    · have hrel : rel x x0 := hxL x0 hmem
      rw [ih hLL hmem (fun y hy => c1 y (List.mem_cons_of_mem _ hy))
        (fun y hy => c2 y (List.mem_cons_of_mem _ hy)),
        h2 x s0 _ (c1 x (List.mem_cons_self _ _) hrel)]
    · have hx : x0 = x := by
        rcases List.mem_cons.1 hx0 with h | h
        · exact h
        · exact absurd h hmem
      subst hx
      rw [untouched L _ (fun y hy => c2 y (List.mem_cons_of_mem _ hy) (hxL y hy)), h1, if_pos hp]

/-- Cells that no step of the sequence writes keep their content. -/
theorem foldl_inplace_untouched {S ι α : Type} (dst : S → Nat → α) (step : ι → S → S)
    (ln ds : ι → Nat)
    (h1 : ∀ x s p, ¬ (ds x ≤ p ∧ p < ds x + ln x) → dst (step x s) p = dst s p)
    (L : List ι) (p : Nat) (h : ∀ x ∈ L, ¬ (ds x ≤ p ∧ p < ds x + ln x)) (s0 : S) :
    dst (L.foldl (fun s x => step x s) s0) p = dst s0 p := by
  induction L generalizing s0 with
  | nil => rfl
  | cons x L ih =>
    rw [List.foldl_cons, ih (fun y hy => h y (List.mem_cons_of_mem _ hy)),
      h1 x s0 p (h x (List.mem_cons_self _ _))]

end InPlace

section PackUpper
variable {R : Type}

/-- Packing moves entry `(a, b)` of the upper triangle, stored with leading dimension `k`
at `off`, to position `off + tri b + a`. -/
theorem packUpper_val (k off : Nat) (w : Nat → R) {a b : Nat} (hab : a ≤ b) (hb : b < k) :
    packUpper k off w (off + tri b + a) = w (off + b * k + a) := by
  unfold packUpper
  rcases Nat.eq_zero_or_pos b with hb0 | hbpos
  · subst hb0
    have ha0 : a = 0 := by omega
    subst ha0
    have e : off + tri 0 + 0 = off + 0 * k + 0 := by simp [tri]
    rw [e]
    apply foldl_inplace_untouched (fun w => w) (fun xi w =>
        copy_n w (off + xi * k) (xi + 1) w (off + (xi * (xi + 1)) / 2))
      (fun xi => xi + 1) (fun xi => off + (xi * (xi + 1)) / 2)
    · intro x s p hp
      show copy_n s _ _ s _ p = s p
      rw [copy_n_apply, if_neg hp]
    · intro x hx
      have hx1 := (List.mem_range'_1.1 hx).1
      have ht : tri 1 ≤ tri x := tri_mono hx1
      have : tri 1 = 1 := rfl
      show ¬ (off + tri x ≤ off + 0 * k + 0 ∧ _)
      omega
  · have h := foldl_inplace_copy (fun w : Nat → R => w) (fun w => w)
      (fun xi w => copy_n w (off + xi * k) (xi + 1) w (off + (xi * (xi + 1)) / 2))
      (fun xi => off + xi * k) (fun xi => xi + 1) (fun xi => off + (xi * (xi + 1)) / 2)
      (fun x y => x < y)
      (fun x s p => by
        show copy_n s _ _ s _ p = _
        rw [copy_n_apply])
      (fun x s q hq => by
        show copy_n s _ _ s _ q = s q
        rw [copy_n_apply, if_neg hq])
      (List.range' 1 (k - 1)) (List.pairwise_lt_range' 1 (k - 1)) b
      (List.mem_range'_1.2 ⟨hbpos, by omega⟩) (off + tri b + a)
      (by show off + tri b ≤ off + tri b + a ∧ off + tri b + a < off + tri b + (b + 1); omega)
      (fun x hx hxb => by
        have hx1 := List.mem_range'_1.1 hx
        have hlt : x < b := hxb
        have h1 := tri_add_lt hlt
        have h2 := tri_add_le_mul hb
        show ¬ (off + tri x ≤ off + b * k + (off + tri b + a - (off + tri b)) ∧
          off + b * k + (off + tri b + a - (off + tri b)) < off + tri x + (x + 1))
        omega)
      (fun x hx hxb => by
        have hlt : b < x := hxb
        have h1 := tri_add_lt hlt
        show ¬ (off + tri x ≤ off + tri b + a ∧ _)
        omega)
      w
    rw [h]
    show w (off + b * k + (off + tri b + a - (off + tri b))) = _
    congr 1
    omega

/-- Packing writes no cell before `off`. -/
theorem packUpper_below (k off : Nat) (w : Nat → R) {p : Nat} (hp : p < off) :
    packUpper k off w p = w p := by
  unfold packUpper
  apply foldl_inplace_untouched (fun w => w) (fun xi w =>
      copy_n w (off + xi * k) (xi + 1) w (off + (xi * (xi + 1)) / 2))
    (fun xi => xi + 1) (fun xi => off + (xi * (xi + 1)) / 2)
  · intro x s p hp
    show copy_n s _ _ s _ p = s p
    rw [copy_n_apply, if_neg hp]
  · intro x _
    omega

end PackUpper
section VRLocal
variable {R : Type} [LinearOrderedField R]

omit [LinearOrderedField R] in
theorem QRFrame.refl (r : QRRank R) : QRFrame r r := ⟨rfl, rfl, rfl, rfl, rfl⟩

omit [LinearOrderedField R] in
theorem QRFrame.trans {r1 r2 r3 : QRRank R} (h1 : QRFrame r1 r2) (h2 : QRFrame r2 r3) :
    QRFrame r1 r3 :=
  ⟨h1.1.trans h2.1, h1.2.1.trans h2.2.1, h1.2.2.1.trans h2.2.2.1, h1.2.2.2.1.trans h2.2.2.2.1,
    h1.2.2.2.2.trans h2.2.2.2.2⟩

theorem QRFrame.gram_eq {r1 r2 : QRRank R} (h : QRFrame r1 r2) (mu nu a b : Nat) :
    r1.gram mu nu a b = r2.gram mu nu a b := by
  obtain ⟨h1, h2, h3, h4, _⟩ := h
  unfold QRRank.gram QRRank.weight
  rw [h1, h2, h3, h4]

omit [LinearOrderedField R] in
theorem wbuf_setWbuf (r : QRRank R) (w : Nat → R) : (r.setWbuf w).wbuf = w := by
  unfold QRRank.setWbuf QRRank.wbuf
  cases h : r.work <;> simp

omit [LinearOrderedField R] in
theorem frame_setWbuf (r : QRRank R) (w : Nat → R) : QRFrame (r.setWbuf w) r := by
  unfold QRRank.setWbuf QRFrame
  cases h : r.work <;> simp [h]

theorem gemmt_val (k n : Nat) (A : Nat → R) (ao lda : Nat) (B : Nat → R) (bo ldb : Nat)
    (C : Nat → R) (co : Nat) {a b : Nat} (hab : a ≤ b) (hb : b < k) :
    gemmt k n A ao lda B bo ldb C co k (co + b * k + a)
      = ∑ j in range n, A (ao + a * lda + j) * B (bo + b * ldb + j) := by
  unfold gemmt
  have e : co + b * k + a - co = a + b * k := by omega
  have hmod : (a + b * k) % k = a := by
    rw [Nat.add_mul_mod_self_right, Nat.mod_eq_of_lt (by omega)]
  have hdiv : (a + b * k) / k = b := by
    rw [Nat.add_mul_div_right _ _ (by omega), Nat.div_eq_of_lt (by omega), Nat.zero_add]
  rw [e, hmod, hdiv, if_pos ⟨by omega, hab, hb⟩]

theorem gemmt_below (k n : Nat) (A : Nat → R) (ao lda : Nat) (B : Nat → R) (bo ldb : Nat)
    (C : Nat → R) (co ldc : Nat) {p : Nat} (hp : p < co) :
    gemmt k n A ao lda B bo ldb C co ldc p = C p := by
  unfold gemmt
  rw [if_neg (by omega)]

theorem frame_vrGram (k mu nu : Nat) (r : QRRank R) : QRFrame (vrGram k mu nu r) r := by
  unfold vrGram
  cases h : r.d with
  | none => exact frame_setWbuf r _
  | some d =>
    simp only []
    refine (frame_setWbuf _ _).trans ?_
    exact ⟨rfl, rfl, rfl, h.symm, rfl⟩

theorem vrGram_below (k mu nu : Nat) (r : QRRank R) {p : Nat} (hp : p < nu * tri k) :
    (vrGram k mu nu r).wbuf p = r.wbuf p := by
  unfold vrGram
  rw [mul_tri_off]
  cases h : r.d with
  | none =>
    simp only []
    rw [wbuf_setWbuf, packUpper_below k _ _ hp]
    unfold herk
    rw [gemmt_below _ _ _ _ _ _ _ _ _ _ _ hp]
  | some d =>
    simp only []
    rw [wbuf_setWbuf, packUpper_below k _ _ hp, gemmt_below _ _ _ _ _ _ _ _ _ _ _ hp]

/-- After iteration `nu` of the first loop of `VR`, the packed block `nu` of `work` holds
the local Gram matrix of right-hand side `nu`. -/
theorem vrGram_val (k mu nu : Nat) (r : QRRank R) (hex : r.excluded = false) (hnu : nu < mu)
    {a b : Nat} (hab : a ≤ b) (hb : b < k) :
    (vrGram k mu nu r).wbuf (nu * tri k + tri b + a) = r.gram mu nu a b := by
  unfold vrGram QRRank.gram QRRank.weight
  rw [mul_tri_off, if_neg (by simp [hex])]
  cases h : r.d with
  | none =>
    simp only []
    rw [wbuf_setWbuf, packUpper_val k _ _ hab hb]
    unfold herk
    rw [gemmt_val k r.n _ _ _ _ _ _ _ _ hab hb]
    apply Finset.sum_congr rfl
    intro j _
    rw [one_mul]
  | some d =>
    simp only []
    rw [wbuf_setWbuf, packUpper_val k _ _ hab hb, gemmt_val k r.n _ _ _ _ _ _ _ _ hab hb]
    apply Finset.sum_congr rfl
    intro j hj
    have hj := Finset.mem_range.1 hj
    congr 1
    by_cases hmu : mu = 1
    · rw [if_pos hmu]
      have hnu0 : nu = 0 := by omega
      subst hmu hnu0
      unfold diag
      have h1 : 0 + b * r.n + j < k * r.n := by
        have := Nat.mul_le_mul_right r.n (Nat.succ_le_of_lt hb)
        rw [Nat.succ_mul] at this; omega
      have h2 : (0 + b * r.n + j) % r.n = j := by
        rw [Nat.zero_add, Nat.add_comm, Nat.add_mul_mod_self_right, Nat.mod_eq_of_lt hj]
      rw [if_pos h1, h2]
      congr 2
      ring
    · rw [if_neg hmu]
      rw [foldl_keyed (fun xi s => diag1 r.n d r.Q (nu * r.n + xi * (mu * r.n)) s (xi * r.n))
        (fun xi p _ => d (p - xi * r.n) * r.Q (nu * r.n + xi * (mu * r.n) + (p - xi * r.n)))
        (fun p => p / r.n) (fun _ => 0 < r.n) k r.scal
        (fun xi _ v p => by
          show diag1 r.n d r.Q (nu * r.n + xi * (mu * r.n)) v (xi * r.n) p = _
          unfold diag1
          by_cases hb : xi * r.n ≤ p ∧ p < xi * r.n + r.n
          · rw [if_pos hb, if_pos (block_key.1 hb)]
          · rw [if_neg hb, if_neg (fun h => hb (block_key.2 h))])]
      have hdiv : (0 + b * r.n + j) / r.n = b :=
        (block_key.1 ⟨by omega, by omega⟩).1
      rw [hdiv, if_pos ⟨hb, by omega⟩]
      have e : 0 + b * r.n + j - b * r.n = j := by omega
      rw [e]

end VRLocal

section VRStages
variable {R : Type} [LinearOrderedField R]

theorem packed_lt (k nu : Nat) {a b : Nat} (hab : a ≤ b) (hb : b < k) :
    nu * tri k + tri b + a < nu * tri k + tri k := by
  have := tri_add_lt hb
  omega

theorem succ_mul_le {nu m : Nat} (T : Nat) (h : nu < m) : nu * T + T ≤ m * T := by
  have := Nat.mul_le_mul_right T (Nat.succ_le_of_lt h)
  rw [Nat.succ_mul] at this
  exact this

theorem vrLocal_fold (k mu : Nat) (r : QRRank R) (hex : r.excluded = false) (m : Nat)
    (hm : m ≤ mu) :
    QRFrame ((List.range m).foldl (fun r nu => vrGram k mu nu r) r) r
    ∧ ∀ nu, nu < m → ∀ a b, a ≤ b → b < k →
      ((List.range m).foldl (fun r nu => vrGram k mu nu r) r).wbuf (nu * tri k + tri b + a)
        = r.gram mu nu a b := by
  induction m with
  | zero => exact ⟨QRFrame.refl r, fun nu hnu => absurd hnu (Nat.not_lt_zero nu)⟩
  | succ m ih =>
    obtain ⟨hf, hv⟩ := ih (by omega)
    rw [List.range_succ, List.foldl_append, List.foldl_cons, List.foldl_nil]
    refine ⟨(frame_vrGram k mu m _).trans hf, ?_⟩
    intro nu hnu a b hab hb
    rcases Nat.lt_succ_iff_lt_or_eq.1 hnu with hlt | heq
    · rw [vrGram_below k mu m _ (by
        have h1 := packed_lt k nu hab hb
        have h2 := succ_mul_le (tri k) hlt
        omega)]
      exact hv nu hlt a b hab hb
    · subst heq
      rw [vrGram_val k mu nu _ (by rw [hf.1]; exact hex) (by omega) hab hb, hf.gram_eq]

theorem frame_vrLocal (k mu : Nat) (r : QRRank R) : QRFrame (vrLocal k mu r) r := by
  unfold vrLocal
  split
  · rename_i h
    exact (vrLocal_fold k mu r h.1 mu le_rfl).1
  · exact frame_setWbuf r _

/-- What a process contributes to the all-reduce of `VR`: its packed local Gram matrices. -/
theorem vrLocal_val (k mu : Nat) (r : QRRank R) {nu a b : Nat} (hnu : nu < mu) (hab : a ≤ b)
    (hb : b < k) :
    (vrLocal k mu r).wbuf (nu * tri k + tri b + a) = r.gram mu nu a b := by
  unfold vrLocal
  by_cases h : r.excluded = false ∧ r.n ≠ 0
  · rw [if_pos h]
    exact (vrLocal_fold k mu r h.1 mu le_rfl).2 nu hnu a b hab hb
  · rw [if_neg h, wbuf_setWbuf, mul_tri_off]
    unfold fill_n
    have h1 := packed_lt k nu hab hb
    have h2 := succ_mul_le (tri k) hnu
    rw [if_pos (by omega)]
    unfold QRRank.gram
    by_cases hex : r.excluded = true
    · rw [if_pos hex]
    · rw [if_neg hex]
      have hn : r.n = 0 := by
        by_contra hn
        exact h ⟨by simpa using hex, hn⟩
      rw [hn]; simp

theorem unpack_dst (k ldr nu xi : Nat) (h1 : 1 ≤ xi) (h2 : xi ≤ k) (hk : k ≤ ldr) :
    nu * k * k + xi * ldr - (ldr - xi)
        - (nu * (k * (k + 1)) / 2 + (xi * (xi + 1)) / 2
          - (nu * (k * (k + 1)) / 2 + (xi * (xi - 1)) / 2))
      = nu * k * k + (xi - 1) * ldr
    ∧ nu * (k * (k + 1)) / 2 + (xi * (xi + 1)) / 2
          - (nu * (k * (k + 1)) / 2 + (xi * (xi - 1)) / 2) = xi
    ∧ nu * (k * (k + 1)) / 2 + (xi * (xi - 1)) / 2 = nu * tri k + tri (xi - 1) := by
  rw [mul_tri_off, tri_pred h1]
  have e1 : xi * (xi + 1) / 2 = tri xi := rfl
  have e2 : tri xi = tri (xi - 1) + xi := by
    have := tri_succ (xi - 1)
    have e : xi - 1 + 1 = xi := by omega
    rw [e] at this; exact this
  have e3 : xi * ldr = (xi - 1) * ldr + ldr := by
    have : xi = (xi - 1) + 1 := by omega
    conv_lhs => rw [this]
    rw [Nat.succ_mul]
  rw [e1, e2, e3]
  refine ⟨by omega, by omega, rfl⟩

omit [LinearOrderedField R] in
theorem frame_vrUnpack (k mu ldr : Nat) (r : QRRank R) : QRFrame (vrUnpack k mu ldr r) r := by
  unfold vrUnpack
  have inner : ∀ (L : List Nat) (nu : Nat) (r : QRRank R),
      QRFrame (L.foldl (fun r xi =>
        { r with Rm := (copy_backward r.wbuf
          (nu * (k * (k + 1)) / 2 + (xi * (xi - 1)) / 2)
          (nu * (k * (k + 1)) / 2 + (xi * (xi + 1)) / 2)
          r.Rm (nu * k * k + xi * ldr - (ldr - xi))) }) r) r := by
    intro L nu
    induction L with
    | nil => intro r; exact QRFrame.refl r
    | cons x L ih =>
      intro r
      rw [List.foldl_cons]
      exact (ih _).trans ⟨rfl, rfl, rfl, rfl, rfl⟩
  generalize (List.range mu).reverse = L1
  induction L1 generalizing r with
  | nil => exact QRFrame.refl r
  | cons nu L1 ih =>
    rw [List.foldl_cons]
    exact (ih _).trans (inner _ nu r)

end VRStages

section VRUnpack
variable {R : Type} [LinearOrderedField R]

theorem foldl_nested {S α β : Type} (L1 : List α) (f2 : α → List β) (g : S → α → β → S)
    (s : S) :
    L1.foldl (fun s a => (f2 a).foldl (fun s b => g s a b) s) s
      = (L1.flatMap (fun a => (f2 a).map (fun b => (a, b)))).foldl
          (fun s ab => g s ab.1 ab.2) s := by
  induction L1 generalizing s with
  | nil => rfl
  | cons a L1 ih =>
    rw [List.foldl_cons, List.flatMap_cons, List.foldl_append, List.foldl_map, ih]

theorem unpackSteps_pairwise (k mu : Nat) :
    (unpackSteps k mu).Pairwise
      (fun x y => y.1 < x.1 ∨ (y.1 = x.1 ∧ y.2 < x.2)) := by
  unfold unpackSteps
  rw [List.pairwise_flatMap]
  constructor
  · intro nu _
    rw [List.pairwise_map, List.pairwise_reverse]
    exact (List.pairwise_lt_range' 1 k).imp (fun h => Or.inr ⟨rfl, h⟩)
  · rw [List.pairwise_reverse]
    apply (List.pairwise_lt_range mu).imp
    intro a b hab x hx y hy
    obtain ⟨_, _, rfl⟩ := List.mem_map.1 hx
    obtain ⟨_, _, rfl⟩ := List.mem_map.1 hy
    exact Or.inl hab

theorem mem_unpackSteps (k mu : Nat) (x : Nat × Nat) :
    x ∈ unpackSteps k mu ↔ x.1 < mu ∧ 1 ≤ x.2 ∧ x.2 ≤ k := by
  unfold unpackSteps
  simp only [List.mem_flatMap, List.mem_reverse, List.mem_range, List.mem_map,
    List.mem_range'_1]
  constructor
  · rintro ⟨nu, hnu, xi, hxi, rfl⟩
    exact ⟨hnu, hxi.1, by omega⟩
  · rintro ⟨h1, h2, h3⟩
    exact ⟨x.1, h1, x.2, ⟨h2, by omega⟩, rfl⟩

omit [LinearOrderedField R] in
/-- Unpacking moves entry `(a, c)` of the packed block `nu` of `work` to its place in the
block `nu` of `R`, provided the blocks of `R` do not overlap. -/
theorem vrUnpack_val (k mu ldr : Nat) (r : QRRank R) (hk : k ≤ ldr)
    (hlay : mu = 1 ∨ ldr = k) {nu a c : Nat} (hnu : nu < mu) (hac : a ≤ c) (hc : c < k) :
    (vrUnpack k mu ldr r).Rm (nu * k * k + c * ldr + a) = r.wbuf (nu * tri k + tri c + a) := by
  have hfl : vrUnpack k mu ldr r
      = ((List.range mu).reverse.flatMap
          (fun nu => (List.range' 1 k).reverse.map (fun xi => (nu, xi)))).foldl
        (fun (r : QRRank R) (x : Nat × Nat) => { r with Rm := (copy_backward r.wbuf
          (x.1 * (k * (k + 1)) / 2 + (x.2 * (x.2 - 1)) / 2)
          (x.1 * (k * (k + 1)) / 2 + (x.2 * (x.2 + 1)) / 2)
          r.Rm (x.1 * k * k + x.2 * ldr - (ldr - x.2))) }) r := by
    unfold vrUnpack
    exact foldl_nested (List.range mu).reverse (fun _ => (List.range' 1 k).reverse)
      (fun r nu xi => { r with Rm := (copy_backward r.wbuf
          (nu * (k * (k + 1)) / 2 + (xi * (xi - 1)) / 2)
          (nu * (k * (k + 1)) / 2 + (xi * (xi + 1)) / 2)
          r.Rm (nu * k * k + xi * ldr - (ldr - xi))) }) r
  rw [hfl]
  have hsteps := unpackSteps_pairwise k mu
  unfold unpackSteps at hsteps
  have h := foldl_inplace_copy (fun r : QRRank R => r.wbuf) (fun r => r.Rm)
    (fun (x : Nat × Nat) (r : QRRank R) => { r with Rm := (copy_backward r.wbuf
          (x.1 * (k * (k + 1)) / 2 + (x.2 * (x.2 - 1)) / 2)
          (x.1 * (k * (k + 1)) / 2 + (x.2 * (x.2 + 1)) / 2)
          r.Rm (x.1 * k * k + x.2 * ldr - (ldr - x.2))) })
    (fun x => x.1 * (k * (k + 1)) / 2 + (x.2 * (x.2 - 1)) / 2)
    (fun x => x.1 * (k * (k + 1)) / 2 + (x.2 * (x.2 + 1)) / 2
          - (x.1 * (k * (k + 1)) / 2 + (x.2 * (x.2 - 1)) / 2))
    (fun x => x.1 * k * k + x.2 * ldr - (ldr - x.2)
        - (x.1 * (k * (k + 1)) / 2 + (x.2 * (x.2 + 1)) / 2
          - (x.1 * (k * (k + 1)) / 2 + (x.2 * (x.2 - 1)) / 2)))
    (fun x y => y.1 < x.1 ∨ (y.1 = x.1 ∧ y.2 < x.2))
    (fun x s p => by
      show copy_backward _ _ _ _ _ p = _
      unfold copy_backward
      rw [copy_n_apply])
    (fun x s q hq => by
      show QRRank.wbuf { s with Rm := _ } q = s.wbuf q
      unfold QRRank.wbuf
      cases hw : s.work with
      | some w => rfl
      | none =>
        show copy_backward _ _ _ _ _ q = s.Rm q
        unfold copy_backward
        rw [copy_n_apply, if_neg hq])
    _ hsteps (nu, c + 1)
    (by
      have := (mem_unpackSteps k mu (nu, c + 1)).2 ⟨hnu, by omega, by omega⟩
      unfold unpackSteps at this
      exact this)
    (nu * k * k + c * ldr + a)
    (by
      obtain ⟨e1, e2, _⟩ := unpack_dst k ldr nu (c + 1) (by omega) (by omega) hk
      show _ ≤ _ ∧ _ < _
      simp only []
      rw [e1, e2]
      simp only [Nat.add_sub_cancel]
      omega)
    (fun x hx hrel => by
      have hx' : x ∈ unpackSteps k mu := by unfold unpackSteps; exact hx
      obtain ⟨hx1, hx2, hx3⟩ := (mem_unpackSteps k mu x).1 hx'
      obtain ⟨e1, e2, e3⟩ := unpack_dst k ldr nu (c + 1) (by omega) (by omega) hk
      obtain ⟨f1, f2, _⟩ := unpack_dst k ldr x.1 x.2 hx2 hx3 hk
      simp only [] at hrel ⊢
      rw [e1, e3, f1, f2]
      simp only [Nat.add_sub_cancel]
      have hq : nu * k * k + c * ldr + a - (nu * k * k + c * ldr) = a := by omega
      rw [hq]
      have hT := tri_le_sq k
      have hcl : tri (x.2 - 1) ≤ (x.2 - 1) * ldr := by
        have h1 := tri_add_le_mul (b := x.2 - 1) (k := k) (by omega)
        have h2 := Nat.mul_le_mul_left (x.2 - 1) hk
        omega
      have hnuT : x.1 * tri k ≤ x.1 * k * k := by
        rw [Nat.mul_assoc]; exact Nat.mul_le_mul_left _ hT
      rcases hrel with h | ⟨h1, h2⟩
      · have h3 := succ_mul_le (tri k) h
        have h4 := packed_lt k nu hac hc
        omega
      · have h3 : c < x.2 - 1 := by omega
        have h4 := tri_add_lt h3
        have h5 : x.1 = nu := h1.symm
        rw [h5] at hnuT ⊢
        omega)
    (fun x hx hrel => by
      have hx' : x ∈ unpackSteps k mu := by unfold unpackSteps; exact hx
      obtain ⟨hx1, hx2, hx3⟩ := (mem_unpackSteps k mu x).1 hx'
      obtain ⟨f1, f2, _⟩ := unpack_dst k ldr x.1 x.2 hx2 hx3 hk
      simp only [] at hrel ⊢
      rw [f1, f2]
      have hcl : (x.2 - 1) * ldr + ldr ≤ k * ldr := by
        have := Nat.mul_le_mul_right ldr (show x.2 - 1 + 1 ≤ k by omega)
        rw [Nat.succ_mul] at this; exact this
      rcases hrel with h | ⟨h1, h2⟩
      · rcases hlay with hmu | hld
        · omega
        · rw [hld] at hcl ⊢
          have h3 := succ_mul_le (k * k) h
          rw [← Nat.mul_assoc, ← Nat.mul_assoc] at h3
          omega
      · have h3 : (x.2 - 1) * ldr + ldr ≤ c * ldr := by
          have := Nat.mul_le_mul_right ldr (show x.2 - 1 + 1 ≤ c by omega)
          rw [Nat.succ_mul] at this; exact this
        rw [h1]
        omega)
    r
  rw [h]
  obtain ⟨e1, _, e3⟩ := unpack_dst k ldr nu (c + 1) (by omega) (by omega) hk
  show r.wbuf (_ + (_ - _)) = _
  simp only []
  rw [e1, e3]
  simp only [Nat.add_sub_cancel]
  congr 1
  omega

end VRUnpack



section VRWorld
variable {R : Type} [LinearOrderedField R]

theorem VR_eq_map (k mu ldr : Nat) (ws : List (QRRank R)) :
    VR k mu ldr ws = ws.map (vrRank k mu ldr ws) := by
  unfold VR allreduceW
  rw [List.map_map, List.map_map]
  apply List.map_congr_left
  intro r _
  simp only [Function.comp_apply, List.map_map]
  rfl

theorem frame_vrRank (k mu ldr : Nat) (ws : List (QRRank R)) (r : QRRank R) :
    QRFrame (vrRank k mu ldr ws r) r :=
  ((frame_vrUnpack k mu ldr _).trans (frame_setWbuf _ _)).trans (frame_vrLocal k mu r)

/-- After `VR`, the upper triangle of block `nu` of `R` holds, on every process, the
globally reduced Gram matrix of right-hand side `nu`. -/
theorem vrRank_val (k mu ldr : Nat) (ws : List (QRRank R)) (r : QRRank R) (hk : k ≤ ldr)
    (hlay : mu = 1 ∨ ldr = k) {nu a c : Nat} (hnu : nu < mu) (hac : a ≤ c) (hc : c < k) :
    (vrRank k mu ldr ws r).Rm (nu * k * k + a + c * ldr) = gramQ ws mu nu a c := by
  unfold vrRank
  have e : nu * k * k + a + c * ldr = nu * k * k + c * ldr + a := by omega
  rw [e, vrUnpack_val k mu ldr _ hk hlay hnu hac hc, wbuf_setWbuf, mul_tri_off]
  have h1 := packed_lt k nu hac hc
  have h2 := succ_mul_le (tri k) hnu
  rw [if_pos (by omega)]
  unfold gramQ
  congr 1
  apply List.map_congr_left
  intro r' _
  exact vrLocal_val k mu r' hnu hac hc

end VRWorld

section PotrfMemory
variable {R : Type} [LinearOrderedField R]

/-- The factor table reads only the upper triangle of the matrix. -/
theorem cholTable_congr (sqrt : R → R) (G G' : Nat → Nat → R) (k : Nat)
    (h : ∀ a b, a ≤ b → b < k → G a b = G' a b) (j : Nat) (hj : j ≤ k) (a b : Nat)
    (hb : b < k) : cholTable sqrt G j a b = cholTable sqrt G' j a b := by
  induction j generalizing a b with
  | zero => rfl
  | succ j ih =>
    simp only [cholTable]
    by_cases ha : a = j
    · rw [if_pos ha, if_pos ha]
      by_cases hbj : b < j
      · rw [if_pos hbj, if_pos hbj]
      · rw [if_neg hbj, if_neg hbj]
        have hsum1 : ∑ l in range j, cholTable sqrt G j l j * cholTable sqrt G j l j
            = ∑ l in range j, cholTable sqrt G' j l j * cholTable sqrt G' j l j := by
          apply Finset.sum_congr rfl
          intro l _
          rw [ih (by omega) l j (by omega)]
        have hsum2 : ∑ l in range j, cholTable sqrt G j l j * cholTable sqrt G j l b
            = ∑ l in range j, cholTable sqrt G' j l j * cholTable sqrt G' j l b := by
          apply Finset.sum_congr rfl
          intro l _
          rw [ih (by omega) l j (by omega), ih (by omega) l b hb]
        rw [hsum1, hsum2, h j j (le_refl j) (by omega), h j b (by omega) hb]
    · rw [if_neg ha, if_neg ha]
      exact ih (by omega) a b hb

theorem cholPivot_congr (sqrt : R → R) (G G' : Nat → Nat → R) (k : Nat)
    (h : ∀ a b, a ≤ b → b < k → G a b = G' a b) (j : Nat) (hj : j < k) :
    cholPivot sqrt G j = cholPivot sqrt G' j := by
  unfold cholPivot
  rw [h j j (le_refl j) hj]
  congr 1
  apply Finset.sum_congr rfl
  intro l _
  rw [cholTable_congr sqrt G G' k h j (by omega) l j hj]

theorem cholInfo_congr (sqrt : R → R) (G G' : Nat → Nat → R) (k : Nat)
    (h : ∀ a b, a ≤ b → b < k → G a b = G' a b) (m : Nat) (hm : m ≤ k) :
    cholInfo sqrt G m = cholInfo sqrt G' m := by
  induction m with
  | zero => rfl
  | succ m ih =>
    simp only [cholInfo]
    rw [ih (by omega), cholPivot_congr sqrt G G' k h m (by omega)]

theorem upper_decode (off a b lda : Nat) (ha : a < lda) :
    (off + a + b * lda - off) % lda = a ∧ (off + a + b * lda - off) / lda = b := by
  have e : off + a + b * lda - off = a + b * lda := by omega
  rw [e, Nat.add_mul_mod_self_right, Nat.mod_eq_of_lt ha,
    Nat.add_mul_div_right _ _ (by omega), Nat.div_eq_of_lt ha, Nat.zero_add]
  exact ⟨rfl, rfl⟩

/-- The code returned by `potrf` depends only on the upper triangle of the block. -/
theorem potrf_info (sqrt : R → R) (k : Nat) (A : Nat → R) (off lda : Nat)
    (G : Nat → Nat → R) (h : ∀ a b, a ≤ b → b < k → A (off + a + b * lda) = G a b) :
    (potrf sqrt k A off lda).2 = (cholInfo sqrt G k : Int) := by
  unfold potrf
  simp only []
  rw [cholInfo_congr sqrt _ G k h k le_rfl]

/-- On success `potrf` leaves the factor in the upper triangle of the block. -/
theorem potrf_val (sqrt : R → R) (k : Nat) (A : Nat → R) (off lda : Nat) (hk : k ≤ lda)
    (G : Nat → Nat → R) (h : ∀ a b, a ≤ b → b < k → A (off + a + b * lda) = G a b)
    (h0 : cholInfo sqrt G k = 0) {a b : Nat} (hab : a ≤ b) (hb : b < k) :
    (potrf sqrt k A off lda).1 (off + a + b * lda) = cholTable sqrt G k a b := by
  unfold potrf
  simp only []
  obtain ⟨e1, e2⟩ := upper_decode off a b lda (by omega)
  rw [cholInfo_congr sqrt _ G k h k le_rfl, h0]
  simp only [if_true]
  rw [e1, e2, if_pos ⟨by omega, hab, hb⟩, if_pos (by omega)]
  exact cholTable_congr sqrt _ G k h k le_rfl a b hb

/-- `potrf` writes only cells of the upper triangle of its block. -/
theorem potrf_other (sqrt : R → R) (k : Nat) (A : Nat → R) (off lda : Nat) {p : Nat}
    (hp : ¬ (off ≤ p ∧ (p - off) % lda ≤ (p - off) / lda ∧ (p - off) / lda < k)) :
    (potrf sqrt k A off lda).1 p = A p := by
  unfold potrf
  simp only []
  rw [if_neg hp]

/-- The upper triangles of two different blocks of `R` share no cell when the blocks are
contiguous. -/
theorem block_disjoint {k nu nu' a b : Nat} (hne : nu' ≠ nu) (hab : a ≤ b) (hb : b < k) :
    ¬ (nu * k * k ≤ nu' * k * k + a + b * k
      ∧ (nu' * k * k + a + b * k - nu * k * k) % k ≤ (nu' * k * k + a + b * k - nu * k * k) / k
      ∧ (nu' * k * k + a + b * k - nu * k * k) / k < k) := by
  have hbk : b * k + k ≤ k * k := succ_mul_le k hb
  rcases Nat.lt_or_gt_of_ne hne with hlt | hgt
  · have h1 := succ_mul_le (k * k) hlt
    rw [← Nat.mul_assoc, ← Nat.mul_assoc] at h1
    omega
  · have h1 := succ_mul_le (k * k) hgt
    rw [← Nat.mul_assoc, ← Nat.mul_assoc] at h1
    rintro ⟨_, _, h4⟩
    have h5 : k * k ≤ nu' * k * k + a + b * k - nu * k * k := by omega
    have h6 : k ≤ (nu' * k * k + a + b * k - nu * k * k) / k := by
      rw [Nat.le_div_iff_mul_le (by omega)]
      exact h5
    omega

end PotrfMemory
section PotrfLoop
variable {R : Type} [LinearOrderedField R]

/-- The loop over `potrf`: the code returned, the factors left in `R` when every
factorization succeeds, and the cells left alone. -/
theorem potrfLoop_spec (sqrt : R → R) (k ldr : Nat) (hk : k ≤ ldr)
    (Gq : Nat → Nat → Nat → R) (L : List Nat) (hL : L.Nodup)
    (hdisj : ∀ nu ∈ L, ∀ nu' ∈ L, nu' ≠ nu → ∀ a b, a ≤ b → b < k →
      ¬ InUpper k ldr nu (nu' * k * k + a + b * ldr))
    (buf : Nat → R)
    (hbuf : ∀ nu ∈ L, ∀ a b, a ≤ b → b < k → buf (nu * k * k + a + b * ldr) = Gq nu a b) :
    (potrfLoop sqrt k ldr L buf).2 = (firstInfo sqrt Gq k L : Int)
    ∧ (firstInfo sqrt Gq k L = 0 → ∀ nu ∈ L, ∀ a b, a ≤ b → b < k →
        (potrfLoop sqrt k ldr L buf).1 (nu * k * k + a + b * ldr) = cholTable sqrt (Gq nu) k a b)
    ∧ (∀ p, (∀ nu ∈ L, ¬ InUpper k ldr nu p) → (potrfLoop sqrt k ldr L buf).1 p = buf p) := by
  induction L generalizing buf with
  | nil =>
    refine ⟨rfl, ?_, fun p _ => rfl⟩
    intro _ nu hnu
    simp at hnu
  | cons nu rest ih =>
    have hinfo := potrf_info sqrt k buf (nu * k * k) ldr (Gq nu)
      (hbuf nu (List.mem_cons_self _ _))
    obtain ⟨hnotin, hrest⟩ := List.nodup_cons.1 hL
    simp only [potrfLoop, firstInfo]
    by_cases h0 : cholInfo sqrt (Gq nu) k ≠ 0
    · have hpos : 0 < (potrf sqrt k buf (nu * k * k) ldr).2 := by
        rw [hinfo]; exact_mod_cast Nat.pos_of_ne_zero h0
      rw [if_pos hpos, if_pos h0]
      refine ⟨hinfo, fun h => absurd h h0, ?_⟩
      intro p hp
      exact potrf_other sqrt k buf (nu * k * k) ldr (hp nu (List.mem_cons_self _ _))
    · have h0' : cholInfo sqrt (Gq nu) k = 0 := not_not.1 h0
      have hnpos : ¬ 0 < (potrf sqrt k buf (nu * k * k) ldr).2 := by
        rw [hinfo, h0']; simp
      rw [if_neg hnpos, if_neg h0]
      have hbuf1 : ∀ nu' ∈ rest, ∀ a b, a ≤ b → b < k →
          (potrf sqrt k buf (nu * k * k) ldr).1 (nu' * k * k + a + b * ldr) = Gq nu' a b := by
        intro nu' hnu' a b hab hb
        rw [potrf_other sqrt k buf (nu * k * k) ldr
          (hdisj nu (List.mem_cons_self _ _) nu' (List.mem_cons_of_mem _ hnu')
            (fun h => hnotin (h ▸ hnu')) a b hab hb)]
        exact hbuf nu' (List.mem_cons_of_mem _ hnu') a b hab hb
      obtain ⟨i1, i2, i3⟩ := ih hrest
        (fun x hx y hy => hdisj x (List.mem_cons_of_mem _ hx) y (List.mem_cons_of_mem _ hy))
        (potrf sqrt k buf (nu * k * k) ldr).1 hbuf1
      refine ⟨i1, ?_, ?_⟩
      · intro hz nu'' hnu'' a b hab hb
        rcases List.mem_cons.1 hnu'' with heq | hmem
        · subst heq
          rw [i3 _ (fun x hx => hdisj x (List.mem_cons_of_mem _ hx) nu''
            (List.mem_cons_self _ _) (fun h => hnotin (h ▸ hx)) a b hab hb)]
          exact potrf_val sqrt k buf (nu'' * k * k) ldr hk (Gq nu'')
            (hbuf nu'' (List.mem_cons_self _ _)) h0' hab hb
        · exact i2 hz nu'' hmem a b hab hb
      · intro p hp
        rw [i3 p (fun x hx => hp x (List.mem_cons_of_mem _ hx))]
        exact potrf_other sqrt k buf (nu * k * k) ldr (hp nu (List.mem_cons_self _ _))

theorem range_disjoint (k mu ldr : Nat) (hlay : mu = 1 ∨ ldr = k) :
    ∀ nu ∈ List.range mu, ∀ nu' ∈ List.range mu, nu' ≠ nu → ∀ a b, a ≤ b → b < k →
      ¬ InUpper k ldr nu (nu' * k * k + a + b * ldr) := by
  intro nu hnu nu' hnu' hne a b hab hb
  have hnu := List.mem_range.1 hnu
  have hnu' := List.mem_range.1 hnu'
  rcases hlay with h | h
  · omega
  · subst h
    exact block_disjoint hne hab hb

theorem firstInfo_zero_iff (sqrt : R → R) (Gq : Nat → Nat → Nat → R) (k : Nat) (L : List Nat) :
    firstInfo sqrt Gq k L = 0 ↔ ∀ nu ∈ L, cholInfo sqrt (Gq nu) k = 0 := by
  induction L with
  | nil => simp [firstInfo]
  | cons nu rest ih =>
    simp only [firstInfo, List.mem_cons, forall_eq_or_imp]
    by_cases h0 : cholInfo sqrt (Gq nu) k ≠ 0
    · rw [if_pos h0]
      constructor
      · intro h; exact absurd h h0
      · intro h; exact h.1
    · rw [if_neg h0, ih]
      exact ⟨fun h => ⟨not_not.1 h0, h⟩, fun h => h.2⟩

/-- A non-zero code is that of the first right-hand side, in the order of the loop, whose
factorization fails. -/
theorem firstInfo_range (sqrt : R → R) (Gq : Nat → Nat → Nat → R) (k mu : Nat)
    (h : firstInfo sqrt Gq k (List.range mu) ≠ 0) :
    ∃ nu, nu < mu ∧ (∀ nu', nu' < nu → cholInfo sqrt (Gq nu') k = 0)
      ∧ cholInfo sqrt (Gq nu) k ≠ 0
      ∧ firstInfo sqrt Gq k (List.range mu) = cholInfo sqrt (Gq nu) k := by
  have key : ∀ (n s : Nat), firstInfo sqrt Gq k (List.range' s n) ≠ 0 →
      ∃ nu, s ≤ nu ∧ nu < s + n ∧ (∀ nu', s ≤ nu' → nu' < nu → cholInfo sqrt (Gq nu') k = 0)
        ∧ cholInfo sqrt (Gq nu) k ≠ 0
        ∧ firstInfo sqrt Gq k (List.range' s n) = cholInfo sqrt (Gq nu) k := by
    intro n
    induction n with
    | zero => intro s h; simp [firstInfo] at h
    | succ n ih =>
      intro s h
      rw [List.range'_succ] at h ⊢
      simp only [firstInfo] at h ⊢
      by_cases h0 : cholInfo sqrt (Gq s) k ≠ 0
      · rw [if_pos h0]
        exact ⟨s, le_refl s, by omega, fun nu' h1 h2 => by omega, h0, rfl⟩
      · rw [if_neg h0] at h ⊢
        obtain ⟨nu, h1, h2, h3, h4, h5⟩ := ih (s + 1) h
        refine ⟨nu, by omega, by omega, ?_, h4, h5⟩
        intro nu' hs hlt
        rcases Nat.eq_or_lt_of_le hs with heq | hgt
        · rw [← heq]; exact not_not.1 h0
        · exact h3 nu' hgt hlt
  rw [List.range_eq_range'] at h ⊢
  obtain ⟨nu, _, h2, h3, h4, h5⟩ := key mu 0 h
  exact ⟨nu, by omega, fun nu' hlt => h3 nu' (Nat.zero_le _) hlt, h4, h5⟩

end PotrfLoop



section TrsmMath
variable {R : Type} [LinearOrderedField R]

theorem trsmTable_succ_of_ne (alpha : R) (U B : Nat → Nat → R) (b j c : Nat) (h : c ≠ b) :
    trsmTable alpha U B (b + 1) j c = trsmTable alpha U B b j c := by
  simp only [trsmTable, if_neg h]

theorem trsmTable_stable (alpha : R) (U B : Nat → Nat → R) {c b : Nat} (h : c < b) (j : Nat) :
    trsmTable alpha U B b j c = trsmTable alpha U B (c + 1) j c := by
  induction b with
  | zero => omega
  | succ b ih =>
    rcases Nat.lt_succ_iff_lt_or_eq.1 h with hlt | heq
    · rw [trsmTable_succ_of_ne alpha U B b j c (by omega), ih hlt]
    · rw [heq]

/-- Column `c` of the solution in terms of the earlier columns. -/
theorem trsmTable_col (alpha : R) (U B : Nat → Nat → R) {c k : Nat} (h : c < k) (j : Nat) :
    trsmTable alpha U B k j c
      = (alpha * B j c - ∑ a in range c, trsmTable alpha U B k j a * U a c) / U c c := by
  rw [trsmTable_stable alpha U B h]
  simp only [trsmTable, if_true]
  congr 2
  apply Finset.sum_congr rfl
  intro a ha
  have ha := Finset.mem_range.1 ha
  rw [trsmTable_stable alpha U B (by omega : a < k), trsmTable_stable alpha U B ha]

/-- The solution computed by `trsm` satisfies `X U = alpha B`. -/
theorem trsmTable_mul (alpha : R) (U B : Nat → Nat → R) {c k : Nat} (h : c < k) (j : Nat)
    (hd : U c c ≠ 0) :
    ∑ a in range (c + 1), trsmTable alpha U B k j a * U a c = alpha * B j c := by
  rw [Finset.sum_range_succ, trsmTable_col alpha U B h j]
  field_simp

theorem trsmTable_congr (alpha : R) (U U' B B' : Nat → Nat → R) (k : Nat) (j : Nat)
    (hU : ∀ a c, a ≤ c → c < k → U a c = U' a c) (hB : ∀ c, c < k → B j c = B' j c)
    (b : Nat) (hb : b ≤ k) (c : Nat) :
    trsmTable alpha U B b j c = trsmTable alpha U' B' b j c := by
  induction b generalizing c with
  | zero => rfl
  | succ b ih =>
    simp only [trsmTable]
    by_cases hc : c = b
    · rw [if_pos hc, if_pos hc, hB b (by omega), hU b b (le_refl b) (by omega)]
      congr 2
      apply Finset.sum_congr rfl
      intro a ha
      have ha := Finset.mem_range.1 ha
      rw [ih (by omega) a, hU a b (by omega) (by omega)]
    · rw [if_neg hc, if_neg hc]
      exact ih (by omega) c

end TrsmMath

section InnerProduct
variable {R : Type} [LinearOrderedField R]

theorem ipW_comm (ws : List (QRRank R)) (x y : QRRank R → Nat → R) :
    ipW ws x y = ipW ws y x := by
  unfold ipW
  congr 1
  apply List.map_congr_left
  intro r _
  split
  · rfl
  · apply Finset.sum_congr rfl
    intro j _
    ring

/-- Linearity of the inner product in its first argument, in the form met in the
column-by-column triangular solve. -/
theorem ipW_combo (ws : List (QRRank R)) (f y : QRRank R → Nat → R)
    (g : Nat → QRRank R → Nat → R) (u : Nat → R) (dd : R) (b : Nat) :
    ipW ws (fun r j => (f r j - ∑ a in range b, g a r j * u a) / dd) y
      = (ipW ws f y - ∑ a in range b, u a * ipW ws (g a) y) / dd := by
  unfold ipW
  have h1 : ∀ r : QRRank R,
      (if r.excluded = true then 0
        else ∑ j in range r.n, (f r j - ∑ a in range b, g a r j * u a) / dd
          * (r.weight j * y r j))
      = ((if r.excluded = true then 0 else ∑ j in range r.n, f r j * (r.weight j * y r j))
          - ∑ a in range b, u a *
            (if r.excluded = true then 0 else ∑ j in range r.n, g a r j * (r.weight j * y r j)))
        * dd⁻¹ := by
    intro r
    by_cases hex : r.excluded = true
    · simp [hex]
    · simp only [if_neg hex]
      rw [sub_mul, Finset.sum_mul, Finset.sum_mul]
      have e1 : ∀ j ∈ range r.n, (f r j - ∑ a in range b, g a r j * u a) / dd
            * (r.weight j * y r j)
          = f r j * (r.weight j * y r j) * dd⁻¹
            - ∑ a in range b, u a * (g a r j * (r.weight j * y r j)) * dd⁻¹ := by
        intro j _
        rw [div_eq_mul_inv, sub_mul, sub_mul, Finset.sum_mul, Finset.sum_mul]
        congr 1
        · ring
        · apply Finset.sum_congr rfl
          intro a _
          ring
      rw [Finset.sum_congr rfl e1, Finset.sum_sub_distrib, Finset.sum_comm]
      congr 1
      apply Finset.sum_congr rfl
      intro a _
      rw [Finset.mul_sum, Finset.sum_mul]
  rw [List.map_congr_left (fun r _ => h1 r)]
  rw [div_eq_mul_inv]
  have h2 : ∀ (F : QRRank R → R) (c : R), (ws.map (fun r => F r * c)).sum
      = (ws.map F).sum * c := by
    intro F c
    induction ws with
    | nil => simp
    | cons r ws ih => simp [ih, add_mul]
  rw [h2, list_sum_map_sub, list_sum_map_finset_sum]
  congr 2
  apply Finset.sum_congr rfl
  intro a _
  rw [list_sum_map_mul_left]

end InnerProduct
section Orthonormal
variable {R : Type} [LinearOrderedField R]

/-- Cholesky QR orthonormalises: if `Uᵀ U` is the Gram matrix of the columns `col` and
the columns `X` solve `X U = col`, then the columns `X` are orthonormal. -/
theorem orthonormal_of_factor (ws : List (QRRank R)) (k : Nat)
    (col X : Nat → QRRank R → Nat → R) (U : Nat → Nat → R)
    (hX : ∀ b, b < k → ∀ r j,
      X b r j = (col b r j - ∑ a in range b, X a r j * U a b) / U b b)
    (hG : ∀ a c, a ≤ c → c < k →
      ∑ l in range (a + 1), U l a * U l c = ipW ws (col a) (col c))
    (hd : ∀ a, a < k → U a a ≠ 0) :
    ∀ a a', a < k → a' < k → ipW ws (X a) (X a') = if a = a' then 1 else 0 := by
  have hXf : ∀ b, b < k →
      X b = fun r j => (col b r j - ∑ a in range b, X a r j * U a b) / U b b := by
    intro b hb; funext r j; exact hX b hb r j
  have key : ∀ b, b < k →
      (∀ c, b ≤ c → c < k → ipW ws (X b) (col c) = U b c)
      ∧ (∀ a, a ≤ b → ipW ws (X a) (X b) = if a = b then 1 else 0) := by
    intro b
    induction b using Nat.strong_induction_on with
    | _ b ih =>
      intro hb
      have hexp : ∀ y, ipW ws (X b) y
          = (ipW ws (col b) y - ∑ a in range b, U a b * ipW ws (X a) y) / U b b := by
        intro y
        have h := ipW_combo ws (col b) y (fun a => X a) (fun a => U a b) (U b b) b
        rw [← hXf b hb] at h
        exact h
      have hO2 : ∀ c, b ≤ c → c < k → ipW ws (X b) (col c) = U b c := by
        intro c hbc hc
        rw [hexp]
        have hs : ∑ a in range b, U a b * ipW ws (X a) (col c)
            = ∑ a in range b, U a b * U a c := by
          apply Finset.sum_congr rfl
          intro a ha
          have ha := Finset.mem_range.1 ha
          rw [(ih a ha (by omega)).1 c (by omega) hc]
        rw [hs, ← hG b c hbc hc, Finset.sum_range_succ]
        field_simp [hd b hb]
      have hdelta : ∀ a' a, a' < b → a < b → ipW ws (X a') (X a) = if a' = a then 1 else 0 := by
        intro a' a ha' ha
        rcases Nat.le_total a' a with h | h
        · exact (ih a ha (by omega)).2 a' h
        · rw [ipW_comm, (ih a' ha' (by omega)).2 a h]
          by_cases e : a = a'
          · rw [if_pos e, if_pos e.symm]
          · rw [if_neg e, if_neg (fun h' => e h'.symm)]
      have hO1 : ∀ a, a < b → ipW ws (X a) (X b) = 0 := by
        intro a ha
        rw [ipW_comm, hexp, ipW_comm, (ih a ha (by omega)).1 b (by omega) hb]
        have hs : ∑ a' in range b, U a' b * ipW ws (X a') (X a) = U a b := by
          rw [Finset.sum_eq_single a]
          · rw [hdelta a a ha ha, if_pos rfl, mul_one]
          · intro a' ha' hne
            rw [hdelta a' a (Finset.mem_range.1 ha') ha, if_neg hne, mul_zero]
          · intro h; exact absurd (Finset.mem_range.2 ha) h
        rw [hs, sub_self, zero_div]
      refine ⟨hO2, ?_⟩
      intro a hab
      rcases Nat.eq_or_lt_of_le hab with heq | hlt
      · subst heq
        rw [if_pos rfl]
        rw [hexp, ipW_comm, hO2 a (le_refl a) hb]
        have hs : ∑ a' in range a, U a' a * ipW ws (X a') (X a) = 0 := by
          apply Finset.sum_eq_zero
          intro a' ha'
          rw [hO1 a' (Finset.mem_range.1 ha'), mul_zero]
        rw [hs, sub_zero]
        exact div_self (hd a hb)
      · rw [hO1 a hlt, if_neg (by omega)]
  intro a a' ha ha'
  rcases Nat.le_total a a' with h | h
  · exact (key a' ha').2 a h
  · rw [ipW_comm, (key a ha).2 a' h]
    by_cases e : a = a'
    · rw [if_pos e, if_pos e.symm]
    · rw [if_neg e, if_neg (fun h' => e h'.symm)]

end Orthonormal

section TrsmLoop

variable {R : Type} [LinearOrderedField R]

theorem trsm_hit (n k : Nat) (alpha : R) (U : Nat → R) (uo ldu : Nat) (B : Nat → R)
    (bo ldb : Nat) {j b : Nat} (hj : j < n) (hn : n ≤ ldb) (hb : b < k) :
    trsm n k alpha U uo ldu B bo ldb (bo + j + b * ldb)
      = trsmTable alpha (fun a c => U (uo + a + c * ldu)) (fun j c => B (bo + j + c * ldb)) k
          j b := by
  obtain ⟨h1, h2⟩ := upper_decode bo j b ldb (by omega)
  unfold trsm
  rw [if_pos ⟨by omega, by omega, by omega⟩, h1, h2]

theorem trsm_other (n k : Nat) (alpha : R) (U : Nat → R) (uo ldu : Nat) (B : Nat → R)
    (bo ldb : Nat) {p : Nat}
    (hp : ¬ (bo ≤ p ∧ (p - bo) % ldb < n ∧ (p - bo) / ldb < k)) :
    trsm n k alpha U uo ldu B bo ldb p = B p := by
  unfold trsm
  rw [if_neg hp]

theorem trsm_block_miss {n mu nu m j b : Nat} (hne : nu ≠ m) (hnu : nu < mu) (hm : m < mu)
    (hj : j < n) (k : Nat) :
    ¬ (m * n ≤ nu * n + j + b * (mu * n)
      ∧ (nu * n + j + b * (mu * n) - m * n) % (mu * n) < n
      ∧ (nu * n + j + b * (mu * n) - m * n) / (mu * n) < k) := by
  have h1 : nu * n + n ≤ mu * n := succ_mul_le n hnu
  have h2 : m * n + n ≤ mu * n := succ_mul_le n hm
  rintro ⟨ha, hb, -⟩
  rcases Nat.lt_or_gt_of_ne hne with h | h
  · have h3 : nu * n + n ≤ m * n := succ_mul_le n h
    rcases Nat.eq_zero_or_pos b with hb0 | hb0
    · subst hb0
      omega
    · obtain ⟨b', rfl⟩ : ∃ b', b = b' + 1 := ⟨b - 1, by omega⟩
      have e : nu * n + j + (b' + 1) * (mu * n) - m * n
          = (mu * n + nu * n + j - m * n) + b' * (mu * n) := by
        rw [Nat.add_mul, Nat.one_mul]
        omega
      rw [e, Nat.add_mul_mod_self_right, Nat.mod_eq_of_lt (by omega)] at hb
      omega
  · have h3 : m * n + n ≤ nu * n := succ_mul_le n h
    have e : nu * n + j + b * (mu * n) - m * n = (nu * n + j - m * n) + b * (mu * n) := by
      omega
    rw [e, Nat.add_mul_mod_self_right, Nat.mod_eq_of_lt (by omega)] at hb
    omega

theorem trsmLoop_val (n k mu : Nat) (alpha : R) (U : Nat → R) (ldu : Nat) (Q : Nat → R)
    (m : Nat) (hm : m ≤ mu) {nu j b : Nat} (hnu : nu < mu) (hj : j < n) (hb : b < k) :
    ((List.range m).foldl (fun Q nu =>
        trsm n k alpha U (k * k * nu) ldu Q (nu * n) (mu * n)) Q) (nu * n + j + b * (mu * n))
      = if nu < m then
          trsmTable alpha (fun a c => U (k * k * nu + a + c * ldu))
            (fun j c => Q (nu * n + j + c * (mu * n))) k j b
        else Q (nu * n + j + b * (mu * n)) := by
  induction m generalizing b with
  | zero => simp
  | succ m ih =>
    rw [List.range_succ, List.foldl_append]
    simp only [List.foldl_cons, List.foldl_nil]
    have hn : n ≤ mu * n := by
      have := succ_mul_le n hnu
      omega
    by_cases h : nu = m
    · subst h
      rw [if_pos (by omega), trsm_hit n k alpha U _ ldu _ _ (mu * n) hj hn hb]
      apply trsmTable_congr _ _ _ _ _ k j (fun _ _ _ _ => rfl) _ k le_rfl
      intro c hc
      show _ = Q _
      rw [ih (by omega) hc, if_neg (by omega)]
    · rw [trsm_other _ _ _ _ _ _ _ _ _ (trsm_block_miss h hnu (by omega) hj k),
        ih (by omega) hb]
      by_cases h' : nu < m
      · rw [if_pos h', if_pos (by omega)]
      · rw [if_neg h', if_neg (by omega)]

theorem trsmLoop_other (n k mu : Nat) (alpha : R) (U : Nat → R) (ldu : Nat) (Q : Nat → R)
    (m : Nat) {p : Nat}
    (hp : ∀ nu, nu < m → ¬ (nu * n ≤ p ∧ (p - nu * n) % (mu * n) < n
      ∧ (p - nu * n) / (mu * n) < k)) :
    ((List.range m).foldl (fun Q nu =>
        trsm n k alpha U (k * k * nu) ldu Q (nu * n) (mu * n)) Q) p = Q p := by
  induction m with
  | zero => simp
  | succ m ih =>
    rw [List.range_succ, List.foldl_append]
    simp only [List.foldl_cons, List.foldl_nil]
    rw [trsm_other _ _ _ _ _ _ _ _ _ (hp m (by omega)), ih (fun nu h => hp nu (by omega))]

end TrsmLoop

section QRWorld

variable {R : Type} [LinearOrderedField R]

theorem QR_eq_map (sqrt : R → R) (k mu ldr : Nat) (update : Bool) (ws : List (QRRank R)) :
    QR sqrt k mu ldr update ws = ws.map (qrRank sqrt k mu ldr update ws) := by
  unfold QR
  rw [VR_eq_map, List.map_map]
  rfl

/-- Under the layout condition the loop over `potrf` sees the reduced Gram matrices. -/
theorem qr_potrfLoop (sqrt : R → R) (k mu ldr : Nat) (ws : List (QRRank R)) (r : QRRank R)
    (hk : k ≤ ldr) (hlay : mu = 1 ∨ ldr = k) :
    (potrfLoop sqrt k ldr (List.range mu) (vrRank k mu ldr ws r).Rm).2
        = (firstInfo sqrt (gramQ ws mu) k (List.range mu) : Int)
    ∧ (firstInfo sqrt (gramQ ws mu) k (List.range mu) = 0 →
        ∀ nu, nu < mu → ∀ a b, a ≤ b → b < k →
          (potrfLoop sqrt k ldr (List.range mu) (vrRank k mu ldr ws r).Rm).1
            (nu * k * k + a + b * ldr) = cholTable sqrt (gramQ ws mu nu) k a b) := by
  have h := potrfLoop_spec sqrt k ldr hk (gramQ ws mu) (List.range mu) (List.nodup_range mu)
    (range_disjoint k mu ldr hlay) (vrRank k mu ldr ws r).Rm
    (fun nu hnu a b hab hb => vrRank_val k mu ldr ws r hk hlay (List.mem_range.1 hnu) hab hb)
  exact ⟨h.1, fun h0 nu hnu a b hab hb => h.2.1 h0 nu (List.mem_range.2 hnu) a b hab hb⟩

theorem qrRank_info (sqrt : R → R) (k mu ldr : Nat) (update : Bool) (ws : List (QRRank R))
    (r : QRRank R) (hk : k ≤ ldr) (hlay : mu = 1 ∨ ldr = k) :
    (qrRank sqrt k mu ldr update ws r).2
      = (firstInfo sqrt (gramQ ws mu) k (List.range mu) : Int) := by
  have h := (qr_potrfLoop sqrt k mu ldr ws r hk hlay).1
  unfold qrRank qrPost
  by_cases hpos : 0 < (potrfLoop sqrt k ldr (List.range mu) (vrRank k mu ldr ws r).Rm).2
  · rw [if_pos hpos]
    exact h
  · rw [if_neg hpos]
    have h0 : (firstInfo sqrt (gramQ ws mu) k (List.range mu) : Int) = 0 := by
      rw [h] at hpos
      omega
    split_ifs <;> exact h0.symm

theorem qrRank_Rm (sqrt : R → R) (k mu ldr : Nat) (update : Bool) (ws : List (QRRank R))
    (r : QRRank R) :
    (qrRank sqrt k mu ldr update ws r).1.Rm
      = (potrfLoop sqrt k ldr (List.range mu) (vrRank k mu ldr ws r).Rm).1 := by
  unfold qrRank qrPost
  split_ifs <;> rfl

theorem qrRank_frame (sqrt : R → R) (k mu ldr : Nat) (update : Bool) (ws : List (QRRank R))
    (r : QRRank R) :
    (qrRank sqrt k mu ldr update ws r).1.excluded = r.excluded
      ∧ (qrRank sqrt k mu ldr update ws r).1.n = r.n
      ∧ (qrRank sqrt k mu ldr update ws r).1.d = r.d := by
  obtain ⟨h1, h2, -, h4, -⟩ := frame_vrRank k mu ldr ws r
  unfold qrRank qrPost
  split_ifs <;> exact ⟨h1, h2, h4⟩

/-- On success the upper triangle of block `nu` of `R` holds the Cholesky factor of the
reduced Gram matrix. -/
theorem qrRank_factor (sqrt : R → R) (k mu ldr : Nat) (update : Bool) (ws : List (QRRank R))
    (r : QRRank R) (hk : k ≤ ldr) (hlay : mu = 1 ∨ ldr = k)
    (h0 : firstInfo sqrt (gramQ ws mu) k (List.range mu) = 0)
    {nu a b : Nat} (hnu : nu < mu) (hab : a ≤ b) (hb : b < k) :
    (qrRank sqrt k mu ldr update ws r).1.Rm (nu * k * k + a + b * ldr)
      = cholTable sqrt (gramQ ws mu nu) k a b := by
  rw [qrRank_Rm]
  exact (qr_potrfLoop sqrt k mu ldr ws r hk hlay).2 h0 nu hnu a b hab hb

/-- On success, on a process with `!excluded && n`, and with `update`, the basis is replaced
by the solution of `X U = Q` computed by `trsm`. -/
theorem qrRank_Q (sqrt : R → R) (k mu ldr : Nat) (ws : List (QRRank R))
    (r : QRRank R) (hk : k ≤ ldr) (hlay : mu = 1 ∨ ldr = k)
    (h0 : firstInfo sqrt (gramQ ws mu) k (List.range mu) = 0)
    (hex : r.excluded = false)
    {nu j b : Nat} (hnu : nu < mu) (hj : j < r.n) (hb : b < k) :
    (qrRank sqrt k mu ldr true ws r).1.Q (nu * r.n + j + b * (mu * r.n))
      = trsmTable 1 (cholTable sqrt (gramQ ws mu nu) k)
          (fun j c => r.Q (nu * r.n + j + c * (mu * r.n))) k j b := by
  obtain ⟨h1, h2, h3, -, -⟩ := frame_vrRank k mu ldr ws r
  have hl := qr_potrfLoop sqrt k mu ldr ws r hk hlay
  have hnp : ¬ 0 < (potrfLoop sqrt k ldr (List.range mu) (vrRank k mu ldr ws r).Rm).2 := by
    rw [hl.1, h0]
    simp
  have hact : (vrRank k mu ldr ws r).excluded = false ∧ (vrRank k mu ldr ws r).n ≠ 0
      ∧ true = true := ⟨h1.trans hex, by rw [h2]; omega, rfl⟩
  unfold qrRank qrPost
  rw [if_neg hnp, if_pos hact]
  simp only []
  rw [h2, h3, trsmLoop_val r.n k mu d__1 _ ldr r.Q mu le_rfl hnu hj hb, if_pos hnu]
  apply trsmTable_congr _ _ _ _ _ k j _ (fun _ _ => rfl) k le_rfl
  intro a c hac hc
  rw [show k * k * nu = nu * k * k by ring]
  exact hl.2 h0 nu hnu a c hac hc

end QRWorld

section GramForm

variable {R : Type} [LinearOrderedField R]

theorem ipW_congr (ws : List (QRRank R)) (x x' y y' : QRRank R → Nat → R)
    (hx : ∀ r ∈ ws, r.excluded = false → ∀ j, j < r.n → x r j = x' r j)
    (hy : ∀ r ∈ ws, r.excluded = false → ∀ j, j < r.n → y r j = y' r j) :
    ipW ws x y = ipW ws x' y' := by
  unfold ipW
  congr 1
  apply List.map_congr_left
  intro r hr
  by_cases hex : r.excluded = true
  · simp only [if_pos hex]
  · simp only [if_neg hex]
    have hex' : r.excluded = false := by simpa using hex
    apply Finset.sum_congr rfl
    intro j hj
    rw [hx r hr hex' j (Finset.mem_range.1 hj), hy r hr hex' j (Finset.mem_range.1 hj)]

theorem gramQ_eq_ipW (ws : List (QRRank R)) (mu nu a b : Nat) :
    gramQ ws mu nu a b
      = ipW ws (fun r j => r.Q (nu * r.n + j + a * (mu * r.n)))
          (fun r j => r.Q (nu * r.n + j + b * (mu * r.n))) := by
  unfold gramQ ipW QRRank.gram
  congr 1
  apply List.map_congr_left
  intro r _
  by_cases hex : r.excluded = true
  · simp only [if_pos hex]
  · simp only [if_neg hex]
    apply Finset.sum_congr rfl
    intro j _
    rw [show nu * r.n + a * (mu * r.n) + j = nu * r.n + j + a * (mu * r.n) by omega,
      show nu * r.n + b * (mu * r.n) + j = nu * r.n + j + b * (mu * r.n) by omega]

theorem ipW_sum_left (ws : List (QRRank R)) (g : Nat → QRRank R → Nat → R)
    (y : QRRank R → Nat → R) (c : Nat → R) (m : Nat) :
    ipW ws (fun r j => ∑ a in range m, c a * g a r j) y
      = ∑ a in range m, c a * ipW ws (g a) y := by
  unfold ipW
  induction ws with
  | nil => simp
  | cons r ws ih =>
    simp only [List.map_cons, List.sum_cons, ih, mul_add, Finset.sum_add_distrib]
    congr 1
    by_cases hex : r.excluded = true
    · simp [hex]
    · simp only [if_neg hex]
      rw [Finset.sum_congr rfl (fun j _ => Finset.sum_mul _ _ _), Finset.sum_comm]
      apply Finset.sum_congr rfl
      intro a _
      rw [Finset.mul_sum]
      apply Finset.sum_congr rfl
      intro j _
      ring

theorem symm_gramQ (ws : List (QRRank R)) (mu nu a b : Nat) :
    symm (gramQ ws mu nu) a b
      = ipW ws (fun r j => r.Q (nu * r.n + j + a * (mu * r.n)))
          (fun r j => r.Q (nu * r.n + j + b * (mu * r.n))) := by
  unfold symm
  by_cases h : a ≤ b
  · rw [if_pos h, gramQ_eq_ipW]
  · rw [if_neg h, gramQ_eq_ipW, ipW_comm]

theorem quadForm_gramQ (ws : List (QRRank R)) (mu nu m : Nat) (c : Nat → R) :
    quadForm (gramQ ws mu nu) m c
      = ipW ws (fun r j => ∑ a in range m, c a * r.Q (nu * r.n + j + a * (mu * r.n)))
          (fun r j => ∑ a in range m, c a * r.Q (nu * r.n + j + a * (mu * r.n))) := by
  rw [ipW_sum_left ws (fun a r j => r.Q (nu * r.n + j + a * (mu * r.n)))]
  unfold quadForm
  apply Finset.sum_congr rfl
  intro a _
  rw [ipW_comm, ipW_sum_left ws (fun a r j => r.Q (nu * r.n + j + a * (mu * r.n))),
    Finset.mul_sum]
  apply Finset.sum_congr rfl
  intro b _
  rw [symm_gramQ, ipW_comm]
  ring

theorem list_sum_pos_of_mem {ι : Type} (ws : List ι) (f : ι → R)
    (h0 : ∀ r ∈ ws, 0 ≤ f r) (r : ι) (hr : r ∈ ws) (hpos : 0 < f r) :
    0 < (ws.map f).sum := by
  induction ws with
  | nil => simp at hr
  | cons x ws ih =>
    simp only [List.map_cons, List.sum_cons]
    have hx : 0 ≤ f x := h0 x (List.mem_cons_self x ws)
    have hrest : 0 ≤ (ws.map f).sum :=
      List.sum_nonneg (by
        intro y hy
        obtain ⟨z, hz, rfl⟩ := List.mem_map.1 hy
        exact h0 z (List.mem_cons_of_mem x hz))
    rcases List.mem_cons.1 hr with h | h
    · subst h
      linarith
    · have := ih (fun y hy => h0 y (List.mem_cons_of_mem x hy)) h
      linarith

theorem ipW_self_pos (ws : List (QRRank R)) (z : QRRank R → Nat → R)
    (hw : ∀ r ∈ ws, ∀ j, j < r.n → 0 < r.weight j)
    (r : QRRank R) (hr : r ∈ ws) (hex : r.excluded = false) (j : Nat) (hj : j < r.n)
    (hz : z r j ≠ 0) : 0 < ipW ws z z := by
  unfold ipW
  have hterm : ∀ r' ∈ ws, ∀ i ∈ range r'.n, 0 ≤ z r' i * (r'.weight i * z r' i) := by
    intro r' hr' i hi
    have := hw r' hr' i (Finset.mem_range.1 hi)
    nlinarith [mul_self_nonneg (z r' i), mul_nonneg this.le (mul_self_nonneg (z r' i))]
  apply list_sum_pos_of_mem ws _ _ r hr
  · rw [if_neg (by simp [hex])]
    apply Finset.sum_pos' (hterm r hr)
    refine ⟨j, Finset.mem_range.2 hj, ?_⟩
    have hwj := hw r hr j hj
    have hsq : 0 < z r j * z r j := mul_self_pos.2 hz
    nlinarith [mul_pos hwj hsq]
  · intro r' hr'
    by_cases hex' : r'.excluded = true
    · simp [hex']
    · rw [if_neg hex']
      exact Finset.sum_nonneg (hterm r' hr')

/-- With positive weights, linearly independent columns have a positive definite Gram
matrix, and so has each leading block of it. -/
theorem leadingPD_of_independent (ws : List (QRRank R)) (k mu nu : Nat)
    (hw : ∀ r ∈ ws, ∀ j, j < r.n → 0 < r.weight j)
    (hli : ColumnsIndependent ws k mu nu) (m : Nat) (hm : m ≤ k) :
    LeadingPD (gramQ ws mu nu) m := by
  intro c ⟨a, ha, hca⟩
  obtain ⟨r, hr, hex, j, hj, hne⟩ := hli (fun a => if a < m then c a else 0)
    ⟨a, by omega, by simpa [ha] using hca⟩
  rw [quadForm_gramQ]
  apply ipW_self_pos ws _ hw r hr hex j hj
  intro hz
  apply hne
  have e : ∑ a in range k, (if a < m then c a else 0) * r.Q (nu * r.n + j + a * (mu * r.n))
      = ∑ a in range m, c a * r.Q (nu * r.n + j + a * (mu * r.n)) := by
    symm
    apply Finset.sum_subset_zero_on_sdiff (Finset.range_subset.2 hm)
    · intro x hx
      have hx' : ¬ x < m := fun h => (Finset.mem_sdiff.1 hx).2 (Finset.mem_range.2 h)
      simp [hx']
    · intro x hx
      rw [if_pos (Finset.mem_range.1 hx)]
  rw [e]
  exact hz

/-- Two upper triangular factors of the same matrix, one of them with a positive diagonal,
agree up to the sign of each row. -/
theorem factor_rows_unique (k : Nat) (U T G : Nat → Nat → R)
    (hU : ∀ a c, a ≤ c → c < k → ∑ l in range (a + 1), U l a * U l c = G a c)
    (hT : ∀ a c, a ≤ c → c < k → ∑ l in range (a + 1), T l a * T l c = G a c)
    (hd : ∀ a, a < k → 0 < U a a) :
    ∀ a, a < k → ∃ s : R, (s = 1 ∨ s = -1) ∧ ∀ c, a ≤ c → c < k → T a c = s * U a c := by
  intro a
  induction a using Nat.strong_induction_on with
  | _ a ih =>
    intro ha
    have hprev : ∀ c, a ≤ c → c < k →
        ∑ l in range a, T l a * T l c = ∑ l in range a, U l a * U l c := by
      intro c hac hc
      apply Finset.sum_congr rfl
      intro l hl
      have hl := Finset.mem_range.1 hl
      obtain ⟨s, hs, hrow⟩ := ih l hl (by omega)
      rw [hrow a (by omega) ha, hrow c (by omega) hc]
      rcases hs with h | h <;> rw [h] <;> ring
    have hrow : ∀ c, a ≤ c → c < k → T a a * T a c = U a a * U a c := by
      intro c hac hc
      have h1 := hU a c hac hc
      have h2 := hT a c hac hc
      rw [Finset.sum_range_succ] at h1 h2
      rw [hprev c hac hc] at h2
      linarith
    have hpos := hd a ha
    have hsq := hrow a le_rfl ha
    rcases mul_self_eq_mul_self_iff.1 hsq with h | h
    · refine ⟨1, Or.inl rfl, fun c hac hc => ?_⟩
      have := hrow c hac hc
      rw [h] at this
      rw [one_mul]
      exact mul_left_cancel₀ hpos.ne' this
    · refine ⟨-1, Or.inr rfl, fun c hac hc => ?_⟩
      have := hrow c hac hc
      rw [h] at this
      have h3 : U a a * (-(T a c)) = U a a * U a c := by linarith
      have := mul_left_cancel₀ hpos.ne' h3
      linarith

end GramForm

section Overlap
variable {R : Type} [LinearOrderedField R]

omit [LinearOrderedField R] in
/-- The unpacking loop for `k = 2`, `mu = 2`, `ldr = 3` and `work = R`: the diagonal cell
of block `0` and the first cell of block `1` coincide (cell `4`), and the loop leaves there
the entry of block `0`. -/
theorem overlap_unpack (r : QRRank R) (hw : r.work = none) :
    (vrUnpack 2 2 3 r).Rm 0 = r.Rm 0 ∧ (vrUnpack 2 2 3 r).Rm 3 = r.Rm 1
      ∧ (vrUnpack 2 2 3 r).Rm 4 = r.Rm 2 ∧ (vrUnpack 2 2 3 r).Rm 7 = r.Rm 4
      ∧ (vrUnpack 2 2 3 r).Rm 8 = r.Rm 5 := by
  obtain ⟨e, n, Q, Rm, work, d, scal⟩ := r
  simp only at hw
  subst hw
  simp [vrUnpack, copy_backward, copy_n, QRRank.wbuf, List.range_succ, List.range']

theorem overlap_gram :
    (overlapRank : QRRank R).gram 2 0 0 0 = 1 ∧ (overlapRank : QRRank R).gram 2 0 0 1 = 0
      ∧ (overlapRank : QRRank R).gram 2 0 1 1 = 1 ∧ (overlapRank : QRRank R).gram 2 1 0 0 = 4
      ∧ (overlapRank : QRRank R).gram 2 1 0 1 = 2
      ∧ (overlapRank : QRRank R).gram 2 1 1 1 = 2 := by
  simp [QRRank.gram, QRRank.weight, overlapRank, overlapBasis, Finset.sum_range_succ]
  norm_num

omit [LinearOrderedField R] in
theorem wbuf_of_none (r : QRRank R) (h : r.work = none) : r.wbuf = r.Rm := by
  unfold QRRank.wbuf
  rw [h]

/-- The content of `R` after `VR` on the overlapping layout: block `0` holds the identity
and block `1`, whose first diagonal cell has been overwritten by block `0`, holds
`[[1, 2], [., 2]]` instead of the Gram matrix `[[4, 2], [., 2]]`. -/
theorem overlap_vr :
    (vrRank 2 2 3 [overlapRank] (overlapRank : QRRank R)).Rm 0 = 1
      ∧ (vrRank 2 2 3 [overlapRank] (overlapRank : QRRank R)).Rm 3 = 0
      ∧ (vrRank 2 2 3 [overlapRank] (overlapRank : QRRank R)).Rm 4 = 1
      ∧ (vrRank 2 2 3 [overlapRank] (overlapRank : QRRank R)).Rm 7 = 2
      ∧ (vrRank 2 2 3 [overlapRank] (overlapRank : QRRank R)).Rm 8 = 2 := by
  have hfr := (frame_setWbuf (vrLocal 2 2 (overlapRank : QRRank R))
    (fun p => if p < 2 * (2 * (2 + 1)) / 2
      then (([overlapRank] : List (QRRank R)).map (fun r => (vrLocal 2 2 r).wbuf p)).sum
      else (vrLocal 2 2 (overlapRank : QRRank R)).wbuf p)).trans (frame_vrLocal 2 2 overlapRank)
  have hw : ((vrLocal 2 2 (overlapRank : QRRank R)).setWbuf
    (fun p => if p < 2 * (2 * (2 + 1)) / 2
      then (([overlapRank] : List (QRRank R)).map (fun r => (vrLocal 2 2 r).wbuf p)).sum
      else (vrLocal 2 2 (overlapRank : QRRank R)).wbuf p)).work = none := by
    have h := hfr.2.2.2.2
    rw [show (overlapRank : QRRank R).work = none from rfl] at h
    simpa using h
  have hRm : ∀ p, p < 6 → ((vrLocal 2 2 (overlapRank : QRRank R)).setWbuf
    (fun p => if p < 2 * (2 * (2 + 1)) / 2
      then (([overlapRank] : List (QRRank R)).map (fun r => (vrLocal 2 2 r).wbuf p)).sum
      else (vrLocal 2 2 (overlapRank : QRRank R)).wbuf p)).Rm p
      = (vrLocal 2 2 (overlapRank : QRRank R)).wbuf p := by
    intro p hp
    rw [← wbuf_of_none _ hw, wbuf_setWbuf, if_pos (by omega)]
    simp
  obtain ⟨u0, u3, u4, u7, u8⟩ := overlap_unpack _ hw
  obtain ⟨g1, g2, g3, g4, g5, g6⟩ := overlap_gram (R := R)
  have v0 := @vrLocal_val R _ 2 2 overlapRank 0 0 0 (by decide) (by decide) (by decide)
  have v1 := @vrLocal_val R _ 2 2 overlapRank 0 0 1 (by decide) (by decide) (by decide)
  have v2 := @vrLocal_val R _ 2 2 overlapRank 0 1 1 (by decide) (by decide) (by decide)
  have v4 := @vrLocal_val R _ 2 2 overlapRank 1 0 1 (by decide) (by decide) (by decide)
  have v5 := @vrLocal_val R _ 2 2 overlapRank 1 1 1 (by decide) (by decide) (by decide)
  simp only [tri] at v0 v1 v2 v4 v5
  norm_num at v0 v1 v2 v4 v5
  unfold vrRank
  rw [u0, u3, u4, u7, u8, hRm 0 (by omega), hRm 1 (by omega), hRm 2 (by omega),
    hRm 4 (by omega), hRm 5 (by omega), v0, v1, v2, v4, v5, g1, g2, g3, g5, g6]
  exact ⟨rfl, rfl, rfl, rfl, rfl⟩

/-- On the overlapping layout `QR` reports a failure at order `2` for any square root with
`sqrt 1 = 1`: the second call to `potrf` reads the diagonal `1` left by the first. -/
theorem overlap_info (sqrt : R → R) (h1 : sqrt 1 = 1) :
    (qrRank sqrt 2 2 3 true [overlapRank] (overlapRank : QRRank R)).2 = 2 := by
  obtain ⟨b0, b3, b4, b7, b8⟩ := overlap_vr (R := R)
  have hG0 : ∀ a b, a ≤ b → b < 2 →
      (vrRank 2 2 3 [overlapRank] (overlapRank : QRRank R)).Rm (0 * 2 * 2 + a + b * 3)
        = (fun a b : Nat => if a = b then (1 : R) else 0) a b := by
    intro a b hab hb
    have : (a = 0 ∧ b = 0) ∨ (a = 0 ∧ b = 1) ∨ (a = 1 ∧ b = 1) := by omega
    rcases this with ⟨rfl, rfl⟩ | ⟨rfl, rfl⟩ | ⟨rfl, rfl⟩
    · simpa using b0
    · simpa using b3
    · simpa using b4
  have i0 : cholInfo sqrt (fun a b : Nat => if a = b then (1 : R) else 0) 2 = 0 := by
    simp [cholInfo, cholPivot, cholTable, Finset.sum_range_succ, h1]
  have p0 := potrf_info sqrt 2 _ (0 * 2 * 2) 3 _ hG0
  rw [i0] at p0
  have c4 := potrf_val sqrt 2 _ (0 * 2 * 2) 3 (by decide) _ hG0 i0 (a := 1) (b := 1)
    (by decide) (by decide)
  have c7 := potrf_other sqrt 2 (vrRank 2 2 3 [overlapRank] (overlapRank : QRRank R)).Rm
    (0 * 2 * 2) 3 (p := 7) (by decide)
  have c8 := potrf_other sqrt 2 (vrRank 2 2 3 [overlapRank] (overlapRank : QRRank R)).Rm
    (0 * 2 * 2) 3 (p := 8) (by decide)
  have t11 : cholTable sqrt (fun a b : Nat => if a = b then (1 : R) else 0) 2 1 1 = 1 := by
    simp [cholTable, Finset.sum_range_succ, h1]
  rw [t11] at c4
  rw [b7] at c7
  rw [b8] at c8
  have hG1 : ∀ a b, a ≤ b → b < 2 →
      (potrf sqrt 2 (vrRank 2 2 3 [overlapRank] (overlapRank : QRRank R)).Rm (0 * 2 * 2) 3).1
          (1 * 2 * 2 + a + b * 3)
        = (fun a b : Nat => if a = 0 ∧ b = 0 then (1 : R) else 2) a b := by
    intro a b hab hb
    have : (a = 0 ∧ b = 0) ∨ (a = 0 ∧ b = 1) ∨ (a = 1 ∧ b = 1) := by omega
    rcases this with ⟨rfl, rfl⟩ | ⟨rfl, rfl⟩ | ⟨rfl, rfl⟩
    · simpa using c4
    · simpa using c7
    · simpa using c8
  have i1 : cholInfo sqrt (fun a b : Nat => if a = 0 ∧ b = 0 then (1 : R) else 2) 2 = 2 := by
    simp [cholInfo, cholPivot, cholTable, Finset.sum_range_succ, h1]
  have p1 := potrf_info sqrt 2 _ (1 * 2 * 2) 3 _ hG1
  rw [i1] at p1
  have hloop : (potrfLoop sqrt 2 3 (List.range 2)
      (vrRank 2 2 3 [overlapRank] (overlapRank : QRRank R)).Rm).2 = 2 := by
    rw [show List.range 2 = [0, 1] from rfl]
    simp only [potrfLoop]
    rw [if_neg (by rw [p0]; decide), if_pos (by rw [p1]; decide), p1]
    rfl
  unfold qrRank qrPost
  rw [if_pos (by rw [hloop]; decide)]
  exact hloop

end Overlap

section FailureSignal
variable {R : Type} [LinearOrderedField R]

theorem firstInfo_pd (sqrt : R → R) (hs : SqrtSpec sqrt) (Gq : Nat → Nat → Nat → R)
    (k mu : Nat) :
    firstInfo sqrt Gq k (List.range mu) = 0
      ↔ ∀ nu, nu < mu → ∀ m, m ≤ k → LeadingPD (Gq nu) m := by
  rw [firstInfo_zero_iff]
  constructor
  · intro h nu hnu
    exact (cholInfo_spec sqrt hs (Gq nu) k).1.1 (h nu (List.mem_range.2 hnu))
  · intro h nu hnu
    exact (cholInfo_spec sqrt hs (Gq nu) k).1.2 (h nu (List.mem_range.1 hnu))

theorem firstInfo_fail (sqrt : R → R) (hs : SqrtSpec sqrt) (Gq : Nat → Nat → Nat → R)
    (k mu i : Nat) (h : firstInfo sqrt Gq k (List.range mu) = i + 1) :
    ∃ nu, nu < mu ∧ (∀ nu', nu' < nu → ∀ m, m ≤ k → LeadingPD (Gq nu') m)
      ∧ i < k ∧ (∀ m, m ≤ i → LeadingPD (Gq nu) m) ∧ ¬ LeadingPD (Gq nu) (i + 1) := by
  obtain ⟨nu, hnu, hprev, -, heq⟩ := firstInfo_range sqrt Gq k mu (by omega)
  rw [h] at heq
  obtain ⟨h1, h2, h3⟩ := (cholInfo_spec sqrt hs (Gq nu) k).2 i heq.symm
  exact ⟨nu, hnu, fun nu' hlt => (cholInfo_spec sqrt hs (Gq nu') k).1.1 (hprev nu' hlt),
    h1, h2, h3⟩

/-- C5 (amended).  Let the square root be exact and the blocks of `R` not overlap
(`k ≤ ldr`, and `mu = 1` or `ldr = k`).  Then every process returns the same code `info`
from `QR` with mode `0`; `info = 0` exactly when, for every right-hand side `nu < mu`, all
leading blocks of the globally reduced `k`-by-`k` Gram matrix are positive definite; and
`info = i + 1` names the first right-hand side `nu` with a leading block that is not
positive definite and the order `i + 1` of its first such block. -/
theorem QR_failure_signal (sqrt : R → R) (hs : SqrtSpec sqrt) (k mu ldr : Nat)
    (update : Bool) (ws : List (QRRank R)) (hk : k ≤ ldr) (hlay : mu = 1 ∨ ldr = k) :
    ∃ info : Nat,
      (∀ x ∈ QR sqrt k mu ldr update ws, x.2 = (info : Int))
      ∧ (info = 0 ↔ ∀ nu, nu < mu → ∀ m, m ≤ k → LeadingPD (gramQ ws mu nu) m)
      ∧ (∀ i, info = i + 1 → ∃ nu, nu < mu
          ∧ (∀ nu', nu' < nu → ∀ m, m ≤ k → LeadingPD (gramQ ws mu nu') m)
          ∧ i < k ∧ (∀ m, m ≤ i → LeadingPD (gramQ ws mu nu) m)
          ∧ ¬ LeadingPD (gramQ ws mu nu) (i + 1)) := by
  refine ⟨firstInfo sqrt (gramQ ws mu) k (List.range mu), ?_,
    firstInfo_pd sqrt hs (gramQ ws mu) k mu,
    fun i h => firstInfo_fail sqrt hs (gramQ ws mu) k mu i h⟩
  intro x hx
  rw [QR_eq_map] at hx
  obtain ⟨r, -, rfl⟩ := List.mem_map.1 hx
  exact qrRank_info sqrt k mu ldr update ws r hk hlay

/-- Witness of C5: one process, the columns `(3, 4)` and `(0, 1)`, the square root of the
real numbers. -/
theorem QR_failure_signal_witness :
    SqrtSpec Real.sqrt ∧ 2 ≤ 2 ∧ (1 = 1 ∨ 2 = 2) ∧
    ∃ info : Nat,
      (∀ x ∈ QR Real.sqrt 2 1 2 true
          ([⟨false, 2, fun p => if p = 0 then 3 else if p = 1 then 4 else if p = 3 then 1 else 0,
            fun _ => 0, none, none, fun _ => 0⟩] : List (QRRank ℝ)), x.2 = (info : Int))
      ∧ (info = 0 ↔ ∀ nu, nu < 1 → ∀ m, m ≤ 2 → LeadingPD (gramQ
          ([⟨false, 2, fun p => if p = 0 then 3 else if p = 1 then 4 else if p = 3 then 1 else 0,
            fun _ => 0, none, none, fun _ => 0⟩] : List (QRRank ℝ)) 1 nu) m)
      ∧ (∀ i, info = i + 1 → ∃ nu, nu < 1
          ∧ (∀ nu', nu' < nu → ∀ m, m ≤ 2 → LeadingPD (gramQ
          ([⟨false, 2, fun p => if p = 0 then 3 else if p = 1 then 4 else if p = 3 then 1 else 0,
            fun _ => 0, none, none, fun _ => 0⟩] : List (QRRank ℝ)) 1 nu') m)
          ∧ i < 2 ∧ (∀ m, m ≤ i → LeadingPD (gramQ
          ([⟨false, 2, fun p => if p = 0 then 3 else if p = 1 then 4 else if p = 3 then 1 else 0,
            fun _ => 0, none, none, fun _ => 0⟩] : List (QRRank ℝ)) 1 nu) m)
          ∧ ¬ LeadingPD (gramQ
          ([⟨false, 2, fun p => if p = 0 then 3 else if p = 1 then 4 else if p = 3 then 1 else 0,
            fun _ => 0, none, none, fun _ => 0⟩] : List (QRRank ℝ)) 1 nu) (i + 1)) :=
  ⟨fun _ hx => ⟨Real.sqrt_pos.2 hx, Real.mul_self_sqrt hx.le⟩, le_rfl, Or.inl rfl,
    QR_failure_signal Real.sqrt (fun _ hx => ⟨Real.sqrt_pos.2 hx, Real.mul_self_sqrt hx.le⟩)
      2 1 2 true _ le_rfl (Or.inl rfl)⟩

theorem overlap_independent (nu : Nat) (hnu : nu < 2) :
    ColumnsIndependent ([overlapRank] : List (QRRank R)) 2 2 nu := by
  intro c ⟨a, ha, hca⟩
  refine ⟨overlapRank, List.mem_singleton.2 rfl, rfl, ?_⟩
  have hnu' : nu = 0 ∨ nu = 1 := by omega
  have ha' : a = 0 ∨ a = 1 := by omega
  by_cases h1 : c 1 = 0
  · have h0 : c 0 ≠ 0 := by
      rcases ha' with rfl | rfl
      · exact hca
      · exact absurd h1 hca
    refine ⟨0, show 0 < 2 by decide, ?_⟩
    rcases hnu' with rfl | rfl
    · simp [overlapRank, overlapBasis, Finset.sum_range_succ, h1, h0]
    · simp [overlapRank, overlapBasis, Finset.sum_range_succ, h1, h0]
  · refine ⟨1, show 1 < 2 by decide, ?_⟩
    rcases hnu' with rfl | rfl
    · simp [overlapRank, overlapBasis, Finset.sum_range_succ, h1]
    · simp [overlapRank, overlapBasis, Finset.sum_range_succ, h1]

/-- Counterexample to C5 as stated: `k = 2`, `mu = 2`, `ldr = 3`, one process holding
`overlapBasis`.  Both Gram matrices, the identity and `[[4, 2], [2, 2]]`, have positive
definite leading blocks, yet `QR` returns `2`: the blocks of `R` start `k * k = 4` cells
apart and have leading dimension `3`, so the cell of entry `(1, 1)` of block `0` is the cell
of entry `(0, 0)` of block `1`. -/
theorem QR_failure_signal_counterexample :
    (∀ x ∈ QR Real.sqrt 2 2 3 true ([overlapRank] : List (QRRank ℝ)), x.2 = 2)
    ∧ ∀ nu, nu < 2 → ∀ m, m ≤ 2 →
        LeadingPD (gramQ ([overlapRank] : List (QRRank ℝ)) 2 nu) m := by
  constructor
  · intro x hx
    rw [QR_eq_map] at hx
    obtain ⟨r, hr, rfl⟩ := List.mem_map.1 hx
    rw [List.mem_singleton.1 hr]
    exact overlap_info Real.sqrt Real.sqrt_one
  · intro nu hnu m hm
    apply leadingPD_of_independent _ 2 2 nu _ (overlap_independent nu hnu) m hm
    intro r hr j _
    rw [List.mem_singleton.1 hr]
    exact one_pos

end FailureSignal

section Success
variable {R : Type} [LinearOrderedField R]

theorem cholTable_diag_pos (sqrt : R → R) (hs : SqrtSpec sqrt) (G : Nat → Nat → R) (k : Nat)
    (h0 : cholInfo sqrt G k = 0) {a : Nat} (ha : a < k) : 0 < cholTable sqrt G k a a := by
  rw [cholTable_diag sqrt G ha]
  exact (hs _ ((cholInfo_zero_iff sqrt G k).1 h0 a ha)).1

theorem cholTable_factor (sqrt : R → R) (hs : SqrtSpec sqrt) (G : Nat → Nat → R) (k : Nat)
    (h0 : cholInfo sqrt G k = 0) {a c : Nat} (hac : a ≤ c) (hc : c < k) :
    ∑ l in range (a + 1), cholTable sqrt G k l a * cholTable sqrt G k l c = G a c :=
  cholTable_gram sqrt hs G (by omega) hac ((cholInfo_zero_iff sqrt G k).1 h0 a (by omega))

/-- The basis computed by `trsm` from a factor of the Gram matrix is orthonormal for the
configured inner product. -/
theorem trsm_orthonormal (ws : List (QRRank R)) (k mu nu : Nat) (U : Nat → Nat → R)
    (hG : ∀ a c, a ≤ c → c < k →
      ∑ l in range (a + 1), U l a * U l c = gramQ ws mu nu a c)
    (hd : ∀ a, a < k → U a a ≠ 0) {a a' : Nat} (ha : a < k) (ha' : a' < k) :
    ipW ws (fun r j => trsmTable 1 U (fun j c => r.Q (nu * r.n + j + c * (mu * r.n))) k j a)
        (fun r j => trsmTable 1 U (fun j c => r.Q (nu * r.n + j + c * (mu * r.n))) k j a')
      = if a = a' then 1 else 0 := by
  apply orthonormal_of_factor ws k (fun b r j => r.Q (nu * r.n + j + b * (mu * r.n)))
    (fun b r j => trsmTable 1 U (fun j c => r.Q (nu * r.n + j + c * (mu * r.n))) k j b) U
    _ _ hd a a' ha ha'
  · intro b hb r j
    show trsmTable 1 U _ k j b = _
    rw [trsmTable_col 1 U _ hb j, one_mul]
  · intro a c hac hc
    rw [hG a c hac hc, gramQ_eq_ipW]

theorem reflect_step0 (sqrt : R → R) (h25 : sqrt 25 = 5) :
    householderStep sqrt 3 0 (fun i c => (reflectBasis (i + c * 3) : R)) 0 0 = -5
      ∧ householderStep sqrt 3 0 (fun i c => (reflectBasis (i + c * 3) : R)) 1 0 = 0
      ∧ householderStep sqrt 3 0 (fun i c => (reflectBasis (i + c * 3) : R)) 2 0 = 0
      ∧ householderStep sqrt 3 0 (fun i c => (reflectBasis (i + c * 3) : R)) 0 1 = -1
      ∧ householderStep sqrt 3 0 (fun i c => (reflectBasis (i + c * 3) : R)) 1 1 = -3
      ∧ householderStep sqrt 3 0 (fun i c => (reflectBasis (i + c * 3) : R)) 2 1 = 4 := by
  have hn : (3 : R) * 3 + 4 * 4 = 25 := by norm_num
  simp [householderStep, householderVector, reflectBasis, Finset.sum_range_succ, hn, h25]
  norm_num

theorem reflect_step1 (sqrt : R → R) (h25 : sqrt 25 = 5) (B : Nat → Nat → R)
    (b00 : B 0 0 = -5) (b10 : B 1 0 = 0) (b20 : B 2 0 = 0)
    (b01 : B 0 1 = -1) (b11 : B 1 1 = -3) (b21 : B 2 1 = 4) :
    householderStep sqrt 3 1 B 0 0 = -5 ∧ householderStep sqrt 3 1 B 1 0 = 0
      ∧ householderStep sqrt 3 1 B 2 0 = 0 ∧ householderStep sqrt 3 1 B 0 1 = -1
      ∧ householderStep sqrt 3 1 B 1 1 = 5 ∧ householderStep sqrt 3 1 B 2 1 = 0 := by
  have hn : (-3 : R) * -3 + 4 * 4 = 25 := by norm_num
  have hneg : ¬ (0 : R) ≤ -3 := by norm_num
  simp [householderStep, householderVector, Finset.sum_range_succ, b00, b10, b20, b01, b11,
    b21, hn, hneg]
  rw [show (3 : R) * 3 + 4 * 4 = 25 by norm_num, h25]
  norm_num

/-- The Householder factor of the matrix with columns `(3, 4, 0)` and `(3, -1, 4)` is
`[[-5, -1], [0, 5], [0, 0]]`. -/
theorem reflect_householder (sqrt : R → R) (h25 : sqrt 25 = 5) :
    householderQR sqrt 3 2 (fun i c => (reflectBasis (i + c * 3) : R)) 0 0 = -5
      ∧ householderQR sqrt 3 2 (fun i c => (reflectBasis (i + c * 3) : R)) 1 0 = 0
      ∧ householderQR sqrt 3 2 (fun i c => (reflectBasis (i + c * 3) : R)) 2 0 = 0
      ∧ householderQR sqrt 3 2 (fun i c => (reflectBasis (i + c * 3) : R)) 0 1 = -1
      ∧ householderQR sqrt 3 2 (fun i c => (reflectBasis (i + c * 3) : R)) 1 1 = 5
      ∧ householderQR sqrt 3 2 (fun i c => (reflectBasis (i + c * 3) : R)) 2 1 = 0 := by
  obtain ⟨a1, a2, a3, a4, a5, a6⟩ := reflect_step0 sqrt h25
  exact reflect_step1 sqrt h25 _ a1 a2 a3 a4 a5 a6

theorem reflect_gram :
    gramQ ([reflectRank] : List (QRRank R)) 1 0 0 0 = 25
      ∧ gramQ ([reflectRank] : List (QRRank R)) 1 0 0 1 = 5
      ∧ gramQ ([reflectRank] : List (QRRank R)) 1 0 1 1 = 26 := by
  simp [gramQ, QRRank.gram, QRRank.weight, reflectRank, reflectBasis, Finset.sum_range_succ]
  norm_num

theorem reflect_independent : ColumnsIndependent ([reflectRank] : List (QRRank R)) 2 1 0 := by
  intro c ⟨a, ha, hca⟩
  refine ⟨reflectRank, List.mem_singleton.2 rfl, rfl, ?_⟩
  have ha' : a = 0 ∨ a = 1 := by omega
  by_cases h1 : c 1 = 0
  · have h0 : c 0 ≠ 0 := by
      rcases ha' with rfl | rfl
      · exact hca
      · exact absurd h1 hca
    refine ⟨0, show 0 < 3 by decide, ?_⟩
    simp [reflectRank, reflectBasis, Finset.sum_range_succ, h1, h0]
  · refine ⟨2, show 2 < 3 by decide, ?_⟩
    simp [reflectRank, reflectBasis, Finset.sum_range_succ, h1]

/-- Cholesky QR of the matrix with columns `(3, 4, 0)` and `(3, -1, 4)` succeeds and leaves
the factor `[[5, 1], [., 5]]` in the upper triangle of `R`. -/
theorem reflect_cholesky (sqrt : R → R) (h25 : sqrt 25 = 5) :
    (qrRank sqrt 2 1 2 true [reflectRank] (reflectRank : QRRank R)).2 = 0
      ∧ (qrRank sqrt 2 1 2 true [reflectRank] (reflectRank : QRRank R)).1.Rm 0 = 5
      ∧ (qrRank sqrt 2 1 2 true [reflectRank] (reflectRank : QRRank R)).1.Rm 2 = 1
      ∧ (qrRank sqrt 2 1 2 true [reflectRank] (reflectRank : QRRank R)).1.Rm 3 = 5 := by
  obtain ⟨g00, g01, g11⟩ := reflect_gram (R := R)
  have hG : ∀ a b, a ≤ b → b < 2 → gramQ ([reflectRank] : List (QRRank R)) 1 0 a b
      = (fun a b : Nat => if b = 0 then (25 : R) else if a = 0 then 5 else 26) a b := by
    intro a b hab hb
    have : (a = 0 ∧ b = 0) ∨ (a = 0 ∧ b = 1) ∨ (a = 1 ∧ b = 1) := by omega
    rcases this with ⟨rfl, rfl⟩ | ⟨rfl, rfl⟩ | ⟨rfl, rfl⟩
    · simpa using g00
    · simpa using g01
    · simpa using g11
  have h26 : (26 : R) - 1 = 25 := by norm_num
  have i0 : cholInfo sqrt (fun a b : Nat => if b = 0 then (25 : R) else if a = 0 then 5 else 26)
      2 = 0 := by
    simp [cholInfo, cholPivot, cholTable, Finset.sum_range_succ, h25, h26]
  have t00 : cholTable sqrt
      (fun a b : Nat => if b = 0 then (25 : R) else if a = 0 then 5 else 26) 2 0 0 = 5 := by
    simp [cholTable, Finset.sum_range_succ, h25]
  have t01 : cholTable sqrt
      (fun a b : Nat => if b = 0 then (25 : R) else if a = 0 then 5 else 26) 2 0 1 = 1 := by
    simp [cholTable, Finset.sum_range_succ, h25]
  have t11 : cholTable sqrt
      (fun a b : Nat => if b = 0 then (25 : R) else if a = 0 then 5 else 26) 2 1 1 = 5 := by
    simp [cholTable, Finset.sum_range_succ, h25, h26]
  have hf : firstInfo sqrt (gramQ ([reflectRank] : List (QRRank R)) 1) 2 (List.range 1) = 0 := by
    rw [firstInfo_zero_iff]
    intro nu hnu
    have hnu0 : nu = 0 := by
      have := List.mem_range.1 hnu
      omega
    rw [hnu0, cholInfo_congr sqrt _ _ 2 hG 2 le_rfl]
    exact i0
  have hcell : ∀ a b, a ≤ b → b < 2 →
      (qrRank sqrt 2 1 2 true [reflectRank] (reflectRank : QRRank R)).1.Rm (0 * 2 * 2 + a + b * 2)
        = cholTable sqrt
            (fun a b : Nat => if b = 0 then (25 : R) else if a = 0 then 5 else 26) 2 a b := by
    intro a b hab hb
    rw [qrRank_factor sqrt 2 1 2 true _ _ le_rfl (Or.inl rfl) hf (by decide) hab hb]
    exact cholTable_congr sqrt _ _ 2 hG 2 le_rfl a b hb
  refine ⟨?_, ?_, ?_, ?_⟩
  · rw [qrRank_info sqrt 2 1 2 true _ _ le_rfl (Or.inl rfl), hf]
    rfl
  · have := hcell 0 0 (by decide) (by decide)
    rw [t00] at this
    simpa using this
  · have := hcell 0 1 (by decide) (by decide)
    rw [t01] at this
    simpa using this
  · have := hcell 1 1 (by decide) (by decide)
    rw [t11] at this
    simpa using this

/-- C6 (amended).  In exact arithmetic, with non-overlapping blocks of `R` (`k ≤ ldr`,
and `mu = 1` or `ldr = k`), positive weights and, for every right-hand side, linearly
independent columns, `QR` with mode `0` and `update = true` returns `0` on every process
and, for every right-hand side `nu`: the upper triangle of block `nu` of `R` holds a factor
with positive diagonal whose product `Rᵀ R` is the globally reduced Gram matrix of the input;
on a process that holds a part of the vectors the new basis times `R` is the old basis; the
new basis is orthonormal for the configured inner product; and any upper triangular `T`
with `Tᵀ T` equal to the Gram matrix, such as the triangular factor of a Householder QR of
the same basis, agrees with `R` up to one sign per row. -/
theorem QR_success (sqrt : R → R) (hs : SqrtSpec sqrt) (k mu ldr : Nat)
    (ws : List (QRRank R)) (hk : k ≤ ldr) (hlay : mu = 1 ∨ ldr = k)
    (hw : ∀ r ∈ ws, ∀ j, j < r.n → 0 < r.weight j)
    (hli : ∀ nu, nu < mu → ColumnsIndependent ws k mu nu) :
    (QR sqrt k mu ldr true ws = ws.map (qrRank sqrt k mu ldr true ws))
    ∧ (∀ x ∈ QR sqrt k mu ldr true ws, x.2 = 0)
    ∧ ∀ r, r ∈ ws → ∀ nu, nu < mu →
      (∀ a, a < k →
        0 < (qrRank sqrt k mu ldr true ws r).1.Rm (nu * k * k + a + a * ldr))
      ∧ (∀ a c, a ≤ c → c < k →
          ∑ l in range (a + 1),
            (qrRank sqrt k mu ldr true ws r).1.Rm (nu * k * k + l + a * ldr)
              * (qrRank sqrt k mu ldr true ws r).1.Rm (nu * k * k + l + c * ldr)
            = gramQ ws mu nu a c)
      ∧ (r.excluded = false → ∀ j, j < r.n → ∀ c, c < k →
          ∑ a in range (c + 1),
            (qrRank sqrt k mu ldr true ws r).1.Q (nu * r.n + j + a * (mu * r.n))
              * (qrRank sqrt k mu ldr true ws r).1.Rm (nu * k * k + a + c * ldr)
            = r.Q (nu * r.n + j + c * (mu * r.n)))
      ∧ (∀ a b, a < k → b < k →
          ipW ws
            (fun q j => (qrRank sqrt k mu ldr true ws q).1.Q (nu * q.n + j + a * (mu * q.n)))
            (fun q j => (qrRank sqrt k mu ldr true ws q).1.Q (nu * q.n + j + b * (mu * q.n)))
            = if a = b then 1 else 0)
      ∧ (∀ T : Nat → Nat → R,
          (∀ a c, a ≤ c → c < k →
            ∑ l in range (a + 1), T l a * T l c = gramQ ws mu nu a c) →
          ∀ a, a < k → ∃ s : R, (s = 1 ∨ s = -1) ∧ ∀ c, a ≤ c → c < k →
            T a c = s * (qrRank sqrt k mu ldr true ws r).1.Rm (nu * k * k + a + c * ldr)) := by
  have hf : firstInfo sqrt (gramQ ws mu) k (List.range mu) = 0 :=
    (firstInfo_pd sqrt hs (gramQ ws mu) k mu).2
      (fun nu hnu m hm => leadingPD_of_independent ws k mu nu hw (hli nu hnu) m hm)
  have hc : ∀ nu, nu < mu → cholInfo sqrt (gramQ ws mu nu) k = 0 := fun nu hnu =>
    (firstInfo_zero_iff sqrt (gramQ ws mu) k (List.range mu)).1 hf nu (List.mem_range.2 hnu)
  refine ⟨QR_eq_map sqrt k mu ldr true ws, ?_, ?_⟩
  · intro x hx
    rw [QR_eq_map] at hx
    obtain ⟨r, -, rfl⟩ := List.mem_map.1 hx
    rw [qrRank_info sqrt k mu ldr true ws r hk hlay, hf]
    rfl
  · intro r _ nu hnu
    have hR : ∀ q a c, a ≤ c → c < k →
        (qrRank sqrt k mu ldr true ws q).1.Rm (nu * k * k + a + c * ldr)
          = cholTable sqrt (gramQ ws mu nu) k a c := fun q a c hac hcc =>
      qrRank_factor sqrt k mu ldr true ws q hk hlay hf hnu hac hcc
    have hpos : ∀ a, a < k → 0 < cholTable sqrt (gramQ ws mu nu) k a a := fun a ha =>
      cholTable_diag_pos sqrt hs _ k (hc nu hnu) ha
    refine ⟨?_, ?_, ?_, ?_, ?_⟩
    · intro a ha
      rw [hR r a a le_rfl ha]
      exact hpos a ha
    · intro a c hac hcc
      rw [← cholTable_factor sqrt hs _ k (hc nu hnu) hac hcc]
      apply Finset.sum_congr rfl
      intro l hl
      have hl := Finset.mem_range.1 hl
      rw [hR r l a (by omega) (by omega), hR r l c (by omega) hcc]
    · intro hex j hj c hcc
      have e : ∀ a ∈ range (c + 1),
          (qrRank sqrt k mu ldr true ws r).1.Q (nu * r.n + j + a * (mu * r.n))
              * (qrRank sqrt k mu ldr true ws r).1.Rm (nu * k * k + a + c * ldr)
            = trsmTable 1 (cholTable sqrt (gramQ ws mu nu) k)
                (fun j c => r.Q (nu * r.n + j + c * (mu * r.n))) k j a
              * cholTable sqrt (gramQ ws mu nu) k a c := by
        intro a ha
        have ha := Finset.mem_range.1 ha
        rw [hR r a c (by omega) hcc,
          qrRank_Q sqrt k mu ldr ws r hk hlay hf hex hnu hj (by omega : a < k)]
      rw [Finset.sum_congr rfl e, trsmTable_mul 1 _ _ hcc j (hpos c hcc).ne', one_mul]
    · intro a b ha hb
      rw [ipW_congr ws _
        (fun q j => trsmTable 1 (cholTable sqrt (gramQ ws mu nu) k)
          (fun j c => q.Q (nu * q.n + j + c * (mu * q.n))) k j a) _
        (fun q j => trsmTable 1 (cholTable sqrt (gramQ ws mu nu) k)
          (fun j c => q.Q (nu * q.n + j + c * (mu * q.n))) k j b)
        (fun q _ hex j hj => qrRank_Q sqrt k mu ldr ws q hk hlay hf hex hnu hj ha)
        (fun q _ hex j hj => qrRank_Q sqrt k mu ldr ws q hk hlay hf hex hnu hj hb)]
      exact trsm_orthonormal ws k mu nu _
        (fun a c hac hcc => cholTable_factor sqrt hs _ k (hc nu hnu) hac hcc)
        (fun a ha => (hpos a ha).ne') ha hb
    · intro T hT a ha
      obtain ⟨s, hs1, hs2⟩ := factor_rows_unique k (cholTable sqrt (gramQ ws mu nu) k) T
        (gramQ ws mu nu)
        (fun a c hac hcc => cholTable_factor sqrt hs _ k (hc nu hnu) hac hcc) hT hpos a ha
      refine ⟨s, hs1, fun c hac hcc => ?_⟩
      rw [hR r a c hac hcc]
      exact hs2 c hac hcc

/-- Witness of C6: one process, the columns `(3, 4, 0)` and `(3, -1, 4)`, the square root
of the real numbers. -/
theorem QR_success_witness :
    SqrtSpec Real.sqrt ∧ 2 ≤ 2 ∧ (1 = 1 ∨ 2 = 2)
    ∧ (∀ r ∈ ([reflectRank] : List (QRRank ℝ)), ∀ j, j < r.n → 0 < r.weight j)
    ∧ (∀ nu, nu < 1 → ColumnsIndependent ([reflectRank] : List (QRRank ℝ)) 2 1 nu)
    ∧ (QR Real.sqrt 2 1 2 true ([reflectRank] : List (QRRank ℝ)) = ([reflectRank] : List (QRRank ℝ)).map (qrRank Real.sqrt 2 1 2 true ([reflectRank] : List (QRRank ℝ))))
    ∧ (∀ x ∈ QR Real.sqrt 2 1 2 true ([reflectRank] : List (QRRank ℝ)), x.2 = 0)
    ∧ ∀ r, r ∈ ([reflectRank] : List (QRRank ℝ)) → ∀ nu, nu < 1 →
      (∀ a, a < 2 →
        0 < (qrRank Real.sqrt 2 1 2 true ([reflectRank] : List (QRRank ℝ)) r).1.Rm (nu * 2 * 2 + a + a * 2))
      ∧ (∀ a c, a ≤ c → c < 2 →
          ∑ l in range (a + 1),
            (qrRank Real.sqrt 2 1 2 true ([reflectRank] : List (QRRank ℝ)) r).1.Rm (nu * 2 * 2 + l + a * 2)
              * (qrRank Real.sqrt 2 1 2 true ([reflectRank] : List (QRRank ℝ)) r).1.Rm (nu * 2 * 2 + l + c * 2)
            = gramQ ([reflectRank] : List (QRRank ℝ)) 1 nu a c)
      ∧ (r.excluded = false → ∀ j, j < r.n → ∀ c, c < 2 →
          ∑ a in range (c + 1),
            (qrRank Real.sqrt 2 1 2 true ([reflectRank] : List (QRRank ℝ)) r).1.Q (nu * r.n + j + a * (1 * r.n))
              * (qrRank Real.sqrt 2 1 2 true ([reflectRank] : List (QRRank ℝ)) r).1.Rm (nu * 2 * 2 + a + c * 2)
            = r.Q (nu * r.n + j + c * (1 * r.n)))
      ∧ (∀ a b, a < 2 → b < 2 →
          ipW ([reflectRank] : List (QRRank ℝ))
            (fun q j => (qrRank Real.sqrt 2 1 2 true ([reflectRank] : List (QRRank ℝ)) q).1.Q (nu * q.n + j + a * (1 * q.n)))
            (fun q j => (qrRank Real.sqrt 2 1 2 true ([reflectRank] : List (QRRank ℝ)) q).1.Q (nu * q.n + j + b * (1 * q.n)))
            = if a = b then 1 else 0)
      ∧ (∀ T : Nat → Nat → ℝ,
          (∀ a c, a ≤ c → c < 2 →
            ∑ l in range (a + 1), T l a * T l c = gramQ ([reflectRank] : List (QRRank ℝ)) 1 nu a c) →
          ∀ a, a < 2 → ∃ s : ℝ, (s = 1 ∨ s = -1) ∧ ∀ c, a ≤ c → c < 2 →
            T a c = s * (qrRank Real.sqrt 2 1 2 true ([reflectRank] : List (QRRank ℝ)) r).1.Rm (nu * 2 * 2 + a + c * 2)) :=
  ⟨fun _ hx => ⟨Real.sqrt_pos.2 hx, Real.mul_self_sqrt hx.le⟩, le_rfl, Or.inl rfl,
    fun r hr _ _ => by rw [List.mem_singleton.1 hr]; exact one_pos,
    fun nu hnu => by rw [Nat.lt_one_iff.1 hnu]; exact reflect_independent,
    QR_success Real.sqrt (fun _ hx => ⟨Real.sqrt_pos.2 hx, Real.mul_self_sqrt hx.le⟩) 2 1 2
      ([reflectRank] : List (QRRank ℝ)) le_rfl (Or.inl rfl)
      (fun r hr _ _ => by rw [List.mem_singleton.1 hr]; exact one_pos)
      (fun nu hnu => by rw [Nat.lt_one_iff.1 hnu]; exact reflect_independent)⟩

/-- Counterexample to C6 as stated: for the basis with the linearly independent columns
`(3, 4, 0)` and `(3, -1, 4)` Cholesky QR leaves `R = [[5, 1], [., 5]]`, the Householder QR
gives `[[-5, -1], [0, 5], [0, 0]]`, and the second columns `(1, 5)` and `(-1, 5)` do not
agree up to a sign: the two factors differ by the sign of a row. -/
theorem QR_success_counterexample :
    ColumnsIndependent ([reflectRank] : List (QRRank ℝ)) 2 1 0
    ∧ (∀ x ∈ QR Real.sqrt 2 1 2 true ([reflectRank] : List (QRRank ℝ)),
        x.2 = 0 ∧ x.1.Rm 0 = 5 ∧ x.1.Rm 2 = 1 ∧ x.1.Rm 3 = 5)
    ∧ householderQR Real.sqrt 3 2 (fun i c => (reflectBasis (i + c * 3) : ℝ)) 0 0 = -5
    ∧ householderQR Real.sqrt 3 2 (fun i c => (reflectBasis (i + c * 3) : ℝ)) 1 0 = 0
    ∧ householderQR Real.sqrt 3 2 (fun i c => (reflectBasis (i + c * 3) : ℝ)) 2 0 = 0
    ∧ householderQR Real.sqrt 3 2 (fun i c => (reflectBasis (i + c * 3) : ℝ)) 0 1 = -1
    ∧ householderQR Real.sqrt 3 2 (fun i c => (reflectBasis (i + c * 3) : ℝ)) 1 1 = 5
    ∧ householderQR Real.sqrt 3 2 (fun i c => (reflectBasis (i + c * 3) : ℝ)) 2 1 = 0
    ∧ ¬ ∃ s : ℝ, (s = 1 ∨ s = -1)
        ∧ ∀ x ∈ QR Real.sqrt 2 1 2 true ([reflectRank] : List (QRRank ℝ)), ∀ a, a ≤ 1 →
          householderQR Real.sqrt 3 2 (fun i c => (reflectBasis (i + c * 3) : ℝ)) a 1
            = s * x.1.Rm (a + 1 * 2) := by
  have h25 : Real.sqrt 25 = 5 := by
    rw [show (25 : ℝ) = 5 * 5 by norm_num]
    exact Real.sqrt_mul_self (by norm_num)
  obtain ⟨c0, c1, c2, c3⟩ := reflect_cholesky Real.sqrt h25
  obtain ⟨t1, t2, t3, t4, t5, t6⟩ := reflect_householder Real.sqrt h25
  have hmem : ∀ x ∈ QR Real.sqrt 2 1 2 true ([reflectRank] : List (QRRank ℝ)),
      x = qrRank Real.sqrt 2 1 2 true [reflectRank] reflectRank := by
    intro x hx
    rw [QR_eq_map] at hx
    obtain ⟨r, hr, rfl⟩ := List.mem_map.1 hx
    rw [List.mem_singleton.1 hr]
  refine ⟨reflect_independent, ?_, t1, t2, t3, t4, t5, t6, ?_⟩
  · intro x hx
    rw [hmem x hx]
    exact ⟨c0, c1, c2, c3⟩
  · rintro ⟨s, hs, h⟩
    have hx : qrRank Real.sqrt 2 1 2 true [reflectRank] (reflectRank : QRRank ℝ)
        ∈ QR Real.sqrt 2 1 2 true ([reflectRank] : List (QRRank ℝ)) := by
      rw [QR_eq_map]
      exact List.mem_map.2 ⟨reflectRank, List.mem_singleton.2 rfl, rfl⟩
    have h0 := h _ hx 0 (by decide)
    have h1 := h _ hx 1 (by decide)
    rw [t4] at h0
    rw [t5] at h1
    norm_num at h0 h1
    rw [c2] at h0
    rw [c3] at h1
    rcases hs with rfl | rfl <;> norm_num at h0 h1

end Success

section SolveClaims

variable {R : Type} [Field R]

theorem group_index_unique {k j j' nu nu' : Nat} (hj : j < k) (hj' : j' < k)
    (h : j + k * nu = j' + k * nu') : j = j' ∧ nu = nu' := by
  have h1 : (j + k * nu) % k = (j' + k * nu') % k := by rw [h]
  rw [Nat.add_mul_mod_self_left, Nat.add_mul_mod_self_left, Nat.mod_eq_of_lt hj,
    Nat.mod_eq_of_lt hj'] at h1
  subst h1
  have h2 : k * nu = k * nu' := by omega
  exact ⟨rfl, Nat.eq_of_mul_eq_mul_left (by omega) h2⟩

/-- The groups built by `preprocess`: block `j0` of group `nu` holds vector `nu` of the
source, every other block of the group is zero. -/
theorem enlarge_val (src : Nat → R) (n mu k j0 : Nat) (hj0 : j0 < k) {nu j i : Nat}
    (hnu : nu < mu) (hj : j < k) (hi : i < n) :
    (List.range mu).foldl (fun s nu => copy_n src (nu * n) n s ((j0 + k * nu) * n))
        (fun _ => 0) ((j + k * nu) * n + i)
      = if j = j0 then src (nu * n + i) else 0 := by
  apply foldl_copy_val src (fun nu => nu * n) (fun _ => n) (fun nu => (j0 + k * nu) * n)
  · intro nu' _ h1 h2
    beta_reduce at h1 h2 ⊢
    have hb := mul_block_unique (C := n) h1 h2 (Nat.le_add_right _ _) (by omega)
    obtain ⟨e1, e2⟩ := group_index_unique hj0 hj hb
    rw [if_pos e1.symm, e2, e1]
    congr 1
    omega
  · by_cases h : j = j0
    · left
      refine ⟨nu, List.mem_range.2 hnu, ?_⟩
      beta_reduce
      rw [h]
      omega
    · right
      rw [if_neg h]

theorem axpy_apply (n : Nat) (alpha : R) (x : Nat → R) (xo : Nat) (y : Nat → R) (yo p : Nat) :
    axpy n alpha x xo y yo p
      = if yo ≤ p ∧ p < yo + n then alpha * x (xo + (p - yo)) + y p else y p := rfl

/-- A loop of `axpy` calls with unit factor onto one target block adds up the sources. -/
theorem foldl_axpy_sum (n : Nat) (sx : Nat → R) (off : Nat → Nat) (yo k : Nat)
    (x0 : Nat → R) (p : Nat) :
    (List.range k).foldl (fun x j => axpy n d__1 sx (off j) x yo) x0 p
      = if yo ≤ p ∧ p < yo + n then (∑ j in range k, sx (off j + (p - yo))) + x0 p
        else x0 p := by
  induction k with
  | zero => simp
  | succ k ih =>
    rw [List.range_succ, List.foldl_append, List.foldl_cons, List.foldl_nil, axpy_apply, ih]
    by_cases h : yo ≤ p ∧ p < yo + n
    · simp only [if_pos h, Finset.sum_range_succ]
      unfold d__1
      ring
    · simp only [if_neg h]

/-- `postprocess` with fresh arrays: vector `nu` of `x` becomes the sum of the `k` blocks
of group `nu` of `sx`; the cells of `x` beyond the `mu` vectors keep their content. -/
theorem postprocess_val (n mu k : Nat) (x sx : Nat → R) (p : Nat) :
    postprocess n mu k true x sx p
      = if p < mu * n then ∑ j in range k, sx ((j + k * (p / n)) * n + p % n) else x p := by
  unfold postprocess
  rw [if_pos rfl]
  rw [foldl_keyed (fun nu x => (List.range k).foldl
      (fun x j => axpy n d__1 sx ((j + k * nu) * n) x (nu * n)) x)
    (fun nu p val => (∑ j in range k, sx ((j + k * nu) * n + (p - nu * n))) + val)
    (fun p => p / n) (fun _ => 0 < n) mu (fill_n x (mu * n))
    (fun nu _ v p => by
      beta_reduce
      rw [foldl_axpy_sum n sx (fun j => (j + k * nu) * n) (nu * n) k v p]
      by_cases h : nu * n ≤ p ∧ p < nu * n + n
      · rw [if_pos h, if_pos (block_key.1 h)]
      · rw [if_neg h, if_neg (fun h' => h (block_key.2 h'))])]
  unfold fill_n
  by_cases hp : p < mu * n
  · have hn : 0 < n := by
      rcases Nat.eq_zero_or_pos n with h | h
      · rw [h] at hp; omega
      · exact h
    have hq : p / n < mu := (Nat.div_lt_iff_lt_mul hn).2 hp
    rw [if_pos ⟨hq, hn⟩, if_pos hp, if_pos hp, add_zero]
    apply Finset.sum_congr rfl
    intro j _
    congr 1
    have := Nat.div_add_mod p n
    have e : p / n * n = n * (p / n) := Nat.mul_comm _ _
    omega
  · rw [if_neg hp, if_neg hp]
    have : ¬ (p / n < mu ∧ 0 < n) := by
      rintro ⟨h1, h2⟩
      exact hp ((Nat.div_lt_iff_lt_mul h2).1 h1)
    rw [if_neg this]

theorem preprocess_enlarged (size rank n : Nat) (b x : Nat → R) (mu k : Nat) (st : SolveStore)
    (hk : 2 ≤ k) (hsize : size ≠ 1) (hw : size % 65536 ≠ 0) :
    preprocess size rank n b x mu k st = some {
      sb := (List.range mu).foldl (fun sb nu =>
        copy_n b (nu * n) n sb
          ((min (min k (size % 65536) - 1) (rank / (size / min k (size % 65536)))
            + min k (size % 65536) * nu) * n)) (fun _ => 0),
      sx := (List.range mu).foldl (fun sx nu =>
        copy_n x (nu * n) n sx
          ((min (min k (size % 65536) - 1) (rank / (size / min k (size % 65536)))
            + min k (size % 65536) * nu) * n)) (fun _ => 0),
      fresh := true,
      k := min k (size % 65536),
      store := {
        krylov_method :=
          if st.krylov_method = 1 ∨ st.krylov_method = 3 ∨ st.krylov_method = 5
          then st.krylov_method else 1,
        enlarge_krylov_subspace := some (min k (size % 65536)),
        initial_deflation_tol := if 1 < mu then false else st.initial_deflation_tol } } := by
  unfold preprocess
  rw [if_neg (by omega), if_neg (by omega)]

/-- The enlarging branch of `preprocess` followed by `postprocess`, in terms of the factor
that the code computes, `std::min(k, static_cast<unsigned short>(size))`: the groups of
that many blocks, the sum taken by `postprocess`, and the round trip. -/
theorem enlargement_groups (size rank n : Nat) (b x : Nat → R) (mu k : Nat)
    (st : SolveStore) (hk : 2 ≤ k) (hsize : size ≠ 1) (hw : size % 65536 ≠ 0) :
    ∃ pre : Enlarged R, preprocess size rank n b x mu k st = some pre
      ∧ pre.fresh = true ∧ pre.k = min k (size % 65536)
      ∧ (∀ nu j i, nu < mu → j < pre.k → i < n →
          pre.sb ((j + pre.k * nu) * n + i)
            = if j = min (pre.k - 1) (rank / (size / pre.k)) then b (nu * n + i) else 0)
      ∧ (∀ nu j i, nu < mu → j < pre.k → i < n →
          pre.sx ((j + pre.k * nu) * n + i)
            = if j = min (pre.k - 1) (rank / (size / pre.k)) then x (nu * n + i) else 0)
      ∧ (∀ (y sx : Nat → R) nu i, nu < mu → i < n →
          postprocess n mu pre.k pre.fresh y sx (nu * n + i)
            = ∑ j in range pre.k, sx ((j + pre.k * nu) * n + i))
      ∧ postprocess n mu pre.k pre.fresh x pre.sx = x := by
  have hk' : 0 < min k (size % 65536) := by
    rcases Nat.le_total k (size % 65536) with h | h
    · rw [Nat.min_eq_left h]; omega
    · rw [Nat.min_eq_right h]; omega
  have hj0 : min (min k (size % 65536) - 1) (rank / (size / min k (size % 65536)))
      < min k (size % 65536) :=
    lt_of_le_of_lt (Nat.min_le_left _ _) (by omega)
  have hdec : ∀ nu i, nu < mu → i < n →
      nu * n + i < mu * n ∧ (nu * n + i) / n = nu ∧ (nu * n + i) % n = i := by
    intro nu i hnu hi
    have h1 := succ_mul_le n hnu
    refine ⟨by omega, ?_, ?_⟩
    · rw [Nat.add_comm, Nat.add_mul_div_right _ _ (by omega), Nat.div_eq_of_lt hi,
        Nat.zero_add]
    · rw [Nat.add_comm, Nat.add_mul_mod_self_right, Nat.mod_eq_of_lt hi]
  refine ⟨_, preprocess_enlarged size rank n b x mu k st hk hsize hw, rfl, rfl, ?_, ?_, ?_, ?_⟩
  · intro nu j i hnu hj hi
    exact enlarge_val b n mu _ _ hj0 hnu hj hi
  · intro nu j i hnu hj hi
    exact enlarge_val x n mu _ _ hj0 hnu hj hi
  · intro y sx nu i hnu hi
    obtain ⟨h1, h2, h3⟩ := hdec nu i hnu hi
    show postprocess n mu _ true y sx _ = _
    rw [postprocess_val, if_pos h1, h2, h3]
  · funext p
    show postprocess n mu _ true x _ p = _
    rw [postprocess_val]
    by_cases hp : p < mu * n
    · rw [if_pos hp]
      have hn : 0 < n := by
        rcases Nat.eq_zero_or_pos n with h | h
        · rw [h] at hp; omega
        · exact h
      have hq : p / n < mu := (Nat.div_lt_iff_lt_mul hn).2 hp
      have hr : p % n < n := Nat.mod_lt _ hn
      have hval : ∀ j ∈ range (min k (size % 65536)),
          (List.range mu).foldl (fun sx nu =>
            copy_n x (nu * n) n sx
              ((min (min k (size % 65536) - 1) (rank / (size / min k (size % 65536)))
                + min k (size % 65536) * nu) * n)) (fun _ => 0)
            ((j + min k (size % 65536) * (p / n)) * n + p % n)
          = if j = min (min k (size % 65536) - 1) (rank / (size / min k (size % 65536)))
            then x p else 0 := by
        intro j hj
        rw [enlarge_val x n mu _ _ hj0 hq (Finset.mem_range.1 hj) hr]
        have e : p / n * n + p % n = p := by
          have := Nat.div_add_mod p n
          have e' : p / n * n = n * (p / n) := Nat.mul_comm _ _
          omega
        rw [e]
      rw [Finset.sum_congr rfl hval, Finset.sum_ite_eq' _ _ _, if_pos (Finset.mem_range.2 hj0)]
    · rw [if_neg hp]

/-- C12 (amended).  Let enlargement apply: requested `k ≥ 2` and more than one process
(fewer than `65536`, the range of the 16-bit factor).  Then `preprocess` returns fresh
arrays and the factor clamped to the number of processes, `k' = min(k, size)`; for every
right-hand side `nu < mu` the group of `k'` blocks of length `n` has the copy of `b_nu`
(respectively `x_nu`) in block `min(k' - 1, rank / (size / k'))` and zeros in the other
blocks; `postprocess` sets `x_nu` to the sum of the `k'` blocks of its group, for any
content of `sx`; and `postprocess` applied to the output of `preprocess` gives back `x`. -/
theorem enlargement_round_trip (size rank n : Nat) (b x : Nat → R) (mu k : Nat)
    (st : SolveStore) (hk : 2 ≤ k) (hsize : 2 ≤ size) (hshort : size < 65536) :
    ∃ pre : Enlarged R, preprocess size rank n b x mu k st = some pre
      ∧ pre.fresh = true ∧ pre.k = min k size
      ∧ (∀ nu j i, nu < mu → j < pre.k → i < n →
          pre.sb ((j + pre.k * nu) * n + i)
            = if j = min (pre.k - 1) (rank / (size / pre.k)) then b (nu * n + i) else 0)
      ∧ (∀ nu j i, nu < mu → j < pre.k → i < n →
          pre.sx ((j + pre.k * nu) * n + i)
            = if j = min (pre.k - 1) (rank / (size / pre.k)) then x (nu * n + i) else 0)
      ∧ (∀ (y sx : Nat → R) nu i, nu < mu → i < n →
          postprocess n mu pre.k pre.fresh y sx (nu * n + i)
            = ∑ j in range pre.k, sx ((j + pre.k * nu) * n + i))
      ∧ postprocess n mu pre.k pre.fresh x pre.sx = x := by
  have h := enlargement_groups size rank n b x mu k st hk (by omega)
    (by rw [Nat.mod_eq_of_lt hshort]; omega)
  rw [Nat.mod_eq_of_lt hshort] at h
  exact h

/-- Witness of C12 as amended: three processes, rank `2`, two right-hand sides of length
`2`, requested factor `5`, clamped to `3`. -/
theorem enlargement_round_trip_witness :
    ∃ pre : Enlarged ℚ,
      preprocess 3 2 2 (fun p : Nat => (p : ℚ) + 1) (fun p : Nat => (p : ℚ) + 5) 2 5 ⟨0, some 5, true⟩
        = some pre
      ∧ pre.fresh = true ∧ pre.k = min 5 3
      ∧ (∀ nu j i, nu < 2 → j < pre.k → i < 2 →
          pre.sb ((j + pre.k * nu) * 2 + i)
            = if j = min (pre.k - 1) (2 / (3 / pre.k)) then ((nu * 2 + i : Nat) : ℚ) + 1 else 0)
      ∧ (∀ nu j i, nu < 2 → j < pre.k → i < 2 →
          pre.sx ((j + pre.k * nu) * 2 + i)
            = if j = min (pre.k - 1) (2 / (3 / pre.k)) then ((nu * 2 + i : Nat) : ℚ) + 5 else 0)
      ∧ (∀ (y sx : Nat → ℚ) nu i, nu < 2 → i < 2 →
          postprocess 2 2 pre.k pre.fresh y sx (nu * 2 + i)
            = ∑ j in range pre.k, sx ((j + pre.k * nu) * 2 + i))
      ∧ postprocess 2 2 pre.k pre.fresh (fun p : Nat => (p : ℚ) + 5) pre.sx
          = (fun p : Nat => (p : ℚ) + 5) :=
  enlargement_round_trip 3 2 2 (fun p : Nat => (p : ℚ) + 1) (fun p : Nat => (p : ℚ) + 5) 2 5
    ⟨0, some 5, true⟩ (by decide) (by decide) (by decide)

/-- Counterexample to C12 as stated: two processes, rank `1`, requested factor `k = 3`, two
right-hand sides of length `1`, `b = (1, 2)`.  Enlargement applies, and the claim has
groups of `k = 3` blocks: cells `0, 1, 2` for `b_0` and `3, 4, 5` for `b_1`, with the copy
in the same block `j` of both.  `preprocess` clamps the factor to the two processes and
builds groups of two blocks, `(0, b_0)` in cells `0, 1` and `(0, b_1)` in cells `2, 3`: no
block `j < 3` has `b_0` in cell `j` and `b_1` in cell `j + 3`. -/
theorem enlargement_round_trip_counterexample :
    (2 ≤ 3 ∧ 2 ≠ 1)
    ∧ (preprocess 2 1 1 (fun p : Nat => (p : ℚ) + 1) (fun p : Nat => (p : ℚ) + 5) 2 3
          ⟨0, some 3, true⟩).map
        (fun pre => (pre.k, pre.sb 0, pre.sb 1, pre.sb 2, pre.sb 3))
        = some (2, 0, 1, 0, 2)
    ∧ ¬ ∃ j, j < 3 ∧
        (preprocess 2 1 1 (fun p : Nat => (p : ℚ) + 1) (fun p : Nat => (p : ℚ) + 5) 2 3
            ⟨0, some 3, true⟩).map (fun pre => pre.sb ((j + 3 * 0) * 1)) = some 1
        ∧ (preprocess 2 1 1 (fun p : Nat => (p : ℚ) + 1) (fun p : Nat => (p : ℚ) + 5) 2 3
            ⟨0, some 3, true⟩).map (fun pre => pre.sb ((j + 3 * 1) * 1)) = some 2 := by
  have e := preprocess_enlarged 2 1 1 (fun p : Nat => (p : ℚ) + 1)
    (fun p : Nat => (p : ℚ) + 5) 2 3 ⟨0, some 3, true⟩ (by decide) (by decide) (by decide)
  refine ⟨⟨by decide, by decide⟩, ?_, ?_⟩
  · rw [e]
    norm_num [List.range_succ, copy_n]
  · rintro ⟨j, hj, h1, h2⟩
    rw [e] at h1 h2
    interval_cases j <;> norm_num [List.range_succ, copy_n] at h1 h2

/-- The dispatch of `solve`.  For a substructuring operator `solve` invokes `PCG` and
returns its value.  For any other operator, once `preprocess` has returned, `solve` invokes
exactly one driver, the one that `dispatch` assigns to the value of `krylov_method` in the
store left by `preprocess` (`5` `BGCRODR`, `4` `GCRODR`, `3` `BCG`, `2` `CG`, `1` `BGMRES`,
anything else `GMRES`), on the arrays and with the `k * mu` right-hand sides of
`preprocess`, and returns its value.  `preprocess` returns unless enlargement applies on a
number of processes that is a multiple of `65536`. -/
theorem solve_one_driver (drv : Drivers R) (size rank n : Nat) (b x : Nat → R) (mu : Nat)
    (st : SolveStore) :
    (∃ res, solve true drv size rank n b x mu st = some res
      ∧ res.calls = [Method.PCG] ∧ res.it = (drv.pcg b x).2)
    ∧ (∀ pre, preprocess size rank n b x mu (st.enlarge_krylov_subspace.getD 1) st = some pre →
        ∃ res, solve false drv size rank n b x mu st = some res
          ∧ res.calls = [dispatch pre.store.krylov_method]
          ∧ res.it = (drv.run (dispatch pre.store.krylov_method) pre.sb pre.sx (pre.k * mu)
              pre.store).2)
    ∧ dispatch 5 = Method.BGCRODR ∧ dispatch 4 = Method.GCRODR ∧ dispatch 3 = Method.BCG
    ∧ dispatch 2 = Method.CG ∧ dispatch 1 = Method.BGMRES
    ∧ (∀ z : Int, z ≠ 5 → z ≠ 4 → z ≠ 3 → z ≠ 2 → z ≠ 1 → dispatch z = Method.GMRES)
    ∧ ((st.enlarge_krylov_subspace.getD 1 < 2 ∨ size = 1 ∨ size % 65536 ≠ 0) →
        ∃ pre, preprocess size rank n b x mu (st.enlarge_krylov_subspace.getD 1) st
          = some pre) := by
  refine ⟨⟨_, by unfold solve; rw [if_pos rfl], rfl, rfl⟩, ?_, rfl, rfl, rfl, rfl, rfl, ?_, ?_⟩
  · intro pre hpre
    refine ⟨_, by unfold solve; rw [if_neg (by decide), hpre]; rfl, rfl, rfl⟩
  · intro z h5 h4 h3 h2 h1
    unfold dispatch
    rw [if_neg h5, if_neg h4, if_neg h3, if_neg h2, if_neg h1]
  · intro h
    by_cases hno : st.enlarge_krylov_subspace.getD 1 < 2 ∨ size = 1
    · exact ⟨_, by unfold preprocess; rw [if_pos hno]⟩
    · have hw : size % 65536 ≠ 0 := by
        rcases h with h | h | h
        · exact absurd (Or.inl h) hno
        · exact absurd (Or.inr h) hno
        · exact h
      exact ⟨_, preprocess_enlarged size rank n b x mu _ st (by omega) (by omega) hw⟩

/-- C11 (evaluation at the failing input).  A non-substructuring operator on `65536`
processes, with `enlarge_krylov_subspace = 2` and `krylov_method = 4` in the store, one
right-hand side of length `1`.  Enlargement applies; `static_cast<unsigned short>(size)`
is `0`, the factor becomes `std::min(2, 0) = 0`, and `size / k` divides by zero inside
`preprocess`, before the `switch`: `solve` has no result, no driver is invoked and no
value is returned.  On `65535` processes the same call runs the one driver `BGMRES` on
`2 * 1` right-hand sides and returns its value. -/
theorem solve_dispatch :
    solve false (⟨fun _ _ sx mu _ => (sx, mu), fun _ x => (x, 7)⟩ : Drivers ℚ) 65536 0 1
        (fun _ => 1) (fun _ => 1) 1 ⟨4, some 2, true⟩ = none
    ∧ (solve false (⟨fun _ _ sx mu _ => (sx, mu), fun _ x => (x, 7)⟩ : Drivers ℚ) 65535 0 1
        (fun _ => 1) (fun _ => 1) 1 ⟨4, some 2, true⟩).map (fun res => (res.calls, res.it))
        = some ([Method.BGMRES], 2) := by
  constructor
  · unfold solve preprocess
    simp
  · unfold solve
    rw [if_neg (by decide)]
    rw [show (Option.getD (SolveStore.mk 4 (some 2) true).enlarge_krylov_subspace 1) = 2 from rfl,
      preprocess_enlarged 65535 0 1 _ _ 1 2 ⟨4, some 2, true⟩ (by decide) (by decide)
        (by decide)]
    simp [dispatch]

end SolveClaims

section CollectiveClaims

variable {R : Type} [Field R]

omit [Field R] in
/-- C13.  For every mode `id`, every `k` and every `mu`, the sequence of all-reduce calls
(number, order, offsets and element counts) issued by `orthogonalization`, by
`blockOrthogonalization` and by `VR` is the same for any two process memories: it depends
neither on the `excluded` flag, nor on the local size, nor on the local vector data. -/
theorem collectives_lock_step (id : Int) (k mu : Nat) :
    (∀ r r' : OrthRank R, orthogonalizationCalls id k mu r = orthogonalizationCalls id k mu r')
    ∧ (∀ r r' : BlockRank R,
        blockOrthogonalizationCalls id k mu r = blockOrthogonalizationCalls id k mu r')
    ∧ (∀ r r' : QRRank R, VRCalls k mu r = VRCalls k mu r') := by
  refine ⟨?_, ?_, fun _ _ => rfl⟩
  · intro r r'
    unfold orthogonalizationCalls
    split_ifs <;> rfl
  · intro r r'
    have e : mu * mu * k = mu * (mu * k) := Nat.mul_assoc mu mu k
    unfold blockOrthogonalizationCalls
    rw [e]
    split_ifs <;> rfl

/-- C14, evaluation at the failing input `staleRanks` (`id = 1`, `k = 2`, `mu = 1`,
`ldh = 2`): before the second all-reduce the participating process holds its contribution
`-9` in `work[0]` and the excluded process holds `6`, the result of the first all-reduce,
not `0`; the block `H[1]` written on both processes is `-3`, whereas the participating
process alone obtains `-9`. -/
theorem blockOrthogonalization_excluded_stale :
    ((blockStep 0 1 2 (staleRanks.map (fun r =>
        if r.excluded = true ∨ r.n = 0 then { r with work := fill_n r.work (1 * 1 * 2) }
        else r))).map (blockLocal 1 1)).map (fun r => r.work 0) = [-9, 6]
    ∧ (blockOrthogonalization 1 2 1 2 staleRanks).map (fun r => r.H 1) = [-3, -3]
    ∧ (blockOrthogonalization 1 2 1 2 (staleRanks.take 1)).map (fun r => r.H 1) = [-9] := by
  decide!

omit [Field R] in
theorem orthogonalizationCalls_eq (id : Int) (k mu : Nat) (r : OrthRank R) :
    orthogonalizationCalls id k mu r
      = if id = 1 then (List.range k).map (fun i => (⟨i * mu, mu⟩ : Allreduce))
        else [⟨0, k * mu⟩] := by
  unfold orthogonalizationCalls
  split_ifs <;> rfl

/-- C18 (amended).  On every process `orthogonalization` with mode `1` issues exactly `k`
all-reduces, the one of step `i` over the `mu` scalars at `H + i * mu`, and the processes
go through the `k` steps `mgsStep` (local inner products with column `i`, all-reduce,
projection against column `i`); with every other mode, `0` as well as `2` and above, it
issues exactly one all-reduce over the `k * mu` scalars at `H`, between the computation of
all the inner products and the projection. -/
theorem orthogonalization_reductions (id : Int) (k mu : Nat) (r : OrthRank R)
    (ws : List (OrthRank R)) :
    (id = 1 →
      orthogonalizationCalls id k mu r = (List.range k).map (fun i => ⟨i * mu, mu⟩)
      ∧ (orthogonalizationCalls id k mu r).length = k
      ∧ orthogonalization id k mu ws
          = (List.range k).foldl (fun ws i =>
              (allreduceH (i * mu) mu (ws.map (mgsLocal i mu))).map (mgsUpdate i mu))
            (ws.map (fun r =>
              if r.excluded = true ∨ r.n = 0 then { r with H := fill_n r.H (k * mu) } else r)))
    ∧ (id ≠ 1 →
      orthogonalizationCalls id k mu r = [⟨0, k * mu⟩]
      ∧ orthogonalization id k mu ws
          = (allreduceH 0 (k * mu) ((ws.map (fun r =>
              if r.excluded = true ∨ r.n = 0 then { r with H := fill_n r.H (k * mu) }
              else r)).map (cgsLocal k mu))).map (cgsUpdate k mu)) := by
  constructor
  · intro h
    refine ⟨?_, ?_, ?_⟩
    · rw [orthogonalizationCalls_eq, if_pos h]
    · rw [orthogonalizationCalls_eq, if_pos h, List.length_map, List.length_range]
    · unfold orthogonalization
      simp only [if_pos h]
      rfl
  · intro h
    refine ⟨?_, ?_⟩
    · rw [orthogonalizationCalls_eq, if_neg h]
    · unfold orthogonalization
      simp only [if_neg h]

/-- Witness of C18: mode `1` and mode `0` with `k = 3`, `mu = 2` on a participating
process. -/
theorem orthogonalization_reductions_witness :
    (orthogonalizationCalls 1 3 2
        (⟨false, 1, fun _ => 1, fun _ => 1, fun _ => 0, none, fun _ => 0⟩ : OrthRank ℚ)).length
      = 3
    ∧ orthogonalizationCalls 0 3 2
        (⟨false, 1, fun _ => 1, fun _ => 1, fun _ => 0, none, fun _ => 0⟩ : OrthRank ℚ)
      = [⟨0, 3 * 2⟩] :=
  ⟨((orthogonalization_reductions 1 3 2
      (⟨false, 1, fun _ => 1, fun _ => 1, fun _ => 0, none, fun _ => 0⟩ : OrthRank ℚ) []).1
      rfl).2.1,
   ((orthogonalization_reductions 0 3 2
      (⟨false, 1, fun _ => 1, fun _ => 1, fun _ => 0, none, fun _ => 0⟩ : OrthRank ℚ) []).2
      (by decide)).1⟩

/-- Counterexample to C18 as stated: with mode `2`, `k = 2` and `mu = 1` a participating
process issues one all-reduce, over `2` scalars, not `2` all-reduces. -/
theorem orthogonalization_reductions_counterexample :
    orthogonalizationCalls 2 2 1
        (⟨false, 1, fun _ => 1, fun _ => 1, fun _ => 0, none, fun _ => 0⟩ : OrthRank ℚ)
      = [⟨0, 2⟩]
    ∧ (orthogonalizationCalls 2 2 1
        (⟨false, 1, fun _ => 1, fun _ => 1, fun _ => 0, none, fun _ => 0⟩ : OrthRank ℚ)).length
      ≠ 2 := by
  decide

end CollectiveClaims

section QRVariantClaims

variable {R : Type} [LinearOrderedField R]

theorem toChar_pred {id : Int} (h1 : 1 ≤ id) (h2 : id ≤ 127) : toChar (id - 1) = id - 1 := by
  unfold toChar
  omega

/-- C19 (amended).  For every column `xi ≥ 1`, `QR` with a mode `id ≠ 0` orthogonalizes
column `xi` against the `xi` previous columns by the call of `orthogonalization` with mode
`id - 1`, before it normalises it.  For `id = 2` this is modified Gram-Schmidt: one
previous column at a time (`mgsStep`), with one reduction over `mu` scalars per previous
column, followed by the reduction of the squared norms.  For every other mode
`1 ≤ id ≤ 127`, mode `1` included, it is classical Gram-Schmidt: a single reduction over
`xi * mu` scalars for all the previous columns, followed by the reduction of the squared
norms. -/
theorem QR_gram_schmidt_variant (id : Int) (k mu xi : Nat) (r : QRRank R)
    (ws : List (QRRank R)) (hxi : 1 ≤ xi) :
    qrOrth id k mu xi ws
      = List.zipWith (QRRank.orthBack k mu xi) ws
          (orthogonalization (toChar (id - 1)) xi mu (ws.map (QRRank.orthView k mu xi)))
    ∧ (id = 2 →
        QRColumnCalls id k mu xi r
          = (List.range xi).map (fun i => (⟨xi * k * mu + i * mu, mu⟩ : Allreduce))
            ++ [⟨xi * (k + 1) * mu, mu⟩]
        ∧ ∀ os : List (OrthRank R), orthogonalization (toChar (id - 1)) xi mu os
            = (List.range xi).foldl (fun os i => mgsStep i mu os)
                (os.map (fun o =>
                  if o.excluded = true ∨ o.n = 0 then { o with H := fill_n o.H (xi * mu) }
                  else o)))
    ∧ (1 ≤ id → id ≤ 127 → id ≠ 2 →
        QRColumnCalls id k mu xi r = [⟨xi * k * mu, xi * mu⟩, ⟨xi * (k + 1) * mu, mu⟩]
        ∧ ∀ os : List (OrthRank R), orthogonalization (toChar (id - 1)) xi mu os
            = (allreduceH 0 (xi * mu) ((os.map (fun o =>
                  if o.excluded = true ∨ o.n = 0 then { o with H := fill_n o.H (xi * mu) }
                  else o)).map (cgsLocal xi mu))).map (cgsUpdate xi mu)) := by
  refine ⟨?_, ?_, ?_⟩
  · unfold qrOrth
    rw [if_pos (by omega)]
  · intro h
    subst h
    have e : toChar ((2 : Int) - 1) = 1 := by decide
    refine ⟨?_, ?_⟩
    · unfold QRColumnCalls
      rw [if_pos (by omega), e, orthogonalizationCalls_eq, if_pos rfl, List.map_map]
      rfl
    · intro os
      rw [e]
      unfold orthogonalization
      simp only [if_pos]
  · intro h1 h127 h2
    have e : toChar (id - 1) ≠ 1 := by
      rw [toChar_pred h1 h127]
      omega
    refine ⟨?_, ?_⟩
    · unfold QRColumnCalls
      rw [if_pos (by omega), orthogonalizationCalls_eq, if_neg e]
      simp
    · intro os
      unfold orthogonalization
      simp only [if_neg e]

/-- Witness of C19: column `2` of three, one right-hand side, mode `2`. -/
theorem QR_gram_schmidt_variant_witness :
    QRColumnCalls 2 3 1 2
        (⟨false, 2, fun _ => 1, fun _ => 0, none, none, fun _ => 0⟩ : QRRank ℚ)
      = (List.range 2).map (fun i => (⟨2 * 3 * 1 + i * 1, 1⟩ : Allreduce))
        ++ [⟨2 * (3 + 1) * 1, 1⟩] :=
  ((QR_gram_schmidt_variant 2 3 1 2
    (⟨false, 2, fun _ => 1, fun _ => 0, none, none, fun _ => 0⟩ : QRRank ℚ) []
    (by decide)).2.1 rfl).1

/-- Counterexample to C19 as stated: with QR mode `1`, `k = 3` columns and `mu = 1`, column
`2` is orthogonalized against its two previous columns with a single reduction over `2`
scalars (at `work + 6`), before the reduction of its squared norm (at `work + 8`): not one
reduction per previous column. -/
theorem QR_gram_schmidt_variant_counterexample :
    QRColumnCalls 1 3 1 2
        (⟨false, 2, fun _ => 1, fun _ => 0, none, none, fun _ => 0⟩ : QRRank ℚ)
      = [⟨6, 2⟩, ⟨8, 1⟩]
    ∧ QRColumnCalls 1 3 1 2
        (⟨false, 2, fun _ => 1, fun _ => 0, none, none, fun _ => 0⟩ : QRRank ℚ)
      ≠ [⟨6, 1⟩, ⟨7, 1⟩, ⟨8, 1⟩] := by
  decide

end QRVariantClaims

section WorldLengths

variable {R : Type} [Field R]

theorem zipWith_right_of_length {α β γ : Type} (g : β → γ) (l1 : List α) (l2 : List β)
    (h : l1.length = l2.length) : List.zipWith (fun _ b => g b) l1 l2 = l2.map g := by
  induction l1 generalizing l2 with
  | nil =>
    cases l2 with
    | nil => rfl
    | cons b l2 => simp at h
  | cons a l1 ih =>
    cases l2 with
    | nil => simp at h
    | cons b l2 =>
      simp only [List.zipWith_cons_cons, List.map_cons]
      rw [ih l2 (by simpa using h)]

theorem foldl_length_of_step {α : Type} (f : List α → Nat → List α)
    (hf : ∀ ws i, (f ws i).length = ws.length) (L : List Nat) (ws : List α) :
    (L.foldl f ws).length = ws.length := by
  induction L generalizing ws with
  | nil => rfl
  | cons i L ih => rw [List.foldl_cons, ih, hf]

theorem orthogonalization_length (id : Int) (k mu : Nat) (ws : List (OrthRank R)) :
    (orthogonalization id k mu ws).length = ws.length := by
  unfold orthogonalization
  simp only []
  split_ifs
  · rw [foldl_length_of_step _ (fun ws i => by
      unfold mgsStep allreduceH
      simp only [List.length_map])]
    simp only [List.length_map]
  · unfold allreduceH
    simp only [List.length_map]

theorem blockOrthogonalization_length (id : Int) (k mu ldh : Nat) (ws : List (BlockRank R)) :
    (blockOrthogonalization id k mu ldh ws).length = ws.length := by
  unfold blockOrthogonalization
  split_ifs
  · rw [foldl_length_of_step _ (fun ws i => by
      unfold blockStep allreduceWork
      simp only [List.length_map])]
    simp only [List.length_map]
  · unfold allreduceWork
    simp only [List.length_map]

end WorldLengths

section BlockArnoldiClaims

variable {R : Type} [LinearOrderedField R]

theorem QR_length (sqrt : R → R) (k mu ldr : Nat) (update : Bool) (ws : List (QRRank R)) :
    (QR sqrt k mu ldr update ws).length = ws.length := by
  rw [QR_eq_map, List.length_map]

theorem qrOrth_length (id : Int) (k mu xi : Nat) (ws : List (QRRank R)) :
    (qrOrth id k mu xi ws).length = ws.length := by
  unfold qrOrth
  split_ifs
  · rw [List.length_zipWith, orthogonalization_length, List.length_map, Nat.min_self]
  · rfl

theorem qrColumn_length (sqrt : R → R) (eps : R) (id : Int) (k mu xi : Nat)
    (ws : List (QRRank R)) : (qrColumn sqrt eps id k mu xi ws).length = ws.length := by
  unfold qrColumn allreduceWAt
  simp only [List.length_map]
  exact qrOrth_length id k mu xi ws

theorem qrColumns_length (sqrt : R → R) (eps : R) (id : Int) (k mu ldr : Nat) (L : List Nat)
    (ws : List (QRRank R)) : (qrColumns sqrt eps id k mu ldr L ws).length = ws.length := by
  induction L generalizing ws with
  | nil => simp only [qrColumns, List.length_map]
  | cons xi L ih =>
    simp only [qrColumns]
    split_ifs
    · rw [List.length_map, qrColumn_length]
    · rw [ih, List.length_map, qrColumn_length]

theorem QRmode_length (sqrt : R → R) (eps : R) (id : Int) (k mu ldr : Nat) (update : Bool)
    (ws : List (QRRank R)) : (QRmode sqrt eps id k mu ldr update ws).length = ws.length := by
  unfold QRmode
  split_ifs
  · exact QR_length sqrt k mu ldr update ws
  · exact qrColumns_length sqrt eps id k mu ldr _ ws

theorem arnoldiOrth_length (id : Int) (m i mu shift : Nat) (ws : List (ArnoldiRank R)) :
    (arnoldiOrth id m i mu shift ws).length = ws.length := by
  unfold arnoldiOrth
  rw [List.length_zipWith, blockOrthogonalization_length, List.length_map, Nat.min_self]

theorem arnoldiQR_length (sqrt : R → R) (eps : R) (id : Int) (m i mu : Nat)
    (ws : List (ArnoldiRank R)) : (arnoldiQR sqrt eps id m i mu ws).length = ws.length := by
  unfold arnoldiQR
  rw [QRmode_length, List.length_map]

theorem forall₂_zip_zipWith {α β γ : Type} (f : α → β → γ) (l1 : List α) (l2 : List β) :
    List.Forall₂ (fun (ab : α × β) (c : γ) => c = f ab.1 ab.2) (List.zip l1 l2)
      (List.zipWith f l1 l2) := by
  induction l1 generalizing l2 with
  | nil => simp
  | cons a l1 ih =>
    cases l2 with
    | nil => simp
    | cons b l2 =>
      simp only [List.zip_cons_cons, List.zipWith_cons_cons]
      exact List.Forall₂.cons rfl (ih l2)

theorem forall₂_left_zipWith {α β γ : Type} (f : α → β → γ) (l1 : List α) (l2 : List β)
    (h : l1.length = l2.length) :
    List.Forall₂ (fun (a : α) (c : γ) => ∃ b, c = f a b) l1 (List.zipWith f l1 l2) := by
  induction l1 generalizing l2 with
  | nil => simp
  | cons a l1 ih =>
    cases l2 with
    | nil => simp at h
    | cons b l2 =>
      simp only [List.zipWith_cons_cons]
      exact List.Forall₂.cons ⟨b, rfl⟩ (ih l2 (by simpa using h))

theorem forall₂_comp {α β γ : Type} {P : α → β → Prop} {Q : β → γ → Prop} {l1 : List α}
    {l2 : List β} {l3 : List γ} (h1 : List.Forall₂ P l1 l2) (h2 : List.Forall₂ Q l2 l3) :
    List.Forall₂ (fun a c => ∃ b, P a b ∧ Q b c) l1 l3 := by
  induction h1 generalizing l3 with
  | nil =>
    cases h2
    exact List.Forall₂.nil
  | cons hab _ ih =>
    cases h2 with
    | cons hbc h2' => exact List.Forall₂.cons ⟨_, hab, hbc⟩ (ih h2')

/-- C15.  On every process `BlockArnoldi` returns `true` exactly when the block QR of the
new basis block, run after the block orthogonalization, returns a positive code, and
`false` otherwise, in particular when the code is `0`.  On a process where it returns
`true` the memory is the one left by `QR`: the Householder elimination has not run, and
`tau` and `s` are as on entry. -/
theorem BlockArnoldi_failure (hh : Householder R) (sqrt : R → R) (eps : R) (id : Int)
    (m i mu shift : Nat) (ws : List (ArnoldiRank R)) :
    (BlockArnoldi hh sqrt eps id m i mu shift ws).length = ws.length
    ∧ List.Forall₂ (fun (rq : ArnoldiRank R × (QRRank R × Int)) (x : ArnoldiRank R × Bool) =>
          (x.2 = true ↔ 0 < rq.2.2) ∧ (rq.2.2 = 0 → x.2 = false)
            ∧ (x.2 = true → x.1 = ArnoldiRank.qrBack i mu rq.1 rq.2.1)
            ∧ (x.2 = false →
                x.1 = arnoldiTail hh m i mu shift (ArnoldiRank.qrBack i mu rq.1 rq.2.1)))
        (List.zip (arnoldiOrth id m i mu shift ws)
          (arnoldiQR sqrt eps id m i mu (arnoldiOrth id m i mu shift ws)))
        (BlockArnoldi hh sqrt eps id m i mu shift ws)
    ∧ List.Forall₂ (fun (r : ArnoldiRank R) (x : ArnoldiRank R × Bool) =>
          (x.2 = true → x.1.tau = r.tau ∧ x.1.s = r.s))
        ws (BlockArnoldi hh sqrt eps id m i mu shift ws) := by
  have hl1 := arnoldiOrth_length id m i mu shift ws
  have hl2 := arnoldiQR_length sqrt eps id m i mu (arnoldiOrth id m i mu shift ws)
  refine ⟨?_, ?_, ?_⟩
  · unfold BlockArnoldi
    rw [List.length_zipWith, hl2, Nat.min_self, hl1]
  · unfold BlockArnoldi
    apply (forall₂_zip_zipWith _ _ _).imp
    rintro ⟨r, q⟩ x hx
    simp only [] at hx
    by_cases hq : 0 < q.2
    · rw [if_pos hq] at hx
      subst hx
      exact ⟨⟨fun _ => hq, fun _ => rfl⟩, fun h0 => absurd hq (by rw [h0]; decide),
        fun _ => rfl, fun h => by simp at h⟩
    · rw [if_neg hq] at hx
      subst hx
      exact ⟨⟨fun h => by simp at h, fun h => absurd h hq⟩, fun _ => rfl,
        fun h => by simp at h, fun _ => rfl⟩
  · have h1 : List.Forall₂ (fun (r r1 : ArnoldiRank R) =>
        ∃ b, r1 = ArnoldiRank.blockBack mu shift r b) ws (arnoldiOrth id m i mu shift ws) := by
      unfold arnoldiOrth
      exact forall₂_left_zipWith _ _ _
        (by rw [blockOrthogonalization_length, List.length_map])
    have h2 := forall₂_left_zipWith (fun r (x : QRRank R × Int) =>
        if 0 < x.2 then (ArnoldiRank.qrBack i mu r x.1, true)
        else (arnoldiTail hh m i mu shift (ArnoldiRank.qrBack i mu r x.1), false))
      (arnoldiOrth id m i mu shift ws)
      (arnoldiQR sqrt eps id m i mu (arnoldiOrth id m i mu shift ws)) hl2.symm
    apply (forall₂_comp h1 h2).imp
    rintro r x ⟨r1, ⟨b, rfl⟩, q, hx⟩ hflag
    beta_reduce at hx
    by_cases hq : 0 < q.2
    · rw [if_pos hq] at hx
      subst hx
      exact ⟨rfl, rfl⟩
    · rw [if_neg hq] at hx
      subst hx
      simp at hflag

end BlockArnoldiClaims

section TransferClaims

/-- The permute step of `Itransfer<false>` touches nothing when there is one rank or one
right-hand side; with at least two of each, for every rank `i ≥ 1` with a non-zero count it
reads the first position of the range that the pending gather has to fill for rank `i`. -/
theorem Itransfer_eager_pending (counts : Nat → Nat) (n m : Nat) :
    ((n = 1 ∨ m = 1) → (Itransfer false counts n m).eager = [])
    ∧ (2 ≤ n → 2 ≤ m → ∀ i, 1 ≤ i → i < n → 0 < counts i →
        Access.covers (Itransfer false counts n m).eager (counts (n + i) * m)
        ∧ pendingAt (Itransfer false counts n m).pending (counts (n + i) * m)) := by
  constructor
  · intro h
    unfold Itransfer permuteAccess
    rw [if_pos rfl, if_neg (by omega)]
  · intro hn hm i hi1 hin hc
    have hs1 : scaleCounts counts n m (n + i) = counts (n + i) * m := by
      unfold scaleCounts
      rw [if_pos (by omega)]
    have hs2 : scaleCounts counts n m i = counts i * m := by
      unfold scaleCounts
      rw [if_pos (by omega)]
    have hpos : 0 < counts i * m := Nat.mul_pos hc (by omega)
    constructor
    · refine ⟨⟨scaleCounts counts n m (n + i) + 0 * (scaleCounts counts n m i / m),
        scaleCounts counts n m i / m, false⟩, ?_, ?_, ?_⟩
      · unfold Itransfer permuteAccess
        rw [if_pos rfl, if_pos ⟨by omega, by omega⟩, if_pos rfl]
        apply List.mem_append_left
        rw [List.mem_flatMap]
        exact ⟨i, List.mem_range.2 hin, List.mem_map.2 ⟨0, List.mem_range.2 (by omega), rfl⟩⟩
      · show _ + 0 * _ ≤ _
        rw [hs1]
        omega
      · show _ < _ + 0 * _ + _
        rw [hs1, hs2, Nat.mul_div_cancel _ (by omega : 0 < m)]
        show _ < _ + 0 * _ + counts i
        omega
    · refine ⟨(scaleCounts counts n m (n + i), scaleCounts counts n m i), ?_, ?_, ?_⟩
      · unfold Itransfer gatherPending
        rw [if_pos rfl]
        exact List.mem_map.2 ⟨i, List.mem_range'_1.2 ⟨hi1, by omega⟩, rfl⟩
      · show scaleCounts counts n m (n + i) ≤ _
        rw [hs1]
      · show _ < scaleCounts counts n m (n + i) + scaleCounts counts n m i
        rw [hs1, hs2]
        omega


/-- C16, evaluation at the failing input: two ranks with one coarse unknown each and two
right-hand sides (`counts = [1, 1 | 0, 1]`, `n = 2`, `m = 2`).  After the scaling the
gather still has to fill `[2, 4)` for rank `1`; the permute step, which runs while the
request is pending, reads `[2, 3)` and `[3, 4)` and then overwrites `[0, 4)`. -/
theorem Itransfer_eager_overlap :
    (Itransfer false (countsArray [1, 1]) 2 2).pending = [(2, 2)]
    ∧ (Itransfer false (countsArray [1, 1]) 2 2).eager
        = [⟨0, 1, false⟩, ⟨1, 1, false⟩, ⟨2, 1, false⟩, ⟨3, 1, false⟩, ⟨0, 4, true⟩]
    ∧ Access.covers (Itransfer false (countsArray [1, 1]) 2 2).eager 2
    ∧ pendingAt (Itransfer false (countsArray [1, 1]) 2 2).pending 2 := by
  refine ⟨by decide, by decide, ?_, ?_⟩
  · exact ⟨⟨2, 1, false⟩, by decide, by decide, by decide⟩
  · exact ⟨(2, 2), by decide, by decide, by decide⟩

end TransferClaims

section BlockConvergenceClaims

variable {R : Type} [LinearOrderedField R]

theorem foldl_count_fst {β : Type} (c : Nat → Bool) (g : β → Nat → β) (L : List Nat)
    (a : Nat) (w : β) :
    (L.foldl (fun (x : Nat × β) nu => (if c nu = true then x.1 + 1 else x.1, g x.2 nu))
      (a, w)).1 = a + L.countP c := by
  induction L generalizing a w with
  | nil => simp
  | cons nu L ih =>
    rw [List.foldl_cons, ih, List.countP_cons]
    by_cases h : c nu = true
    · simp only [if_pos h]
      omega
    · simp only [if_neg h]
      simp [h]

/-- The vector accumulated by the loop of `axpy` calls of the branch `t > 1`: position `p`
receives the entries `p` of the block columns `nu ≥ p`, `nu < t`. -/
theorem foldl_axpy_tri (res : Nat → R) (ldh t : Nat) (w0 : Nat → R) (p : Nat) :
    (List.range t).foldl (fun w nu => axpy (nu + 1) d__1 res (nu * ldh) w 0) w0 p
      = (∑ nu in range t, if p ≤ nu then res (nu * ldh + p) else 0) + w0 p := by
  induction t with
  | zero => simp
  | succ t ih =>
    rw [List.range_succ, List.foldl_append, List.foldl_cons, List.foldl_nil, axpy_apply, ih,
      Finset.sum_range_succ]
    unfold d__1
    by_cases h : p ≤ t
    · rw [if_pos ⟨Nat.zero_le _, by omega⟩, if_pos h, Nat.sub_zero]
      ring
    · rw [if_neg (by omega), if_neg h]
      ring

theorem checkBlockConvergence_columns (sqrt : R → R) (T : Nat) (tol : R) (mu d : Nat)
    (norm res : Nat → R) (ldh : Nat) (work : Nat → R) (t : Nat) (hT : T ≠ 3) (ht : t ≤ 1) :
    (checkBlockConvergence sqrt T tol mu d norm res ldh work t).1
      = (List.range d).countP (fun nu =>
          blockTest tol (norm nu) (nrm2 sqrt (nu + 1) res (nu * ldh))) := by
  unfold checkBlockConvergence
  rw [if_neg hT, if_pos ht]
  exact (foldl_count_fst (fun nu => blockTest tol (norm nu) (nrm2 sqrt (nu + 1) res (nu * ldh)))
    (fun w nu => Function.update w nu (nrm2 sqrt (nu + 1) res (nu * ldh)))
    (List.range d) 0 work).trans (Nat.zero_add _)

theorem checkBlockConvergence_group (sqrt : R → R) (T : Nat) (tol : R) (mu d : Nat)
    (norm res : Nat → R) (ldh : Nat) (work : Nat → R) (t : Nat) (hT : T ≠ 3) (ht : 2 ≤ t) :
    (checkBlockConvergence sqrt T tol mu d norm res ldh work t).1
      = if blockTest tol (norm 0)
          (sqrt (∑ p in range d,
            (∑ nu in range t, if p ≤ nu then res (nu * ldh + p) else 0)
              * (∑ nu in range t, if p ≤ nu then res (nu * ldh + p) else 0))) = true
        then t else 0 := by
  unfold checkBlockConvergence
  rw [if_neg hT, if_neg (by omega)]
  have e : nrm2 sqrt d ((List.range t).foldl (fun w nu =>
        axpy (nu + 1) d__1 res (nu * ldh) w 0) (fill_n work d)) 0
      = sqrt (∑ p in range d,
            (∑ nu in range t, if p ≤ nu then res (nu * ldh + p) else 0)
              * (∑ nu in range t, if p ≤ nu then res (nu * ldh + p) else 0)) := by
    unfold nrm2
    congr 1
    apply Finset.sum_congr rfl
    intro p hp
    have hp := Finset.mem_range.1 hp
    rw [Nat.zero_add, foldl_axpy_tri]
    unfold fill_n
    rw [if_pos hp, add_zero]
  simp only [e]

/-- C17 (evaluation at the failing input).  `BGMRES` (`T = 1`), group size `t = 2`, active
width `d = 4`, hence `d / t = 2` groups of two block columns, zero residual, tolerance `1`,
reference norms `1`, leading dimension `4`.  Every group has a zero aggregate, whose norm
`sqrt 0` meets the relative test against the reference norm `1`, so that `t` times the
number of converged groups is `2 * 2 = 4`; `checkBlockConvergence` returns `2`: its branch
`t > 1` accumulates and tests the first group only. -/
theorem checkBlockConvergence_count :
    (checkBlockConvergence Real.sqrt 1 1 4 4 (fun _ => 1) (fun _ => 0) 4 (fun _ => 0) 2).1 = 2
    ∧ (∀ g, g < 4 / 2 →
        blockTest (1 : ℝ) ((fun _ : Nat => (1 : ℝ)) g)
          (Real.sqrt (∑ p in range 4,
            (∑ nu in range 2, if p ≤ nu then (fun _ : Nat => (0 : ℝ)) ((g * 2 + nu) * 4 + p)
              else 0)
            * (∑ nu in range 2, if p ≤ nu then (fun _ : Nat => (0 : ℝ)) ((g * 2 + nu) * 4 + p)
              else 0))) = true)
    ∧ 2 * (4 / 2) ≠ 2 := by
  refine ⟨?_, ?_, by decide⟩
  · rw [checkBlockConvergence_group Real.sqrt 1 1 4 4 _ _ 4 _ 2 (by decide) (by decide)]
    simp [blockTest]
  · intro g _
    simp [blockTest]

end BlockConvergenceClaims

section RecyclingClaims

variable {R : Type} [LinearOrderedField R]

theorem gemvNS_apply (m n : Nat) (alpha : R) (A : Nat → R) (ao lda : Nat) (xs : Nat → R)
    (xo incx : Nat) (beta : R) (ys : Nat → R) (yo incy : Nat) (hyo : yo < incy) (p : Nat) :
    gemvNS m n alpha A ao lda xs xo incx beta ys yo incy p
      = if p % incy = yo ∧ p / incy < m then
          alpha * (∑ c in range n, A (ao + p / incy + c * lda) * xs (xo + c * incx))
            + beta * ys p
        else ys p := by
  unfold gemvNS
  have hdiv : ∀ a, (yo + a * incy) / incy = a := by
    intro a
    rw [Nat.add_mul_div_right _ _ (by omega), Nat.div_eq_of_lt hyo, Nat.zero_add]
  have hmod : ∀ a, (yo + a * incy) % incy = yo := by
    intro a
    rw [Nat.add_mul_mod_self_right, Nat.mod_eq_of_lt hyo]
  by_cases h : p % incy = yo ∧ p / incy < m
  · rw [if_pos h]
    have hp : yo + (p / incy) * incy = p := by
      rw [← h.1, Nat.mul_comm]; exact Nat.mod_add_div p incy
    apply foldl_update_val (fun i => yo + i * incy)
    · intro a _ ha
      have : a = p / incy := by rw [← ha, hdiv]
      subst this
      simp only [hp]
    · left
      exact ⟨p / incy, List.mem_range.2 h.2, hp⟩
  · rw [if_neg h]
    apply foldl_update_val (fun i => yo + i * incy)
    · intro a ha hpa
      exfalso
      apply h
      rw [← hpa, hmod, hdiv]
      exact ⟨rfl, List.mem_range.1 ha⟩
    · right
      rfl

theorem lead_decode {nu l mu : Nat} (hnu : nu < mu) :
    (nu + l * mu) % mu = nu ∧ (nu + l * mu) / mu = l := by
  constructor
  · rw [Nat.add_mul_mod_self_right, Nat.mod_eq_of_lt hnu]
  · rw [Nat.add_mul_div_right _ _ (by omega), Nat.div_eq_of_lt hnu, Nat.zero_add]

theorem tail_div {shift mu p : Nat} (hmu : 0 < mu) (hp : shift * mu ≤ p) : ¬ p / mu < shift := by
  intro h
  have h1 : p < shift * mu := by
    rw [Nat.mul_comm]; exact (Nat.div_lt_iff_lt_mul hmu).1 h |> fun h => by rwa [Nat.mul_comm] at h
  omega

/-- The array `s` after the projection loop of the non-block path on a process that does
local work. -/
theorem recycleProject_fold (hc : Nat → Int) (shift mu : Nat) (r : RecycleRank R) (p : Nat) :
    (List.range mu).foldl (fun s nu =>
      if (hc nu).natAbs ≠ 0 then
        gemvT r.n shift (r.norm nu) r.C (nu * r.n) (mu * r.n) r.v (nu * r.n) d__0 s nu mu
      else s) r.s p
      = if p % mu < mu ∧ (p / mu < shift ∧ (hc (p % mu)).natAbs ≠ 0) then
          r.norm (p % mu) * (∑ j in range r.n,
            r.C (p % mu * r.n + (p / mu) * (mu * r.n) + j) * r.v (p % mu * r.n + j))
            + d__0 * r.s p
        else r.s p := by
  refine foldl_keyed (fun nu s =>
      if (hc nu).natAbs ≠ 0 then
        gemvT r.n shift (r.norm nu) r.C (nu * r.n) (mu * r.n) r.v (nu * r.n) d__0 s nu mu
      else s)
    (fun nu p h => r.norm nu * (∑ j in range r.n,
      r.C (nu * r.n + (p / mu) * (mu * r.n) + j) * r.v (nu * r.n + j)) + d__0 * h)
    (fun p => p % mu) (fun p => p / mu < shift ∧ (hc (p % mu)).natAbs ≠ 0) mu r.s ?_ p
  intro nu hnu v q
  by_cases h0 : (hc nu).natAbs ≠ 0
  · simp only [if_pos h0]
    rw [gemvT_apply _ _ _ _ _ _ _ _ _ _ _ _ hnu]
    by_cases h1 : q % mu = nu
    · subst h1
      simp only [true_and, h0, and_true, ne_eq, not_false_eq_true]
    · simp only [h1, false_and, if_false]
  · simp only [if_neg h0]
    by_cases h1 : q % mu = nu
    · subst h1
      rw [if_neg (by intro h; exact h0 h.2.2)]
    · rw [if_neg (by intro h; exact h1 h.1)]

theorem recycleProject_lead (hc : Nat → Int) (shift mu : Nat) (r : RecycleRank R)
    {nu l : Nat} (hnu : nu < mu) (hl : l < shift) (h0 : hc nu ≠ 0) :
    (recycleProject hc shift mu r).s (nu + l * mu) = r.projection mu nu l := by
  have hd := @lead_decode nu l mu hnu
  unfold recycleProject RecycleRank.projection
  by_cases hr : r.excluded = true ∨ r.n = 0
  · rw [if_pos hr, if_pos hr]
    have hpos : nu + l * mu < shift * mu := by
      have := succ_mul_le mu hl
      omega
    simp only [fill_n, if_pos hpos]
  · rw [if_neg hr, if_neg hr]
    simp only []
    rw [recycleProject_fold, hd.1, hd.2,
      if_pos ⟨hnu, hl, by simpa using h0⟩]
    unfold d__0
    rw [zero_mul, add_zero]

theorem recycleProject_tail (hc : Nat → Int) (shift mu : Nat) (r : RecycleRank R)
    {p : Nat} (hp : shift * mu ≤ p) :
    (recycleProject hc shift mu r).s p = r.s p := by
  unfold recycleProject
  by_cases hr : r.excluded = true ∨ r.n = 0
  · rw [if_pos hr]
    simp only [fill_n, if_neg (Nat.not_lt.2 hp)]
  · rw [if_neg hr]
    simp only []
    rw [recycleProject_fold]
    by_cases hmu : 0 < mu
    · rw [if_neg (by intro h; exact tail_div hmu hp h.2.1)]
    · rw [if_neg (by intro h; omega)]

/-- The array `s` after the correction loop of the non-block path on a process that does
local work: the cells of the leading block are corrected from the tail of the array the
loop started from. -/
theorem recycleCorrect_fold (hc : Nat → Int) (shift mu ld : Nat) (h s0 : Nat → R) (m : Nat)
    (hm : m ≤ mu) (p : Nat) :
    (List.range m).foldl (fun s nu =>
      if (hc nu).natAbs ≠ 0 then
        gemvNS shift ((hc nu).natAbs - shift) d__2 h
          (shift * ld + nu * (ld / mu)) ld s (shift * mu + nu) mu d__1 s nu mu
      else s) s0 p
      = if p % mu < m ∧ p / mu < shift ∧ (hc (p % mu)).natAbs ≠ 0 then
          d__2 * (∑ c in range ((hc (p % mu)).natAbs - shift),
            h (shift * ld + p % mu * (ld / mu) + p / mu + c * ld)
              * s0 (shift * mu + p % mu + c * mu)) + d__1 * s0 p
        else s0 p := by
  induction m generalizing p with
  | zero => simp
  | succ m ih =>
    have hm1 : m < mu := hm
    rw [List.range_succ, List.foldl_append, List.foldl_cons, List.foldl_nil]
    by_cases h0 : (hc m).natAbs ≠ 0
    · rw [if_pos h0, gemvNS_apply _ _ _ _ _ _ _ _ _ _ _ _ _ hm1]
      by_cases h1 : p % mu = m ∧ p / mu < shift
      · rw [if_pos h1, if_pos ⟨by omega, h1.2, by rw [h1.1]; exact h0⟩, h1.1]
        rw [ih (by omega) p, if_neg (by intro h; omega)]
        congr 2
        apply Finset.sum_congr rfl
        intro c _
        rw [ih (by omega)]
        have e : shift * mu + m + c * mu = m + (shift + c) * mu := by ring
        rw [e, (lead_decode hm1).2, if_neg (by intro h; omega)]
      · rw [if_neg h1, ih (by omega) p]
        by_cases h2 : p % mu = m
        · have h3 : ¬ p / mu < shift := fun h => h1 ⟨h2, h⟩
          rw [if_neg (by intro h; exact h3 h.2.1), if_neg (by intro h; exact h3 h.2.1)]
        · by_cases h4 : p % mu < m ∧ p / mu < shift ∧ (hc (p % mu)).natAbs ≠ 0
          · rw [if_pos h4, if_pos ⟨by omega, h4.2⟩]
          · rw [if_neg h4, if_neg (by intro h; exact h4 ⟨by omega, h.2⟩)]
    · rw [if_neg h0, ih (by omega) p]
      by_cases h2 : p % mu = m
      · rw [if_neg (by intro h; omega), if_neg (by intro h; rw [h2] at h; exact h0 h.2.2)]
      · by_cases h4 : p % mu < m ∧ p / mu < shift ∧ (hc (p % mu)).natAbs ≠ 0
        · rw [if_pos h4, if_pos ⟨by omega, h4.2⟩]
        · rw [if_neg h4, if_neg (by intro h; exact h4 ⟨by omega, h.2⟩)]

theorem recycleCorrect_lead (hc : Nat → Int) (shift mu ld : Nat) (r : RecycleRank R)
    (hr : ¬ (r.excluded = true ∨ r.n = 0)) {nu l : Nat} (hnu : nu < mu) (hl : l < shift)
    (h0 : hc nu ≠ 0) :
    (recycleCorrect hc shift mu ld r).s (nu + l * mu)
      = r.s (nu + l * mu) - ∑ c in range ((hc nu).natAbs - shift),
          r.h (shift * ld + nu * (ld / mu) + l + c * ld) * r.s (shift * mu + nu + c * mu) := by
  have hd := @lead_decode nu l mu hnu
  unfold recycleCorrect
  rw [if_neg hr]
  simp only []
  rw [recycleCorrect_fold hc shift mu ld r.h r.s mu (le_refl mu), hd.1, hd.2,
    if_pos ⟨hnu, hl, by simpa using h0⟩]
  unfold d__1 d__2
  ring

theorem recycleCorrect_tail (hc : Nat → Int) (shift mu ld : Nat) (r : RecycleRank R)
    {p : Nat} (hp : shift * mu ≤ p) :
    (recycleCorrect hc shift mu ld r).s p = r.s p := by
  unfold recycleCorrect
  by_cases hr : r.excluded = true ∨ r.n = 0
  · rw [if_pos hr]
  · rw [if_neg hr]
    simp only []
    rw [recycleCorrect_fold hc shift mu ld r.h r.s mu (le_refl mu)]
    by_cases hmu : 0 < mu
    · rw [if_neg (by intro h; exact tail_div hmu hp h.2.1)]
    · rw [if_neg (by intro h; omega)]

theorem recycleProject_frame (hc : Nat → Int) (shift mu : Nat) (r : RecycleRank R) :
    (recycleProject hc shift mu r).excluded = r.excluded
    ∧ (recycleProject hc shift mu r).n = r.n
    ∧ (recycleProject hc shift mu r).h = r.h := by
  unfold recycleProject
  split <;> exact ⟨rfl, rfl, rfl⟩

theorem projection_recycleMin (hc : Nat → Int) (shift mu : Nat) (deflated : Int) (ld : Nat)
    (r : RecycleRank R) (nu l : Nat) :
    (recycleMin hc shift mu deflated ld r).projection mu nu l = r.projection mu nu l := rfl

/-- Non-block path of `updateSolRecycling`: on every process the tail of `s` is the one
left by `computeMin`; on a process that does local work, for a right-hand side whose
marker is not zero, a leading coefficient is the sum over the processes of the projection
onto `C` (zero when the option `recycle_same_system` is set) minus the product of the
Hessenberg block with that tail. -/
theorem updateSolRecycling_scalar (same : Nat) (hc : Nat → Int) (shift mu ld : Nat)
    (ws : List (RecycleRank R)) :
    List.Forall₂ (fun r q =>
      (∀ p, shift * mu ≤ p → q.s p = computeMin r.h ld r.s (shift * mu) hc mu (-1) shift p)
      ∧ (¬ (r.excluded = true ∨ r.n = 0) → ∀ nu, nu < mu → hc nu ≠ 0 → ∀ l, l < shift →
          q.s (nu + l * mu)
            = (if same ≠ 0 then 0 else (ws.map (fun r' => r'.projection mu nu l)).sum)
              - ∑ c in range ((hc nu).natAbs - shift),
                  r.h (shift * ld + nu * (ld / mu) + l + c * ld)
                    * computeMin r.h ld r.s (shift * mu) hc mu (-1) shift
                        (shift * mu + nu + c * mu)))
      ws (updateSolRecycling same hc shift mu (-1) ld ws) := by
  have hmin : ∀ x : RecycleRank R, (recycleMin hc shift mu (-1) ld x).s
      = computeMin x.h ld x.s (shift * mu) hc mu (-1) shift := by
    intro x
    unfold recycleMin
    simp
  unfold updateSolRecycling
  rw [if_pos rfl]
  have e1 : ld / (Int.natAbs (-1)) = ld := by simp
  rw [e1]
  by_cases hs : same ≠ 0
  · rw [if_pos hs]
    simp only [List.map_map, List.forall₂_map_right_iff, List.forall₂_same,
      Function.comp_apply]
    intro x _
    constructor
    · intro p hp
      rw [recycleCorrect_tail _ _ _ _ _ hp]
      simp only [fill_n, if_neg (Nat.not_lt.2 hp), hmin]
    · intro hx nu hnu h0 l hl
      refine (recycleCorrect_lead hc shift mu ld _ ?_ hnu hl h0).trans ?_
      · exact hx
      rw [if_pos hs]
      have hpos : nu + l * mu < shift * mu := by
        have := succ_mul_le mu hl
        omega
      simp only [fill_n, if_pos hpos]
      congr 1
      apply Finset.sum_congr rfl
      intro c _
      rw [if_neg (by omega), hmin]
      rfl
  · rw [if_neg hs]
    unfold allreduceS
    simp only [List.map_map, List.forall₂_map_right_iff, List.forall₂_same,
      Function.comp_apply]
    intro x _
    constructor
    · intro p hp
      rw [recycleCorrect_tail _ _ _ _ _ hp]
      simp only [if_neg (Nat.not_lt.2 hp)]
      rw [recycleProject_tail _ _ _ _ hp, hmin]
    · intro hx nu hnu h0 l hl
      have hpos : nu + l * mu < shift * mu := by
        have := succ_mul_le mu hl
        omega
      have hx2 : ¬ (x.excluded = true ∨ x.n = 0) := hx
      have hf := recycleProject_frame hc shift mu (recycleMin hc shift mu (-1) ld x)
      refine (recycleCorrect_lead hc shift mu ld _ ?_ hnu hl h0).trans ?_
      · show ¬ ((recycleProject hc shift mu (recycleMin hc shift mu (-1) ld x)).excluded = true
          ∨ (recycleProject hc shift mu (recycleMin hc shift mu (-1) ld x)).n = 0)
        rw [hf.1, hf.2.1]
        exact hx2
      rw [if_neg hs]
      simp only [if_pos hpos]
      congr 1
      · congr 1
        apply List.map_congr_left
        intro r' _
        show (recycleProject hc shift mu (recycleMin hc shift mu (-1) ld r')).s (nu + l * mu)
          = _
        rw [recycleProject_lead _ _ _ _ hnu hl h0, projection_recycleMin]
      · apply Finset.sum_congr rfl
        intro c _
        rw [if_neg (by omega),
          recycleProject_tail _ _ _ _ (by omega), hmin]
        show (recycleProject hc shift mu (recycleMin hc shift mu (-1) ld x)).h _ * _ = _
        rw [hf.2.2]
        rfl

theorem recycleScaled_val (D ldh : Nat) (r : RecycleRank R) {j c : Nat} (hj : j < r.n)
    (hc : c < D) :
    recycleScaled D ldh r (j + c * r.n)
      = ∑ b in range (c + 1), r.v (j + b * r.n) * r.norm (b + c * ldh) := by
  have hd := @lead_decode j c r.n hj
  unfold recycleScaled trmm
  simp only [Nat.zero_le, true_and, Nat.sub_zero, Nat.zero_add]
  rw [hd.1, hd.2, if_pos ⟨hj, hc⟩]
  unfold d__1
  rw [one_mul]
  apply Finset.sum_congr rfl
  intro b hb
  have hb1 : b < D := by
    have := Finset.mem_range.1 hb
    omega
  have hlt : j + b * r.n < D * r.n := by
    have := succ_mul_le r.n hb1
    omega
  unfold copy_n
  simp only [Nat.zero_le, true_and, Nat.sub_zero, Nat.zero_add, if_pos hlt]

theorem recycleGram_val (D shift ldh : Nat) (r : RecycleRank R) {a c : Nat}
    (ha : a < D * shift) (hc : c < D) (hld : D * shift ≤ ldh) :
    recycleGram D shift ldh r (a + c * ldh)
      = ∑ j in range r.n, r.C (a * r.n + j) * recycleScaled D ldh r (c * r.n + j) := by
  have hd := @lead_decode a c ldh (by omega)
  unfold recycleGram gemmTN
  simp only [Nat.zero_le, true_and, Nat.sub_zero, Nat.zero_add]
  rw [hd.1, hd.2, if_pos ⟨ha, hc⟩]
  unfold d__0 d__1
  rw [one_mul, zero_mul, add_zero]

theorem recycleGram_tail (D shift ldh : Nat) (r : RecycleRank R) {p : Nat}
    (hp : ¬ p % ldh < D * shift) : recycleGram D shift ldh r p = r.s p := by
  unfold recycleGram gemmTN
  simp only [Nat.zero_le, true_and, Nat.sub_zero]
  rw [if_neg (by intro h; exact hp h.1)]

theorem block_offset {i bK ldh p : Nat} (h1 : i * ldh ≤ p) (h2 : p < i * ldh + bK)
    (hld : bK ≤ ldh) : p % ldh = p - i * ldh := by
  have e : p = (p - i * ldh) + i * ldh := by omega
  have := (@lead_decode (p - i * ldh) i ldh (by omega)).1
  rw [← e] at this
  exact this

theorem recycleProjectBlock_work (D shift ldh : Nat) (r : RecycleRank R) {a c : Nat}
    (ha : a < D * shift) (hc : c < D) (hld : D * shift ≤ ldh) :
    (recycleProjectBlock D shift ldh r).work (a + c * (D * shift))
      = r.blockProjection ldh a c := by
  unfold recycleProjectBlock RecycleRank.blockProjection
  by_cases hr : r.excluded = true ∨ r.n = 0
  · rw [if_pos hr, if_pos hr]
    have hpos : a + c * (D * shift) < D * shift * D := by
      have := succ_mul_le (D * shift) hc
      rw [Nat.mul_comm (D * shift) D]
      omega
    simp only [fill_n, if_pos hpos]
  · rw [if_neg hr, if_neg hr]
    simp only []
    apply foldl_copy_val (recycleGram D shift ldh r) (fun i => i * ldh) (fun _ => D * shift)
      (fun i => i * (D * shift))
    · intro i _ h1 h2
      have hic : i = c := mul_block_unique h1 h2 (by omega) (by omega)
      subst hic
      have e : i * ldh + (a + i * (D * shift) - i * (D * shift)) = a + i * ldh := by omega
      rw [e, recycleGram_val _ _ _ _ ha hc hld]
      apply Finset.sum_congr rfl
      intro j hj
      rw [Nat.add_comm (i * r.n) j, recycleScaled_val _ _ _ (Finset.mem_range.1 hj) hc]
    · left
      exact ⟨c, List.mem_range.2 hc, by omega, by omega⟩

theorem recycleProjectBlock_tail (D shift ldh : Nat) (r : RecycleRank R) {p : Nat}
    (hp : ¬ p % ldh < D * shift) : (recycleProjectBlock D shift ldh r).s p = r.s p := by
  unfold recycleProjectBlock
  by_cases hr : r.excluded = true ∨ r.n = 0
  · rw [if_pos hr]
  · rw [if_neg hr]
    exact recycleGram_tail D shift ldh r hp

theorem recycleProjectBlock_h (D shift ldh : Nat) (r : RecycleRank R) :
    (recycleProjectBlock D shift ldh r).h = r.h := by
  unfold recycleProjectBlock
  split <;> rfl

omit [LinearOrderedField R] in
theorem recycleUnpack_lead (D shift ldh : Nat) (r : RecycleRank R) {a c : Nat}
    (ha : a < D * shift) (hc : c < D) (hld : D * shift ≤ ldh) :
    (recycleUnpack D shift ldh r).s (a + c * ldh) = r.work (a + c * (D * shift)) := by
  unfold recycleUnpack
  simp only []
  apply foldl_copy_val r.work (fun i => i * (D * shift)) (fun _ => D * shift)
    (fun i => i * ldh)
  · intro i _ h1 h2
    have hic : i = c := mul_block_unique (C := ldh) h1 (by omega) (by omega) (by omega)
    subst hic
    have e : i * (D * shift) + (a + i * ldh - i * ldh) = a + i * (D * shift) := by omega
    rw [e]
  · left
    exact ⟨c, List.mem_range.2 hc, by omega, by omega⟩

omit [LinearOrderedField R] in
theorem recycleUnpack_tail (D shift ldh : Nat) (r : RecycleRank R) {p : Nat}
    (hp : ¬ p % ldh < D * shift) (hld : D * shift ≤ ldh) :
    (recycleUnpack D shift ldh r).s p = r.s p := by
  unfold recycleUnpack
  simp only []
  apply foldl_copy_val r.work (fun i => i * (D * shift)) (fun _ => D * shift)
    (fun i => i * ldh)
  · intro i _ h1 h2
    exfalso
    apply hp
    rw [block_offset h1 h2 hld]
    omega
  · right
    rfl

theorem recycleCorrectBlock_lead (hc : Nat → Int) (D shift ld : Nat) (beta : R)
    (r : RecycleRank R) {a c : Nat} (ha : a < D * shift) (hcD : c < D)
    (hld : D * shift ≤ ld / D) :
    (recycleCorrectBlock hc D shift ld beta r).s (a + c * (ld / D))
      = beta * r.s (a + c * (ld / D))
        - ∑ l in range (hc 0 - (D : Int) * (shift : Int)).toNat,
            r.h (shift * ld + a + l * (ld / D)) * r.s (shift * D + l + c * (ld / D)) := by
  have hd := @lead_decode a c (ld / D) (by omega)
  unfold recycleCorrectBlock gemmNN
  simp only [Nat.zero_le, true_and, Nat.sub_zero]
  rw [hd.1, hd.2, if_pos ⟨ha, hcD⟩]
  unfold d__2
  ring

theorem recycleCorrectBlock_tail (hc : Nat → Int) (D shift ld : Nat) (beta : R)
    (r : RecycleRank R) {p : Nat} (hp : ¬ p % (ld / D) < D * shift) :
    (recycleCorrectBlock hc D shift ld beta r).s p = r.s p := by
  unfold recycleCorrectBlock gemmNN
  simp only [Nat.zero_le, true_and, Nat.sub_zero]
  rw [if_neg (by intro h; exact hp h.1)]

theorem blockProjection_recycleMin (hc : Nat → Int) (shift mu : Nat) (deflated : Int)
    (ld ldh : Nat) (r : RecycleRank R) (a c : Nat) :
    (recycleMin hc shift mu deflated ld r).blockProjection ldh a c
      = r.blockProjection ldh a c := rfl

/-- Block path of `updateSolRecycling` with `deflated = D`: on every process the rows of
`s` below the leading `D * shift` ones are those left by `computeMin`, and a leading
coefficient is the sum over the processes of the projection onto `C` (zero when the option
`recycle_same_system` is set) minus the product of the Hessenberg block with those rows. -/
theorem updateSolRecycling_block (same : Nat) (hc : Nat → Int) (shift mu ld D : Nat)
    (ws : List (RecycleRank R)) (hD : 1 ≤ D) (hpos : (D : Int) * (shift : Int) ≤ hc 0)
    (hfit : (hc 0).toNat ≤ ld / D) :
    List.Forall₂ (fun r q =>
      (∀ p, ¬ p % (ld / D) < D * shift →
        q.s p = computeMin r.h ld r.s (shift * D) hc mu (D : Int) shift p)
      ∧ ∀ a, a < D * shift → ∀ c, c < D →
          q.s (a + c * (ld / D))
            = (if same ≠ 0 then 0
                else (ws.map (fun r' => r'.blockProjection (ld / D) a c)).sum)
              - ∑ l in range (hc 0 - (D : Int) * (shift : Int)).toNat,
                  r.h (shift * ld + a + l * (ld / D))
                    * computeMin r.h ld r.s (shift * D) hc mu (D : Int) shift
                        (shift * D + l + c * (ld / D)))
      ws (updateSolRecycling same hc shift mu (D : Int) ld ws) := by
  have hne : (D : Int) ≠ -1 := by omega
  have hmin : ∀ x : RecycleRank R, (recycleMin hc shift mu (D : Int) ld x).s
      = computeMin x.h ld x.s (shift * D) hc mu (D : Int) shift := by
    intro x
    unfold recycleMin
    simp only [if_neg hne, Int.toNat_ofNat]
  have hbK : ((D * shift : Nat) : Int) = (D : Int) * (shift : Int) := by push_cast; rfl
  have hld : D * shift ≤ ld / D := by omega
  have htail : ∀ l c, l < (hc 0 - (D : Int) * (shift : Int)).toNat →
      ¬ (shift * D + l + c * (ld / D)) % (ld / D) < D * shift := by
    intro l c hl
    have hlt : D * shift + l < ld / D := by omega
    have e : shift * D + l + c * (ld / D) = (D * shift + l) + c * (ld / D) := by ring
    rw [e, (lead_decode hlt).1]
    omega
  unfold updateSolRecycling
  rw [if_neg hne]
  simp only [Int.toNat_ofNat, Int.natAbs_ofNat]
  by_cases hs : same ≠ 0
  · rw [if_pos hs]
    simp only [List.map_map, List.forall₂_map_right_iff, List.forall₂_same,
      Function.comp_apply]
    intro x _
    constructor
    · intro p hp
      rw [recycleCorrectBlock_tail _ _ _ _ _ _ hp, hmin]
    · intro a ha c hcD
      rw [recycleCorrectBlock_lead _ _ _ _ _ _ ha hcD hld, if_pos hs, zero_mul, hmin]
      rfl
  · rw [if_neg hs]
    unfold allreduceRecycle
    simp only [List.map_map, List.forall₂_map_right_iff, List.forall₂_same,
      Function.comp_apply]
    intro x _
    constructor
    · intro p hp
      rw [recycleCorrectBlock_tail _ _ _ _ _ _ hp, recycleUnpack_tail _ _ _ _ hp hld]
      show (recycleProjectBlock D shift (ld / D) (recycleMin hc shift mu (D : Int) ld x)).s p
        = _
      rw [recycleProjectBlock_tail _ _ _ _ hp, hmin]
    · intro a ha c hcD
      have hcell : a + c * (D * shift) < D * shift * D := by
        have := succ_mul_le (D * shift) hcD
        rw [Nat.mul_comm (D * shift) D]
        omega
      rw [recycleCorrectBlock_lead _ _ _ _ _ _ ha hcD hld, if_neg hs,
        recycleUnpack_lead _ _ _ _ ha hcD hld]
      unfold d__1
      rw [one_mul]
      simp only [if_pos hcell]
      congr 1
      · congr 1
        apply List.map_congr_left
        intro r' _
        show (recycleProjectBlock D shift (ld / D)
          (recycleMin hc shift mu (D : Int) ld r')).work (a + c * (D * shift)) = _
        rw [recycleProjectBlock_work _ _ _ _ ha hcD hld, blockProjection_recycleMin]
      · apply Finset.sum_congr rfl
        intro l hl
        have ht := htail l c (Finset.mem_range.1 hl)
        rw [recycleUnpack_tail _ _ _ _ ht hld]
        show (recycleProjectBlock D shift (ld / D) (recycleMin hc shift mu (D : Int) ld x)).h _
          * (recycleProjectBlock D shift (ld / D) (recycleMin hc shift mu (D : Int) ld x)).s _
          = _
        rw [recycleProjectBlock_h, recycleProjectBlock_tail _ _ _ _ ht, hmin]
        rfl

/-- With the option `recycle_same_system` non-zero no reduction is issued: the memory of
each process on return is the one it would reach alone. -/
theorem updateSolRecycling_local (same : Nat) (hc : Nat → Int) (shift mu : Nat)
    (deflated : Int) (ld : Nat) (ws : List (RecycleRank R)) (hs : same ≠ 0) :
    (updateSolRecycling same hc shift mu deflated ld ws).map (fun q => [q])
      = ws.map (fun r => updateSolRecycling same hc shift mu deflated ld [r]) := by
  unfold updateSolRecycling
  by_cases hd : deflated = -1
  · simp only [if_pos hd, if_pos hs, List.map_map, List.map_cons, List.map_nil]
    rfl
  · simp only [if_neg hd, if_pos hs, List.map_map, List.map_cons, List.map_nil]
    rfl

theorem foldl_update_below {α : Type} (f : Nat → α) (g : Nat → Nat) (L : List Nat)
    (y : Nat → α) (p : Nat) (h : ∀ j, g j ≠ p) :
    L.foldl (fun y j => Function.update y (g j) (f j)) y p = y p := by
  induction L generalizing y with
  | nil => rfl
  | cons j L ih =>
    rw [List.foldl_cons, ih, Function.update_noteq (h j).symm]

/-- The triangular solve writes at the offset of its vector and beyond only. -/
theorem trsv_below (n : Nat) (A : Nat → R) (ao lda : Nat) (x : Nat → R) (xo incx : Nat)
    {p : Nat} (hp : p < xo) : trsv n A ao lda x xo incx p = x p := by
  unfold trsv
  exact foldl_update_below _ (fun j => xo + j * incx) _ x p
    (fun j => by show xo + j * incx ≠ p; omega)

/-- Without deflation `computeMin` leaves the cells of `s` below its offset as they are. -/
theorem computeMin_below (h : Nat → R) (ld : Nat) (s : Nat → R) (so : Nat) (hc : Nat → Int)
    (mu shift : Nat) {p : Nat} (hp : p < so) :
    computeMin h ld s so hc mu (-1) shift p = s p := by
  unfold computeMin
  rw [if_neg (by decide)]
  generalize List.range mu = L
  induction L generalizing s with
  | nil => rfl
  | cons nu L ih =>
    rw [List.foldl_cons, ih]
    by_cases h0 : (hc nu).natAbs ≠ 0
    · rw [if_pos h0, trsv_below _ _ _ _ _ _ _ (by omega)]
    · rw [if_neg h0]

theorem recycleCorrect_skip (hc : Nat → Int) (shift mu ld : Nat) (r : RecycleRank R)
    {nu : Nat} (l : Nat) (hnu : nu < mu) (h0 : hc nu = 0) :
    (recycleCorrect hc shift mu ld r).s (nu + l * mu) = r.s (nu + l * mu) := by
  have hd := @lead_decode nu l mu hnu
  unfold recycleCorrect
  by_cases hr : r.excluded = true ∨ r.n = 0
  · rw [if_pos hr]
  · rw [if_neg hr]
    simp only []
    rw [recycleCorrect_fold hc shift mu ld r.h r.s mu (le_refl mu), hd.1, hd.2,
      if_neg (by rw [h0]; intro h; exact h.2.2 rfl)]

theorem recycleProject_skip (hc : Nat → Int) (shift mu : Nat) (r : RecycleRank R)
    {nu l : Nat} (hnu : nu < mu) (hl : l < shift) (h0 : hc nu = 0) :
    (recycleProject hc shift mu r).s (nu + l * mu)
      = if r.excluded = true ∨ r.n = 0 then 0 else r.s (nu + l * mu) := by
  have hd := @lead_decode nu l mu hnu
  unfold recycleProject
  by_cases hr : r.excluded = true ∨ r.n = 0
  · rw [if_pos hr, if_pos hr]
    have hpos : nu + l * mu < shift * mu := by
      have := succ_mul_le mu hl
      omega
    simp only [fill_n, if_pos hpos]
  · rw [if_neg hr, if_neg hr]
    simp only []
    rw [recycleProject_fold, hd.1, hd.2, if_neg (by rw [h0]; intro h; exact h.2.2 rfl)]

/-- Non-block path of `updateSolRecycling`, right-hand sides whose marker is zero: both
loops skip them.  On every process their leading coefficients are zero when the option
`recycle_same_system` is set; otherwise they are the sum, over the processes that do
local work, of the values these entries of `s` had on entry. -/
theorem updateSolRecycling_skipped (same : Nat) (hc : Nat → Int) (shift mu ld : Nat)
    (ws : List (RecycleRank R)) :
    List.Forall₂ (fun _ q =>
      ∀ nu, nu < mu → hc nu = 0 → ∀ l, l < shift →
        q.s (nu + l * mu)
          = if same ≠ 0 then 0
            else (ws.map (fun r' =>
              if r'.excluded = true ∨ r'.n = 0 then 0 else r'.s (nu + l * mu))).sum)
      ws (updateSolRecycling same hc shift mu (-1) ld ws) := by
  unfold updateSolRecycling
  rw [if_pos rfl]
  by_cases hs : same ≠ 0
  · rw [if_pos hs]
    simp only [List.map_map, List.forall₂_map_right_iff, List.forall₂_same,
      Function.comp_apply]
    intro x _ nu hnu h0 l hl
    have hpos : nu + l * mu < shift * mu := by
      have := succ_mul_le mu hl
      omega
    rw [recycleCorrect_skip _ _ _ _ _ l hnu h0, if_pos hs]
    simp only [fill_n, if_pos hpos]
  · rw [if_neg hs]
    unfold allreduceS
    simp only [List.map_map, List.forall₂_map_right_iff, List.forall₂_same,
      Function.comp_apply]
    intro x _ nu hnu h0 l hl
    have hpos : nu + l * mu < shift * mu := by
      have := succ_mul_le mu hl
      omega
    rw [recycleCorrect_skip _ _ _ _ _ l hnu h0, if_neg hs]
    simp only [if_pos hpos]
    congr 1
    apply List.map_congr_left
    intro r' _
    show (recycleProject hc shift mu (recycleMin hc shift mu (-1) ld r')).s (nu + l * mu) = _
    rw [recycleProject_skip _ _ _ _ hnu hl h0]
    show (if r'.excluded = true ∨ r'.n = 0 then (0 : R)
      else computeMin r'.h ld r'.s (shift * (if (-1 : Int) = -1 then mu else (-1 : Int).toNat))
        hc mu (-1) shift (nu + l * mu)) = _
    rw [if_pos rfl, computeMin_below _ _ _ _ _ _ _ hpos]

/-- C20 (amended).  Recycle-for-same-system policy of `updateSolRecycling` when `C` and `U`
are present.  Non-block path (`deflated = -1`): on every process the tail of `s` is the one
solved by `computeMin`; on a process that does local work, for every right-hand side `nu`
whose marker `hasConverged[nu]` is not zero (and at least `shift` in absolute value) and
every `l < shift`, the leading coefficient `s[nu + l * mu]` is minus the product of row `l`
of the Hessenberg block `h[shift]` with that tail when the option `recycle_same_system` is
non-zero, and the sum over the processes of the product of `C^H` with `norm[nu] * v[shift]`
minus that same term when the option is zero.  A right-hand side whose marker is zero is
skipped by both loops: on every process its leading coefficients are zero when the option
is non-zero, and otherwise the sum, over the processes that do local work, of the values
these entries of `s` had on entry.  Block path (`deflated = D ≥ 1`, with
`D * shift ≤ hasConverged[0] ≤ ldh`): the two formulas hold on every process for the
`D * shift` leading rows of the `D` columns of `s`.  With the option non-zero no reduction
is issued: every process returns the memory it would reach alone. -/
theorem updateSolRecycling_policy (same : Nat) (hasConverged : Nat → Int)
    (shift mu ld D : Nat) (ws : List (RecycleRank R)) :
    List.Forall₂ (fun r q =>
      (∀ p, shift * mu ≤ p →
        q.s p = computeMin r.h ld r.s (shift * mu) hasConverged mu (-1) shift p)
      ∧ (¬ (r.excluded = true ∨ r.n = 0) → ∀ nu, nu < mu → hasConverged nu ≠ 0 →
          shift ≤ (hasConverged nu).natAbs → ∀ l, l < shift →
          q.s (nu + l * mu)
            = (if same ≠ 0 then 0 else (ws.map (fun r' => r'.projection mu nu l)).sum)
              - ∑ c in range ((hasConverged nu).natAbs - shift),
                  r.h (shift * ld + nu * (ld / mu) + l + c * ld)
                    * computeMin r.h ld r.s (shift * mu) hasConverged mu (-1) shift
                        (shift * mu + nu + c * mu)))
      ws (updateSolRecycling same hasConverged shift mu (-1) ld ws)
    ∧ List.Forall₂ (fun _ q =>
      ∀ nu, nu < mu → hasConverged nu = 0 → ∀ l, l < shift →
        q.s (nu + l * mu)
          = if same ≠ 0 then 0
            else (ws.map (fun r' =>
              if r'.excluded = true ∨ r'.n = 0 then 0 else r'.s (nu + l * mu))).sum)
      ws (updateSolRecycling same hasConverged shift mu (-1) ld ws)
    ∧ (1 ≤ D → (D : Int) * (shift : Int) ≤ hasConverged 0 →
        (hasConverged 0).toNat ≤ ld / D →
        List.Forall₂ (fun r q =>
          (∀ p, ¬ p % (ld / D) < D * shift →
            q.s p = computeMin r.h ld r.s (shift * D) hasConverged mu (D : Int) shift p)
          ∧ ∀ a, a < D * shift → ∀ c, c < D →
              q.s (a + c * (ld / D))
                = (if same ≠ 0 then 0
                    else (ws.map (fun r' => r'.blockProjection (ld / D) a c)).sum)
                  - ∑ l in range (hasConverged 0 - (D : Int) * (shift : Int)).toNat,
                      r.h (shift * ld + a + l * (ld / D))
                        * computeMin r.h ld r.s (shift * D) hasConverged mu (D : Int) shift
                            (shift * D + l + c * (ld / D)))
          ws (updateSolRecycling same hasConverged shift mu (D : Int) ld ws))
    ∧ (same ≠ 0 → ∀ deflated : Int,
        (updateSolRecycling same hasConverged shift mu deflated ld ws).map (fun q => [q])
          = ws.map (fun r => updateSolRecycling same hasConverged shift mu deflated ld [r])) :=
  ⟨List.Forall₂.imp (fun _ _ h => ⟨h.1, fun hr nu hnu h0 _ l hl => h.2 hr nu hnu h0 l hl⟩)
      (updateSolRecycling_scalar same hasConverged shift mu ld ws),
    updateSolRecycling_skipped same hasConverged shift mu ld ws,
    fun hD hpos hfit => updateSolRecycling_block same hasConverged shift mu ld D ws hD hpos hfit,
    fun hs deflated => updateSolRecycling_local same hasConverged shift mu deflated ld ws hs⟩

/-- Witness of C20: the two processes of `recycleWorld`, two right-hand sides with markers
`3` and `0`, `shift = 1`, Hessenberg arrays `8` apart, option `recycle_same_system = 1`;
block path with `deflated = 2`. -/
theorem updateSolRecycling_policy_witness :
    List.Forall₂ (fun r q =>
      (∀ p, 1 * 2 ≤ p →
        q.s p = computeMin r.h 8 r.s (1 * 2) (fun nu => if nu = 0 then 3 else 0) 2 (-1) 1 p)
      ∧ (¬ (r.excluded = true ∨ r.n = 0) → ∀ nu, nu < 2 →
          (fun nu : Nat => if nu = 0 then (3 : Int) else 0) nu ≠ 0 →
          1 ≤ ((fun nu : Nat => if nu = 0 then (3 : Int) else 0) nu).natAbs → ∀ l, l < 1 →
          q.s (nu + l * 2)
            = (if 1 ≠ 0 then 0 else (recycleWorld.map (fun r' => r'.projection 2 nu l)).sum)
              - ∑ c in range (((fun nu : Nat => if nu = 0 then (3 : Int) else 0) nu).natAbs - 1),
                  r.h (1 * 8 + nu * (8 / 2) + l + c * 8)
                    * computeMin r.h 8 r.s (1 * 2) (fun nu => if nu = 0 then 3 else 0) 2 (-1) 1
                        (1 * 2 + nu + c * 2)))
      recycleWorld
      (updateSolRecycling 1 (fun nu => if nu = 0 then 3 else 0) 1 2 (-1) 8 recycleWorld)
    ∧ List.Forall₂ (fun _ q =>
      ∀ nu, nu < 2 → (fun nu : Nat => if nu = 0 then (3 : Int) else 0) nu = 0 → ∀ l, l < 1 →
        q.s (nu + l * 2)
          = if 1 ≠ 0 then 0
            else (recycleWorld.map (fun r' =>
              if r'.excluded = true ∨ r'.n = 0 then 0 else r'.s (nu + l * 2))).sum)
      recycleWorld
      (updateSolRecycling 1 (fun nu => if nu = 0 then 3 else 0) 1 2 (-1) 8 recycleWorld)
    ∧ List.Forall₂ (fun r q =>
      (∀ p, ¬ p % (8 / 2) < 2 * 1 →
        q.s p = computeMin r.h 8 r.s (1 * 2) (fun nu => if nu = 0 then 3 else 0) 2
          ((2 : Nat) : Int) 1 p)
      ∧ ∀ a, a < 2 * 1 → ∀ c, c < 2 →
          q.s (a + c * (8 / 2))
            = (if 1 ≠ 0 then 0
                else (recycleWorld.map (fun r' => r'.blockProjection (8 / 2) a c)).sum)
              - ∑ l in range ((fun nu : Nat => if nu = 0 then (3 : Int) else 0) 0
                    - ((2 : Nat) : Int) * ((1 : Nat) : Int)).toNat,
                  r.h (1 * 8 + a + l * (8 / 2))
                    * computeMin r.h 8 r.s (1 * 2) (fun nu => if nu = 0 then 3 else 0) 2
                        ((2 : Nat) : Int) 1 (1 * 2 + l + c * (8 / 2)))
      recycleWorld
      (updateSolRecycling 1 (fun nu => if nu = 0 then 3 else 0) 1 2 ((2 : Nat) : Int) 8
        recycleWorld)
    ∧ (∀ deflated : Int,
        (updateSolRecycling 1 (fun nu => if nu = 0 then 3 else 0) 1 2 deflated 8
            recycleWorld).map (fun q => [q])
          = recycleWorld.map (fun r =>
              updateSolRecycling 1 (fun nu => if nu = 0 then 3 else 0) 1 2 deflated 8 [r])) :=
  ⟨(updateSolRecycling_policy 1 (fun nu => if nu = 0 then 3 else 0) 1 2 8 2 recycleWorld).1,
    (updateSolRecycling_policy 1 (fun nu => if nu = 0 then 3 else 0) 1 2 8 2 recycleWorld).2.1,
    (updateSolRecycling_policy 1 (fun nu => if nu = 0 then 3 else 0) 1 2 8 2 recycleWorld).2.2.1
      (by decide) (by decide) (by decide),
    (updateSolRecycling_policy 1 (fun nu => if nu = 0 then 3 else 0) 1 2 8 2 recycleWorld).2.2.2
      (by decide)⟩

/-- Counterexample to C20 as stated: one process that does local work, one right-hand side
with marker `hasConverged[0] = 0`, `shift = 1`, option `recycle_same_system` zero.  The
product of `C^H` with the scaled `v[shift]` is `1` and the Hessenberg term is empty, so the
claim gives `s[0] = 1`; the code skips the right-hand side in both loops and the all-reduce
returns the value `5` that `s[0]` held on entry. -/
theorem updateSolRecycling_policy_counterexample :
    (skippedRank.excluded = false ∧ skippedRank.n ≠ 0)
    ∧ (updateSolRecycling 0 (fun _ => 0) 1 1 (-1) 2 [skippedRank]).map (fun q => q.s 0) = [5]
    ∧ ([skippedRank].map (fun r => r.projection 1 0 0)).sum
        - ∑ c in range (((fun _ : Nat => (0 : Int)) 0).natAbs - 1),
            skippedRank.h (1 * 2 + 0 * (2 / 1) + 0 + c * 2)
              * computeMin skippedRank.h 2 skippedRank.s (1 * 1) (fun _ => 0) 1 (-1) 1
                  (1 * 1 + 0 + c * 1) = 1 := by
  refine ⟨⟨rfl, by decide⟩, ?_, ?_⟩
  · decide!
  · decide!

end RecyclingClaims

section TransferPairClaims

/-- C25 (counts restored by a transfer pair).  For every counts array, every number `P` of
ranks and every number `r ≥ 1` of right-hand sides, `transfer<false>(counts, P, r, ab)`
multiplies the `2 P` counts and displacements by `r` and leaves the other entries alone,
and the following `transfer<true>(counts, r, P, ab)` divides them by `r` exactly: after the
pair the array `counts` is what it was before. -/
theorem transfer_pair_counts (counts : Nat → Nat) (P r : Nat) (hr : 1 ≤ r) :
    (∀ p, transfer false counts P r p = if p < 2 * P then counts p * r else counts p)
    ∧ (∀ p, p < 2 * P →
        transfer true (transfer false counts P r) r P p * r = transfer false counts P r p)
    ∧ transfer true (transfer false counts P r) r P = counts := by
  have hv : ∀ p, transfer true (transfer false counts P r) r P p = counts p := by
    intro p
    simp only [transfer, scaleCounts, unscaleCounts, if_true, Bool.true_eq_false, if_false]
    by_cases hp : p < 2 * P
    · rw [if_pos hp, if_pos hp, Nat.mul_div_cancel _ (by omega)]
    · rw [if_neg hp, if_neg hp]
  refine ⟨fun p => ?_, fun p hp => ?_, funext hv⟩
  · simp [transfer, scaleCounts]
  · rw [hv]
    simp [transfer, scaleCounts, hp]

/-- Witness of C25: two ranks with counts `3`, `5` and displacements `0`, `3`, four
right-hand sides. -/
theorem transfer_pair_counts_witness :
    (∀ p, transfer false (countsArray [3, 5]) 2 4 p
        = if p < 2 * 2 then countsArray [3, 5] p * 4 else countsArray [3, 5] p)
    ∧ (∀ p, p < 2 * 2 →
        transfer true (transfer false (countsArray [3, 5]) 2 4) 4 2 p * 4
          = transfer false (countsArray [3, 5]) 2 4 p)
    ∧ transfer true (transfer false (countsArray [3, 5]) 2 4) 4 2 = countsArray [3, 5] :=
  transfer_pair_counts (countsArray [3, 5]) 2 4 (by decide)

/-- The gather direction of `Itransfer` runs the statements of `transfer`, with the
collective made non-blocking. -/
theorem Itransfer_gather_steps (n m : Nat) :
    (ItransferSteps false n m).map TransferStep.blockingForm = transferSteps false n m := by
  simp [ItransferSteps, transferSteps, TransferStep.blockingForm]

/-- C26 at the scatter direction: `Itransfer<true>` issues its scatter on the gather
communicator, `transfer<true>` on the scatter communicator; the other statements agree. -/
theorem Itransfer_scatter_communicator :
    ItransferSteps true 2 2
      = [TransferStep.permute true 2 2,
         TransferStep.scatterv TransferComm.gatherComm false,
         TransferStep.unscale 4 2]
    ∧ transferSteps true 2 2
      = [TransferStep.permute true 2 2,
         TransferStep.scatterv TransferComm.scatterComm true,
         TransferStep.unscale 4 2]
    ∧ (ItransferSteps true 2 2).map TransferStep.blockingForm ≠ transferSteps true 2 2
    ∧ (ItransferSteps false 2 2).map TransferStep.blockingForm = transferSteps false 2 2 := by
  refine ⟨rfl, rfl, by decide, by decide⟩

end TransferPairClaims

section SolveCountClaims

variable {R : Type} [Field R]

/-- When `preprocess` takes its non-enlarging branch, `solve` calls the selected driver on
the arrays `b` and `x` of the caller with `k * mu` right-hand sides, `k` being the value
of the option `enlarge_krylov_subspace`. -/
theorem solve_plain (drv : Drivers R) (size rank n : Nat) (b x : Nat → R) (mu : Nat)
    (st : SolveStore) (h : st.enlarge_krylov_subspace.getD 1 < 2 ∨ size = 1) :
    solve false drv size rank n b x mu st
      = some
        { x := (drv.run (dispatch st.krylov_method) b x
            (st.enlarge_krylov_subspace.getD 1 * mu)
            { st with enlarge_krylov_subspace := none }).1,
          it := (drv.run (dispatch st.krylov_method) b x
            (st.enlarge_krylov_subspace.getD 1 * mu)
            { st with enlarge_krylov_subspace := none }).2,
          calls := [dispatch st.krylov_method] } := by
  unfold solve preprocess
  simp only [Bool.false_eq_true, if_false, if_pos h, Option.map_some', postprocess]

/-- C23 on one process with `enlarge_krylov_subspace = 2`: `preprocess` takes its
non-enlarging branch and hands the arrays of the caller on, which hold `mu = 1` right-hand
side, and `solve` calls `GMRES` with a count of `2`. -/
theorem solve_count_single_process :
    (preprocess 1 0 1 (fun _ => (1 : ℚ)) (fun _ => (0 : ℚ)) 1 2 ⟨0, some 2, false⟩).map
        (fun pre => (pre.fresh, pre.k)) = some (false, 2)
    ∧ (solve false countingDrivers 1 0 1 (fun _ => 1) (fun _ => 0) 1 ⟨0, some 2, false⟩).map
        (fun r => (r.it, r.calls)) = some (2, [Method.GMRES]) := by
  constructor
  · rfl
  · rw [solve_plain countingDrivers 1 0 1 _ _ 1 ⟨0, some 2, false⟩ (Or.inr rfl)]
    rfl

end SolveCountClaims

section SplitClaims

/-- The factor of the enlarging branch below `65536` processes, where the conversion of the
size to `unsigned short` is exact: it is the requested factor clamped to the size. -/
theorem splitFactor_of_lt (k size : Nat) (h : size < 65536) : splitFactor k size = min k size := by
  unfold splitFactor
  rw [Nat.mod_eq_of_lt h]

/-- Split assignment in `preprocess` below `65536` processes: for every requested `k ≥ 2`
and every communicator size `≥ 2`, with `k' = min(k, size)`, the code uses the factor `k'`,
the quotient `size / k'` is at least `1` (`preprocess` has a result with factor `k'`), the
split index `j(rank) = min(k' - 1, rank / (size / k'))` satisfies `j < k'` for every rank,
`j` is non-decreasing in the rank, and every index below `k'` is taken by some rank below
`size`. -/
theorem splitIndex_below_short (k size : Nat) (hk : 2 ≤ k) (hs : 2 ≤ size)
    (hshort : size < 65536) :
    splitFactor k size = min k size
    ∧ 1 ≤ size / min k size
    ∧ (∀ (R : Type) [Field R] (rank n mu : Nat) (b x : Nat → R) (st : SolveStore),
        ∃ pre, preprocess size rank n b x mu k st = some pre
          ∧ pre.fresh = true ∧ pre.k = min k size)
    ∧ (∀ rank, splitIndex (min k size) size rank
        = some (min (min k size - 1) (rank / (size / min k size)))
        ∧ min (min k size - 1) (rank / (size / min k size)) < min k size)
    ∧ (∀ r1 r2, r1 ≤ r2 →
        min (min k size - 1) (r1 / (size / min k size))
          ≤ min (min k size - 1) (r2 / (size / min k size)))
    ∧ (∀ j, j < min k size → ∃ rank, rank < size
        ∧ splitIndex (min k size) size rank = some j) := by
  have hF := splitFactor_of_lt k size hshort
  have hk1 : 1 ≤ min k size := by omega
  have hle : min k size ≤ size := Nat.min_le_right _ _
  have hq : 1 ≤ size / min k size := (Nat.one_le_div_iff (by omega)).2 hle
  have hidx : ∀ rank, splitIndex (min k size) size rank
      = some (min (min k size - 1) (rank / (size / min k size))) := by
    intro rank
    unfold splitIndex
    rw [if_neg (by omega), Nat.mod_eq_of_lt (by omega)]
  refine ⟨hF, hq, ?_, fun rank => ⟨hidx rank, by omega⟩, ?_, ?_⟩
  · intro R _ rank n mu b x st
    unfold preprocess
    rw [Nat.mod_eq_of_lt hshort, if_neg (by omega), if_neg (by omega)]
    exact ⟨_, rfl, rfl, rfl⟩
  · intro r1 r2 h12
    have := Nat.div_le_div_right (c := size / min k size) h12
    omega
  · intro j hj
    refine ⟨j * (size / min k size), ?_, ?_⟩
    · have h1 := succ_mul_le (size / min k size) hj
      have h2 := Nat.mul_div_le size (min k size)
      omega
    · rw [hidx, Nat.mul_div_cancel _ (by omega)]
      congr 1
      omega

/-- C28 (evaluation at the failing inputs).  With `65536` processes and requested factor
`2` the claim has `k' = min(2, 65536) = 2` and the quotient `65536 / 2`; the code converts
the size to `unsigned short` before the minimum, which gives `0`: the factor is `0`, the
quotient `size / k` divides by zero, and neither the split index nor `preprocess` has a
value.  With `65537` processes the converted size is `1`, the factor is `1` instead of `2`,
and every rank gets the split index `0`: the index `1` of `[0, k')` is taken by no rank. -/
theorem split_assignment :
    (2 ≤ 65536 ∧ min 2 65536 = 2)
    ∧ splitFactor 2 65536 = 0
    ∧ splitIndex (splitFactor 2 65536) 65536 0 = none
    ∧ preprocess 65536 0 1 (fun _ => (0 : ℚ)) (fun _ => (0 : ℚ)) 1 2 ⟨0, some 2, false⟩
        = none
    ∧ min 2 65537 = 2
    ∧ splitFactor 2 65537 = 1
    ∧ (∀ rank, splitIndex (splitFactor 2 65537) 65537 rank = some 0) := by
  refine ⟨⟨by decide, by decide⟩, by decide, by decide, ?_, by decide, by decide, ?_⟩
  · unfold preprocess
    rw [if_neg (by decide), if_pos (by decide)]
  · intro rank
    rw [show splitFactor 2 65537 = 1 by decide]
    simp [splitIndex]

end SplitClaims

section OptionsBoundsClaims

variable {R : Type} [LinearOrderedField R]

/-- C30 (bounds set by `options`).  For the methods `GMRES`, `BGMRES`, `GCRODR`, `BGCRODR`
(`T` in `0, 1, 4, 5`), a value `max_it ≥ 1` read as a `short` and a value
`gmres_restart ≥ 1`: the iteration cap `m[0]` is `max_it`, the restart length `m[1]` is
`min(gmres_restart, max_it)`, it exceeds neither the cap nor `32767`, and for `GCRODR` and
`BGCRODR` the number `*i` of recycled vectors is `min(m[1] - 1, recycle)`, strictly below
the restart length. -/
theorem options_bounds (T : Nat) (eps : R) (o : OptionValues R) (init : OptionsOut R)
    (hT : T = 0 ∨ T = 1 ∨ T = 4 ∨ T = 5) (hmax : 1 ≤ o.max_it) (hshort : o.max_it ≤ 32767)
    (hres : 1 ≤ o.gmres_restart) :
    (options T eps o init).m 0 = o.max_it
    ∧ (options T eps o init).m 1 = min o.gmres_restart o.max_it
    ∧ (options T eps o init).m 1 ≤ (options T eps o init).m 0
    ∧ (options T eps o init).m 1 ≤ 32767
    ∧ 1 ≤ (options T eps o init).m 1
    ∧ (T = 4 ∨ T = 5 →
        (options T eps o init).i = min ((options T eps o init).m 1 - 1) o.recycle
        ∧ (options T eps o init).i < (options T eps o init).m 1) := by
  have hm0 : toUShort (min o.max_it 32767) = o.max_it := by
    unfold toUShort
    rw [min_eq_left hshort]
    omega
  have hM : ∀ m0, optionsM T o m0 0 = o.max_it
      ∧ optionsM T o m0 1 = min o.gmres_restart o.max_it := by
    intro m0
    unfold optionsM
    simp only [if_pos hT]
    by_cases h15 : T = 1 ∨ T = 5
    · simp only [if_pos h15, Function.update_same, hm0]
      exact ⟨rfl, min_eq_right ((min_le_right _ _).trans hshort)⟩
    · simp only [if_neg h15, Function.update_same, hm0]
      exact ⟨rfl, min_eq_right ((min_le_right _ _).trans hshort)⟩
  have hm : (options T eps o init).m = optionsM T o init.m := by
    unfold options
    simp only []
    split <;> rfl
  have hi : T = 4 ∨ T = 5 →
      (options T eps o init).i = min (optionsM T o init.m 1 - 1) o.recycle := by
    intro h45
    unfold options
    simp only [if_pos h45]
    split <;> rfl
  rw [hm, (hM init.m).1, (hM init.m).2]
  refine ⟨rfl, rfl, by omega, by omega, by omega, fun h45 => ?_⟩
  rw [hi h45, (hM init.m).2]
  refine ⟨rfl, by omega⟩

/-- Witness of C30: `GCRODR` with `max_it = 100`, `gmres_restart = 40`, `recycle = 10`. -/
theorem options_bounds_witness :
    (options 4 (1 / 1000 : ℚ) ⟨1 / 10, 100, 0, -1, 1, 40, 1, 0, 0, 10, 0, 0, 0⟩
        ⟨fun _ => 0, 0, fun _ => 0, fun _ => 0, false⟩).m 1 = 40
    ∧ (options 4 (1 / 1000 : ℚ) ⟨1 / 10, 100, 0, -1, 1, 40, 1, 0, 0, 10, 0, 0, 0⟩
        ⟨fun _ => 0, 0, fun _ => 0, fun _ => 0, false⟩).i = 10 := by
  have h := options_bounds 4 (1 / 1000 : ℚ) ⟨1 / 10, 100, 0, -1, 1, 40, 1, 0, 0, 10, 0, 0, 0⟩
    ⟨fun _ => 0, 0, fun _ => 0, fun _ => 0, false⟩ (by decide) (by decide) (by decide)
    (by decide)
  refine ⟨h.2.1.trans (by decide), (h.2.2.2.2.2 (by decide)).1.trans ?_⟩
  rw [h.2.1]
  decide

end OptionsBoundsClaims

section RankListClaims

theorem take_set_succ {α : Type} (l : List α) (j : Nat) (v : α) (hj : j < l.length) :
    (l.set j v).take (j + 1) = l.take j ++ [v] := by
  induction l generalizing j with
  | nil => simp at hj
  | cons a l ih =>
    cases j with
    | zero => simp
    | succ j =>
      simp only [List.set_cons_succ, List.take_succ_cons, List.cons_append]
      rw [ih j (by simpa using hj)]

/-- With `countMasters = false` the rank loop fills the slots from `j` on with the indices
from `i` on whose count is not zero, in ascending order. -/
theorem rankLoop_ranks (ldistribution : Nat → Nat) (pt : List Nat)
    (sizeComm fuel i j : Nat) (array : List Int)
    (hfuel : pt.length - i ≤ fuel)
    (hinv : (pt.drop i).countP (fun nu => decide (nu ≠ 0)) + j = sizeComm)
    (hlen : array.length = sizeComm) :
    rankLoop false ldistribution pt sizeComm fuel i j 0 array
      = some (array.take j ++
          ((List.range' i (pt.length - i)).filter
            (fun a => decide (pt.getD a 0 ≠ 0))).map (fun a : Nat => (a : Int))) := by
  induction fuel generalizing i j array with
  | zero =>
    have hi : pt.length ≤ i := by omega
    rw [List.drop_eq_nil_of_le hi] at hinv
    simp only [List.countP_nil, Nat.zero_add] at hinv
    unfold rankLoop
    rw [if_neg (by omega), show pt.length - i = 0 by omega]
    simp only [List.range'_zero, List.filter_nil, List.map_nil, List.append_nil]
    rw [List.take_of_length_le (by omega)]
  | succ fuel ih =>
    unfold rankLoop
    by_cases hj : j < sizeComm
    · rw [if_pos hj]
      have hi : i < pt.length := by
        by_contra hcon
        rw [List.drop_eq_nil_of_le (by omega)] at hinv
        simp only [List.countP_nil, Nat.zero_add] at hinv
        omega
      have hd : pt.drop i = pt[i] :: pt.drop (i + 1) := List.drop_eq_getElem_cons hi
      have hr : List.range' i (pt.length - i) = i :: List.range' (i + 1) (pt.length - (i + 1)) := by
        rw [show pt.length - i = (pt.length - (i + 1)) + 1 by omega, List.range'_succ]
      have hg : pt.getD i 0 = pt[i] := by
        rw [List.getD_eq_getElem?_getD, List.getElem?_eq_getElem hi]
        rfl
      rw [List.get?_eq_get hi]
      simp only [List.get_eq_getElem]
      rw [hd, List.countP_cons] at hinv
      rw [hr, List.filter_cons, hg]
      by_cases hv : pt[i] ≠ 0
      · rw [if_pos hv, if_pos (decide_eq_true hv)]
        rw [if_pos (decide_eq_true hv)] at hinv
        rw [ih (i + 1) (j + 1) _ (by omega) (by omega) (by rw [List.length_set]; exact hlen),
          take_set_succ _ _ _ (by omega)]
        simp
      · rw [if_neg hv, if_neg (by simp)]
        rw [if_neg (by simp only [decide_eq_true_eq]; exact hv), Nat.add_zero] at hinv
        rw [if_neg (by simp only [decide_eq_true_eq]; exact hv)]
        exact ih (i + 1) j array (by omega) hinv hlen
    · rw [if_neg hj]
      have hz : (pt.drop i).countP (fun nu => decide (nu ≠ 0)) = 0 := by omega
      have hnil : (List.range' i (pt.length - i)).filter
          (fun a => decide (pt.getD a 0 ≠ 0)) = [] := by
        rw [List.filter_eq_nil_iff]
        intro a ha
        rw [List.mem_range'_1] at ha
        rw [List.countP_eq_zero] at hz
        have ha' : a < pt.length := by omega
        have hmem : pt[a] ∈ pt.drop i := by
          rw [List.mem_drop_iff_getElem]
          exact ⟨a - i, by omega, by simp [show i + (a - i) = a by omega]⟩
        have := hz _ hmem
        rw [List.getD_eq_getElem?_getD, List.getElem?_eq_getElem (by omega)]
        simpa using this
      rw [hnil, List.map_nil, List.append_nil, List.take_of_length_le (by omega)]

/-- C24 (rank list built by `constructionCommunicatorCollective`).  With
`countMasters = false`, a count vector `pt` that contains a zero and a non-null input
communicator, the loop that fills `array` ends without reading `pt` outside of
`pt[1 .. size - 1]`, and the list passed to the group-inclusion call is rank `0` followed
by the indices `i ≥ 1` with `pt[i] != 0` in ascending order; it is strictly increasing and
lies in `[0, size)`. -/
theorem rank_list (ldistribution : Nat → Nat) (pt : List Nat) (hasOut tmpNull : Bool)
    (junk : Int) (hS : 0 < pt.count 0) :
    (∃ rest,
      constructionCommunicatorCollective false ldistribution pt false hasOut tmpNull junk
        = some (MpiCall.groupIncl
            (1 + ((List.range' 1 (pt.length - 1)).filter
              (fun a => decide (pt.getD a 0 ≠ 0))).length)
            (0 :: ((List.range' 1 (pt.length - 1)).filter
              (fun a => decide (pt.getD a 0 ≠ 0))).map (fun a : Nat => (a : Int))) :: rest))
    ∧ (0 :: ((List.range' 1 (pt.length - 1)).filter
        (fun a => decide (pt.getD a 0 ≠ 0))).map (fun a : Nat => (a : Int))).Pairwise
          (fun a b => a < b)
    ∧ (∀ x ∈ 0 :: ((List.range' 1 (pt.length - 1)).filter
        (fun a => decide (pt.getD a 0 ≠ 0))).map (fun a : Nat => (a : Int)),
          0 ≤ x ∧ x < (pt.length : Int)) := by
  have hcnt := countP_ne_zero_add_count pt
  have hne : pt.countP (fun nu => decide (nu ≠ 0)) ≠ pt.length := by omega
  have hpos : 0 < pt.length := by
    cases pt with
    | nil => simp at hS
    | cons x tl => simp
  have hmem : ∀ a ∈ (List.range' 1 (pt.length - 1)).filter
      (fun a => decide (pt.getD a 0 ≠ 0)), 1 ≤ a ∧ a < pt.length := by
    intro a ha
    have := (List.mem_range'_1.1 (List.mem_filter.1 ha).1)
    omega
  refine ⟨?_, ?_, ?_⟩
  · unfold constructionCommunicatorCollective
    simp only [hne, ne_eq, not_false_eq_true, and_self, if_true]
    have hinv : (pt.drop 1).countP (fun nu => decide (nu ≠ 0)) + 1
        = (if pt.head? = some 0 then pt.countP (fun nu => decide (nu ≠ 0)) + 1
            else pt.countP (fun nu => decide (nu ≠ 0))) := by
      cases pt with
      | nil => simp at hS
      | cons x tl =>
        simp only [List.drop_succ_cons, List.drop_zero, List.head?_cons, List.countP_cons,
          Option.some.injEq]
        by_cases hx : x = 0 <;> simp [hx]
    have hlen : ((List.replicate (if pt.head? = some 0
          then pt.countP (fun nu => decide (nu ≠ 0)) + 1
          else pt.countP (fun nu => decide (nu ≠ 0))) junk).set 0 0).length
        = (if pt.head? = some 0 then pt.countP (fun nu => decide (nu ≠ 0)) + 1
            else pt.countP (fun nu => decide (nu ≠ 0))) := by
      rw [List.length_set, List.length_replicate]
    have hloop := rankLoop_ranks ldistribution pt _ pt.length 1 1 _ (by omega) hinv hlen
    have htake : ((List.replicate (if pt.head? = some 0
          then pt.countP (fun nu => decide (nu ≠ 0)) + 1
          else pt.countP (fun nu => decide (nu ≠ 0))) junk).set 0 0).take 1 = [0] := by
      rw [← hinv, List.replicate_succ]
      rfl
    rw [htake] at hloop
    obtain ⟨ranks, hr, hl⟩ := rankLoop_some false ldistribution pt _ pt.length 1 1 0 _
      (by omega) hinv hlen
    rw [hloop] at hr
    have hlen2 : 1 + ((List.range' 1 (pt.length - 1)).filter
          (fun a => decide (pt.getD a 0 ≠ 0))).length
        = (if pt.head? = some 0 then pt.countP (fun nu => decide (nu ≠ 0)) + 1
            else pt.countP (fun nu => decide (nu ≠ 0))) := by
      rw [← hl, ← Option.some.inj hr]
      simp
      omega
    rw [hloop, hlen2]
    exact ⟨_, rfl⟩
  · rw [List.pairwise_cons]
    constructor
    · intro x hx
      obtain ⟨a, ha, rfl⟩ := List.mem_map.1 hx
      have := hmem a ha
      omega
    · rw [List.pairwise_map]
      apply List.Pairwise.filter
      exact (List.pairwise_lt_range' 1 (pt.length - 1)).imp (fun h => by exact_mod_cast h)
  · intro x hx
    rcases List.mem_cons.1 hx with h | h
    · subst h
      exact ⟨le_refl 0, by exact_mod_cast hpos⟩
    · obtain ⟨a, ha, rfl⟩ := List.mem_map.1 h
      have := hmem a ha
      constructor <;> omega

/-- Witness of C24: five ranks with counts `0, 3, 0, 0, 2`; the rank list is `0, 1, 4`. -/
theorem rank_list_witness :
    (∃ rest,
      constructionCommunicatorCollective false (fun _ => 0) [0, 3, 0, 0, 2] false true false 7
        = some (MpiCall.groupIncl
            (1 + ((List.range' 1 ([0, 3, 0, 0, 2].length - 1)).filter
              (fun a => decide ([0, 3, 0, 0, 2].getD a 0 ≠ 0))).length)
            (0 :: ((List.range' 1 ([0, 3, 0, 0, 2].length - 1)).filter
              (fun a => decide ([0, 3, 0, 0, 2].getD a 0 ≠ 0))).map
                (fun a : Nat => (a : Int))) :: rest))
    ∧ (0 :: ((List.range' 1 ([0, 3, 0, 0, 2].length - 1)).filter
        (fun a => decide ([0, 3, 0, 0, 2].getD a 0 ≠ 0))).map
          (fun a : Nat => (a : Int))).Pairwise (fun a b => a < b)
    ∧ (∀ x ∈ 0 :: ((List.range' 1 ([0, 3, 0, 0, 2].length - 1)).filter
        (fun a => decide ([0, 3, 0, 0, 2].getD a 0 ≠ 0))).map (fun a : Nat => (a : Int)),
          0 ≤ x ∧ x < (([0, 3, 0, 0, 2] : List Nat).length : Int)) :=
  rank_list (fun _ => 0) [0, 3, 0, 0, 2] true false 7 (by decide)

end RankListClaims

section QRUpdateClaims

variable {R : Type} [LinearOrderedField R]

/-- C29 (Cholesky QR modifies `Q` only on full success).  In mode 0, on every process, `Q`
is left as it was whenever `QR` returns a positive code, whenever `update` is false, and on
a process with `excluded` set or `n = 0`.  Otherwise the value returned is `0` and `Q` is
the result of the loop of `trsm` with the factors left in `R`.  Under the layout condition
of the blocks of `R`, the value returned is `0` exactly when the Cholesky factorizations
of the Gram matrices of all `mu` right-hand sides succeed. -/
theorem QR_modifies_Q (sqrt : R → R) (k mu ldr : Nat) (update : Bool)
    (ws : List (QRRank R)) :
    List.Forall₂ (fun r q =>
      ((0 < q.2 ∨ update = false ∨ r.excluded = true ∨ r.n = 0) → q.1.Q = r.Q)
      ∧ (¬ (0 < q.2 ∨ update = false ∨ r.excluded = true ∨ r.n = 0) →
          q.2 = 0
          ∧ q.1.Q = (List.range mu).foldl (fun Q nu =>
              trsm r.n k d__1 q.1.Rm (k * k * nu) ldr Q (nu * r.n) (mu * r.n)) r.Q)
      ∧ (k ≤ ldr → (mu = 1 ∨ ldr = k) →
          (q.2 = 0 ↔ ∀ nu, nu < mu → cholInfo sqrt (gramQ ws mu nu) k = 0)))
      ws (QR sqrt k mu ldr update ws) := by
  rw [QR_eq_map, List.forall₂_map_right_iff, List.forall₂_same]
  intro r _
  obtain ⟨h1, h2, h3, -, -⟩ := frame_vrRank k mu ldr ws r
  refine ⟨?_, ?_, ?_⟩
  · intro hcase
    unfold qrRank qrPost
    by_cases hpos : 0 < (potrfLoop sqrt k ldr (List.range mu) (vrRank k mu ldr ws r).Rm).2
    · rw [if_pos hpos]
      exact h3
    · rw [if_neg hpos]
      have hn : ¬ ((vrRank k mu ldr ws r).excluded = false ∧ (vrRank k mu ldr ws r).n ≠ 0
          ∧ update = true) := by
        rintro ⟨he, hn, hu⟩
        rw [h1] at he
        rw [h2] at hn
        rcases hcase with hc | hc | hc | hc
        · apply hpos
          unfold qrRank qrPost at hc
          rw [if_neg hpos] at hc
          split_ifs at hc <;> exact absurd hc (lt_irrefl (0 : Int))
        · rw [hu] at hc
          exact absurd hc (by decide)
        · rw [he] at hc
          exact absurd hc (by decide)
        · exact hn hc
      rw [if_neg hn]
      exact h3
  · intro hcase
    have hu : update = true := by
      cases update with
      | true => rfl
      | false => exact absurd (Or.inr (Or.inl rfl)) hcase
    have he : r.excluded = false := by
      cases hx : r.excluded with
      | false => rfl
      | true => exact absurd (Or.inr (Or.inr (Or.inl hx))) hcase
    have hn : r.n ≠ 0 := fun h => hcase (Or.inr (Or.inr (Or.inr h)))
    have hpos : ¬ 0 < (potrfLoop sqrt k ldr (List.range mu) (vrRank k mu ldr ws r).Rm).2 := by
      intro hp
      apply hcase
      left
      unfold qrRank qrPost
      rw [if_pos hp]
      exact hp
    have hact : (vrRank k mu ldr ws r).excluded = false ∧ (vrRank k mu ldr ws r).n ≠ 0
        ∧ update = true := ⟨h1.trans he, by rw [h2]; exact hn, hu⟩
    unfold qrRank qrPost
    rw [if_neg hpos, if_pos hact]
    simp only []
    rw [h2, h3]
    exact ⟨trivial, rfl⟩
  · intro hk hlay
    rw [qrRank_info sqrt k mu ldr update ws r hk hlay]
    rw [Int.natCast_eq_zero, firstInfo_zero_iff]
    constructor
    · intro h nu hnu
      exact h nu (List.mem_range.2 hnu)
    · intro h nu hnu
      exact h nu (List.mem_range.1 hnu)

end QRUpdateClaims

section ArnoldiGivensClaims

variable {R : Type} [LinearOrderedField R]

theorem nrm2S_two (sqrt : R → R) (x : Nat → R) (xo incx : Nat) :
    nrm2S sqrt 2 x xo incx = sqrt (x xo * x xo + x (xo + incx) * x (xo + incx)) := by
  unfold nrm2S
  rw [Finset.sum_range_succ, Finset.sum_range_succ, Finset.sum_range_zero]
  simp

theorem succ_row (i mu nu : Nat) : (i + 1) * mu + nu = i * mu + nu + mu := by
  rw [Nat.succ_mul]; omega

/-- The cells written by one iteration of the last loop of `Arnoldi`. -/
theorem givensStep_cells (sqrt : R → R) (i mu nu : Nat) (st : GivensState R) (hmu : 0 < mu) :
    (∀ p, (givensStep sqrt i mu nu st).Hi p
        = if p = i * mu + nu then
            sqrt (st.Hi (i * mu + nu) * st.Hi (i * mu + nu)
              + st.Hi ((i + 1) * mu + nu) * st.Hi ((i + 1) * mu + nu))
          else if p = (i + 1) * mu + nu then
            st.Hi (i * mu + nu) / sqrt (st.Hi (i * mu + nu) * st.Hi (i * mu + nu)
              + st.Hi ((i + 1) * mu + nu) * st.Hi ((i + 1) * mu + nu))
          else st.Hi p)
    ∧ (∀ p, (givensStep sqrt i mu nu st).sn p
        = if p = i * mu + nu then
            st.Hi ((i + 1) * mu + nu) / sqrt (st.Hi (i * mu + nu) * st.Hi (i * mu + nu)
              + st.Hi ((i + 1) * mu + nu) * st.Hi ((i + 1) * mu + nu))
          else st.sn p)
    ∧ (∀ p, (givensStep sqrt i mu nu st).s p
        = if p = i * mu + nu then
            st.s (i * mu + nu)
              * (st.Hi (i * mu + nu) / sqrt (st.Hi (i * mu + nu) * st.Hi (i * mu + nu)
                + st.Hi ((i + 1) * mu + nu) * st.Hi ((i + 1) * mu + nu)))
          else if p = (i + 1) * mu + nu then
            -(st.Hi ((i + 1) * mu + nu) / sqrt (st.Hi (i * mu + nu) * st.Hi (i * mu + nu)
                + st.Hi ((i + 1) * mu + nu) * st.Hi ((i + 1) * mu + nu)))
              * st.s (i * mu + nu)
          else st.s p) := by
  have hab : i * mu + nu ≠ (i + 1) * mu + nu := by
    rw [succ_row]; omega
  have hn : nrm2S sqrt 2 st.Hi (i * mu + nu) mu
      = sqrt (st.Hi (i * mu + nu) * st.Hi (i * mu + nu)
        + st.Hi ((i + 1) * mu + nu) * st.Hi ((i + 1) * mu + nu)) := by
    rw [nrm2S_two, succ_row]
  refine ⟨fun p => ?_, fun p => ?_, fun p => ?_⟩
  · simp only [givensStep, Function.update_apply, hn]
  · simp only [givensStep, Function.update_apply, hn]
  · simp only [givensStep, Function.update_apply, hn, if_neg hab]

/-- The last loop of `Arnoldi` after `t` iterations: the right-hand sides below `t` carry
their rotation, the others are untouched. -/
theorem givens_fold (sqrt : R → R) (i mu : Nat) (st0 : GivensState R) (t : Nat)
    (ht : t ≤ mu) :
    (∀ nu, nu < t →
      ((List.range t).foldl (fun st nu => givensStep sqrt i mu nu st) st0).Hi (i * mu + nu)
        = sqrt (st0.Hi (i * mu + nu) * st0.Hi (i * mu + nu)
            + st0.Hi ((i + 1) * mu + nu) * st0.Hi ((i + 1) * mu + nu))
      ∧ ((List.range t).foldl (fun st nu => givensStep sqrt i mu nu st) st0).Hi
          ((i + 1) * mu + nu)
        = st0.Hi (i * mu + nu) / sqrt (st0.Hi (i * mu + nu) * st0.Hi (i * mu + nu)
            + st0.Hi ((i + 1) * mu + nu) * st0.Hi ((i + 1) * mu + nu))
      ∧ ((List.range t).foldl (fun st nu => givensStep sqrt i mu nu st) st0).sn (i * mu + nu)
        = st0.Hi ((i + 1) * mu + nu) / sqrt (st0.Hi (i * mu + nu) * st0.Hi (i * mu + nu)
            + st0.Hi ((i + 1) * mu + nu) * st0.Hi ((i + 1) * mu + nu))
      ∧ ((List.range t).foldl (fun st nu => givensStep sqrt i mu nu st) st0).s
          ((i + 1) * mu + nu)
        = -(st0.Hi ((i + 1) * mu + nu) / sqrt (st0.Hi (i * mu + nu) * st0.Hi (i * mu + nu)
            + st0.Hi ((i + 1) * mu + nu) * st0.Hi ((i + 1) * mu + nu))) * st0.s (i * mu + nu)
      ∧ ((List.range t).foldl (fun st nu => givensStep sqrt i mu nu st) st0).s (i * mu + nu)
        = st0.s (i * mu + nu)
          * (st0.Hi (i * mu + nu) / sqrt (st0.Hi (i * mu + nu) * st0.Hi (i * mu + nu)
            + st0.Hi ((i + 1) * mu + nu) * st0.Hi ((i + 1) * mu + nu))))
    ∧ (∀ nu, t ≤ nu → nu < mu →
      ((List.range t).foldl (fun st nu => givensStep sqrt i mu nu st) st0).Hi (i * mu + nu)
        = st0.Hi (i * mu + nu)
      ∧ ((List.range t).foldl (fun st nu => givensStep sqrt i mu nu st) st0).Hi
          ((i + 1) * mu + nu) = st0.Hi ((i + 1) * mu + nu)
      ∧ ((List.range t).foldl (fun st nu => givensStep sqrt i mu nu st) st0).s (i * mu + nu)
        = st0.s (i * mu + nu)) := by
  induction t with
  | zero =>
    exact ⟨fun nu hnu => absurd hnu (Nat.not_lt_zero nu), fun nu _ _ => ⟨rfl, rfl, rfl⟩⟩
  | succ t ih =>
    obtain ⟨ih1, ih2⟩ := ih (by omega)
    have hmu : 0 < mu := by omega
    rw [List.range_succ, List.foldl_append, List.foldl_cons, List.foldl_nil]
    obtain ⟨cH, cSn, cS⟩ := givensStep_cells sqrt i mu t
      ((List.range t).foldl (fun st nu => givensStep sqrt i mu nu st) st0) hmu
    obtain ⟨e1, e2, e3⟩ := ih2 t (le_refl t) (by omega)
    constructor
    · intro nu hnu
      rw [cH, cH, cSn, cS, cS]
      by_cases hnt : nu = t
      · subst hnt
        have hab : (i + 1) * mu + nu ≠ i * mu + nu := by rw [succ_row]; omega
        rw [if_pos rfl, if_neg hab, if_pos rfl, if_pos rfl, if_neg hab, if_pos rfl, if_pos rfl,
          e1, e2, e3]
        exact ⟨rfl, rfl, rfl, rfl, rfl⟩
      · have h1 : i * mu + nu ≠ i * mu + t := by omega
        have h2 : i * mu + nu ≠ (i + 1) * mu + t := by rw [succ_row]; omega
        have h3 : (i + 1) * mu + nu ≠ i * mu + t := by rw [succ_row]; omega
        have h4 : (i + 1) * mu + nu ≠ (i + 1) * mu + t := by omega
        rw [if_neg h1, if_neg h2, if_neg h3, if_neg h4, if_neg h1, if_neg h3, if_neg h4,
          if_neg h1, if_neg h2]
        exact ih1 nu (by omega)
    · intro nu htn hnu
      have h1 : i * mu + nu ≠ i * mu + t := by omega
      have h2 : i * mu + nu ≠ (i + 1) * mu + t := by rw [succ_row]; omega
      have h3 : (i + 1) * mu + nu ≠ i * mu + t := by rw [succ_row]; omega
      have h4 : (i + 1) * mu + nu ≠ (i + 1) * mu + t := by omega
      rw [cH, cH, cS, if_neg h1, if_neg h2, if_neg h3, if_neg h4, if_neg h1, if_neg h2]
      exact ih2 nu (by omega) hnu

/-- C22 (Givens step and residual recursion of `Arnoldi`).  For a right-hand side
`nu < mu` and a column index `i < m`, let `hcur`, `hnext` be the two last entries of the
new Hessenberg column once the earlier rotations are applied and
`delta = sqrt(hcur^2 + hnext^2)`, not zero.  On return the diagonal entry of the column
holds `delta`, the entry below it the cosine `hcur / delta`, `sn` holds the sine
`hnext / delta`, `s[i + 1] = -sn * s[i]` and `s[i] = c * s[i]` for the value of `s[i]` on
entry; hence the squares of the two new entries of `s` add up to the square of the old
`s[i]`, and the residual estimate `|s[i + 1]|` does not exceed `|s[i]|` on entry. -/
theorem Arnoldi_givens (sqrt : R → R) (m i mu shift : Nat) (Hprev : Nat → Nat → R)
    (st : GivensState R) (hs : SqrtSpec sqrt) (hzero : sqrt 0 = 0) (nu : Nat) (hnu : nu < mu)
    (hi : i < m) (hcur hnext delta : R)
    (hc : hcur = arnoldiColumn sqrt m i mu shift Hprev st (i * mu + nu))
    (hn : hnext = arnoldiColumn sqrt m i mu shift Hprev st ((i + 1) * mu + nu))
    (hd : delta = sqrt (hcur * hcur + hnext * hnext)) (hne : delta ≠ 0) :
    (Arnoldi sqrt m i mu shift Hprev st).Hi (nu * (m + 1) + i) = delta
    ∧ (Arnoldi sqrt m i mu shift Hprev st).Hi (nu * (m + 1) + i + 1) = hcur / delta
    ∧ (Arnoldi sqrt m i mu shift Hprev st).sn (i * mu + nu) = hnext / delta
    ∧ (Arnoldi sqrt m i mu shift Hprev st).s ((i + 1) * mu + nu)
        = -(hnext / delta) * st.s (i * mu + nu)
    ∧ (Arnoldi sqrt m i mu shift Hprev st).s (i * mu + nu)
        = (hcur / delta) * st.s (i * mu + nu)
    ∧ (Arnoldi sqrt m i mu shift Hprev st).s (i * mu + nu)
          * (Arnoldi sqrt m i mu shift Hprev st).s (i * mu + nu)
        + (Arnoldi sqrt m i mu shift Hprev st).s ((i + 1) * mu + nu)
          * (Arnoldi sqrt m i mu shift Hprev st).s ((i + 1) * mu + nu)
        = st.s (i * mu + nu) * st.s (i * mu + nu)
    ∧ |(Arnoldi sqrt m i mu shift Hprev st).s ((i + 1) * mu + nu)| ≤ |st.s (i * mu + nu)| := by
  obtain ⟨f1, f2, f3, f4, f5⟩ := (givens_fold sqrt i mu
    { st with Hi := arnoldiColumn sqrt m i mu shift Hprev st } mu (le_refl mu)).1 nu hnu
  simp only [] at f1 f2 f3 f4 f5
  rw [← hc, ← hn, ← hd] at f1 f2 f3 f4 f5
  have hsum : 0 < hcur * hcur + hnext * hnext := by
    rcases (add_nonneg (mul_self_nonneg hcur) (mul_self_nonneg hnext)).lt_or_eq with h | h
    · exact h
    · exact absurd (by rw [hd, ← h, hzero]) hne
  have hsq : delta * delta = hcur * hcur + hnext * hnext := by
    rw [hd]
    exact (hs _ hsum).2
  have hHi : (Arnoldi sqrt m i mu shift Hprev st).Hi (nu * (m + 1) + i) = delta
      ∧ (Arnoldi sqrt m i mu shift Hprev st).Hi (nu * (m + 1) + i + 1) = hcur / delta := by
    unfold Arnoldi
    by_cases hmu : 1 < mu
    · rw [if_pos hmu]
      simp only [imatcopy]
      have d1 := @lead_decode i nu (m + 1) (by omega)
      have d2 := @lead_decode (i + 1) nu (m + 1) (by omega)
      rw [show nu * (m + 1) + i = i + nu * (m + 1) by omega,
        show i + nu * (m + 1) + 1 = (i + 1) + nu * (m + 1) by omega,
        d1.1, d1.2, d2.1, d2.2, if_pos ⟨hnu, by omega⟩, if_pos ⟨hnu, by omega⟩, f1, f2]
      exact ⟨rfl, rfl⟩
    · rw [if_neg hmu]
      have hmu1 : mu = 1 := by omega
      have hnu0 : nu = 0 := by omega
      subst hmu1 hnu0
      simp only [Nat.mul_one, Nat.add_zero, Nat.zero_mul, Nat.zero_add] at f1 f2 ⊢
      exact ⟨f1, f2⟩
  have hrest : (Arnoldi sqrt m i mu shift Hprev st).sn (i * mu + nu) = hnext / delta
      ∧ (Arnoldi sqrt m i mu shift Hprev st).s ((i + 1) * mu + nu)
          = -(hnext / delta) * st.s (i * mu + nu)
      ∧ (Arnoldi sqrt m i mu shift Hprev st).s (i * mu + nu)
          = (hcur / delta) * st.s (i * mu + nu) := by
    unfold Arnoldi
    by_cases hmu : 1 < mu
    · rw [if_pos hmu]
      exact ⟨f3, f4, f5.trans (mul_comm _ _)⟩
    · rw [if_neg hmu]
      exact ⟨f3, f4, f5.trans (mul_comm _ _)⟩
  obtain ⟨g3, g4, g5⟩ := hrest
  have hid : (hcur / delta * st.s (i * mu + nu)) * (hcur / delta * st.s (i * mu + nu))
      + (-(hnext / delta) * st.s (i * mu + nu)) * (-(hnext / delta) * st.s (i * mu + nu))
      = st.s (i * mu + nu) * st.s (i * mu + nu) := by
    have e : (hcur / delta * st.s (i * mu + nu)) * (hcur / delta * st.s (i * mu + nu))
        + (-(hnext / delta) * st.s (i * mu + nu)) * (-(hnext / delta) * st.s (i * mu + nu))
        = st.s (i * mu + nu) * st.s (i * mu + nu)
          * ((hcur * hcur + hnext * hnext) / (delta * delta)) := by
      field_simp
      ring
    rw [e, ← hsq, div_self (mul_ne_zero hne hne), mul_one]
  refine ⟨hHi.1, hHi.2, g3, g4, g5, ?_, ?_⟩
  · rw [g4, g5]
    exact hid
  · rw [g4]
    apply sq_le_sq.1
    have hnn := mul_self_nonneg (hcur / delta * st.s (i * mu + nu))
    nlinarith [hid, hnn]

/-- Witness of C22 over the reals: first column (`i = 0`) of a restart of length `2`, one
right-hand side, diagonal entry `3`, squared norm `16` of the new vector and `s[0] = 5`. -/
theorem Arnoldi_givens_witness :
    (Arnoldi Real.sqrt 2 0 1 0 (fun _ _ => 0)
        ⟨fun p => if p = 0 then 3 else 0, fun _ => 16, fun p => if p = 0 then 5 else 0⟩).s
        (0 * 1 + 0)
      * (Arnoldi Real.sqrt 2 0 1 0 (fun _ _ => 0)
        ⟨fun p => if p = 0 then 3 else 0, fun _ => 16, fun p => if p = 0 then 5 else 0⟩).s
        (0 * 1 + 0)
    + (Arnoldi Real.sqrt 2 0 1 0 (fun _ _ => 0)
        ⟨fun p => if p = 0 then 3 else 0, fun _ => 16, fun p => if p = 0 then 5 else 0⟩).s
        ((0 + 1) * 1 + 0)
      * (Arnoldi Real.sqrt 2 0 1 0 (fun _ _ => 0)
        ⟨fun p => if p = 0 then 3 else 0, fun _ => 16, fun p => if p = 0 then 5 else 0⟩).s
        ((0 + 1) * 1 + 0)
    = (fun p => if p = 0 then (5 : ℝ) else 0) (0 * 1 + 0)
      * (fun p => if p = 0 then (5 : ℝ) else 0) (0 * 1 + 0) :=
  (Arnoldi_givens Real.sqrt 2 0 1 0 (fun _ _ => 0)
    ⟨fun p => if p = 0 then 3 else 0, fun _ => 16, fun p => if p = 0 then 5 else 0⟩
    (fun _ hx => ⟨Real.sqrt_pos.2 hx, Real.mul_self_sqrt hx.le⟩) Real.sqrt_zero 0 (by decide)
    (by decide) 3 (Real.sqrt 16) (Real.sqrt (3 * 3 + Real.sqrt 16 * Real.sqrt 16))
    (by simp [arnoldiColumn, arnoldiRotate, arnoldiNorm, List.range_succ, Function.update])
    (by simp [arnoldiColumn, arnoldiRotate, arnoldiNorm, List.range_succ, Function.update])
    rfl
    (Real.sqrt_ne_zero'.2 (by positivity))).2.2.2.2.2.1

end ArnoldiGivensClaims

section UpdateSolClaims

variable {R : Type} [LinearOrderedField R]

theorem trsvTable_stable (U : Nat → Nat → R) (b : Nat → R) (n t : Nat) (j : Nat)
    (hj : n - t ≤ j) (d : Nat) (hd : t + d ≤ n) :
    trsvTable U b n (t + d) j = trsvTable U b n t j := by
  induction d with
  | zero => rfl
  | succ d ih =>
    rw [← Nat.add_assoc]
    show (if j = n - (t + d + 1) then _ else trsvTable U b n (t + d) j) = _
    rw [if_neg (by omega)]
    exact ih (by omega)

/-- Row `j` of the back substitution. -/
theorem trsvTable_row (U : Nat → Nat → R) (b : Nat → R) (n j : Nat) (hj : j < n) :
    trsvTable U b n n j
      = (b j - ∑ l in Finset.Ico (j + 1) n, U j l * trsvTable U b n n l) / U j j := by
  have h1 := trsvTable_stable U b n (n - j) j (by omega) j (by omega)
  rw [show n - j + j = n by omega] at h1
  rw [h1]
  have e : n - j = (n - j - 1) + 1 := by omega
  rw [e]
  show (if j = n - (n - j - 1 + 1) then _ else _) = _
  rw [if_pos (by omega)]
  congr 2
  apply Finset.sum_congr rfl
  intro l hl
  have hl' := Finset.mem_Ico.1 hl
  have h2 := trsvTable_stable U b n (n - j - 1) l (by omega) (j + 1) (by omega)
  rw [show n - j - 1 + (j + 1) = n by omega] at h2
  rw [h2]

/-- The back substitution solves the upper triangular system when the diagonal has no
zero. -/
theorem trsvTable_solves (U : Nat → Nat → R) (b : Nat → R) (n j : Nat) (hj : j < n)
    (hU : U j j ≠ 0) :
    ∑ l in Finset.Ico j n, U j l * trsvTable U b n n l = b j := by
  rw [Finset.sum_eq_sum_Ico_succ_bot hj, trsvTable_row U b n j hj]
  field_simp

theorem trsv_apply (n : Nat) (A : Nat → R) (ao lda : Nat) (x : Nat → R) (xo incx : Nat)
    (hxo : xo < incx) (p : Nat) :
    trsv n A ao lda x xo incx p
      = if p % incx = xo ∧ p / incx < n then
          trsvTable (fun a c => A (ao + a + c * lda)) (fun i => x (xo + i * incx)) n n
            (p / incx)
        else x p := by
  unfold trsv
  have hdiv : ∀ a, (xo + a * incx) / incx = a := by
    intro a
    rw [Nat.add_mul_div_right _ _ (by omega), Nat.div_eq_of_lt hxo, Nat.zero_add]
  have hmod : ∀ a, (xo + a * incx) % incx = xo := by
    intro a
    rw [Nat.add_mul_mod_self_right, Nat.mod_eq_of_lt hxo]
  by_cases h : p % incx = xo ∧ p / incx < n
  · rw [if_pos h]
    have hp : xo + (p / incx) * incx = p := by
      rw [← h.1, Nat.mul_comm]; exact Nat.mod_add_div p incx
    apply foldl_update_val (fun i => xo + i * incx)
    · intro a _ ha
      have : a = p / incx := by rw [← ha, hdiv]
      subst this
      rfl
    · left
      exact ⟨p / incx, List.mem_range.2 h.2, hp⟩
  · rw [if_neg h]
    apply foldl_update_val (fun i => xo + i * incx)
    · intro a ha hpa
      exfalso
      apply h
      rw [← hpa, hmod, hdiv]
      exact ⟨rfl, List.mem_range.1 ha⟩
    · right
      rfl

theorem computeMin_scalar (h : Nat → R) (ld : Nat) (s : Nat → R) (hc : Nat → Int) (mu : Nat) :
    computeMin h ld s 0 hc mu (-1) 0
      = (List.range mu).foldl (fun s nu =>
          if (hc nu).natAbs ≠ 0 then trsv (hc nu).natAbs h (ld / mu * nu) ld s nu mu else s)
          s := by
  unfold computeMin
  simp

/-- The loop of `computeMin` without deflation after `t` right-hand sides: every
right-hand side below `t` with a non-zero marker holds the solution of its triangular
system, computed from the content on entry. -/
theorem computeMin_fold (h : Nat → R) (ld : Nat) (s0 : Nat → R) (hc : Nat → Int)
    (mu t : Nat) (ht : t ≤ mu) (p : Nat) :
    (List.range t).foldl (fun s nu =>
        if (hc nu).natAbs ≠ 0 then trsv (hc nu).natAbs h (ld / mu * nu) ld s nu mu else s)
        s0 p
      = if p % mu < t ∧ (hc (p % mu)).natAbs ≠ 0 ∧ p / mu < (hc (p % mu)).natAbs then
          trsvTable (fun a c => h (ld / mu * (p % mu) + a + c * ld))
            (fun i => s0 (p % mu + i * mu)) (hc (p % mu)).natAbs (hc (p % mu)).natAbs (p / mu)
        else s0 p := by
  induction t generalizing p with
  | zero => simp
  | succ t ih =>
    have htm : t < mu := ht
    rw [List.range_succ, List.foldl_append, List.foldl_cons, List.foldl_nil]
    by_cases h0 : (hc t).natAbs ≠ 0
    · rw [if_pos h0, trsv_apply _ _ _ _ _ _ _ htm]
      by_cases h1 : p % mu = t ∧ p / mu < (hc t).natAbs
      · rw [if_pos h1, if_pos ⟨by omega, by rw [h1.1]; exact h0, by rw [h1.1]; exact h1.2⟩,
          h1.1]
        congr 1
        funext i
        rw [ih (by omega), (lead_decode htm).1, if_neg (by intro hh; omega)]
      · rw [if_neg h1, ih (by omega) p]
        by_cases h2 : p % mu = t
        · have h3 : ¬ p / mu < (hc t).natAbs := fun hh => h1 ⟨h2, hh⟩
          rw [if_neg (by intro hh; omega),
            if_neg (by intro hh; rw [h2] at hh; exact h3 hh.2.2)]
        · by_cases h4 : p % mu < t ∧ (hc (p % mu)).natAbs ≠ 0
              ∧ p / mu < (hc (p % mu)).natAbs
          · rw [if_pos h4, if_pos ⟨by omega, h4.2⟩]
          · rw [if_neg h4, if_neg (by intro hh; exact h4 ⟨by omega, hh.2⟩)]
    · rw [if_neg h0, ih (by omega) p]
      by_cases h2 : p % mu = t
      · rw [if_neg (by intro hh; omega),
          if_neg (by intro hh; rw [h2] at hh; exact h0 hh.2.1)]
      · by_cases h4 : p % mu < t ∧ (hc (p % mu)).natAbs ≠ 0
            ∧ p / mu < (hc (p % mu)).natAbs
        · rw [if_pos h4, if_pos ⟨by omega, h4.2⟩]
        · rw [if_neg h4, if_neg (by intro hh; exact h4 ⟨by omega, hh.2⟩)]

/-- The loop of `addSol` without deflation: the block of `x` of every right-hand side with
a non-zero marker receives the combination of its basis vectors. -/
theorem addSol_fold (n : Nat) (x s v : Nat → R) (hc : Nat → Int) (mu : Nat) (p : Nat) :
    (List.range mu).foldl (fun x nu =>
        if hc nu ≠ 0 then
          gemvN n (hc nu).natAbs d__1 v (nu * n) (mu * n) s nu mu d__1 x (nu * n)
        else x) x p
      = if p / n < mu ∧ (0 < n ∧ hc (p / n) ≠ 0) then
          d__1 * (∑ i in range (hc (p / n)).natAbs,
            v (p / n * n + i * (mu * n) + (p - p / n * n)) * s (p / n + i * mu)) + d__1 * x p
        else x p := by
  refine foldl_keyed (fun nu x =>
      if hc nu ≠ 0 then
        gemvN n (hc nu).natAbs d__1 v (nu * n) (mu * n) s nu mu d__1 x (nu * n)
      else x)
    (fun nu p y => d__1 * (∑ i in range (hc nu).natAbs,
      v (nu * n + i * (mu * n) + (p - nu * n)) * s (nu + i * mu)) + d__1 * y)
    (fun p => p / n) (fun p => 0 < n ∧ hc (p / n) ≠ 0) mu x ?_ p
  intro nu _ y q
  by_cases h0 : hc nu ≠ 0
  · simp only [if_pos h0, gemvN]
    by_cases h1 : nu * n ≤ q ∧ q < nu * n + n
    · have h2 := block_key.1 h1
      rw [if_pos h1, if_pos ⟨h2.1, h2.2, by rw [h2.1]; exact h0⟩]
    · rw [if_neg h1, if_neg]
      intro hh
      exact h1 (block_key.2 ⟨hh.1, hh.2.1⟩)
  · simp only [if_neg h0]
    rw [if_neg]
    intro hh
    rw [hh.1] at hh
    exact h0 hh.2.2

/-- C21 (solution update of `updateSol`).  On a process that takes part (`excluded` false,
`n` not zero), with left preconditioning and without deflation, for every right-hand side
`nu < mu`: when `hasConverged[nu]` is not zero, with `dim = |hasConverged[nu]|`, the block
`x_nu` receives `x_nu + V_nu y_nu`, where the columns of `V_nu` are the first `dim` basis
vectors of `nu` and `y_nu` is the content of `s_nu` on return, and `y_nu` solves the
`dim`-by-`dim` upper triangular system `H_nu y = s_nu` when the diagonal of `H_nu` has no
zero; when `hasConverged[nu]` is zero, `x_nu` and `s_nu` are left as they were. -/
theorem updateSol_solution (n : Nat) (x h : Nat → R) (ld : Nat) (s v : Nat → R)
    (hasConverged : Nat → Int) (mu : Nat) (work : Nat → R) (hn : n ≠ 0) (nu : Nat)
    (hnu : nu < mu) :
    (hasConverged nu ≠ 0 →
      (∀ j, j < n →
        (updateSol false n x h ld s v hasConverged mu work (-1)).x (nu * n + j)
          = x (nu * n + j) + ∑ c in range (hasConverged nu).natAbs,
              v (nu * n + c * (mu * n) + j)
                * (updateSol false n x h ld s v hasConverged mu work (-1)).s (nu + c * mu))
      ∧ ((∀ a, a < (hasConverged nu).natAbs → h (ld / mu * nu + a + a * ld) ≠ 0) →
          ∀ a, a < (hasConverged nu).natAbs →
            ∑ c in Finset.Ico a (hasConverged nu).natAbs,
              h (ld / mu * nu + a + c * ld)
                * (updateSol false n x h ld s v hasConverged mu work (-1)).s (nu + c * mu)
            = s (nu + a * mu)))
    ∧ (hasConverged nu = 0 →
      (∀ j, j < n →
        (updateSol false n x h ld s v hasConverged mu work (-1)).x (nu * n + j)
          = x (nu * n + j))
      ∧ ∀ c, (updateSol false n x h ld s v hasConverged mu work (-1)).s (nu + c * mu)
          = s (nu + c * mu)) := by
  have hs : (updateSol false n x h ld s v hasConverged mu work (-1)).s
      = (List.range mu).foldl (fun s nu =>
          if (hasConverged nu).natAbs ≠ 0 then
            trsv (hasConverged nu).natAbs h (ld / mu * nu) ld s nu mu else s) s := by
    unfold updateSol
    simp only [Bool.false_eq_true, if_false]
    exact computeMin_scalar h ld s hasConverged mu
  have hx : (updateSol false n x h ld s v hasConverged mu work (-1)).x
      = (List.range mu).foldl (fun x nu =>
          if hasConverged nu ≠ 0 then
            gemvN n (hasConverged nu).natAbs d__1 v (nu * n) (mu * n)
              (updateSol false n x h ld s v hasConverged mu work (-1)).s nu mu d__1 x (nu * n)
          else x) x := by
    unfold updateSol addSol
    simp only [Bool.false_eq_true, if_false, false_or, if_neg hn, if_true]
  have hcell : ∀ c, (updateSol false n x h ld s v hasConverged mu work (-1)).s (nu + c * mu)
      = if (hasConverged nu).natAbs ≠ 0 ∧ c < (hasConverged nu).natAbs then
          trsvTable (fun a c => h (ld / mu * nu + a + c * ld)) (fun i => s (nu + i * mu))
            (hasConverged nu).natAbs (hasConverged nu).natAbs c
        else s (nu + c * mu) := by
    intro c
    rw [hs, computeMin_fold h ld s hasConverged mu mu (le_refl mu), (lead_decode hnu).1,
      (lead_decode hnu).2]
    by_cases hh : (hasConverged nu).natAbs ≠ 0 ∧ c < (hasConverged nu).natAbs
    · rw [if_pos ⟨hnu, hh⟩, if_pos hh]
    · rw [if_neg (fun h' => hh h'.2), if_neg hh]
  have hblock : ∀ j, j < n → (nu * n + j) / n = nu ∧ nu * n + j - nu * n = j := by
    intro j hj
    refine ⟨?_, by omega⟩
    rw [Nat.add_comm, Nat.add_mul_div_right _ _ (by omega), Nat.div_eq_of_lt hj, Nat.zero_add]
  constructor
  · intro h0
    have habs : (hasConverged nu).natAbs ≠ 0 := by simpa using h0
    constructor
    · intro j hj
      rw [hx]
      refine (addSol_fold n x (updateSol false n x h ld s v hasConverged mu work (-1)).s v
        hasConverged mu (nu * n + j)).trans ?_
      rw [(hblock j hj).1, (hblock j hj).2, if_pos ⟨hnu, by omega, h0⟩]
      unfold d__1
      rw [one_mul, one_mul, add_comm]
    · intro hdiag a ha
      rw [← trsvTable_solves (fun a c => h (ld / mu * nu + a + c * ld))
        (fun i => s (nu + i * mu)) (hasConverged nu).natAbs a ha (hdiag a ha)]
      apply Finset.sum_congr rfl
      intro c hc
      rw [hcell, if_pos ⟨habs, (Finset.mem_Ico.1 hc).2⟩]
  · intro h0
    constructor
    · intro j hj
      rw [hx]
      refine (addSol_fold n x (updateSol false n x h ld s v hasConverged mu work (-1)).s v
        hasConverged mu (nu * n + j)).trans ?_
      rw [(hblock j hj).1, if_neg (fun h' => h'.2.2 h0)]
    · intro c
      rw [hcell, if_neg (fun h' => h'.1 (by rw [h0]; rfl))]

/-- Witness of C21: one right-hand side of length `2`, two basis vectors `(1, 0)` and
`(0, 1)`, Hessenberg block `((2, 1), (0, 4))` and `s = (4, 8)`. -/
theorem updateSol_solution_witness :
    ((fun _ : Nat => (2 : Int)) 0 ≠ 0 →
      (∀ j, j < 2 →
        (updateSol false 2 (fun _ => (1 : ℚ))
            (fun p => if p = 0 then 2 else if p = 3 then 1 else if p = 4 then 4 else 0) 3
            (fun p => if p = 0 then 4 else 8) (fun p => if p = 0 ∨ p = 3 then 1 else 0)
            (fun _ => 2) 1 (fun _ => 0) (-1)).x (0 * 2 + j)
          = (fun _ => (1 : ℚ)) (0 * 2 + j) + ∑ c in range ((fun _ : Nat => (2 : Int)) 0).natAbs,
              (fun p => if p = 0 ∨ p = 3 then (1 : ℚ) else 0) (0 * 2 + c * (1 * 2) + j)
                * (updateSol false 2 (fun _ => (1 : ℚ))
                    (fun p => if p = 0 then 2 else if p = 3 then 1 else if p = 4 then 4 else 0)
                    3 (fun p => if p = 0 then 4 else 8)
                    (fun p => if p = 0 ∨ p = 3 then 1 else 0)
                    (fun _ => 2) 1 (fun _ => 0) (-1)).s (0 + c * 1))
      ∧ ((∀ a, a < ((fun _ : Nat => (2 : Int)) 0).natAbs →
            (fun p => if p = 0 then (2 : ℚ) else if p = 3 then 1 else if p = 4 then 4 else 0)
              (3 / 1 * 0 + a + a * 3) ≠ 0) →
          ∀ a, a < ((fun _ : Nat => (2 : Int)) 0).natAbs →
            ∑ c in Finset.Ico a ((fun _ : Nat => (2 : Int)) 0).natAbs,
              (fun p => if p = 0 then (2 : ℚ) else if p = 3 then 1 else if p = 4 then 4 else 0)
                  (3 / 1 * 0 + a + c * 3)
                * (updateSol false 2 (fun _ => (1 : ℚ))
                    (fun p => if p = 0 then 2 else if p = 3 then 1 else if p = 4 then 4 else 0)
                    3 (fun p => if p = 0 then 4 else 8)
                    (fun p => if p = 0 ∨ p = 3 then 1 else 0)
                    (fun _ => 2) 1 (fun _ => 0) (-1)).s (0 + c * 1)
            = (fun p => if p = 0 then (4 : ℚ) else 8) (0 + a * 1)))
    ∧ ((fun _ : Nat => (2 : Int)) 0 = 0 →
      (∀ j, j < 2 →
        (updateSol false 2 (fun _ => (1 : ℚ))
            (fun p => if p = 0 then 2 else if p = 3 then 1 else if p = 4 then 4 else 0) 3
            (fun p => if p = 0 then 4 else 8) (fun p => if p = 0 ∨ p = 3 then 1 else 0)
            (fun _ => 2) 1 (fun _ => 0) (-1)).x (0 * 2 + j)
          = (fun _ => (1 : ℚ)) (0 * 2 + j))
      ∧ ∀ c, (updateSol false 2 (fun _ => (1 : ℚ))
            (fun p => if p = 0 then 2 else if p = 3 then 1 else if p = 4 then 4 else 0) 3
            (fun p => if p = 0 then 4 else 8) (fun p => if p = 0 ∨ p = 3 then 1 else 0)
            (fun _ => 2) 1 (fun _ => 0) (-1)).s (0 + c * 1)
          = (fun p => if p = 0 then (4 : ℚ) else 8) (0 + c * 1)) :=
  updateSol_solution 2 (fun _ => (1 : ℚ))
    (fun p => if p = 0 then 2 else if p = 3 then 1 else if p = 4 then 4 else 0) 3
    (fun p => if p = 0 then 4 else 8) (fun p => if p = 0 ∨ p = 3 then 1 else 0)
    (fun _ => 2) 1 (fun _ => 0) (by decide) 0 (by decide)

end UpdateSolClaims

section OrthAgreeClaims

variable {R : Type} [Field R]

theorem mgsLocal_H_other (i mu : Nat) (r : OrthRank R) {p : Nat}
    (hp : ¬ (i * mu ≤ p ∧ p < i * mu + mu)) : (mgsLocal i mu r).H p = r.H p := by
  unfold mgsLocal
  by_cases hr : r.excluded = true ∨ r.n = 0
  · rw [if_pos hr]
  · rw [if_neg hr]
    simp only []
    apply foldl_update_val (fun nu => i * mu + nu)
    · intro a ha hpa
      exfalso
      apply hp
      have := List.mem_range.1 ha
      omega
    · right
      rfl

/-- The vectors after the projection of step `i` of the modified variant. -/
theorem mgsUpdate_v (i mu : Nat) (r : OrthRank R) (p : Nat) :
    (mgsUpdate i mu r).v p
      = if ¬ (r.excluded = true ∨ r.n = 0) ∧ p / r.n < mu then
          r.v p - r.H (i * mu + p / r.n)
            * r.B ((i * mu + p / r.n) * r.n + (p - p / r.n * r.n))
        else r.v p := by
  unfold mgsUpdate
  by_cases hr : r.excluded = true ∨ r.n = 0
  · rw [if_pos hr, if_neg (fun h => h.1 hr)]
  · rw [if_neg hr]
    simp only []
    rw [foldl_keyed (fun nu v => axpy r.n (-(r.H (i * mu + nu))) r.B ((i * mu + nu) * r.n) v
        (nu * r.n))
      (fun nu p h => -(r.H (i * mu + nu)) * r.B ((i * mu + nu) * r.n + (p - nu * r.n)) + h)
      (fun p => p / r.n) (fun _ => 0 < r.n) mu r.v
      (fun nu' _ v p => by
        show axpy r.n (-(r.H (i * mu + nu'))) r.B ((i * mu + nu') * r.n) v (nu' * r.n) p = _
        unfold axpy
        by_cases hb : nu' * r.n ≤ p ∧ p < nu' * r.n + r.n
        · rw [if_pos hb, if_pos (block_key.1 hb)]
        · rw [if_neg hb, if_neg (fun h => hb (block_key.2 h))])]
    have hn : 0 < r.n := Nat.pos_of_ne_zero (fun h => hr (Or.inr h))
    by_cases hq : p / r.n < mu
    · rw [if_pos ⟨hq, hn⟩, if_pos ⟨hr, hq⟩]
      ring
    · rw [if_neg (fun h => hq h.1), if_neg (fun h => hq h.2)]

/-- The vectors after the projection of the classical variant. -/
theorem cgsUpdate_v (k mu : Nat) (r : OrthRank R) (p : Nat) :
    (cgsUpdate k mu r).v p
      = if ¬ (r.excluded = true ∨ r.n = 0) ∧ p / r.n < mu then
          r.v p - ∑ i in range k,
            r.H (p / r.n + i * mu)
              * r.B ((i * mu + p / r.n) * r.n + (p - p / r.n * r.n))
        else r.v p := by
  unfold cgsUpdate
  by_cases hr : r.excluded = true ∨ r.n = 0
  · rw [if_pos hr, if_neg (fun h => h.1 hr)]
  · rw [if_neg hr]
    simp only []
    rw [foldl_keyed (fun nu v => gemvN r.n k d__2 r.B (nu * r.n) (mu * r.n) r.H nu mu d__1 v
        (nu * r.n))
      (fun nu p h => d__2 * (∑ i in range k,
        r.B (nu * r.n + i * (mu * r.n) + (p - nu * r.n)) * r.H (nu + i * mu)) + d__1 * h)
      (fun p => p / r.n) (fun _ => 0 < r.n) mu r.v
      (fun nu' _ v p => by
        show gemvN r.n k d__2 r.B (nu' * r.n) (mu * r.n) r.H nu' mu d__1 v (nu' * r.n) p = _
        unfold gemvN
        by_cases hb : nu' * r.n ≤ p ∧ p < nu' * r.n + r.n
        · rw [if_pos hb, if_pos (block_key.1 hb)]
        · rw [if_neg hb, if_neg (fun h => hb (block_key.2 h))])]
    have hn : 0 < r.n := Nat.pos_of_ne_zero (fun h => hr (Or.inr h))
    by_cases hq : p / r.n < mu
    · rw [if_pos ⟨hq, hn⟩, if_pos ⟨hr, hq⟩]
      unfold d__1 d__2
      rw [one_mul, neg_one_mul, sub_eq_neg_add]
      congr 2
      apply Finset.sum_congr rfl
      intro i _
      rw [mul_comm]
      congr 2
      ring
    · rw [if_neg (fun h => hq h.1), if_neg (fun h => hq h.2)]

theorem cgsLocal_H_other (k mu : Nat) (r : OrthRank R) {p : Nat} (hp : k * mu ≤ p) :
    (cgsLocal k mu r).H p = r.H p := by
  unfold cgsLocal
  by_cases hr : r.excluded = true ∨ r.n = 0
  · rw [if_pos hr]
  · rw [if_neg hr]
    simp only []
    rw [foldl_keyed (fun nu H => gemvT r.n k d__1 r.B (nu * r.n) (mu * r.n) (scaled mu r).1
        (nu * r.n) d__0 H nu mu)
      (fun nu p h => d__1 * (∑ j in range r.n,
        r.B (nu * r.n + (p / mu) * (mu * r.n) + j) * (scaled mu r).1 (nu * r.n + j)) + d__0 * h)
      (fun p => p % mu) (fun p => p / mu < k) mu r.H
      (fun nu' hnu' v p => by
        show gemvT r.n k d__1 r.B (nu' * r.n) (mu * r.n) (scaled mu r).1 (nu' * r.n) d__0 v
          nu' mu p = _
        rw [gemvT_apply _ _ _ _ _ _ _ _ _ _ _ _ hnu'])]
    rw [if_neg]
    intro h
    exact tail_div (by omega) hp h.2

theorem idleZero_init (k mu : Nat) (ws : List (OrthRank R)) :
    IdleZero 0 k mu (ws.map (fun r =>
      if r.excluded = true ∨ r.n = 0 then { r with H := fill_n r.H (k * mu) } else r)) := by
  intro r' hr' hidle p _ hp
  obtain ⟨r, _, rfl⟩ := List.mem_map.1 hr'
  have hf := sameFrame_init k mu r
  have hidle' : r.excluded = true ∨ r.n = 0 := by
    rcases hidle with h1 | h1
    · left; rw [← hf.1]; exact h1
    · right; rw [← hf.2.1]; exact h1
  rw [if_pos hidle']
  simp only [fill_n, if_pos hp]

theorem innerBv_init (k mu : Nat) (ws : List (OrthRank R)) (l nu : Nat) :
    innerBv (ws.map (fun r =>
      if r.excluded = true ∨ r.n = 0 then { r with H := fill_n r.H (k * mu) } else r)) mu l nu
      = innerBv ws mu l nu := by
  rw [innerBv_map]
  unfold innerBv
  congr 1
  apply List.map_congr_left
  intro r _
  rw [(sameFrame_init k mu r).inner_eq, init_v]

/-- In the modified variant the inner products with the basis columns not yet processed
keep their value. -/
theorem mgs_fold_inner (k mu : Nat) (ws0 : List (OrthRank R)) (h0 : IdleZero 0 k mu ws0)
    (horth : ∀ nu, nu < mu → ∀ a, a < k → ∀ b, b < k →
      gramB ws0 mu a b nu = if a = b then 1 else 0)
    (i : Nat) (hi : i ≤ k) (nu : Nat) (hnu : nu < mu) (l : Nat) (hil : i ≤ l) (hl : l < k) :
    innerBv ((List.range i).foldl (fun ws i => mgsStep i mu ws) ws0) mu l nu
      = innerBv ws0 mu l nu := by
  induction i with
  | zero => rfl
  | succ i ih =>
    obtain ⟨h1, h2, -⟩ := mgs_fold k mu ws0 h0 horth i (by omega)
    rw [List.range_succ, List.foldl_append, List.foldl_cons, List.foldl_nil,
      mgsStep_innerBv i k mu _ (by omega) h1 l hnu, h2,
      horth nu hnu l hl i (by omega), if_neg (by omega), mul_zero, sub_zero]
    exact ih (by omega) (by omega)

/-- The memory of every process after `i` steps of the modified variant. -/
theorem mgs_ranks (k mu : Nat) (ws : List (OrthRank R))
    (horth : ∀ nu, nu < mu → ∀ a, a < k → ∀ b, b < k →
      gramB ws mu a b nu = if a = b then 1 else 0)
    (i : Nat) (hi : i ≤ k) :
    ∃ M : OrthRank R → OrthRank R,
      (List.range i).foldl (fun ws i => mgsStep i mu ws) (ws.map (fun r =>
        if r.excluded = true ∨ r.n = 0 then { r with H := fill_n r.H (k * mu) } else r))
        = ws.map M
      ∧ ∀ r, SameFrame (M r) r
        ∧ (∀ p, (M r).H p
            = if p < i * mu then innerBv ws mu (p / mu) (p % mu)
              else (if r.excluded = true ∨ r.n = 0 then fill_n r.H (k * mu) p else r.H p))
        ∧ (∀ p, (M r).v p
            = if ¬ (r.excluded = true ∨ r.n = 0) ∧ p / r.n < mu then
                r.v p - ∑ l in range i, innerBv ws mu l (p / r.n)
                  * r.B ((l * mu + p / r.n) * r.n + (p - p / r.n * r.n))
              else r.v p) := by
  have horth0 : ∀ nu, nu < mu → ∀ a, a < k → ∀ b, b < k →
      gramB (ws.map (fun r =>
        if r.excluded = true ∨ r.n = 0 then { r with H := fill_n r.H (k * mu) } else r))
        mu a b nu = if a = b then 1 else 0 := by
    intro nu hnu a ha b hb
    rw [gramB_map ws _ (sameFrame_init k mu)]
    exact horth nu hnu a ha b hb
  induction i with
  | zero =>
    refine ⟨_, rfl, fun r => ⟨sameFrame_init k mu r, fun p => ?_, fun p => ?_⟩⟩
    · rw [if_neg (show ¬ p < 0 * mu by omega)]
      by_cases hr : r.excluded = true ∨ r.n = 0
      · rw [if_pos hr, if_pos hr]
      · rw [if_neg hr, if_neg hr]
    · rw [init_v]
      simp
  | succ i ih =>
    obtain ⟨M, hM, hP⟩ := ih (by omega)
    have hin := fun nu hnu => mgs_fold_inner k mu _ (idleZero_init k mu ws) horth0 i (by omega)
      nu hnu i (le_refl i) (by omega)
    rw [List.range_succ, List.foldl_append, List.foldl_cons, List.foldl_nil, hM,
      mgsStep_eq_map, List.map_map]
    have hsum : ∀ nu, nu < mu →
        ((ws.map M).map (fun r' => (mgsLocal i mu r').H (i * mu + nu))).sum
          = innerBv ws mu i nu := by
      intro nu hnu
      rw [← innerBv_init k mu ws i nu, ← hin nu hnu, hM, innerBv_map, List.map_map]
      congr 1
      apply List.map_congr_left
      intro r _
      show (mgsLocal i mu (M r)).H (i * mu + nu) = _
      apply mgsLocal_H i mu (M r) hnu
      intro hidle
      obtain ⟨hf, hH, -⟩ := hP r
      have hidle' : r.excluded = true ∨ r.n = 0 := by
        rcases hidle with h1 | h1
        · left; rw [← hf.1]; exact h1
        · right; rw [← hf.2.1]; exact h1
      have hpos : i * mu + nu < k * mu := by
        have := succ_mul_le mu (show i < k by omega)
        omega
      rw [hH, if_neg (by omega), if_pos hidle']
      simp only [fill_n, if_pos hpos]
    refine ⟨_, rfl, fun r => ?_⟩
    obtain ⟨hf, hH, hv⟩ := hP r
    have hf2 : SameFrame ({ mgsLocal i mu (M r) with
        H := fun p => if i * mu ≤ p ∧ p < i * mu + mu then
            ((ws.map M).map (fun r' => (mgsLocal i mu r').H p)).sum
          else (mgsLocal i mu (M r)).H p } : OrthRank R) r := by
      have h2 := sameFrame_mgsLocal i mu (M r)
      exact ⟨h2.1.trans hf.1, h2.2.1.trans hf.2.1, h2.2.2.1.trans hf.2.2.1,
        h2.2.2.2.trans hf.2.2.2⟩
    have hcellH : ∀ p, (if i * mu ≤ p ∧ p < i * mu + mu then
            ((ws.map M).map (fun r' => (mgsLocal i mu r').H p)).sum
          else (mgsLocal i mu (M r)).H p)
        = if p < (i + 1) * mu then innerBv ws mu (p / mu) (p % mu)
          else (if r.excluded = true ∨ r.n = 0 then fill_n r.H (k * mu) p else r.H p) := by
      intro p
      rw [show (i + 1) * mu = i * mu + mu from Nat.succ_mul i mu]
      by_cases hb : i * mu ≤ p ∧ p < i * mu + mu
      · have hk := block_key.1 hb
        have hnu : p % mu < mu := Nat.mod_lt _ hk.2
        have hp : p = i * mu + p % mu := by
          have := Nat.div_add_mod p mu
          rw [hk.1, Nat.mul_comm] at this
          omega
        rw [if_pos hb, if_pos hb.2, hk.1]
        conv_lhs => rw [hp]
        exact hsum (p % mu) hnu
      · rw [if_neg hb, mgsLocal_H_other i mu (M r) hb, hH]
        by_cases h1 : p < i * mu
        · rw [if_pos h1, if_pos (show p < i * mu + mu by omega)]
        · rw [if_neg h1, if_neg (show ¬ p < i * mu + mu by omega)]
    have hf3 := sameFrame_mgsUpdate i mu ({ mgsLocal i mu (M r) with
        H := fun p => if i * mu ≤ p ∧ p < i * mu + mu then
            ((ws.map M).map (fun r' => (mgsLocal i mu r').H p)).sum
          else (mgsLocal i mu (M r)).H p } : OrthRank R)
    refine ⟨⟨hf3.1.trans hf2.1, hf3.2.1.trans hf2.2.1, hf3.2.2.1.trans hf2.2.2.1,
      hf3.2.2.2.trans hf2.2.2.2⟩, fun p => ?_, fun p => ?_⟩
    · show (mgsUpdate i mu _).H p = _
      rw [mgsUpdate_H]
      exact hcellH p
    · show (mgsUpdate i mu _).v p = _
      rw [mgsUpdate_v]
      simp only []
      rw [hf2.1, hf2.2.1, hf2.2.2.1]
      show (if ¬ (r.excluded = true ∨ r.n = 0) ∧ p / r.n < mu then
          (mgsLocal i mu (M r)).v p - (if i * mu ≤ i * mu + p / r.n
              ∧ i * mu + p / r.n < i * mu + mu then
              ((ws.map M).map (fun r' => (mgsLocal i mu r').H (i * mu + p / r.n))).sum
            else (mgsLocal i mu (M r)).H (i * mu + p / r.n))
            * r.B ((i * mu + p / r.n) * r.n + (p - p / r.n * r.n))
        else (mgsLocal i mu (M r)).v p) = _
      rw [mgsLocal_v, hv]
      by_cases hq : ¬ (r.excluded = true ∨ r.n = 0) ∧ p / r.n < mu
      · simp only [if_pos hq]
        rw [if_pos (show i * mu ≤ i * mu + p / r.n ∧ i * mu + p / r.n < i * mu + mu from
            ⟨Nat.le_add_right _ _, Nat.add_lt_add_left hq.2 _⟩), hsum _ hq.2,
          Finset.sum_range_succ]
        ring
      · simp only [if_neg hq]

theorem cgsUpdate_H (k mu : Nat) (r : OrthRank R) : (cgsUpdate k mu r).H = r.H := by
  unfold cgsUpdate; split <;> rfl

/-- The memory of a process after the classical variant. -/
theorem cgs_rank (k mu : Nat) (ws : List (OrthRank R)) (r : OrthRank R) :
    (∀ p, (cgsUpdate k mu { cgsLocal k mu (if r.excluded = true ∨ r.n = 0 then
            { r with H := fill_n r.H (k * mu) } else r) with
          H := fun p => if 0 ≤ p ∧ p < 0 + k * mu then
              (ws.map (fun r' => (cgsLocal k mu (if r'.excluded = true ∨ r'.n = 0 then
                { r' with H := fill_n r'.H (k * mu) } else r')).H p)).sum
            else (cgsLocal k mu (if r.excluded = true ∨ r.n = 0 then
                { r with H := fill_n r.H (k * mu) } else r)).H p }).H p
        = if p < k * mu then innerBv ws mu (p / mu) (p % mu)
          else (if r.excluded = true ∨ r.n = 0 then fill_n r.H (k * mu) p else r.H p))
    ∧ (∀ p, (cgsUpdate k mu { cgsLocal k mu (if r.excluded = true ∨ r.n = 0 then
            { r with H := fill_n r.H (k * mu) } else r) with
          H := fun p => if 0 ≤ p ∧ p < 0 + k * mu then
              (ws.map (fun r' => (cgsLocal k mu (if r'.excluded = true ∨ r'.n = 0 then
                { r' with H := fill_n r'.H (k * mu) } else r')).H p)).sum
            else (cgsLocal k mu (if r.excluded = true ∨ r.n = 0 then
                { r with H := fill_n r.H (k * mu) } else r)).H p }).v p
        = if ¬ (r.excluded = true ∨ r.n = 0) ∧ p / r.n < mu then
            r.v p - ∑ l in range k, innerBv ws mu l (p / r.n)
              * r.B ((l * mu + p / r.n) * r.n + (p - p / r.n * r.n))
          else r.v p) := by
  have hcellH : ∀ p, (if 0 ≤ p ∧ p < 0 + k * mu then
        (ws.map (fun r' => (cgsLocal k mu (if r'.excluded = true ∨ r'.n = 0 then
          { r' with H := fill_n r'.H (k * mu) } else r')).H p)).sum
      else (cgsLocal k mu (if r.excluded = true ∨ r.n = 0 then
          { r with H := fill_n r.H (k * mu) } else r)).H p)
      = if p < k * mu then innerBv ws mu (p / mu) (p % mu)
        else (if r.excluded = true ∨ r.n = 0 then fill_n r.H (k * mu) p else r.H p) := by
    intro p
    by_cases hp : p < k * mu
    · rw [if_pos ⟨Nat.zero_le _, by omega⟩, if_pos hp]
      have hmu : 0 < mu := by
        rcases Nat.eq_zero_or_pos mu with h | h
        · rw [h] at hp; simp at hp
        · exact h
      have hi : p / mu < k := Nat.div_lt_of_lt_mul (by rw [Nat.mul_comm]; exact hp)
      have hnu : p % mu < mu := Nat.mod_lt _ hmu
      have e : p = p % mu + p / mu * mu := by
        have := Nat.mod_add_div p mu
        rw [Nat.mul_comm] at this
        exact this.symm
      unfold innerBv
      congr 1
      apply List.map_congr_left
      intro r' _
      conv_lhs => rw [e]
      exact cgsLocal_H k mu r' hi hnu
    · rw [if_neg (fun h => hp (by omega)), if_neg hp, cgsLocal_H_other k mu _ (by omega)]
      by_cases hr : r.excluded = true ∨ r.n = 0
      · rw [if_pos hr, if_pos hr]
      · rw [if_neg hr, if_neg hr]
  have hf : SameFrame ({ cgsLocal k mu (if r.excluded = true ∨ r.n = 0 then
        { r with H := fill_n r.H (k * mu) } else r) with
      H := fun p => if 0 ≤ p ∧ p < 0 + k * mu then
          (ws.map (fun r' => (cgsLocal k mu (if r'.excluded = true ∨ r'.n = 0 then
            { r' with H := fill_n r'.H (k * mu) } else r')).H p)).sum
        else (cgsLocal k mu (if r.excluded = true ∨ r.n = 0 then
            { r with H := fill_n r.H (k * mu) } else r)).H p } : OrthRank R) r := by
    have h1 := sameFrame_cgsLocal k mu (if r.excluded = true ∨ r.n = 0 then
      { r with H := fill_n r.H (k * mu) } else r)
    have h2 := sameFrame_init k mu r
    exact ⟨h1.1.trans h2.1, h1.2.1.trans h2.2.1, h1.2.2.1.trans h2.2.2.1,
      h1.2.2.2.trans h2.2.2.2⟩
  constructor
  · intro p
    rw [cgsUpdate_H]
    exact hcellH p
  · intro p
    rw [cgsUpdate_v]
    simp only []
    rw [hf.1, hf.2.1, hf.2.2.1, cgsLocal_v, init_v]
    by_cases hq : ¬ (r.excluded = true ∨ r.n = 0) ∧ p / r.n < mu
    · simp only [if_pos hq]
      congr 1
      apply Finset.sum_congr rfl
      intro l hl
      have hl' := Finset.mem_range.1 hl
      have hpos : p / r.n + l * mu < k * mu := by
        have := succ_mul_le mu hl'
        have := hq.2
        omega
      rw [hcellH, if_pos hpos, (lead_decode hq.2).1, (lead_decode hq.2).2]
    · simp only [if_neg hq]

/-- C27 (classical and modified Gram-Schmidt agree in exact arithmetic).  For every `k` and
`mu` and every basis whose first `k` columns are orthonormal for the configured inner
product (for each right-hand side, summed over the processes), `orthogonalization` with
mode 0 and with mode 1 leave, on every process, the same vectors `v` and the same
coefficient array `H`. -/
theorem orthogonalization_modes_agree (k mu : Nat) (ws : List (OrthRank R))
    (horth : ∀ nu, nu < mu → ∀ a, a < k → ∀ b, b < k →
      gramB ws mu a b nu = if a = b then 1 else 0) :
    List.Forall₂ (fun c m => c.v = m.v ∧ c.H = m.H)
      (orthogonalization 0 k mu ws) (orthogonalization 1 k mu ws) := by
  obtain ⟨M, hM, hP⟩ := mgs_ranks k mu ws horth k (le_refl k)
  unfold orthogonalization
  simp only []
  rw [if_pos trivial, if_neg (show ¬ ((0 : Int) = 1) by decide), hM, List.map_map,
    allreduceH_eq_map, List.map_map,
    List.forall₂_map_left_iff, List.forall₂_map_right_iff, List.forall₂_same]
  intro r _
  obtain ⟨-, hH, hv⟩ := hP r
  obtain ⟨cH, cv⟩ := cgs_rank k mu ws r
  constructor
  · funext p
    exact (cv p).trans (hv p).symm
  · funext p
    exact (cH p).trans (hH p).symm

/-- Witness of C27: a process with two unknowns holding the basis columns `(1, 0)` and
`(0, 1)` and the vector `(3, 4)`, and an excluded process; Euclidean inner product. -/
theorem orthogonalization_modes_agree_witness :
    List.Forall₂ (fun c m => c.v = m.v ∧ c.H = m.H)
      (orthogonalization 0 2 1
        ([⟨false, 2, fun p => if p = 0 ∨ p = 3 then 1 else 0, fun p => 3 + p, fun _ => 7, none,
            fun _ => 0⟩,
          ⟨true, 0, fun _ => 0, fun _ => 0, fun _ => 7, none, fun _ => 0⟩] :
          List (OrthRank ℚ)))
      (orthogonalization 1 2 1
        ([⟨false, 2, fun p => if p = 0 ∨ p = 3 then 1 else 0, fun p => 3 + p, fun _ => 7, none,
            fun _ => 0⟩,
          ⟨true, 0, fun _ => 0, fun _ => 0, fun _ => 7, none, fun _ => 0⟩] :
          List (OrthRank ℚ))) :=
  orthogonalization_modes_agree 2 1
    ([⟨false, 2, fun p => if p = 0 ∨ p = 3 then 1 else 0, fun p => 3 + p, fun _ => 7, none,
        fun _ => 0⟩,
      ⟨true, 0, fun _ => 0, fun _ => 0, fun _ => 7, none, fun _ => 0⟩] : List (OrthRank ℚ))
    (by
      intro nu hnu a ha b hb
      have hnu0 : nu = 0 := by omega
      subst hnu0
      have ha' : a = 0 ∨ a = 1 := by omega
      have hb' : b = 0 ∨ b = 1 := by omega
      rcases ha' with rfl | rfl <;> rcases hb' with rfl | rfl <;>
        simp [gramB, OrthRank.inner, OrthRank.weight, Finset.sum_range_succ])

end OrthAgreeClaims

end HPDDM
